import Mathlib

/-!
# RawSpeed X3F container parser: a shallow embedding

The definitions below follow `librawspeed/parsers/X3fParser.cpp`.  Bytes and
machine integers are natural numbers; `uint32` arithmetic that can wrap is
reduced modulo `2 ^ 32` explicitly.  C++ exceptions are the two error kinds of
`Err`; a computation keeps the state it had reached when it throws, as the
C++ objects do.
-/

namespace rawspeed

/-- The two exception classes that occur in the parser: `X3fParserException`
(thrown by `ThrowXPE`) and `IOException` (thrown by the byte stream). -/
inductive Err
  | XPE
  | IOE
deriving DecidableEq, Repr

deriving instance DecidableEq for Except

/-- A computation over a mutable state `σ` that either returns a value or
throws; the state reached is kept in both cases. -/
def M (σ α : Type) : Type := σ → Except Err α × σ

instance (σ : Type) : Monad (M σ) where
  pure a := fun s => (Except.ok a, s)
  bind m f := fun s =>
    match m s with
    | (Except.ok a, s1) => f a s1
    | (Except.error e, s1) => (Except.error e, s1)

/-- The statement `ThrowXPE(...)`. -/
def ThrowXPE {σ α : Type} : M σ α := fun s => (Except.error Err.XPE, s)

/-- The handler `catch (IOException& e) { ThrowXPE(...); }` around a block. -/
def catchIOE {σ α : Type} (m : M σ α) : M σ α := fun s =>
  match m s with
  | (Except.error Err.IOE, s1) => (Except.error Err.XPE, s1)
  | r => r

/-! ## The byte stream -/

/-- Modelled from the spec: the class `ByteStream` (io/ByteStream.h, with its
base `Buffer`) is the spec's Cursor over a SourceBuffer.  `data` is the
borrowed byte region, `pos` the read position.  `log` is a trace of the
offsets that were dereferenced, oldest first; it is not part of the C++
object and only records which bytes were looked at. -/
structure ByteStream where
  data : List Nat
  pos : Nat
  log : List Nat
deriving DecidableEq, Repr

namespace ByteStream

/-- Modelled from the spec: a default-constructed stream over no data. -/
def empty : ByteStream := { data := [], pos := 0, log := [] }

/-- Modelled from the spec: `ByteStream(file, offset, size, little)`, a cursor
at `offset` over the first `offset + size` bytes of `file`. -/
def ofBuffer (file : List Nat) (offset size : Nat) : ByteStream :=
  { data := file.take (offset + size), pos := offset, log := [] }

/-- Modelled from the spec: the byte stored at an offset (a value below 256). -/
def byteAt (data : List Nat) (i : Nat) : Nat := data.getD i 0 % 256

/-- Modelled from the spec: the little-endian `u32` stored at an offset. -/
def u32At (data : List Nat) (i : Nat) : Nat :=
  byteAt data i + 256 * byteAt data (i + 1) + 65536 * byteAt data (i + 2)
    + 16777216 * byteAt data (i + 3)

/-- Modelled from the spec: `getPosition()`. -/
def getPosition : M ByteStream Nat := fun s => (Except.ok s.pos, s)

/-- Modelled from the spec: `setPosition(newPos)` (the spec's `seek`); a seek
beyond the validated length is OutOfBounds. -/
def setPosition (newPos : Nat) : M ByteStream Unit := fun s =>
  if newPos > s.data.length then (Except.error Err.IOE, { s with pos := newPos })
  else (Except.ok (), { s with pos := newPos })

/-- Modelled from the spec: `getRemainSize()` (the spec's `remaining`). -/
def getRemainSize : M ByteStream Nat := fun s => (Except.ok (s.data.length - s.pos), s)

/-- Modelled from the spec: `skipBytes(n)` (the spec's `skip`). -/
def skipBytes (nbytes : Nat) : M ByteStream Unit := fun s =>
  if s.pos + nbytes > s.data.length then (Except.error Err.IOE, s)
  else (Except.ok (), { s with pos := s.pos + nbytes })

/-- Modelled from the spec: `getByte()` (the spec's `read_u8`); "every read
validates `position + size <= validated_length` first; on violation it fails
with OutOfBounds (never performs the read)". -/
def getByte : M ByteStream Nat := fun s =>
  if s.pos + 1 > s.data.length then (Except.error Err.IOE, s)
  else (Except.ok (byteAt s.data s.pos), { s with pos := s.pos + 1, log := s.log ++ [s.pos] })

/-- Modelled from the spec: `getU32()` on a little-endian stream (the spec's
`read_u32`). -/
def getU32 : M ByteStream Nat := fun s =>
  if s.pos + 4 > s.data.length then (Except.error Err.IOE, s)
  else (Except.ok (u32At s.data s.pos),
    { s with pos := s.pos + 4, log := s.log ++ [s.pos, s.pos + 1, s.pos + 2, s.pos + 3] })

/-- Modelled from the spec: `Buffer::isValid(offset, count)`: the range
`[offset, offset + count)` lies inside the buffer, computed without
wrap-around. -/
def isValid (offset count : Nat) : M ByteStream Bool := fun s =>
  (Except.ok (decide (offset + count ≤ s.data.length)), s)

/-- Modelled from the spec: `getData(count)` (the spec's `slice`): validates
the range at the current position, advances past it and hands out the offset
at which the borrowed sub-view starts. -/
def getData (count : Nat) : M ByteStream Nat := fun s =>
  if s.pos + count > s.data.length then (Except.error Err.IOE, s)
  else (Except.ok s.pos, { s with pos := s.pos + count })

end ByteStream

open ByteStream

/-- Run a computation on the first component of a pair state; the callee
receives the stream by pointer and the rest of the state is out of its reach. -/
def onFst {σ τ α : Type} (m : M σ α) : M (σ × τ) α := fun st =>
  match m st.1 with
  | (r, s1) => (r, (s1, st.2))

/-- Apply a pure update to the second component of a pair state. -/
def modifySnd {σ τ : Type} (f : τ → τ) : M (σ × τ) Unit := fun st =>
  (Except.ok (), (st.1, f st.2))

/-- Arithmetic on `uint32`: subtraction with wrap-around, of two values below
`2 ^ 32`. -/
def sub32 (a b : Nat) : Nat := if b ≤ a then a - b else a + 2 ^ 32 - b

/-- Arithmetic on `uint32`: addition with wrap-around. -/
def add32 (a b : Nat) : Nat := (a + b) % 2 ^ 32

/-- Arithmetic on `uint32`: multiplication with wrap-around. -/
def mul32 (a b : Nat) : Nat := (a * b) % 2 ^ 32

/-- A `std::string` built from a NUL-terminated `char` array: the bytes before
the first zero byte. -/
def cstr (bs : List Nat) : List Nat := bs.takeWhile (fun b => b ≠ 0)

/-- The string literal "SECd". -/
def SECd : List Nat := [0x53, 0x45, 0x43, 0x64]
/-- The string literal "SECi". -/
def SECi : List Nat := [0x53, 0x45, 0x43, 0x69]
/-- The string literal "SECp". -/
def SECp : List Nat := [0x53, 0x45, 0x43, 0x70]
/-- The string literal "IMA2". -/
def IMA2 : List Nat := [0x49, 0x4D, 0x41, 0x32]
/-- The string literal "IMAG". -/
def IMAG : List Nat := [0x49, 0x4D, 0x41, 0x47]
/-- The string literal "PROP". -/
def PROP : List Nat := [0x50, 0x52, 0x4F, 0x50]

/-! ## `X3fParser::X3fParser` -/

/-- The body of the `try` block of the constructor (lines 49-60). -/
def X3fParser.readHeader : M ByteStream Unit := do
  -- Read signature
  let sig ← getU32
  if sig ≠ 0x62564f46 then ThrowXPE else
  let version ← getU32
  if version < 0x00020000 then ThrowXPE else
  -- Skip identifier + mark bits
  skipBytes (16 + 4)
  setPosition 0

/-- The constructor `X3fParser::X3fParser(const Buffer* file)`.  The state
returned is the member `bytes`, which is default-constructed until line 46
assigns it; `mInput` is `file` throughout. -/
def X3fParser.ctor (file : List Nat) : Except Err Unit × ByteStream :=
  let size := file.length
  if size < 104 + 128 then (Except.error Err.XPE, ByteStream.empty) else
  catchIOE X3fParser.readHeader (ByteStream.ofBuffer file 0 size)

/-- The function `getIdAsString`: four bytes followed by a terminating zero,
read back as a C string. -/
def getIdAsString : M ByteStream (List Nat) := do
  let b0 ← getByte
  let b1 ← getByte
  let b2 ← getByte
  let b3 ← getByte
  pure (cstr [b0, b1, b2, b3, 0])

/-! ## Directory entries and image sections -/

/-- The class `X3fDirectory`. -/
structure X3fDirectory where
  offset : Nat
  length : Nat
  id : List Nat
  sectionID : List Nat
deriving DecidableEq, Repr

/-- The constructor `X3fDirectory::X3fDirectory(ByteStream* bytes)`. -/
def X3fDirectory.ctor : M ByteStream X3fDirectory := do
  let offset ← getU32
  let length ← getU32
  let id ← getIdAsString
  let old_pos ← getPosition
  setPosition offset
  let sectionID ← getIdAsString
  setPosition old_pos
  pure { offset := offset, length := length, id := id, sectionID := sectionID }

/-- The class `X3fImage`; every member is a `uint32`. -/
structure X3fImage where
  type : Nat
  format : Nat
  width : Nat
  height : Nat
  pitchB : Nat
  dataOffset : Nat
  dataSize : Nat
deriving DecidableEq, Repr

/-- The constructor `X3fImage::X3fImage(ByteStream* bytes, uint32 offset,
uint32 length)`. -/
def X3fImage.ctor (offset length : Nat) : M ByteStream X3fImage := do
  setPosition offset
  let id ← getIdAsString
  if id ≠ SECi then ThrowXPE else
  let version ← getU32
  if version < 0x00020000 then ThrowXPE else
  let type ← getU32
  let format ← getU32
  let width ← getU32
  let height ← getU32
  let pitchB ← getU32
  let dataOffset ← getPosition
  let dataSize := sub32 length (sub32 dataOffset offset)
  pure { type := type, format := format, width := width, height := height,
         pitchB := if pitchB = dataSize then 0 else pitchB,
         dataOffset := dataOffset, dataSize := dataSize }

/-! ## `ConvertUTF16toUTF8` -/

/-- The table `firstByteMark`. -/
def firstByteMark : List Nat := [0x00, 0x00, 0xC0, 0xE0, 0xF0, 0xF8, 0xFC]

/-- The choice of `bytesToWrite` (lines 238-248), with the value of `ch` after
it: a value of `0x110000` or more becomes `UNI_REPLACEMENT_CHAR` in 3 bytes. -/
def bytesToWrite (ch : Nat) : Nat × Nat :=
  if ch < 0x80 then (1, ch)
  else if ch < 0x800 then (2, ch)
  else if ch < 0x10000 then (3, ch)
  else if ch < 0x110000 then (4, ch)
  else (3, 0x0000FFFD)

/-- The loop of lines 258-262: `k` trailing bytes are stored from the last one
backwards, `acc` being the bytes already stored behind; returns what is left
of `ch` and the bytes. -/
def trailBytes : Nat → Nat → List Nat → Nat × List Nat
  | 0, ch, acc => (ch, acc)
  | k + 1, ch, acc => trailBytes k (ch >>> 6) ((((ch ||| 0x80) &&& 0xBF) % 256) :: acc)

/-- Lines 257-265: the `n` bytes stored for `ch`, in target order. -/
def putChar (n ch : Nat) : List Nat :=
  ((trailBytes (n - 1) ch []).1 ||| firstByteMark.getD n 0) % 256 :: (trailBytes (n - 1) ch []).2

/-- Lines 237-265 for one value `ch`, `out` being the bytes stored so far:
`none` is the target overflow (`success = false; break`), otherwise the
bytes of `ch` are stored behind `out`. -/
def emit (room : Nat) (out : List Nat) (ch : Nat) : Option (List Nat) :=
  if out.length + (bytesToWrite ch).1 > room then none
  else some (out ++ putChar (bytesToWrite ch).1 (bytesToWrite ch).2)

/-- The function `ConvertUTF16toUTF8` on the source units `[source,
sourceEnd)` with `room = targetEnd - *targetStart` bytes of target; `out` is
what has been stored so far.  Returns `success` and the bytes stored.  The
code point of a surrogate pair (lines 221-222) is computed in `UTF32`, an
unsigned 32-bit type, with `halfBase` written as the first addend. -/
def ConvertUTF16toUTF8.loop (room : Nat) : List Nat → List Nat → Bool × List Nat
  | [], out => (true, out)
  | [ch], out =>
    if 0xD800 ≤ ch ∧ ch ≤ 0xDBFF then
      -- We don't have the 16 bits following the high surrogate.
      (false, out)
    else
      match emit room out ch with
      | none => (false, out)
      | some out1 => (true, out1)
  | ch :: ch2 :: rest, out =>
    if 0xD800 ≤ ch ∧ ch ≤ 0xDBFF then
      if 0xDC00 ≤ ch2 ∧ ch2 ≤ 0xDFFF then
        match emit room out (0x0010000 + ((sub32 ch 0xD800 <<< 10) + sub32 ch2 0xDC00)) with
        | none => (false, out)
        | some out1 => ConvertUTF16toUTF8.loop room rest out1
      else
        match emit room out ch with
        | none => (false, out)
        | some out1 => ConvertUTF16toUTF8.loop room (ch2 :: rest) out1
    else
      match emit room out ch with
      | none => (false, out)
      | some out1 => ConvertUTF16toUTF8.loop room (ch2 :: rest) out1

/-- The function `ConvertUTF16toUTF8`, called with an empty target. -/
def ConvertUTF16toUTF8 (source : List Nat) (room : Nat) : Bool × List Nat :=
  ConvertUTF16toUTF8.loop room source []

/-! ## Property sections -/

/-- The `UTF16` unit number `k` of the array that starts at byte offset
`start` (the host is little-endian). -/
def u16At (data : List Nat) (start k : Nat) : Nat :=
  byteAt data (start + 2 * k) + 256 * byteAt data (start + 2 * k + 1)

/-- The loop of lines 279-283, run for at most `fuel` rounds; `src_end` is
kept as an index into `start`, so `start == src_end` reads `src_end = 0`.
A run from `i = 0` needs at most `max_len` rounds. -/
def getString.scan (unit : Nat → Nat) (max_len : Nat) : Nat → Nat → Nat → Nat × Nat
  | 0, i, src_end => (i, src_end)
  | fuel + 1, i, src_end =>
    if i < max_len ∧ src_end = 0 then
      getString.scan unit max_len fuel (i + 1) (if unit i = 0 then i else src_end)
    else (i, src_end)

/-- The function `X3fPropertyCollection::getString`. -/
def getString : M ByteStream (List Nat) := do
  let remain ← getRemainSize
  let max_len := remain / 2
  let start ← getData (max_len * 2)
  fun s =>
    let unit := u16At s.data start
    let r := getString.scan unit max_len max_len 0 0
    let i := r.1
    let src_end := r.2
    let s1 := { s with log := s.log ++ List.range' start (2 * i) }
    if src_end ≠ 0 then
      let c := ConvertUTF16toUTF8 ((List.range src_end).map unit) (sub32 (mul32 i 4) 1)
      if c.1 then (Except.ok (cstr c.2), s1) else (Except.ok [], s1)
    else (Except.ok [], s1)

/-- The member `props` of `X3fPropertyCollection`, a `std::map<string,
string>`, as an association list with one pair per key. -/
abbrev Props : Type := List (List Nat × List Nat)

/-- The assignment `props[key] = val`. -/
def Props.set (props : Props) (key val : List Nat) : Props :=
  if props.any (fun kv => kv.1 = key) then
    props.map (fun kv => if kv.1 = key then (key, val) else kv)
  else props ++ [(key, val)]

/-- The body of the loop of lines 325-340 in `addProperties`. -/
def addProperties.entry (data_start : Nat) : M (ByteStream × Props) Unit := do
  let key_pos ← onFst getU32
  let value_pos ← onFst getU32
  let old_pos ← onFst getPosition
  let key_ok ← onFst (isValid (add32 (mul32 key_pos 2) data_start) 2)
  let value_ok ← onFst (isValid (add32 (mul32 value_pos 2) data_start) 2)
  if key_ok && value_ok then do
    onFst (setPosition (add32 (mul32 key_pos 2) data_start))
    let key ← onFst getString
    onFst (setPosition (add32 (mul32 value_pos 2) data_start))
    let val ← onFst getString
    modifySnd (fun props => Props.set props key val)
    onFst (setPosition old_pos)
  else
    onFst (setPosition old_pos)

/-- The loop of lines 325-340, `n` rounds. -/
def addProperties.loop (data_start : Nat) : Nat → M (ByteStream × Props) Unit
  | 0 => pure ()
  | n + 1 => do
    addProperties.entry data_start
    addProperties.loop data_start n

/-- The function `X3fPropertyCollection::addProperties`; the state is the
stream and the member `props`. -/
def addProperties (offset _length : Nat) : M (ByteStream × Props) Unit := do
  onFst (setPosition offset)
  let id ← onFst getIdAsString
  if id ≠ SECp then ThrowXPE else
  let version ← onFst getU32
  if version < 0x00020000 then ThrowXPE else
  let entries ← onFst getU32
  if entries = 0 then pure () else
  let enc ← onFst getU32
  if 0 ≠ enc then ThrowXPE else
  -- Skip 4 reserved bytes
  onFst (skipBytes 4)
  -- Skip size (not used ATM)
  onFst (skipBytes 4)
  if entries > 1000 then ThrowXPE else
  let pos ← onFst getPosition
  let data_start := add32 pos (mul32 entries 8)
  addProperties.loop data_start entries

/-! ## `X3fParser::readDirectory` and `X3fParser::getDecoder` -/

/-- The members of `X3fDecoder` that `readDirectory` fills. -/
structure X3fDecoder where
  mDirectory : List X3fDirectory
  mImages : List X3fImage
  mProperties : Props
deriving DecidableEq, Repr

/-- A freshly made decoder. -/
def X3fDecoder.new : X3fDecoder := { mDirectory := [], mImages := [], mProperties := [] }

/-- Run a member function of `decoder->mProperties` from `readDirectory`. -/
def onProps {α : Type} (m : M (ByteStream × Props) α) : M (ByteStream × X3fDecoder) α :=
  fun st =>
    match m (st.1, st.2.mProperties) with
    | (r, s1) => (r, (s1.1, { st.2 with mProperties := s1.2 }))

/-- Lines 92-94 of `readDirectory`: an entry tagged "IMA2" or "IMAG" adds an
image built from its offset and length. -/
def readDirectory.image (dir : X3fDirectory) : M (ByteStream × X3fDecoder) Unit :=
  if IMA2 = dir.id ∨ IMAG = dir.id then do
    let img ← onFst (X3fImage.ctor dir.offset dir.length)
    modifySnd (fun d => { d with mImages := d.mImages ++ [img] })
  else pure ()

/-- Lines 95-97 of `readDirectory`: an entry tagged "PROP" adds its
properties. -/
def readDirectory.props (dir : X3fDirectory) : M (ByteStream × X3fDecoder) Unit :=
  if PROP = dir.id then
    onProps (addProperties dir.offset dir.length)
  else pure ()

/-- The body of the loop of lines 88-99 in `readDirectory`. -/
def readDirectory.entry : M (ByteStream × X3fDecoder) Unit := do
  let dir ← onFst X3fDirectory.ctor
  modifySnd (fun d => { d with mDirectory := d.mDirectory ++ [dir] })
  let old_pos ← onFst getPosition
  readDirectory.image dir
  readDirectory.props dir
  onFst (setPosition old_pos)

/-- The loop of lines 88-99, `n` rounds. -/
def readDirectory.loop : Nat → M (ByteStream × X3fDecoder) Unit
  | 0 => pure ()
  | n + 1 => do
    readDirectory.entry
    readDirectory.loop n

/-- The function `X3fParser::readDirectory`; `size` is `mInput->getSize()` and
the state is the member `bytes` with the decoder passed in. -/
def readDirectory (size : Nat) : M (ByteStream × X3fDecoder) Unit := do
  onFst (setPosition (sub32 size 4))
  let dir_off ← onFst getU32
  onFst (setPosition dir_off)
  -- Check signature
  let id ← onFst getIdAsString
  if SECd ≠ id then ThrowXPE else
  let version ← onFst getU32
  if version < 0x00020000 then ThrowXPE else
  let n_entries ← onFst getU32
  readDirectory.loop n_entries

/-- The function `X3fParser::getDecoder`: a new decoder is made, filled by
`readDirectory` and returned; an `IOException` becomes an
`X3fParserException`. -/
def getDecoder (size : Nat) : M ByteStream X3fDecoder :=
  catchIOE (fun bytes =>
    match readDirectory size (bytes, X3fDecoder.new) with
    | (Except.ok _, st) => (Except.ok st.2, st.1)
    | (Except.error e, st) => (Except.error e, st.1))

/-! ## Reading the file layout directly -/

/-- The four bytes stored at an offset. -/
def idAt (data : List Nat) (p : Nat) : List Nat :=
  [byteAt data p, byteAt data (p + 1), byteAt data (p + 2), byteAt data (p + 3)]

/-- The directory entry stored at byte offset `p`: offset, length and tag as
laid out in the file, and the section identifier found where the entry
points. -/
def dirEntryAt (data : List Nat) (p : Nat) : X3fDirectory :=
  { offset := u32At data p
    length := u32At data (p + 4)
    id := cstr (idAt data (p + 8) ++ [0])
    sectionID := cstr (idAt data (u32At data p) ++ [0]) }

/-- The `n` directory entries of twelve bytes each that start at byte offset
`p`, in file order. -/
def dirEntries (data : List Nat) : Nat → Nat → List X3fDirectory
  | _, 0 => []
  | p, n + 1 => dirEntryAt data p :: dirEntries data (p + 12) n

/-- The entries that `readDirectory` turns into images. -/
def isImageEntry (d : X3fDirectory) : Bool := decide (d.id = IMAG ∨ d.id = IMA2)

/-- The entries whose properties `readDirectory` adds. -/
def isPropEntry (d : X3fDirectory) : Bool := decide (d.id = PROP)

/-- The image that `X3fImage::X3fImage` builds for an entry of the buffer
`data`, whatever the position of the stream it is handed. -/
def ImageOf (data : List Nat) (d : X3fDirectory) (img : X3fImage) : Prop :=
  ∀ b0 : ByteStream, b0.data = data →
    (X3fImage.ctor d.offset d.length b0).1 = Except.ok img

/-- The map `props` after `addProperties` has run, in order, on the sections
of the entries `ds` of the buffer `data`. -/
def propsAfter (data : List Nat) (props : Props) (ds : List X3fDirectory) : Props :=
  ds.foldl (fun p d =>
    (addProperties d.offset d.length ({ data := data, pos := 0, log := [] }, p)).2.2) props

/-- The byte offset of the directory: the little-endian u32 in the last four
bytes of the file. -/
def dirOffset (data : List Nat) : Nat := u32At data (data.length - 4)

/-- The entries of the directory of a file, in file order. -/
def directoryOf (data : List Nat) : List X3fDirectory :=
  dirEntries data (dirOffset data + 12) (u32At data (dirOffset data + 8))

/-- What a run of entries `ds` of the buffer `data` adds to a decoder: the
entries themselves, one image per image entry, and the properties of the
property entries. -/
def Collected (data : List Nat) (ds : List X3fDirectory) (dec0 dec : X3fDecoder) : Prop :=
  dec.mDirectory = dec0.mDirectory ++ ds ∧
  (∃ imgs, dec.mImages = dec0.mImages ++ imgs ∧
    List.Forall₂ (ImageOf data) (ds.filter isImageEntry) imgs) ∧
  dec.mProperties = propsAfter data dec0.mProperties (ds.filter isPropEntry)

/-! ## UTF-16 and UTF-8 as the standard defines them -/

/-- The code points of a UTF-16 code-unit sequence in which every surrogate is
paired, a pair `(hi, lo)` standing for
`0x10000 + ((hi - 0xD800) << 10) + (lo - 0xDC00)`; `none` when some surrogate
is unpaired. -/
def utf16CodePoints : List Nat → Option (List Nat)
  | [] => some []
  | [u] => if 0xD800 ≤ u ∧ u ≤ 0xDFFF then none else some [u]
  | u :: v :: rest =>
    if 0xD800 ≤ u ∧ u ≤ 0xDBFF then
      if 0xDC00 ≤ v ∧ v ≤ 0xDFFF then
        (utf16CodePoints rest).map
          (fun cps => (0x10000 + ((u - 0xD800) <<< 10) + (v - 0xDC00)) :: cps)
      else none
    else if 0xDC00 ≤ u ∧ u ≤ 0xDFFF then none
    else (utf16CodePoints (v :: rest)).map (fun cps => u :: cps)

/-- The standard UTF-8 encoding of a code point below `0x110000`. -/
def utf8Encode (cp : Nat) : List Nat :=
  if cp < 0x80 then [cp]
  else if cp < 0x800 then [0xC0 + cp / 64, 0x80 + cp % 64]
  else if cp < 0x10000 then [0xE0 + cp / 4096, 0x80 + cp / 64 % 64, 0x80 + cp % 64]
  else [0xF0 + cp / 262144, 0x80 + cp / 4096 % 64, 0x80 + cp / 64 % 64, 0x80 + cp % 64]

/-- The last unit of a sequence is a high surrogate. -/
def endsWithHighSurrogate (source : List Nat) : Prop :=
  ∃ u, source.getLast? = some u ∧ 0xD800 ≤ u ∧ u ≤ 0xDBFF

/-! ## Sample inputs -/

/-- A 232-byte file with a valid header and nothing else: its last four bytes
point at offset 0, where there is no directory. -/
def sampleNoDirectory : List Nat :=
  [0x46, 0x4f, 0x56, 0x62, 0, 0, 2, 0] ++ List.replicate 224 0

/-- A property section with no entries and encoding id 1. -/
def samplePropsNoEntries : List Nat :=
  SECp ++ [0, 0, 2, 0] ++ [0, 0, 0, 0] ++ [1, 0, 0, 0]

/-- A property section with one entry: the key is at text offset 0 ("A"), the
value at text offset 200, far outside the 36 bytes. -/
def samplePropsBadOffset : List Nat :=
  SECp ++ [0, 0, 2, 0] ++ [1, 0, 0, 0] ++ [0, 0, 0, 0] ++ [0, 0, 0, 0] ++ [0, 0, 0, 0]
    ++ [0, 0, 0, 0] ++ [200, 0, 0, 0] ++ [0x41, 0, 0, 0]

/-- The first twelve bytes of a property section that declares 1001 entries. -/
def samplePropsTooMany : List Nat :=
  SECp ++ [0, 0, 2, 0] ++ [0xE9, 3, 0, 0]

/-- The property section of `sampleDirectory`: one entry, key "A", value "B". -/
def samplePropsGood : List Nat :=
  SECp ++ [0, 0, 2, 0] ++ [1, 0, 0, 0] ++ [0, 0, 0, 0] ++ [0, 0, 0, 0] ++ [0, 0, 0, 0]
    ++ [0, 0, 0, 0, 2, 0, 0, 0] ++ [0x41, 0, 0, 0, 0x42, 0, 0, 0]

/-- A 244-byte file: header, an image section at 40, a property section at 72,
a section "XXXX" at 112, and at 192 a directory of three entries whose trailer
pointer closes the file.  The image entry declares length 0 and the "XXXX"
entry declares length `0xFFFFFFFF`. -/
def sampleDirectory : List Nat :=
  [0x46, 0x4f, 0x56, 0x62, 2, 0, 2, 0] ++ List.replicate 32 0
    ++ (SECi ++ [0, 0, 2, 0] ++ [2, 0, 0, 0] ++ [3, 0, 0, 0] ++ [1, 0, 0, 0] ++ [1, 0, 0, 0]
      ++ [4, 0, 0, 0] ++ [9, 9, 9, 9])
    ++ samplePropsGood
    ++ [88, 88, 88, 88]
    ++ List.replicate 76 0
    ++ (SECd ++ [0, 0, 2, 0] ++ [3, 0, 0, 0]
      ++ ([40, 0, 0, 0] ++ [0, 0, 0, 0] ++ IMAG)
      ++ ([72, 0, 0, 0] ++ [40, 0, 0, 0] ++ PROP)
      ++ ([112, 0, 0, 0] ++ [255, 255, 255, 255] ++ [88, 88, 88, 88]))
    ++ [192, 0, 0, 0]

/-- A stream of `2 * n` bytes `0x41` followed by two zero bytes, the cursor at
the start: `n` units `0x4141` and then a zero unit. -/
def sampleLongString (n : Nat) : ByteStream :=
  { data := List.replicate (2 * n) 0x41 ++ [0, 0], pos := 0, log := [] }

/-! ## Streams that differ only in the trace -/

/-- Two streams over the same data at the same position; their traces may
differ. -/
def Sim (b b1 : ByteStream) : Prop := b.data = b1.data ∧ b.pos = b1.pos

/-- The same for a stream paired with further state, which has to agree. -/
def Sim2 {τ : Type} (s s1 : ByteStream × τ) : Prop := Sim s.1 s1.1 ∧ s.2 = s1.2

/-- The data of the stream of a pair state. -/
def dat2 {τ : Type} (s : ByteStream × τ) : List Nat := s.1.data

/-- A computation is stable when related states give the same outcome and
related final states, and the data is never changed. -/
structure Stable {σ α : Type} (sim : σ → σ → Prop) (dat : σ → List Nat) (m : M σ α) : Prop where
  res : ∀ s s1, sim s s1 → (m s).1 = (m s1).1
  st : ∀ s s1, sim s s1 → sim (m s).2 (m s1).2
  data : ∀ s, dat (m s).2 = dat s

/-! ## `Rw2Decoder::PanaBitpump` -/

/-- The constant `PanaBitpump::BufSize`. -/
def BufSize : Nat := 0x4000

/-- The struct `Rw2Decoder::PanaBitpump`.  The vector `buf`, of `BufSize + 1`
bytes, is kept as the map from an index to the byte stored there. -/
structure PanaBitpump where
  input : ByteStream
  buf : Nat → Nat
  vbits : Nat
  load_flags : Nat

/-- The current state of a computation. -/
def getState {σ : Type} : M σ σ := fun s => (Except.ok s, s)

/-- A pure update of the state. -/
def modifyState {σ : Type} (f : σ → σ) : M σ Unit := fun s => (Except.ok (), f s)

/-- The loop `for (k = lo; k < lo + n; k++) body(k)`. -/
def forRange {σ : Type} (body : Nat → M σ Unit) : Nat → Nat → M σ Unit
  | _, 0 => pure ()
  | lo, n + 1 => do
    body lo
    forRange body (lo + 1) n

/-- The value of `(a - b) & 0x1ffff` for the `int` values `a ≥ 0` and
`b ≥ 0`. -/
def sub17 (a b : Nat) : Nat :=
  if b ≤ a then (a - b) % 0x20000 else (0x20000 - (b - a) % 0x20000) % 0x20000

namespace PanaBitpump

/-- The constructor: `buf.resize(BufSize + 1UL)` leaves every byte zero,
`vbits` starts at 0. -/
def new (input : ByteStream) (load_flags : Nat) : PanaBitpump :=
  { input := input, buf := fun _ => 0, vbits := 0, load_flags := load_flags }

/-- An operation of the member `input`. -/
def onInput {α : Type} (m : M ByteStream α) : M PanaBitpump α := fun p =>
  match m p.input with
  | (r, s1) => (r, { p with input := s1 })

/-- The call `memcpy(buf.data() + dst, src, size)`, `src` being a position in
the data of `input`. -/
def memcpy (dst src size : Nat) : M PanaBitpump Unit := fun p =>
  (Except.ok (), { p with buf := fun j =>
    if dst ≤ j ∧ j < dst + size then byteAt p.input.data (src + (j - dst)) else p.buf j })

/-- The body of `if (!vbits)` in `getBits` (lines 89-99); `BufSize -
load_flags` is computed in `uint32`. -/
def refill : M PanaBitpump Unit := do
  let p ← getState
  let remain ← onInput getRemainSize
  let size := min remain (sub32 BufSize p.load_flags)
  let src ← onInput (getData size)
  memcpy p.load_flags src size
  let remain ← onInput getRemainSize
  let size := min remain p.load_flags
  if size ≠ 0 then do
    let src ← onInput (getData size)
    memcpy 0 src size
  else pure ()

/-- The value that `getBits` returns (lines 102-103) once `vbits` is
updated; `~(-(1 << nbits))` is the mask `(1 << nbits) - 1`. -/
def field (buf : Nat → Nat) (vbits nbits : Nat) : Nat :=
  ((buf ((vbits >>> 3) ^^^ 0x3ff0) ||| (buf (((vbits >>> 3) ^^^ 0x3ff0) + 1) <<< 8)) >>>
    (vbits &&& 7)) &&& ((1 <<< nbits) - 1)

/-- The function `PanaBitpump::getBits`. -/
def getBits (nbits : Nat) : M PanaBitpump Nat := do
  let p ← getState
  if p.vbits = 0 then refill else pure ()
  fun p =>
    (Except.ok (field p.buf (sub17 p.vbits nbits) nbits),
      { p with vbits := sub17 p.vbits nbits })

/-- The number of bytes that a refill takes from the input. -/
def refillSize (p : PanaBitpump) : Nat :=
  min (p.input.data.length - p.input.pos) (sub32 BufSize p.load_flags) +
    min (p.input.data.length - p.input.pos -
      min (p.input.data.length - p.input.pos) (sub32 BufSize p.load_flags)) p.load_flags

/-- The state that a refill leaves when the cursor of `input` is inside the
data: the first `BufSize - load_flags` bytes that remain are stored from
`load_flags` on, the next `load_flags` bytes from 0 on. -/
def refilled (p : PanaBitpump) : PanaBitpump :=
  { p with
    input := { p.input with pos := p.input.pos + refillSize p }
    buf := fun j =>
      if j < min (p.input.data.length - p.input.pos -
          min (p.input.data.length - p.input.pos) (sub32 BufSize p.load_flags)) p.load_flags then
        byteAt p.input.data (p.input.pos +
          min (p.input.data.length - p.input.pos) (sub32 BufSize p.load_flags) + j)
      else if p.load_flags ≤ j ∧ j < p.load_flags +
          min (p.input.data.length - p.input.pos) (sub32 BufSize p.load_flags) then
        byteAt p.input.data (p.input.pos + (j - p.load_flags))
      else p.buf j }

/-- The function `PanaBitpump::skipBytes`, `bytes` being the 32-bit pattern
of the `int` argument: the division by the `uint32` constant `BufSize` is
unsigned, and `i` runs from `blocks` to `bytes`, two `int` values of the same
sign that are `bytes % BufSize` apart. -/
def skipBytes (bytes : Nat) : M PanaBitpump Unit := do
  let blocks := mul32 (bytes / BufSize) BufSize
  onInput (ByteStream.skipBytes blocks)
  forRange (fun _ => do let _ ← getBits 8; pure ()) blocks (bytes - blocks)

end PanaBitpump

/-! ## `Rw2Decoder::decodeThreaded` -/

/-- The locals of `decodeThreaded` and the image it writes: `dest` is the
column of the current row that the pointer `dest` is at, `plane` gives the
sample at a row and column of `mRaw`, and `writes` lists the coordinates
stored to so far, in order. -/
structure Rw2State where
  bits : PanaBitpump
  sh : Nat
  pred : Nat → Int
  nonz : Nat → Nat
  u : Int
  dest : Nat
  zero_pos : List Nat
  plane : Nat → Nat → Nat
  writes : List (Nat × Nat)
  mBadPixelPositions : List Nat

/-- An operation of the local `bits`. -/
def onBits {α : Type} (m : M PanaBitpump α) : M Rw2State α := fun st =>
  match m st.bits with
  | (r, b1) => (r, { st with bits := b1 })

/-- Lines 205-208: `pred` after a non-zero `j` was read, from its value
before; `x & ~(-(1 << sh))` keeps the low `sh` bits of `x`, which for a
negative `x` in two's complement is the non-negative remainder. -/
def predUpdate (pred : Int) (sh j : Nat) : Int :=
  (if pred - ((0x80 <<< sh : Nat) : Int) < 0 ∨ sh = 4 then
      (pred - ((0x80 <<< sh : Nat) : Int)) % ((1 <<< sh : Nat) : Int)
    else pred - ((0x80 <<< sh : Nat) : Int)) + ((j <<< sh : Nat) : Int)

/-- Lines 199-202 of the loop over `c`: every third pixel reads the shift
`sh`. -/
def decodeThreaded.shift : M Rw2State Unit := do
  let st ← getState
  if st.u = 2 then do
    let g ← onBits (PanaBitpump.getBits 2)
    modifyState (fun s => { s with sh := 4 >>> (3 - g), u := -1 })
  else pure ()

/-- Lines 203-211 of the loop over `c`: the new value of `pred[c]` at pixel
`i` of the group. -/
def decodeThreaded.lane (i c : Nat) : M Rw2State Unit := do
  let st ← getState
  if st.nonz c ≠ 0 then do
    let j ← onBits (PanaBitpump.getBits 8)
    if j ≠ 0 then
      modifyState (fun s =>
        { s with pred := Function.update s.pred c (predUpdate (s.pred c) s.sh j) })
    else pure ()
  else do
    let nz ← onBits (PanaBitpump.getBits 8)
    modifyState (fun s => { s with nonz := Function.update s.nonz c nz })
    if nz ≠ 0 ∨ i > 11 then do
      let g ← onBits (PanaBitpump.getBits 4)
      modifyState (fun s =>
        { s with pred := Function.update s.pred c (((nz <<< 4 ||| g : Nat) : Int)) })
    else pure ()

/-- Lines 212-219 of the loop over `c`: the sample stored is `pred[c]` as a
`ushort16`, a zero `pred[c]` is recorded as `(y << 16) | (x * 14 + i)` in
`uint32`, and `u` and `dest` go one up (`i` is a parameter here). -/
def decodeThreaded.store (zero_is_bad : Bool) (y x i c : Nat) : M Rw2State Unit :=
  modifyState (fun s =>
    { s with
      plane := Function.update s.plane y
        (Function.update (s.plane y) s.dest ((s.pred c % 65536).toNat))
      writes := s.writes ++ [(y, s.dest)]
      zero_pos :=
        if zero_is_bad = true ∧ s.pred c = 0 then
          s.zero_pos ++ [(y <<< 16) % 2 ^ 32 ||| (x * 14 + i)]
        else s.zero_pos
      u := s.u + 1
      dest := s.dest + 1 })

/-- The body of the loop over `c` (lines 198-220) at row `y`, group `x`, pixel
`i` and lane `c`. -/
def decodeThreaded.pixel (zero_is_bad : Bool) (y x i c : Nat) : M Rw2State Unit := do
  decodeThreaded.shift
  decodeThreaded.lane i c
  decodeThreaded.store zero_is_bad y x i c

/-- The loop `for (i = 0; i < 14;)` (lines 197-221): each of its `n` rounds
runs the two lanes and leaves `i` two higher; seven rounds take `i` from 0
to 14. -/
def decodeThreaded.group (zero_is_bad : Bool) (y x : Nat) : Nat → Nat → M Rw2State Unit
  | 0, _ => pure ()
  | n + 1, i => do
    decodeThreaded.pixel zero_is_bad y x i 0
    decodeThreaded.pixel zero_is_bad y x (i + 1) 1
    decodeThreaded.group zero_is_bad y x n (i + 2)

/-- The body of the loop over `x` (lines 194-222): one group of 14 pixels. -/
def decodeThreaded.block (zero_is_bad : Bool) (y x : Nat) : M Rw2State Unit := do
  modifyState (fun s => { s with pred := fun _ => 0, nonz := fun _ => 0, u := 0 })
  decodeThreaded.group zero_is_bad y x 7 0

/-- The body of the loop over `y` (lines 191-223): one row. -/
def decodeThreaded.row (zero_is_bad : Bool) (w y : Nat) : M Rw2State Unit := do
  modifyState (fun s => { s with dest := 0 })
  forRange (decodeThreaded.block zero_is_bad y) 0 w

/-- The value of `skip` (lines 186-188) as a 32-bit pattern: the products
with the `uint32` value `start_y` are computed in `uint32`, and the division
by 8 of the `int` value rounds towards zero. -/
def decodeThreaded.skip (w start_y : Nat) : Nat :=
  let s := add32 (mul32 (mul32 (w * 14) start_y) 9) (mul32 (w * 2) start_y)
  if s < 2 ^ 31 then s / 8 else (2 ^ 32 - (2 ^ 32 - s) / 8) % 2 ^ 32

/-- The state in which the loops of `decodeThreaded` start: `input` is
`ByteStream(mFile, offset)`. -/
def decodeThreaded.init (input : ByteStream) (load_flags : Nat) (plane : Nat → Nat → Nat)
    (bad : List Nat) : Rw2State :=
  { bits := PanaBitpump.new input load_flags, sh := 0, pred := fun _ => 0, nonz := fun _ => 0,
    u := 0, dest := 0, zero_pos := [], plane := plane, writes := [],
    mBadPixelPositions := bad }

/-- The function `Rw2Decoder::decodeThreaded` on the rows `[start_y, end_y)`
of an image `dim_x` wide. -/
def decodeThreaded (input : ByteStream) (load_flags dim_x : Nat) (zero_is_bad : Bool)
    (start_y end_y : Nat) (plane : Nat → Nat → Nat) (bad : List Nat) :
    Except Err Unit × Rw2State :=
  (do
    onBits (PanaBitpump.skipBytes (decodeThreaded.skip (dim_x / 14) start_y))
    forRange (decodeThreaded.row zero_is_bad (dim_x / 14)) start_y (end_y - start_y)
    modifyState (fun s =>
      if zero_is_bad = true ∧ s.zero_pos ≠ [] then
        { s with mBadPixelPositions := s.mBadPixelPositions ++ s.zero_pos }
      else s)) (decodeThreaded.init input load_flags plane bad)

/-- The cache index that a refill stores the `k`-th remaining byte at. -/
def refillIndex (load_flags k : Nat) : Nat :=
  if k < BufSize - load_flags then load_flags + k else k - (BufSize - load_flags)

/-- A reader over sixteen bytes `0xFF` after `skipBytes(0x3fff)` and one more
`getBits(8)`: the whole first cache load is used up. -/
def sampleDrained : PanaBitpump :=
  ((PanaBitpump.skipBytes 0x3fff >>= fun _ => PanaBitpump.getBits 8)
    (PanaBitpump.new (ByteStream.ofBuffer (List.replicate 16 0xFF) 0 16) 0)).2

/-- A fresh reader over three bytes with `load_flags = 0x2008`. -/
def sampleFresh : PanaBitpump :=
  PanaBitpump.new (ByteStream.ofBuffer [1, 2, 3] 0 3) 0x2008

/-! ## What `decodeThreaded` keeps true -/

/-- The cursor of the reader's input is inside the data. -/
def PanaBitpump.Ok (p : PanaBitpump) : Prop := p.input.pos ≤ p.input.data.length

/-- The shift `sh` is 0, 1, 2 or 4. -/
def ShInv (st : Rw2State) : Prop := st.sh = 0 ∨ st.sh = 1 ∨ st.sh = 2 ∨ st.sh = 4

/-- The state of lane `c` after `m` of its pixels in the current group:
nothing non-zero was read yet, or `pred[c]` is in `0 .. 4095 + 508 * (m - 1)`. -/
def LaneInv (st : Rw2State) (c : Nat) (m : Int) : Prop :=
  (st.nonz c = 0 ∧ st.pred c = 0) ∨ (1 ≤ m ∧ 0 ≤ st.pred c ∧ st.pred c ≤ 4095 + 508 * (m - 1))

/-- The value recorded for a zero sample at row `c.1` and column `c.2`. -/
def zeroCode (c : Nat × Nat) : Nat := (c.1 <<< 16) % 2 ^ 32 ||| c.2

/-- The coordinates `(y, lo), ..., (y, lo + n - 1)`. -/
def rowCells (y lo n : Nat) : List (Nat × Nat) := (List.range' lo n).map (fun c => (y, c))

/-- The coordinates of the rows `start_y, ..., start_y + n - 1` and columns
`0, ..., cols - 1`, row by row. -/
def rectCells (cols : Nat) : Nat → Nat → List (Nat × Nat)
  | _, 0 => []
  | start_y, n + 1 => rowCells start_y 0 cols ++ rectCells cols (start_y + 1) n

/-- Between the states `st` and `st1` exactly the coordinates `cs` were
stored to, in this order; the samples elsewhere are as before, the zero
samples among `cs` were recorded in order when `zero_is_bad` is set, no stored
sample is above `bound`, and the list of the image is untouched. -/
def Wrote (zero_is_bad : Bool) (bound : Nat) (st st1 : Rw2State) (cs : List (Nat × Nat)) :
    Prop :=
  st1.writes = st.writes ++ cs ∧
    (∀ y x, (y, x) ∉ cs → st1.plane y x = st.plane y x) ∧
    st1.zero_pos = st.zero_pos ++
      (if zero_is_bad = true then
        (cs.filter (fun c => decide (st1.plane c.1 c.2 = 0))).map zeroCode else []) ∧
    (∀ c ∈ cs, st1.plane c.1 c.2 ≤ bound) ∧
    st1.mBadPixelPositions = st.mBadPixelPositions

/-- The states `st` and `st1` agree on the image, the stores and the
records. -/
def SameImage (st st1 : Rw2State) : Prop :=
  st1.plane = st.plane ∧ st1.writes = st.writes ∧ st1.zero_pos = st.zero_pos ∧
    st1.dest = st.dest ∧ st1.mBadPixelPositions = st.mBadPixelPositions

/-- An image in which every sample is 7. -/
def samplePlane : Nat → Nat → Nat := fun _ _ => 7

/-- Forty bytes of payload. -/
def samplePayload : ByteStream :=
  ByteStream.ofBuffer ((List.range 40).map (fun i => (i * 37 + 11) % 256)) 0 40

/-! ## `HasselbladDecompressor` -/

/-- Modelled from the spec: the bit reader `BitPumpMSB32`, which delivers the
bits most significant first: `bits` are the bits not yet delivered and `used`
counts the bits delivered so far. -/
structure BitPumpMSB32 where
  bits : List Bool
  used : Nat
  deriving DecidableEq, Repr

/-- Modelled from the spec: the unsigned integer that a sequence of bits
stands for, most significant bit first. -/
def bitsValue (bs : List Bool) : Nat :=
  bs.foldl (fun acc b => 2 * acc + (if b then 1 else 0)) 0

/-- Modelled from the spec: `getBits(n)` returns the next `n` bits as an
unsigned integer, zero bits standing in beyond the end of the data, and
advances by `n` bits. -/
def BitPumpMSB32.getBits (n : Nat) : M BitPumpMSB32 Nat := fun bs =>
  (Except.ok (bitsValue (bs.bits.take n ++ List.replicate (n - bs.bits.length) false)),
    { bits := bs.bits.drop n, used := bs.used + n })

/-- Modelled from the spec: the sign extension helper that "converts an
`n`-bit two's-complement field to a signed value". -/
def signExtendedSpec (diff len : Nat) : Int :=
  if diff < 2 ^ (len - 1) then (diff : Int) else (diff : Int) - 2 ^ len

/-- Another sign extension, that of JPEG difference coding: a field whose top
bit is clear stands for `diff - (2 ^ len - 1)`, any other field for itself. -/
def signExtendedJpeg (diff len : Nat) : Int :=
  if diff < 2 ^ (len - 1) then (diff : Int) - (2 ^ len - 1) else (diff : Int)

/-- The function `HasselbladDecompressor::getBits`; the helper
`HuffmanTable::signExtended` is a parameter. -/
def HasselbladDecompressor.getBits (signExtended : Nat → Nat → Int) (len : Nat) :
    M BitPumpMSB32 Int := do
  let diff ← BitPumpMSB32.getBits len
  let diff : Int := if len > 0 then signExtended diff len else (diff : Int)
  if diff = 65535 then pure (-32768) else pure diff

/-- The locals of `decodeScan` and the image it writes: `plane` gives the
sample at a row and column of `mRaw`, `writes` lists the coordinates stored
to so far, in order. -/
structure HasselbladState where
  bitStream : BitPumpMSB32
  input : ByteStream
  p1 : Int
  p2 : Int
  plane : Nat → Nat → Nat
  writes : List (Nat × Nat)

/-- An operation of the local `bitStream`. -/
def onStream {α : Type} (m : M BitPumpMSB32 α) : M HasselbladState α := fun st =>
  match m st.bitStream with
  | (r, b1) => (r, { st with bitStream := b1 })

/-- The body of the loop over `x` in `decodeScan` (lines 52-57) at row `y` and
column `x`; `huff[0]->decodeLength` is the parameter `decodeLength`, and a
sample is stored as a `ushort16`. -/
def decodeScan.pair (signExtended : Nat → Nat → Int) (decodeLength : M BitPumpMSB32 Nat)
    (y x : Nat) : M HasselbladState Unit := do
  let len1 ← onStream decodeLength
  let len2 ← onStream decodeLength
  let d1 ← onStream (HasselbladDecompressor.getBits signExtended len1)
  modifyState (fun s => { s with p1 := s.p1 + d1 })
  let d2 ← onStream (HasselbladDecompressor.getBits signExtended len2)
  modifyState (fun s => { s with p2 := s.p2 + d2 })
  modifyState (fun s =>
    { s with
      plane := Function.update s.plane y (Function.update (s.plane y) x ((s.p1 % 65536).toNat))
      writes := s.writes ++ [(y, x)] })
  modifyState (fun s =>
    { s with
      plane := Function.update s.plane y
        (Function.update (s.plane y) (x + 1) ((s.p2 % 65536).toNat))
      writes := s.writes ++ [(y, x + 1)] })

/-- The body of the loop over `y` in `decodeScan` (lines 48-58): the loop
`for (x = 0; x < frame.w; x += 2)` makes `(w + 1) / 2` rounds, round `k` at
`x = 2 * k`. -/
def decodeScan.row (signExtended : Nat → Nat → Int) (decodeLength : M BitPumpMSB32 Nat)
    (pixelBaseOffset : Int) (w y : Nat) : M HasselbladState Unit := do
  modifyState (fun s => { s with p1 := 0x8000 + pixelBaseOffset, p2 := 0x8000 + pixelBaseOffset })
  forRange (fun k => decodeScan.pair signExtended decodeLength y (2 * k)) 0 ((w + 1) / 2)

/-- The function `HasselbladDecompressor::decodeScan` for a frame `w` wide and
`h` high, from a state whose `bitStream` was constructed from `input`;
`bitStream.getBufferPosition()` is the parameter `getBufferPosition`. -/
def decodeScan (signExtended : Nat → Nat → Int) (decodeLength : M BitPumpMSB32 Nat)
    (getBufferPosition : BitPumpMSB32 → Nat) (pixelBaseOffset : Int) (w h : Nat) :
    M HasselbladState Unit := do
  forRange (decodeScan.row signExtended decodeLength pixelBaseOffset w) 0 h
  fun st =>
    match ByteStream.skipBytes (getBufferPosition st.bitStream) st.input with
    | (r, i1) => (r, { st with input := i1 })

/-! ## The two-pixel stream as the claim words it -/

/-- The differences of one pixel pair, read in the order length1, length2,
diff1, diff2. -/
def pairDiffs (signExtended : Nat → Nat → Int) (decodeLength : M BitPumpMSB32 Nat) :
    M BitPumpMSB32 (Int × Int) := do
  let len1 ← decodeLength
  let len2 ← decodeLength
  let d1 ← HasselbladDecompressor.getBits signExtended len1
  let d2 ← HasselbladDecompressor.getBits signExtended len2
  pure (d1, d2)

/-- The differences of `n` consecutive pixel pairs. -/
def rowDiffs (signExtended : Nat → Nat → Int) (decodeLength : M BitPumpMSB32 Nat) :
    Nat → M BitPumpMSB32 (List (Int × Int))
  | 0 => pure []
  | n + 1 => do
    let d ← pairDiffs signExtended decodeLength
    let ds ← rowDiffs signExtended decodeLength n
    pure (d :: ds)

/-- The differences of `h` consecutive rows of `n` pixel pairs each. -/
def scanDiffs (signExtended : Nat → Nat → Int) (decodeLength : M BitPumpMSB32 Nat) (n : Nat) :
    Nat → M BitPumpMSB32 (List (List (Int × Int)))
  | 0 => pure []
  | h + 1 => do
    let r ← rowDiffs signExtended decodeLength n
    let rs ← scanDiffs signExtended decodeLength n h
    pure (r :: rs)

/-- The sample `(0x8000 + pixelBaseOffset + sum of the differences of the pairs
0..k) mod 2^16`. -/
def sampleOf (pixelBaseOffset : Int) (diffs : List Int) (k : Nat) : Nat :=
  ((0x8000 + pixelBaseOffset + (diffs.take (k + 1)).sum) % 65536).toNat

/-- A `decodeLength` for the samples: the length is the next four bits. -/
def sampleDecodeLength : M BitPumpMSB32 Nat := BitPumpMSB32.getBits 4

/-- A reader over the bits of the bytes `0x23 0xD5 0x10 0x00`. -/
def sampleBitStream : BitPumpMSB32 :=
  { bits := [false, false, true, false, false, false, true, true,
      true, true, false, true, false, true, false, true,
      false, false, false, true, false, false, false, false,
      false, false, false, false, false, false, false, false], used := 0 }

/-- A state of `decodeScan` over the sample reader. -/
def sampleScanState : HasselbladState :=
  { bitStream := sampleBitStream, input := ByteStream.ofBuffer [0x23, 0xD5, 0x10, 0x00] 0 4,
    p1 := 0, p2 := 0, plane := fun _ _ => 7, writes := [] }

/-- A reader that has delivered nothing yet. -/
def streamOf (bits : List Bool) : BitPumpMSB32 := { bits := bits, used := 0 }

/-- The state after one pixel pair with the differences `d`, the reader being
left as `b1`. -/
def pairStored (st : HasselbladState) (b1 : BitPumpMSB32) (d : Int × Int) (y x : Nat) :
    HasselbladState :=
  { st with
    bitStream := b1
    p1 := st.p1 + d.1
    p2 := st.p2 + d.2
    plane := Function.update
      (Function.update st.plane y (Function.update (st.plane y) x (((st.p1 + d.1) % 65536).toNat)))
      y (Function.update
        (Function.update st.plane y
          (Function.update (st.plane y) x (((st.p1 + d.1) % 65536).toNat)) y)
        (x + 1) (((st.p2 + d.2) % 65536).toNat))
    writes := st.writes ++ [(y, x)] ++ [(y, x + 1)] }

/-- The `getBufferPosition` of the samples: the bytes that hold the bits
delivered. -/
def sampleBufferPosition (b : BitPumpMSB32) : Nat := (b.used + 7) / 8

/-! ## The reader after a number of bits -/

/-- The cache after a full refill at the `q`-th cache load of `input`. -/
def segBuf (input : ByteStream) (lf q : Nat) : Nat → Nat :=
  (PanaBitpump.refilled
    (PanaBitpump.new { input with pos := input.pos + BufSize * q } lf)).buf

/-- The state of a reader over `input` that has delivered `T` bits, every
refill having been a full one: the cursor is past the cache loads begun, the
bit position is what is left of the current one, and unless the current load
is used up the cache holds it. -/
def Track (input : ByteStream) (lf T : Nat) (p : PanaBitpump) : Prop :=
  p.input = { input with pos := input.pos + BufSize * ((T + 0x1ffff) / 0x20000) } ∧
    p.vbits = (0x20000 - T % 0x20000) % 0x20000 ∧ p.load_flags = lf ∧
    (T % 0x20000 ≠ 0 → ∀ j, p.buf j = segBuf input lf (T / 0x20000) j) ∧
    (∀ j, BufSize ≤ j → p.buf j = 0)

/-- The value of the `n` bits that follow the first `T` bits of `input`. -/
def trackedBits (input : ByteStream) (lf T n : Nat) : Nat :=
  PanaBitpump.field (segBuf input lf (T / 0x20000))
    ((0x20000 - (T + n) % 0x20000) % 0x20000) n

/-- The number of 4-bit reads (0 or 1) that lane `c` has made after `m` of its
pixels in the current group. -/
def laneRead (st : Rw2State) (c m : Nat) : Nat := if st.nonz c ≠ 0 ∨ m = 7 then 1 else 0

/-- Two runs before pixel `t` of a group, both having read `T` bits of the
same input: they agree on the predictors, on `u` and on `dest`, and on the
shift unless the group has not read it yet and no lane that could use it has
read a non-zero value. -/
def Lockstep (input : ByteStream) (lf T t : Nat) (st st1 : Rw2State) : Prop :=
  Track input lf T st.bits ∧ Track input lf T st1.bits ∧ st.pred = st1.pred ∧
    st.nonz = st1.nonz ∧ st.u = ((t % 3 : Nat) : Int) ∧ st1.u = ((t % 3 : Nat) : Int) ∧
    st.dest = st1.dest ∧
    (st.sh = st1.sh ∨ (t = 0 ∧ st.nonz 0 = 0 ∧ st.nonz 1 = 0) ∨ (t = 1 ∧ st.nonz 1 = 0) ∨
      t = 2)

/-- Two runs from `st` and `st1` to `s` and `s1` have stored the same samples
at the coordinates `cs` and nothing elsewhere. -/
def AgreeOn (cs : List (Nat × Nat)) (st s st1 s1 : Rw2State) : Prop :=
  (∀ c ∈ cs, s.plane c.1 c.2 = s1.plane c.1 c.2) ∧
    (∀ y x, (y, x) ∉ cs → s.plane y x = st.plane y x ∧ s1.plane y x = st1.plane y x)

/-- An image in which every sample is 65535. -/
def sampleWhite : Nat → Nat → Nat := fun _ _ => 65535

/-- A payload of one whole cache load of bytes `0x5A`. -/
def sampleFullPayload : ByteStream := { data := List.replicate 0x4000 0x5A, pos := 0, log := [] }

/-! ## `PixelsMap` -/

/-- The class `PixelsMap`: `w` is the line width in words of type `base_t`,
`h` the height and `pm` the array of `h * w` words. -/
structure PixelsMap where
  w : Nat
  h : Nat
  pm : List Nat
  deriving DecidableEq, Repr

namespace PixelsMap

/-- The constructor for `base_t_size = sizeof(unsigned long)`: the array has
`h * w` words, all zero.  The product `h * w` is an `int`; no map is built
when it does not fit. -/
def new (base_t_size width height : Nat) : Option PixelsMap :=
  if height * (width / (base_t_size * 8) + 1) < 2 ^ 31 then
    some { w := width / (base_t_size * 8) + 1, h := height,
           pm := List.replicate (height * (width / (base_t_size * 8) + 1)) 0 }
  else none

/-- The function `PixelsMap::get`; an index outside the array gives `none`.
The shift `(base_t)1 << (x % (base_t_size * 8))` stays below the word size. -/
def get (base_t_size : Nat) (m : PixelsMap) (x y : Nat) : Option Bool :=
  (m.pm[y * m.w + x / (base_t_size * 8)]?).map
    (fun word => decide (word &&& 1 <<< (x % (base_t_size * 8)) ≠ 0))

/-- The function `PixelsMap::set(int x, int y)`; an index outside the array
gives `none`. -/
def set (base_t_size : Nat) (m : PixelsMap) (x y : Nat) : Option PixelsMap :=
  (m.pm[y * m.w + x / (base_t_size * 8)]?).map
    (fun word =>
      { m with
        pm := List.set m.pm (y * m.w + x / (base_t_size * 8))
          (word ||| 1 <<< (x % (base_t_size * 8))) })

/-- The function `PixelsMap::clear`. -/
def clear (m : PixelsMap) : PixelsMap := { m with pm := List.replicate (m.h * m.w) 0 }

/-- The function `PixelsMap::skipIfZero`; an index outside the array gives
`none`. -/
def skipIfZero (base_t_size : Nat) (m : PixelsMap) (x y : Nat) : Option Nat :=
  (m.pm[y * m.w + x / (base_t_size * 8)]?).map
    (fun word => if word = 0 then base_t_size * 8 - x % (base_t_size * 8) else 0)

/-- A call on a map: `set(x, y)` or `clear()`. -/
inductive Op where
  | set (x y : Nat)
  | clear
  deriving DecidableEq, Repr

/-- One call. -/
def step (base_t_size : Nat) (m : PixelsMap) : Op → Option PixelsMap
  | Op.set x y => m.set base_t_size x y
  | Op.clear => some m.clear

/-- A sequence of calls, in order. -/
def run (base_t_size : Nat) : List Op → PixelsMap → Option PixelsMap
  | [], m => some m
  | op :: ops, m => (step base_t_size m op).bind (run base_t_size ops)

/-- The coordinates set since the last `clear()`, after one more call. -/
def record (S : List (Nat × Nat)) : Op → List (Nat × Nat)
  | Op.set x y => S ++ [(x, y)]
  | Op.clear => []

/-- The coordinates that a sequence of calls has set since its last
`clear()`, or since the start if it has none. -/
def pending (ops : List Op) : List (Nat × Nat) := ops.foldl record []

/-- A call `set(x, y)` has `0 ≤ x ≤ width` and `0 ≤ y < height`. -/
def Op.valid (width height : Nat) : Op → Bool
  | Op.set x y => decide (x ≤ width ∧ y < height)
  | Op.clear => true

/-- The map `m` of a `width` by `height` image holds exactly the coordinates
`S`: every word is below the word size, and the bit of `(x, y)` is set exactly
when `(x, y)` is in `S`. -/
def Rep (base_t_size width height : Nat) (m : PixelsMap) (S : List (Nat × Nat)) : Prop :=
  m.w = width / (base_t_size * 8) + 1 ∧ m.h = height ∧ m.pm.length = height * m.w ∧
    (∀ i, m.pm.getD i 0 < 2 ^ (base_t_size * 8)) ∧
    ∀ x y, x / (base_t_size * 8) < m.w → y < height →
      (m.pm.getD (y * m.w + x / (base_t_size * 8)) 0).testBit (x % (base_t_size * 8)) =
        decide ((x, y) ∈ S)

end PixelsMap

/-- A 100 by 3 map with words of 64 bits after `set(5, 1)`, `clear()`,
`set(100, 2)` and `set(64, 0)`. -/
def sampleOps : List PixelsMap.Op :=
  [PixelsMap.Op.set 5 1, PixelsMap.Op.clear, PixelsMap.Op.set 100 2, PixelsMap.Op.set 64 0]

/-- A fresh 100 by 3 map with words of 64 bits. -/
def sampleMap : PixelsMap := { w := 2, h := 3, pm := List.replicate 6 0 }

/-! ## `RawImage` -/

/-- The members of `RawImage` that `set_prefilters` reads and writes:
`filters` and `prefilters` are `unsigned`, `colors` is an `int`. -/
structure RawImage where
  filters : Nat
  prefilters : Nat
  colors : Int
  deriving DecidableEq, Repr

namespace RawImage

/-- The function `RawImage::FC` for the value `filters` of the member: the
shift `row << 1` is computed in `unsigned`. -/
def FC (filters row col : Nat) : Nat :=
  (filters >>> ((((row <<< 1) % 2 ^ 32 &&& 14) + (col &&& 1)) <<< 1)) &&& 3

/-- The function `RawImage::isBayer`. -/
def isBayer (r : RawImage) : Bool := decide (r.filters ≠ 0 ∧ r.filters ≠ 9)

/-- The value `filters & ~((filters & 0x55555555) << 1)` in `unsigned`; the
complement of a 32-bit value is its exclusive or with `0xFFFFFFFF`. -/
def threeColors (filters : Nat) : Nat :=
  filters &&& (0xFFFFFFFF ^^^ ((filters &&& 0x55555555) <<< 1) % 2 ^ 32)

/-- The function `RawImage::set_prefilters`. -/
def set_prefilters (r : RawImage) : RawImage :=
  if r.isBayer = true ∧ r.colors = 3 then
    { r with prefilters := r.filters, filters := threeColors r.filters }
  else r

/-- The value `(filters << 4) | (filters >> 28)` in `unsigned` (line 758 of
`loadRaw`). -/
def rotateFilters (filters : Nat) : Nat := (filters <<< 4) % 2 ^ 32 ||| filters >>> 28

/-- Lines 756-759 of `loadRaw`: the new `filters` of a Bayer image whose raw
crop has the top margin `tm`; `(top_margin - tm) & 1` is non-zero exactly for
an odd difference. -/
def loadRaw.cropFilters (filters top_margin : Nat) (tm : Int) : Nat :=
  if ((top_margin : Int) - tm) % 2 ≠ 0 then rotateFilters filters else filters

end RawImage

/-- The 2-bit colour code number `k` of a `filters` value. -/
def colorCode (filters k : Nat) : Nat := filters / 4 ^ k % 4

/-- An image with the pattern `0x94949494` and three colours. -/
def sampleRaw : RawImage := { filters := 0x94949494, prefilters := 0, colors := 3 }

/-- A 32-bit pattern with all four colour codes. -/
def sampleFilters : Nat := 0xe1e4e1e4

/-- The value of `(int)e` for an `unsigned` value `e`. -/
def toInt32 (e : Nat) : Int := if e < 2 ^ 31 then (e : Int) else (e : Int) - 4294967296

/-- Lines 198-203 of `get_colorsCoeff` for a Bayer image `W` wide and `H`
high: the array `dsum` after the four additions, every entry being zero before.
The products are computed in `unsigned`; the entries are whole numbers far
below `2 ^ 53`, which a `double` holds exactly. -/
def get_colorsCoeff.counts (filters W H : Nat) : Nat → Int :=
  let dsum : Nat → Int := fun _ => 0
  let dsum := Function.update dsum (RawImage.FC filters 0 0 + 4)
    (dsum (RawImage.FC filters 0 0 + 4) + toInt32 (mul32 (add32 W 1 / 2) (add32 H 1 / 2)))
  let dsum := Function.update dsum (RawImage.FC filters 0 1 + 4)
    (dsum (RawImage.FC filters 0 1 + 4) + toInt32 (mul32 (W / 2) (add32 H 1 / 2)))
  let dsum := Function.update dsum (RawImage.FC filters 1 0 + 4)
    (dsum (RawImage.FC filters 1 0 + 4) + toInt32 (mul32 (add32 W 1 / 2) (H / 2)))
  let dsum := Function.update dsum (RawImage.FC filters 1 1 + 4)
    (dsum (RawImage.FC filters 1 1 + 4) + toInt32 (mul32 (W / 2) (H / 2)))
  dsum

/-- The number of pixels `(row, col)` with `row < H`, `col < W` and
`FC(row, col) = c`. -/
def colorPixels (filters W H c : Nat) : Nat :=
  ((List.range H).map (fun row =>
    ((List.range W).filter (fun col => decide (RawImage.FC filters row col = c))).length)).sum

/-- A call on a reader: `getBits(nbits)` or `skipBytes(bytes)`. -/
inductive PanaBitpump.Op where
  | getBits (nbits : Nat)
  | skipBytes (bytes : Nat)
  deriving DecidableEq, Repr

/-- One call, its result dropped. -/
def PanaBitpump.step : PanaBitpump.Op → M PanaBitpump Unit
  | PanaBitpump.Op.getBits nbits => do
    let _ ← PanaBitpump.getBits nbits
    pure ()
  | PanaBitpump.Op.skipBytes bytes => PanaBitpump.skipBytes bytes

/-- The reader after a sequence of calls, in order; a call that throws leaves
the reader as it is at the throw. -/
def PanaBitpump.after : List PanaBitpump.Op → PanaBitpump → PanaBitpump
  | [], p => p
  | op :: ops, p => PanaBitpump.after ops (PanaBitpump.step op p).2

/-- What every reachable reader satisfies: the bit position is a 17-bit
value, the cursor is inside the data and `load_flags` is as constructed. -/
def PanaBitpump.Inv (lf : Nat) (p : PanaBitpump) : Prop :=
  p.vbits < 0x20000 ∧ p.Ok ∧ p.load_flags = lf

/-- The calls `skipBytes(3)`, `getBits(8)`, `getBits(0)`, `getBits(40)`. -/
def sampleCalls : List PanaBitpump.Op :=
  [PanaBitpump.Op.skipBytes 3, PanaBitpump.Op.getBits 8, PanaBitpump.Op.getBits 0,
    PanaBitpump.Op.getBits 40]

/-- A state before the first pixel of a group, over forty bytes of payload. -/
def sampleGroupStart : Rw2State := decodeThreaded.init samplePayload 0 samplePlane []

/-! ## The 128 bits of a group -/

/-- The cache that the next read of a reader uses: a read at the bit position
0 refills first. -/
def PanaBitpump.cache (p : PanaBitpump) : Nat → Nat :=
  if p.vbits = 0 then (PanaBitpump.refilled p).buf else p.buf

/-- The bit position that the next read of a reader counts down from:
`0x20000` when it refills first. -/
def PanaBitpump.top (p : PanaBitpump) : Nat := if p.vbits = 0 then 0x20000 else p.vbits

/-- The index of the first of the 16 cache bytes that hold the 128 bits below
the bit position `V`. -/
def groupBase (V : Nat) : Nat := ((V - 128) >>> 3) ^^^ 0x3ff0

/-- Two readers that have both used `k` of the 128 bits below the bit position
`V`: their cursors are inside the data, and unless all 128 bits are used the
16 cache bytes that hold them are the same for both. -/
def Window (V k : Nat) (p p1 : PanaBitpump) : Prop :=
  p.Ok ∧ p1.Ok ∧ p.vbits = (V - k) % 0x20000 ∧ p1.vbits = (V - k) % 0x20000 ∧
    (k < 128 → ∀ r, r < 16 → p.cache (groupBase V + r) = p1.cache (groupBase V + r))

/-- Two runs before pixel `t` of a group, both having used `k` of the 128 bits
below `V`: they agree on the predictors, on `u` and on `dest`, and on the
shift unless the group has not read it yet and no lane that could use it has
read a non-zero value. -/
def Lockwin (V k t : Nat) (st st1 : Rw2State) : Prop :=
  Window V k st.bits st1.bits ∧ st.pred = st1.pred ∧
    st.nonz = st1.nonz ∧ st.u = ((t % 3 : Nat) : Int) ∧ st1.u = ((t % 3 : Nat) : Int) ∧
    st.dest = st1.dest ∧
    (st.sh = st1.sh ∨ (t = 0 ∧ st.nonz 0 = 0 ∧ st.nonz 1 = 0) ∨ (t = 1 ∧ st.nonz 1 = 0) ∨
      t = 2)

set_option maxRecDepth 100000

/-! ## Basic facts about the computation type -/

theorem M.bind_apply {σ α β : Type} (m : M σ α) (f : α → M σ β) (s : σ) :
    (m >>= f) s = match m s with
      | (Except.ok a, s1) => f a s1
      | (Except.error e, s1) => (Except.error e, s1) := rfl

theorem M.pure_apply {σ α : Type} (a : α) (s : σ) :
    (pure a : M σ α) s = (Except.ok a, s) := rfl

theorem M.ite_apply {σ α : Type} (c : Prop) [Decidable c] (a b : M σ α) (s : σ) :
    (if c then a else b) s = if c then a s else b s := by
  split <;> rfl

/-! ## Stability of the parser functions -/

section
variable {σ α β : Type} {sim : σ → σ → Prop} {dat : σ → List Nat}

theorem stable_bind {m : M σ α} {f : α → M σ β} (hm : Stable sim dat m)
    (hf : ∀ a, Stable sim dat (f a)) : Stable sim dat (m >>= f) := by
  constructor
  · intro s s1 h
    have e1 := hm.res s s1 h
    have e2 := hm.st s s1 h
    simp only [M.bind_apply]
    rcases hms : m s with ⟨r, t⟩
    rcases hms1 : m s1 with ⟨r1, t1⟩
    rw [hms, hms1] at e1 e2
    simp only at e1 e2
    subst e1
    cases r with
    | ok a => exact (hf a).res t t1 e2
    | error e => rfl
  · intro s s1 h
    have e1 := hm.res s s1 h
    have e2 := hm.st s s1 h
    simp only [M.bind_apply]
    rcases hms : m s with ⟨r, t⟩
    rcases hms1 : m s1 with ⟨r1, t1⟩
    rw [hms, hms1] at e1 e2
    simp only at e1 e2
    subst e1
    cases r with
    | ok a => exact (hf a).st t t1 e2
    | error e => exact e2
  · intro s
    have e1 := hm.data s
    simp only [M.bind_apply]
    rcases hms : m s with ⟨r, t⟩
    rw [hms] at e1
    simp only at e1
    cases r with
    | ok a => rw [← e1]; exact (hf a).data t
    | error e => exact e1

theorem stable_pure (a : α) : Stable sim dat (pure a : M σ α) :=
  ⟨fun _ _ _ => rfl, fun _ _ h => h, fun _ => rfl⟩

theorem stable_throwXPE : Stable sim dat (ThrowXPE : M σ α) :=
  ⟨fun _ _ _ => rfl, fun _ _ h => h, fun _ => rfl⟩

theorem stable_ite (c : Prop) [Decidable c] {a b : M σ α} (ha : Stable sim dat a)
    (hb : Stable sim dat b) : Stable sim dat (if c then a else b) := by
  split
  · exact ha
  · exact hb

end

theorem stable_onFst {τ α : Type} {m : M ByteStream α} (hm : Stable Sim ByteStream.data m) :
    Stable (Sim2 : ByteStream × τ → ByteStream × τ → Prop) dat2 (onFst m) := by
  constructor
  · intro s s1 h
    exact hm.res s.1 s1.1 h.1
  · intro s s1 h
    exact ⟨hm.st s.1 s1.1 h.1, h.2⟩
  · intro s
    exact hm.data s.1

theorem stable_modifySnd {τ : Type} (f : τ → τ) :
    Stable (Sim2 : ByteStream × τ → ByteStream × τ → Prop) dat2 (modifySnd f) := by
  constructor
  · intro s s1 _
    rfl
  · intro s s1 h
    exact ⟨h.1, congrArg f h.2⟩
  · intro s
    rfl

theorem stable_onProps {α : Type} {m : M (ByteStream × Props) α} (hm : Stable Sim2 dat2 m) :
    Stable (Sim2 : ByteStream × X3fDecoder → ByteStream × X3fDecoder → Prop) dat2 (onProps m) := by
  constructor
  · intro s s1 h
    exact hm.res (s.1, s.2.mProperties) (s1.1, s1.2.mProperties) ⟨h.1, by rw [h.2]⟩
  · intro s s1 h
    have e := hm.st (s.1, s.2.mProperties) (s1.1, s1.2.mProperties) ⟨h.1, by rw [h.2]⟩
    refine ⟨e.1, ?_⟩
    have e2 := e.2
    simp only [rawspeed.onProps, h.2] at e2 ⊢
    rw [e2]
  · intro s
    exact hm.data (s.1, s.2.mProperties)

theorem stable_getU32 : Stable Sim ByteStream.data getU32 := by
  constructor
  · intro s s1 h
    simp only [ByteStream.getU32, h.1, h.2]
    split_ifs <;> simp [h.1, h.2]
  · intro s s1 h
    simp only [ByteStream.getU32, h.1, h.2]
    split_ifs <;> simp [Sim, h.1, h.2]
  · intro s
    simp only [ByteStream.getU32]
    split_ifs <;> simp

theorem stable_getByte : Stable Sim ByteStream.data getByte := by
  constructor
  · intro s s1 h
    simp only [ByteStream.getByte, h.1, h.2]
    split_ifs <;> simp [h.1, h.2]
  · intro s s1 h
    simp only [ByteStream.getByte, h.1, h.2]
    split_ifs <;> simp [Sim, h.1, h.2]
  · intro s
    simp only [ByteStream.getByte]
    split_ifs <;> simp

theorem stable_skipBytes (n : Nat) : Stable Sim ByteStream.data (skipBytes n) := by
  constructor
  · intro s s1 h
    simp only [ByteStream.skipBytes, h.1, h.2]
    split_ifs <;> simp
  · intro s s1 h
    simp only [ByteStream.skipBytes, h.1, h.2]
    split_ifs <;> simp [Sim, h.1, h.2]
  · intro s
    simp only [ByteStream.skipBytes]
    split_ifs <;> simp

theorem stable_setPosition (p : Nat) : Stable Sim ByteStream.data (setPosition p) := by
  constructor
  · intro s s1 h
    simp only [ByteStream.setPosition, h.1]
    split_ifs <;> simp
  · intro s s1 h
    simp only [ByteStream.setPosition, h.1]
    split_ifs <;> simp [Sim, h.1]
  · intro s
    simp only [ByteStream.setPosition]
    split_ifs <;> simp

theorem stable_getPosition : Stable Sim ByteStream.data getPosition :=
  ⟨fun _ _ h => by simp [ByteStream.getPosition, h.2], fun _ _ h => h, fun _ => rfl⟩

theorem stable_getRemainSize : Stable Sim ByteStream.data getRemainSize :=
  ⟨fun _ _ h => by simp [ByteStream.getRemainSize, h.1, h.2], fun _ _ h => h, fun _ => rfl⟩

theorem stable_getData (n : Nat) : Stable Sim ByteStream.data (getData n) := by
  constructor
  · intro s s1 h
    simp only [ByteStream.getData, h.1, h.2]
    split_ifs <;> simp
  · intro s s1 h
    simp only [ByteStream.getData, h.1, h.2]
    split_ifs <;> simp [Sim, h.1, h.2]
  · intro s
    simp only [ByteStream.getData]
    split_ifs <;> simp

theorem stable_getIdAsString : Stable Sim ByteStream.data getIdAsString := by
  unfold rawspeed.getIdAsString
  exact stable_bind stable_getByte fun _ => stable_bind stable_getByte fun _ =>
    stable_bind stable_getByte fun _ => stable_bind stable_getByte fun _ => stable_pure _

theorem stable_X3fDirectory_ctor : Stable Sim ByteStream.data X3fDirectory.ctor := by
  unfold X3fDirectory.ctor
  exact stable_bind stable_getU32 fun _ => stable_bind stable_getU32 fun _ =>
    stable_bind stable_getIdAsString fun _ => stable_bind stable_getPosition fun _ =>
    stable_bind (stable_setPosition _) fun _ => stable_bind stable_getIdAsString fun _ =>
    stable_bind (stable_setPosition _) fun _ => stable_pure _

theorem stable_X3fImage_ctor (o l : Nat) : Stable Sim ByteStream.data (X3fImage.ctor o l) := by
  unfold X3fImage.ctor
  refine stable_bind (stable_setPosition _) fun _ => stable_bind stable_getIdAsString fun _ =>
    stable_ite _ stable_throwXPE (stable_bind stable_getU32 fun _ =>
      stable_ite _ stable_throwXPE (stable_bind stable_getU32 fun _ =>
        stable_bind stable_getU32 fun _ => stable_bind stable_getU32 fun _ =>
        stable_bind stable_getU32 fun _ => stable_bind stable_getU32 fun _ =>
        stable_bind stable_getPosition fun _ => stable_pure _))

theorem stable_getString : Stable Sim ByteStream.data getString := by
  unfold rawspeed.getString
  refine stable_bind stable_getRemainSize fun _ => stable_bind (stable_getData _) fun _ => ?_
  constructor
  · intro s s1 h
    simp only [h.1]
    split_ifs <;> simp
  · intro s s1 h
    simp only [h.1]
    split_ifs <;> simp [Sim, h.1, h.2]
  · intro s
    simp only
    split_ifs <;> simp

theorem stable_catchIOE {σ α : Type} {sim : σ → σ → Prop} {dat : σ → List Nat} {m : M σ α}
    (hm : Stable sim dat m) : Stable sim dat (catchIOE m) := by
  constructor
  · intro s s1 h
    have e := hm.res s s1 h
    unfold catchIOE
    rcases h1 : m s with ⟨r, t⟩
    rcases h2 : m s1 with ⟨r1, t1⟩
    rw [h1, h2] at e
    simp only at e
    subst e
    cases r with
    | ok a => rfl
    | error e => cases e <;> rfl
  · intro s s1 h
    have e := hm.st s s1 h
    unfold catchIOE
    rcases h1 : m s with ⟨r, t⟩
    rcases h2 : m s1 with ⟨r1, t1⟩
    rw [h1, h2] at e
    simp only at e
    cases r with
    | ok a => cases r1 with
      | ok a1 => exact e
      | error e1 => cases e1 <;> exact e
    | error e0 => cases e0 <;> cases r1 with
      | ok a1 => exact e
      | error e1 => cases e1 <;> exact e
  · intro s
    have e := hm.data s
    unfold catchIOE
    rcases h1 : m s with ⟨r, t⟩
    rw [h1] at e
    cases r with
    | ok a => exact e
    | error e0 => cases e0 <;> exact e

theorem stable_readHeader_catch :
    Stable Sim ByteStream.data (catchIOE X3fParser.readHeader) := by
  refine stable_catchIOE ?_
  unfold X3fParser.readHeader
  exact stable_bind stable_getU32 fun _ => stable_ite _ stable_throwXPE
    (stable_bind stable_getU32 fun _ => stable_ite _ stable_throwXPE
      (stable_bind (stable_skipBytes _) fun _ => stable_setPosition _))

/-! ## Running the stream primitives -/

theorem getU32_ok (b : ByteStream) (h : b.pos + 4 ≤ b.data.length) :
    getU32 b = (Except.ok (u32At b.data b.pos),
      { b with pos := b.pos + 4, log := b.log ++ [b.pos, b.pos + 1, b.pos + 2, b.pos + 3] }) := by
  have h1 : ¬ (b.pos + 4 > b.data.length) := by omega
  simp [getU32, h1]

theorem getU32_err (b : ByteStream) (h : b.data.length < b.pos + 4) :
    getU32 b = (Except.error Err.IOE, b) := by
  simp [getU32, h]

theorem getIdAsString_ok (b : ByteStream) (h : b.pos + 4 ≤ b.data.length) :
    getIdAsString b = (Except.ok (cstr [byteAt b.data b.pos, byteAt b.data (b.pos + 1),
        byteAt b.data (b.pos + 2), byteAt b.data (b.pos + 3), 0]),
      { b with pos := b.pos + 4, log := b.log ++ [b.pos, b.pos + 1, b.pos + 2, b.pos + 3] }) := by
  have h1 : ¬ (b.pos + 1 > b.data.length) := by omega
  have h2 : ¬ (b.pos + 1 + 1 > b.data.length) := by omega
  have h3 : ¬ (b.pos + 1 + 1 + 1 > b.data.length) := by omega
  have h4 : ¬ (b.pos + 1 + 1 + 1 + 1 > b.data.length) := by omega
  simp [getIdAsString, getByte, M.bind_apply, M.pure_apply, h1, h2, h3, h4, Nat.add_assoc]

theorem getIdAsString_err (b : ByteStream) (h : b.data.length < b.pos + 4) :
    (getIdAsString b).1 = Except.error Err.IOE := by
  by_cases h1 : b.pos + 1 > b.data.length
  · simp [getIdAsString, getByte, M.bind_apply, h1]
  · by_cases h2 : b.pos + 1 + 1 > b.data.length
    · simp [getIdAsString, getByte, M.bind_apply, h1, h2]
    · by_cases h3 : b.pos + 1 + 1 + 1 > b.data.length
      · simp [getIdAsString, getByte, M.bind_apply, h1, h2, h3]
      · have h4 : b.pos + 1 + 1 + 1 + 1 > b.data.length := by omega
        simp [getIdAsString, getByte, M.bind_apply, h1, h2, h3, h4]

theorem stable_isValid (o c : Nat) : Stable Sim ByteStream.data (isValid o c) :=
  ⟨fun _ _ h => by simp [ByteStream.isValid, h.1], fun _ _ h => h, fun _ => rfl⟩

theorem stable_addProperties_entry (ds : Nat) :
    Stable (Sim2 : ByteStream × Props → ByteStream × Props → Prop) dat2
      (addProperties.entry ds) := by
  unfold addProperties.entry
  refine stable_bind (stable_onFst stable_getU32) fun _ =>
    stable_bind (stable_onFst stable_getU32) fun _ =>
    stable_bind (stable_onFst stable_getPosition) fun _ =>
    stable_bind (stable_onFst (stable_isValid _ _)) fun _ =>
    stable_bind (stable_onFst (stable_isValid _ _)) fun _ => ?_
  split
  · exact stable_bind (stable_onFst (stable_setPosition _)) fun _ =>
      stable_bind (stable_onFst stable_getString) fun _ =>
      stable_bind (stable_onFst (stable_setPosition _)) fun _ =>
      stable_bind (stable_onFst stable_getString) fun _ =>
      stable_bind (stable_modifySnd _) fun _ => stable_onFst (stable_setPosition _)
  · exact stable_onFst (stable_setPosition _)

theorem stable_addProperties_loop (ds n : Nat) :
    Stable (Sim2 : ByteStream × Props → ByteStream × Props → Prop) dat2
      (addProperties.loop ds n) := by
  induction n with
  | zero => exact stable_pure _
  | succ n ih =>
    unfold addProperties.loop
    exact stable_bind (stable_addProperties_entry ds) fun _ => ih

/-- What `addProperties` does after it has moved to `offset`. -/
theorem stable_addProperties_body :
    Stable (Sim2 : ByteStream × Props → ByteStream × Props → Prop) dat2
      (do
        let id ← onFst getIdAsString
        if id ≠ SECp then ThrowXPE else
        let version ← onFst getU32
        if version < 0x00020000 then ThrowXPE else
        let entries ← onFst getU32
        if entries = 0 then pure () else
        let enc ← onFst getU32
        if 0 ≠ enc then ThrowXPE else
        onFst (skipBytes 4)
        onFst (skipBytes 4)
        if entries > 1000 then ThrowXPE else
        let pos ← onFst getPosition
        let data_start := add32 pos (mul32 entries 8)
        addProperties.loop data_start entries) := by
  refine stable_bind (stable_onFst stable_getIdAsString) fun _ =>
    stable_ite _ stable_throwXPE (stable_bind (stable_onFst stable_getU32) fun _ =>
    stable_ite _ stable_throwXPE (stable_bind (stable_onFst stable_getU32) fun _ =>
    stable_ite _ (stable_pure _) (stable_bind (stable_onFst stable_getU32) fun _ =>
    stable_ite _ stable_throwXPE (stable_bind (stable_onFst (stable_skipBytes _)) fun _ =>
    stable_bind (stable_onFst (stable_skipBytes _)) fun _ =>
    stable_ite _ stable_throwXPE (stable_bind (stable_onFst stable_getPosition) fun _ =>
      stable_addProperties_loop _ _)))))

theorem stable_addProperties (o l : Nat) :
    Stable (Sim2 : ByteStream × Props → ByteStream × Props → Prop) dat2
      (addProperties o l) := by
  unfold rawspeed.addProperties
  exact stable_bind (stable_onFst (stable_setPosition _)) fun _ => stable_addProperties_body

/-! ## Outcomes and positions of the stream primitives -/

theorem onFst_snd {σ τ α : Type} (m : M σ α) (st : σ × τ) :
    (onFst m st).2 = ((m st.1).2, st.2) := rfl

theorem setPosition_pos (p : Nat) (b : ByteStream) : (setPosition p b).2.pos = p := by
  unfold setPosition; split <;> rfl
theorem setPosition_data (p : Nat) (b : ByteStream) : (setPosition p b).2.data = b.data := by
  unfold setPosition; split <;> rfl

theorem getU32_fst (b : ByteStream) :
    (getU32 b).1 = if b.pos + 4 > b.data.length then Except.error Err.IOE
      else Except.ok (u32At b.data b.pos) := by
  unfold getU32; split <;> rfl
theorem getU32_pos (b : ByteStream) :
    (getU32 b).2.pos = if b.pos + 4 > b.data.length then b.pos else b.pos + 4 := by
  unfold getU32; split <;> rfl
theorem getU32_data (b : ByteStream) : (getU32 b).2.data = b.data := stable_getU32.data b

theorem getPosition_fst (b : ByteStream) : (getPosition b).1 = Except.ok b.pos := rfl
theorem getPosition_snd (b : ByteStream) : (getPosition b).2 = b := rfl

theorem getIdAsString_fst (b : ByteStream) :
    (getIdAsString b).1 = if b.pos + 4 > b.data.length then Except.error Err.IOE
      else Except.ok (cstr (idAt b.data b.pos ++ [0])) := by
  split
  · exact getIdAsString_err b (by omega)
  · rw [getIdAsString_ok b (by omega)]; rfl
theorem getIdAsString_pos (b : ByteStream) (h : b.pos + 4 ≤ b.data.length) :
    (getIdAsString b).2.pos = b.pos + 4 := by
  rw [getIdAsString_ok b h]
theorem getIdAsString_data (b : ByteStream) : (getIdAsString b).2.data = b.data :=
  stable_getIdAsString.data b

theorem sub32_of_le (a b : Nat) (hb : b ≤ a) : sub32 a b = a - b := by
  unfold sub32
  rw [if_pos hb]

theorem cstr_four (a b c d : Nat) (w x y z : Nat) (hw : w ≠ 0) (hx : x ≠ 0) (hy : y ≠ 0)
    (hz : z ≠ 0) : cstr ([a, b, c, d] ++ [0]) = [w, x, y, z] ↔ [a, b, c, d] = [w, x, y, z] := by
  by_cases ha : a = 0
  · subst ha; simp [cstr, List.takeWhile]; intro h; exact absurd h.symm hw
  by_cases hb : b = 0
  · subst hb; simp [cstr, List.takeWhile, ha]; intro _ h; exact absurd h.symm hx
  by_cases hc : c = 0
  · subst hc; simp [cstr, List.takeWhile, ha, hb]; intro _ _ h; exact absurd h.symm hy
  by_cases hd : d = 0
  · subst hd; simp [cstr, List.takeWhile, ha, hb, hc]; intro _ _ _ h; exact absurd h.symm hz
  simp [cstr, List.takeWhile, ha, hb, hc, hd]

theorem cstr_idAt_SECd (data : List Nat) (p : Nat) :
    cstr (idAt data p ++ [0]) = SECd ↔ idAt data p = SECd :=
  cstr_four _ _ _ _ _ _ _ _ (by decide) (by decide) (by decide) (by decide)

theorem getU32_inv {b : ByteStream} {a : Nat} (h : (getU32 b).1 = Except.ok a) :
    b.pos + 4 ≤ b.data.length ∧ a = u32At b.data b.pos ∧ (getU32 b).2.pos = b.pos + 4 := by
  rw [getU32_fst] at h
  by_cases hp : b.pos + 4 > b.data.length
  · rw [if_pos hp] at h; cases h
  · rw [if_neg hp] at h
    injection h with h
    exact ⟨by omega, h.symm, by rw [getU32_pos, if_neg hp]⟩

theorem getIdAsString_inv {b : ByteStream} {a : List Nat}
    (h : (getIdAsString b).1 = Except.ok a) :
    b.pos + 4 ≤ b.data.length ∧ a = cstr (idAt b.data b.pos ++ [0]) ∧
      (getIdAsString b).2.pos = b.pos + 4 := by
  rw [getIdAsString_fst] at h
  by_cases hp : b.pos + 4 > b.data.length
  · rw [if_pos hp] at h; cases h
  · rw [if_neg hp] at h
    injection h with h
    exact ⟨by omega, h.symm, getIdAsString_pos b (by omega)⟩

theorem M.step {σ α β : Type} {m : M σ α} {f : α → M σ β} {s : σ} {r : β}
    (h : ((m >>= f) s).1 = Except.ok r) :
    ∃ a, (m s).1 = Except.ok a ∧ (m >>= f) s = f a (m s).2 := by
  rw [M.bind_apply] at h ⊢
  rcases hm : m s with ⟨x, t⟩
  rw [hm] at h
  cases x with
  | ok a => exact ⟨a, rfl, rfl⟩
  | error e => cases h

theorem M.ite_throw_step {σ α : Type} {c : Prop} [Decidable c] {m : M σ α} {s : σ} {r : α}
    (h : ((if c then ThrowXPE else m) s).1 = Except.ok r) :
    ¬ c ∧ (if c then ThrowXPE else m) s = m s := by
  by_cases hc : c
  · rw [if_pos hc] at h; cases h
  · rw [if_neg hc]; exact ⟨hc, rfl⟩

theorem readDirectory_header (bytes : ByteStream) (dec : X3fDecoder)
    (h4 : 4 ≤ bytes.data.length)
    (hok : (readDirectory bytes.data.length (bytes, dec)).1 = Except.ok ()) :
    u32At bytes.data (bytes.data.length - 4) + 12 ≤ bytes.data.length ∧
    idAt bytes.data (u32At bytes.data (bytes.data.length - 4)) = SECd ∧
    0x00020000 ≤ u32At bytes.data (u32At bytes.data (bytes.data.length - 4) + 4) ∧
    ∃ b1 : ByteStream, b1.data = bytes.data ∧
      b1.pos = u32At bytes.data (bytes.data.length - 4) + 12 ∧
      readDirectory bytes.data.length (bytes, dec) =
        readDirectory.loop (u32At bytes.data (u32At bytes.data (bytes.data.length - 4) + 8))
          (b1, dec) := by
  unfold readDirectory at hok ⊢
  rw [sub32_of_le _ 4 h4] at hok ⊢
  -- bytes.setPosition(mInput->getSize() - 4)
  obtain ⟨_, h1, e1⟩ := M.step hok
  rw [e1] at hok ⊢
  have p1 := setPosition_pos (bytes.data.length - 4) bytes
  have d1 := setPosition_data (bytes.data.length - 4) bytes
  rw [onFst_snd] at hok ⊢
  generalize (setPosition (bytes.data.length - 4) bytes).2 = s1 at hok p1 d1 ⊢
  -- dir_off = bytes.getU32()
  obtain ⟨dir_off, h2, e2⟩ := M.step hok
  rw [e2] at hok ⊢
  obtain ⟨_, v2, p2⟩ := getU32_inv h2
  have d2 := getU32_data s1
  rw [onFst_snd] at hok ⊢
  simp only [] at hok p2 d2 v2 ⊢
  generalize (getU32 s1).2 = s2 at hok p2 d2 ⊢
  rw [p1, d1] at v2
  subst v2
  -- bytes.setPosition(dir_off)
  obtain ⟨_, h3, e3⟩ := M.step hok
  rw [e3] at hok ⊢
  have p3 := setPosition_pos (u32At bytes.data (bytes.data.length - 4)) s2
  have d3 := setPosition_data (u32At bytes.data (bytes.data.length - 4)) s2
  rw [onFst_snd] at hok ⊢
  simp only [] at hok p3 d3 ⊢
  generalize (setPosition (u32At bytes.data (bytes.data.length - 4)) s2).2 = s3 at hok p3 d3 ⊢
  -- getIdAsString(&bytes)
  obtain ⟨id, h4, e4⟩ := M.step hok
  rw [e4] at hok ⊢
  obtain ⟨_, v4, p4⟩ := getIdAsString_inv h4
  have d4 := getIdAsString_data s3
  rw [onFst_snd] at hok ⊢
  simp only [] at hok p4 d4 v4 ⊢
  generalize (getIdAsString s3).2 = s4 at hok p4 d4 ⊢
  obtain ⟨c4, e4b⟩ := M.ite_throw_step hok
  rw [e4b] at hok ⊢
  -- version = bytes.getU32()
  obtain ⟨version, h5, e5⟩ := M.step hok
  rw [e5] at hok ⊢
  obtain ⟨_, v5, p5⟩ := getU32_inv h5
  have d5 := getU32_data s4
  rw [onFst_snd] at hok ⊢
  simp only [] at hok p5 d5 v5 ⊢
  generalize (getU32 s4).2 = s5 at hok p5 d5 ⊢
  obtain ⟨c5, e5b⟩ := M.ite_throw_step hok
  rw [e5b] at hok ⊢
  -- n_entries = bytes.getU32()
  obtain ⟨n_entries, h6, e6⟩ := M.step hok
  rw [e6] at hok ⊢
  obtain ⟨b6, v6, p6⟩ := getU32_inv h6
  have d6 := getU32_data s5
  rw [onFst_snd] at hok ⊢
  simp only [] at hok p6 d6 v6 b6 ⊢
  generalize (getU32 s5).2 = s6 at hok p6 d6 ⊢
  rw [d5, d4, d3, d2, d1] at d6
  rw [p5, p4, p3] at p6
  rw [p5, p4, p3, d5, d4, d3, d2, d1] at b6
  rw [p4, p3, d4, d3, d2, d1] at v5
  rw [p5, p4, p3, d5, d4, d3, d2, d1] at v6
  rw [p3, d3, d2, d1] at v4
  subst v4 v5 v6
  refine ⟨by omega, ?_, by omega, s6, d6, by omega, ?_⟩
  · rw [not_not, eq_comm] at c4
    exact (cstr_idAt_SECd _ _).1 c4
  · rw [show u32At bytes.data (bytes.data.length - 4) + 4 + 4
      = u32At bytes.data (bytes.data.length - 4) + 8 from by omega]

/-! ## The constructor -/

/-- C1: a buffer shorter than 232 bytes makes the constructor throw
`X3fParserException`, and the trace of dereferenced offsets is empty: no byte
of the buffer was read. -/
theorem X3fParser_ctor_too_small (file : List Nat) (h : file.length < 104 + 128) :
    (X3fParser.ctor file).1 = Except.error Err.XPE ∧
      (X3fParser.ctor file).2.log = [] := by
  simp [X3fParser.ctor, h, ByteStream.empty]

theorem X3fParser_ctor_too_small_witness :
    (X3fParser.ctor [0x46, 0x4f, 0x56, 0x62, 0, 0, 2, 0]).1 = Except.error Err.XPE ∧
      (X3fParser.ctor [0x46, 0x4f, 0x56, 0x62, 0, 0, 2, 0]).2.log = [] :=
  X3fParser_ctor_too_small [0x46, 0x4f, 0x56, 0x62, 0, 0, 2, 0] (by decide)

/-- The outcome of the constructor on a buffer of at least 232 bytes. -/
theorem X3fParser_ctor_large (file : List Nat) (h : 104 + 128 ≤ file.length) :
    (X3fParser.ctor file).1 =
      if u32At file 0 = 0x62564f46 ∧ 0x00020000 ≤ u32At file 4 then Except.ok ()
      else Except.error Err.XPE := by
  have h1 : ¬ file.length < 104 + 128 := by omega
  have h2 : ¬ (4 > file.length) := by omega
  have h3 : ¬ (4 + 4 > file.length) := by omega
  have h4 : ¬ (4 + 4 + 20 > file.length) := by omega
  by_cases hs : u32At file 0 = 0x62564f46
  · by_cases hv : u32At file 4 < 0x00020000
    · have hv2 : ¬ (0x00020000 ≤ u32At file 4) := by omega
      simp [X3fParser.ctor, h1, catchIOE, X3fParser.readHeader, M.bind_apply,
        ByteStream.getU32, ByteStream.ofBuffer, h2, h3, hs, hv, hv2,
        M.ite_apply, ThrowXPE]
    · have hv2 : 0x00020000 ≤ u32At file 4 := by omega
      simp [X3fParser.ctor, h1, catchIOE, X3fParser.readHeader, M.bind_apply,
        ByteStream.getU32, ByteStream.ofBuffer, h2, h3, h4, hs, hv, hv2,
        M.ite_apply, ThrowXPE, ByteStream.skipBytes, ByteStream.setPosition]
  · simp [X3fParser.ctor, h1, catchIOE, X3fParser.readHeader, M.bind_apply,
      ByteStream.getU32, ByteStream.ofBuffer, h2, hs,
      M.ite_apply, ThrowXPE]

/-- After a successful construction the member `bytes` covers the whole file
and stands at offset 0. -/
theorem X3fParser_ctor_bytes (file : List Nat)
    (hok : (X3fParser.ctor file).1 = Except.ok ()) :
    (X3fParser.ctor file).2.data = file ∧ (X3fParser.ctor file).2.pos = 0 := by
  have d : (catchIOE X3fParser.readHeader (ByteStream.ofBuffer file 0 file.length)).2.data
      = file := by
    have h1 := stable_readHeader_catch.data (ByteStream.ofBuffer file 0 file.length)
    rw [h1]
    simp [ByteStream.ofBuffer]
  unfold X3fParser.ctor at hok ⊢
  by_cases hs : file.length < 104 + 128
  · simp only [hs, if_true] at hok
    cases hok
  · simp only [hs, if_false] at hok ⊢
    refine ⟨d, ?_⟩
    have h2 : ¬ (4 > file.length) := by omega
    have h3 : ¬ (4 + 4 > file.length) := by omega
    have h4 : ¬ (4 + 4 + 20 > file.length) := by omega
    by_cases c1 : u32At file 0 = 0x62564f46
    · by_cases c2 : u32At file 4 < 0x00020000
      · simp [catchIOE, X3fParser.readHeader, M.bind_apply, ByteStream.getU32,
          ByteStream.ofBuffer, h2, h3, c1, c2, M.ite_apply, ThrowXPE] at hok
      · simp [catchIOE, X3fParser.readHeader, M.bind_apply, ByteStream.getU32,
          ByteStream.ofBuffer, h2, h3, h4, c1, c2, M.ite_apply, ThrowXPE,
          ByteStream.skipBytes, ByteStream.setPosition]
    · simp [catchIOE, X3fParser.readHeader, M.bind_apply, ByteStream.getU32,
        ByteStream.ofBuffer, h2, c1, M.ite_apply, ThrowXPE] at hok

/-- C2: on a buffer of at least 232 bytes the constructor succeeds exactly
when the little-endian u32 at offset 0 is `0x62564f46` and the one at offset 4
is at least `0x00020000`; otherwise it throws `X3fParserException`. -/
theorem X3fParser_ctor_iff (file : List Nat) (h : 104 + 128 ≤ file.length) :
    ((X3fParser.ctor file).1 = Except.ok () ↔
        (u32At file 0 = 0x62564f46 ∧ 0x00020000 ≤ u32At file 4)) ∧
      ((X3fParser.ctor file).1 ≠ Except.ok () →
        (X3fParser.ctor file).1 = Except.error Err.XPE) := by
  rw [X3fParser_ctor_large file h]
  by_cases hc : u32At file 0 = 0x62564f46 ∧ 0x00020000 ≤ u32At file 4
  · simp [hc]
  · simp [hc]

theorem X3fParser_ctor_iff_witness :
    ((X3fParser.ctor sampleNoDirectory).1 = Except.ok () ↔
        (u32At sampleNoDirectory 0 = 0x62564f46 ∧ 0x00020000 ≤ u32At sampleNoDirectory 4)) ∧
      ((X3fParser.ctor sampleNoDirectory).1 ≠ Except.ok () →
        (X3fParser.ctor sampleNoDirectory).1 = Except.error Err.XPE) :=
  X3fParser_ctor_iff sampleNoDirectory (by decide)

/-! ## The directory header -/

theorem getDecoder_cases (size : Nat) (bytes : ByteStream) :
    (getDecoder size bytes).1 = Except.error Err.XPE ∨
      ((readDirectory size (bytes, X3fDecoder.new)).1 = Except.ok () ∧
        (getDecoder size bytes).1 =
          Except.ok (readDirectory size (bytes, X3fDecoder.new)).2.2) := by
  unfold getDecoder catchIOE
  rcases h : readDirectory size (bytes, X3fDecoder.new) with ⟨r, st⟩
  cases r with
  | ok u => right; simp [h]
  | error e => cases e <;> simp [h]

/-- C3: the directory offset is the little-endian u32 in the last four bytes
of the buffer; unless the eight bytes at that offset lie inside the buffer,
start with "SECd" and continue with a version of at least `0x00020000`,
`getDecoder` throws `X3fParserException`. -/
theorem getDecoder_directory_header (bytes : ByteStream) (h : 104 + 128 ≤ bytes.data.length)
    (hbad : ¬ (u32At bytes.data (bytes.data.length - 4) + 8 ≤ bytes.data.length ∧
      idAt bytes.data (u32At bytes.data (bytes.data.length - 4)) = SECd ∧
      0x00020000 ≤ u32At bytes.data (u32At bytes.data (bytes.data.length - 4) + 4))) :
    (getDecoder bytes.data.length bytes).1 = Except.error Err.XPE := by
  rcases getDecoder_cases bytes.data.length bytes with hx | ⟨hok, _⟩
  · exact hx
  · obtain ⟨h1, h2, h3, _⟩ := readDirectory_header bytes X3fDecoder.new (by omega) hok
    exact absurd ⟨by omega, h2, h3⟩ hbad

theorem getDecoder_directory_header_witness :
    (getDecoder (ByteStream.ofBuffer sampleNoDirectory 0 232).data.length
      (ByteStream.ofBuffer sampleNoDirectory 0 232)).1 = Except.error Err.XPE :=
  getDecoder_directory_header _ (by decide) (by decide)

/-! ## Property sections -/

theorem onFst_apply {σ τ α : Type} (m : M σ α) (b : σ) (t : τ) :
    onFst m (b, t) = ((m b).1, ((m b).2, t)) := rfl

theorem setPosition_ok (p : Nat) (b : ByteStream) (h : p ≤ b.data.length) :
    setPosition p b = (Except.ok (), { b with pos := p }) := by
  unfold setPosition
  rw [if_neg (by omega)]

theorem skipBytes_ok (n : Nat) (b : ByteStream) (h : b.pos + n ≤ b.data.length) :
    skipBytes n b = (Except.ok (), { b with pos := b.pos + n }) := by
  unfold skipBytes
  rw [if_neg (by omega)]

theorem skipBytes_err (n : Nat) (b : ByteStream) (h : b.data.length < b.pos + n) :
    skipBytes n b = (Except.error Err.IOE, b) := by
  unfold skipBytes
  rw [if_pos (by omega)]

/-- C6: a property section that declares more than 1000 entries makes
`addProperties` throw (`X3fParserException`, or the `IOException` of a read
past the end), and the map `props` is what it was before the call. -/
theorem addProperties_too_many (offset length : Nat) (b : ByteStream) (props : Props)
    (hread : offset + 12 ≤ b.data.length)
    (hmany : 1000 < u32At b.data (offset + 8)) :
    ∃ (e : Err) (s : ByteStream),
      addProperties offset length (b, props) = (Except.error e, (s, props)) := by
  unfold addProperties
  simp only [M.bind_apply, onFst_apply]
  rw [setPosition_ok _ _ (by omega)]
  simp only [M.bind_apply, onFst_apply]
  rw [getIdAsString_ok _ (by simp only []; omega)]
  simp only [M.ite_apply]
  split
  · exact ⟨_, _, rfl⟩
  simp only [M.bind_apply, onFst_apply]
  rw [getU32_ok _ (by simp only []; omega)]
  simp only [M.ite_apply]
  split
  · exact ⟨_, _, rfl⟩
  simp only [M.bind_apply, onFst_apply]
  rw [getU32_ok _ (by simp only []; omega)]
  simp only [M.ite_apply]
  have hent : u32At b.data (offset + 4 + 4) = u32At b.data (offset + 8) := by
    rw [Nat.add_assoc]
  rw [hent, if_neg (by omega)]
  simp only [M.bind_apply, onFst_apply]
  by_cases h16 : offset + 16 ≤ b.data.length
  · rw [getU32_ok _ (by simp only []; omega)]
    simp only [M.ite_apply]
    split
    · exact ⟨_, _, rfl⟩
    simp only [M.bind_apply, onFst_apply]
    by_cases h20 : offset + 20 ≤ b.data.length
    · rw [skipBytes_ok _ _ (by simp only []; omega)]
      simp only [M.bind_apply, onFst_apply]
      by_cases h24 : offset + 24 ≤ b.data.length
      · rw [skipBytes_ok _ _ (by simp only []; omega)]
        simp only [M.ite_apply]
        exact ⟨_, _, rfl⟩
      · rw [skipBytes_err _ _ (by simp only []; omega)]
        exact ⟨_, _, rfl⟩
    · rw [skipBytes_err _ _ (by simp only []; omega)]
      exact ⟨_, _, rfl⟩
  · rw [getU32_err _ (by simp only []; omega)]
    exact ⟨_, _, rfl⟩


theorem addProperties_too_many_witness :
    ∃ (e : Err) (s : ByteStream),
      addProperties 0 12 (ByteStream.ofBuffer samplePropsTooMany 0 12, []) =
        (Except.error e, (s, [])) :=
  addProperties_too_many 0 12 (ByteStream.ofBuffer samplePropsTooMany 0 12) []
    (by decide) (by decide)

/-- C7 as stated fails: a section with no entries and encoding id 1 is
accepted, because the function returns before it looks at the encoding. -/
theorem addProperties_encoding_unchecked_when_empty :
    u32At samplePropsNoEntries 12 = 1 ∧
      (addProperties 0 16 (ByteStream.ofBuffer samplePropsNoEntries 0 16, [])).1 =
        Except.ok () := by
  decide

/-- C7, amended: a property section with at least one entry whose encoding id
is not 0 makes `addProperties` throw `X3fParserException`, with `props` left
as it was. -/
theorem addProperties_bad_encoding (offset length : Nat) (b : ByteStream) (props : Props)
    (hread : offset + 16 ≤ b.data.length)
    (hent : u32At b.data (offset + 8) ≠ 0)
    (henc : u32At b.data (offset + 12) ≠ 0) :
    ∃ s : ByteStream,
      addProperties offset length (b, props) = (Except.error Err.XPE, (s, props)) := by
  unfold addProperties
  simp only [M.bind_apply, onFst_apply]
  rw [setPosition_ok _ _ (by omega)]
  simp only [M.bind_apply, onFst_apply]
  rw [getIdAsString_ok _ (by simp only []; omega)]
  simp only [M.ite_apply]
  split
  · exact ⟨_, rfl⟩
  simp only [M.bind_apply, onFst_apply]
  rw [getU32_ok _ (by simp only []; omega)]
  simp only [M.ite_apply]
  split
  · exact ⟨_, rfl⟩
  simp only [M.bind_apply, onFst_apply]
  rw [getU32_ok _ (by simp only []; omega)]
  simp only [M.ite_apply]
  have e8 : u32At b.data (offset + 4 + 4) = u32At b.data (offset + 8) := by
    rw [Nat.add_assoc]
  have e12 : u32At b.data (offset + 4 + 4 + 4) = u32At b.data (offset + 12) := by
    rw [Nat.add_assoc, Nat.add_assoc]
  rw [e8, if_neg hent]
  simp only [M.bind_apply, onFst_apply]
  rw [getU32_ok _ (by simp only []; omega)]
  simp only [M.ite_apply]
  rw [e12, if_pos (fun h => henc h.symm)]
  exact ⟨_, rfl⟩

theorem addProperties_bad_encoding_witness :
    ∃ s : ByteStream,
      addProperties 0 16 (ByteStream.ofBuffer
        (SECp ++ [0, 0, 2, 0] ++ [1, 0, 0, 0] ++ [1, 0, 0, 0]) 0 16, []) =
          (Except.error Err.XPE, (s, [])) :=
  addProperties_bad_encoding 0 16 _ [] (by decide) (by decide) (by decide)

/-- C8 as stated fails: the value offset of the only entry lies far outside
the buffer, and `addProperties` completes normally. -/
theorem addProperties_bad_offset_accepted :
    ¬ (add32 (mul32 (u32At samplePropsBadOffset 28) 2) 32 + 2 ≤ samplePropsBadOffset.length) ∧
      (addProperties 0 36 (ByteStream.ofBuffer samplePropsBadOffset 0 36, [])).1 =
        Except.ok () ∧
      (addProperties 0 36 (ByteStream.ofBuffer samplePropsBadOffset 0 36, [])).2.2 = [] := by
  decide!

theorem isValid_apply (o c : Nat) (b : ByteStream) :
    isValid o c b = (Except.ok (decide (o + c ≤ b.data.length)), b) := rfl

theorem getPosition_apply (b : ByteStream) : getPosition b = (Except.ok b.pos, b) := rfl

/-- C8, amended: an entry whose key or value text offset, computed in
`uint32`, does not leave two bytes inside the buffer is skipped: the loop body
returns normally, `props` is unchanged and the stream stands at the next
entry. -/
theorem addProperties_entry_skips (data_start : Nat) (b : ByteStream) (props : Props)
    (hread : b.pos + 8 ≤ b.data.length)
    (hbad : ¬ (add32 (mul32 (u32At b.data b.pos) 2) data_start + 2 ≤ b.data.length ∧
      add32 (mul32 (u32At b.data (b.pos + 4)) 2) data_start + 2 ≤ b.data.length)) :
    ∃ s : ByteStream, s.data = b.data ∧ s.pos = b.pos + 8 ∧
      addProperties.entry data_start (b, props) = (Except.ok (), (s, props)) := by
  unfold addProperties.entry
  simp only [M.bind_apply, onFst_apply]
  rw [getU32_ok _ (by omega)]
  simp only [M.bind_apply, onFst_apply]
  rw [getU32_ok _ (by simp only []; omega)]
  simp only [M.bind_apply, onFst_apply, getPosition_apply, isValid_apply, M.ite_apply]
  rw [if_neg (by simpa using hbad)]
  rw [setPosition_ok _ _ (by simp only []; omega)]
  refine ⟨_, ?_, ?_, rfl⟩
  · rfl
  · simp only []

theorem addProperties_entry_skips_witness :
    ∃ s : ByteStream, s.data = (ByteStream.ofBuffer samplePropsBadOffset 24 12).data ∧
      s.pos = (ByteStream.ofBuffer samplePropsBadOffset 24 12).pos + 8 ∧
      addProperties.entry 32 (ByteStream.ofBuffer samplePropsBadOffset 24 12, []) =
        (Except.ok (), (s, [])) :=
  addProperties_entry_skips 32 (ByteStream.ofBuffer samplePropsBadOffset 24 12) []
    (by decide) (by decide)

/-! ## The directory loop -/

theorem setPosition_idem (o : Nat) (b : ByteStream) :
    setPosition o (setPosition o b).2 = setPosition o b := by
  unfold setPosition
  split <;> rfl

theorem seek_bind_idem {α : Type} (o : Nat) (f : Unit → M ByteStream α) (b : ByteStream) :
    (setPosition o >>= f) b = (setPosition o >>= f) (setPosition o b).2 := by
  rw [M.bind_apply, M.bind_apply, setPosition_idem]

theorem seek_bind_idem2 {τ α : Type} (o : Nat) (f : Unit → M (ByteStream × τ) α)
    (b : ByteStream) (t : τ) :
    (onFst (setPosition o) >>= f) (b, t) =
      (onFst (setPosition o) >>= f) ((setPosition o b).2, t) := by
  rw [M.bind_apply, M.bind_apply, onFst_apply, onFst_apply, setPosition_idem]

theorem sim_after_seek (o : Nat) (b b1 : ByteStream) (h : b.data = b1.data) :
    Sim (setPosition o b).2 (setPosition o b1).2 :=
  ⟨by rw [setPosition_data, setPosition_data, h], by rw [setPosition_pos, setPosition_pos]⟩

/-- The outcome of `X3fImage::X3fImage` depends on the stream only through its
data. -/
theorem X3fImage_ctor_indep (o l : Nat) (b b1 : ByteStream) (h : b.data = b1.data) :
    (X3fImage.ctor o l b).1 = (X3fImage.ctor o l b1).1 := by
  have e : ∀ c : ByteStream, X3fImage.ctor o l c = X3fImage.ctor o l (setPosition o c).2 := by
    intro c
    unfold X3fImage.ctor
    exact seek_bind_idem o _ c
  rw [e b, e b1]
  exact (stable_X3fImage_ctor o l).res _ _ (sim_after_seek o b b1 h)

/-- The outcome of `addProperties` and the map it leaves depend on the stream
only through its data. -/
theorem addProperties_indep (o l : Nat) (b b1 : ByteStream) (p : Props) (h : b.data = b1.data) :
    (addProperties o l (b, p)).1 = (addProperties o l (b1, p)).1 ∧
      (addProperties o l (b, p)).2.2 = (addProperties o l (b1, p)).2.2 := by
  have e : ∀ c : ByteStream,
      addProperties o l (c, p) = addProperties o l ((setPosition o c).2, p) := by
    intro c
    unfold addProperties
    exact seek_bind_idem2 o _ c p
  rw [e b, e b1]
  have hs : Sim2 ((setPosition o b).2, p) ((setPosition o b1).2, p) :=
    ⟨sim_after_seek o b b1 h, rfl⟩
  exact ⟨(stable_addProperties o l).res _ _ hs, ((stable_addProperties o l).st _ _ hs).2⟩

theorem X3fDirectory_ctor_inv {b : ByteStream} {d : X3fDirectory}
    (hok : (X3fDirectory.ctor b).1 = Except.ok d) :
    b.pos + 12 ≤ b.data.length ∧ d = dirEntryAt b.data b.pos ∧
      d.offset + 4 ≤ b.data.length ∧ (X3fDirectory.ctor b).2.pos = b.pos + 12 := by
  have hd := stable_X3fDirectory_ctor.data b
  revert hok hd
  unfold X3fDirectory.ctor
  intro hok hd
  -- offset = bytes->getU32()
  obtain ⟨offset, h1, e1⟩ := M.step hok
  rw [e1] at hok ⊢
  obtain ⟨b1, v1, p1⟩ := getU32_inv h1
  have d1 := getU32_data b
  generalize (getU32 b).2 = s1 at hok p1 d1 ⊢
  -- length = bytes->getU32()
  obtain ⟨length, h2, e2⟩ := M.step hok
  rw [e2] at hok ⊢
  obtain ⟨b2, v2, p2⟩ := getU32_inv h2
  have d2 := getU32_data s1
  generalize (getU32 s1).2 = s2 at hok p2 d2 ⊢
  -- id = getIdAsString(bytes)
  obtain ⟨id, h3, e3⟩ := M.step hok
  rw [e3] at hok ⊢
  obtain ⟨b3, v3, p3⟩ := getIdAsString_inv h3
  have d3 := getIdAsString_data s2
  generalize (getIdAsString s2).2 = s3 at hok p3 d3 ⊢
  -- old_pos = bytes->getPosition()
  obtain ⟨old_pos, h4, e4⟩ := M.step hok
  rw [e4] at hok ⊢
  rw [getPosition_fst] at h4
  injection h4 with h4
  rw [getPosition_snd] at hok ⊢
  -- bytes->setPosition(offset)
  obtain ⟨_, h5, e5⟩ := M.step hok
  rw [e5] at hok ⊢
  have p5 := setPosition_pos offset s3
  have d5 := setPosition_data offset s3
  generalize (setPosition offset s3).2 = s5 at hok p5 d5 ⊢
  -- sectionID = getIdAsString(bytes)
  obtain ⟨sectionID, h6, e6⟩ := M.step hok
  rw [e6] at hok ⊢
  obtain ⟨b6, v6, p6⟩ := getIdAsString_inv h6
  have d6 := getIdAsString_data s5
  generalize (getIdAsString s5).2 = s6 at hok p6 d6 ⊢
  -- bytes->setPosition(old_pos)
  obtain ⟨_, h7, e7⟩ := M.step hok
  rw [e7] at hok ⊢
  have p7 := setPosition_pos old_pos s6
  generalize (setPosition old_pos s6).2 = s7 at hok p7 ⊢
  rw [M.pure_apply] at hok
  injection hok with hok
  subst hok
  rw [p5, d5, d3, d2, d1] at b6 v6
  rw [p2, p1, d2, d1] at v3
  rw [p1, d1] at v2
  rw [p2, p1, d2, d1] at b3
  subst v1 v2 v3 v6
  refine ⟨by omega, ?_, b6, ?_⟩
  · unfold dirEntryAt
    rw [Nat.add_assoc]
  · show s7.pos = b.pos + 12
    rw [p7, ← h4, p3, p2, p1]


theorem sub32_add_self (o k : Nat) : sub32 (o + k) o = k := by
  unfold sub32
  rw [if_pos (by omega)]
  omega

theorem cstr_idAt_SECi (data : List Nat) (p : Nat) :
    cstr (idAt data p ++ [0]) = SECi ↔ idAt data p = SECi :=
  cstr_four _ _ _ _ _ _ _ _ (by decide) (by decide) (by decide) (by decide)

theorem X3fImage_ctor_inv {o l : Nat} {b : ByteStream} {img : X3fImage}
    (hok : (X3fImage.ctor o l b).1 = Except.ok img) :
    o + 28 ≤ b.data.length ∧ idAt b.data o = SECi ∧ 0x00020000 ≤ u32At b.data (o + 4) ∧
      img.dataOffset = o + 28 ∧ img.dataSize = sub32 l 28 := by
  unfold X3fImage.ctor at hok
  -- bytes->setPosition(offset)
  obtain ⟨_, h0, e0⟩ := M.step hok
  rw [e0] at hok
  have p0 := setPosition_pos o b
  have d0 := setPosition_data o b
  generalize (setPosition o b).2 = s0 at hok p0 d0
  -- id = getIdAsString(bytes)
  obtain ⟨id, h1, e1⟩ := M.step hok
  rw [e1] at hok
  obtain ⟨b1, v1, p1⟩ := getIdAsString_inv h1
  have d1 := getIdAsString_data s0
  generalize (getIdAsString s0).2 = s1 at hok p1 d1
  obtain ⟨c1, e1b⟩ := M.ite_throw_step hok
  rw [e1b] at hok
  -- version = bytes->getU32()
  obtain ⟨version, h2, e2⟩ := M.step hok
  rw [e2] at hok
  obtain ⟨b2, v2, p2⟩ := getU32_inv h2
  have d2 := getU32_data s1
  generalize (getU32 s1).2 = s2 at hok p2 d2
  obtain ⟨c2, e2b⟩ := M.ite_throw_step hok
  rw [e2b] at hok
  -- type, format, width, height, pitchB
  obtain ⟨type, h3, e3⟩ := M.step hok
  rw [e3] at hok
  obtain ⟨b3, _, p3⟩ := getU32_inv h3
  have d3 := getU32_data s2
  generalize (getU32 s2).2 = s3 at hok p3 d3
  obtain ⟨format, h4, e4⟩ := M.step hok
  rw [e4] at hok
  obtain ⟨b4, _, p4⟩ := getU32_inv h4
  have d4 := getU32_data s3
  generalize (getU32 s3).2 = s4 at hok p4 d4
  obtain ⟨width, h5, e5⟩ := M.step hok
  rw [e5] at hok
  obtain ⟨b5, _, p5⟩ := getU32_inv h5
  have d5 := getU32_data s4
  generalize (getU32 s4).2 = s5 at hok p5 d5
  obtain ⟨height, h6, e6⟩ := M.step hok
  rw [e6] at hok
  obtain ⟨b6, _, p6⟩ := getU32_inv h6
  have d6 := getU32_data s5
  generalize (getU32 s5).2 = s6 at hok p6 d6
  obtain ⟨pitchB, h7, e7⟩ := M.step hok
  rw [e7] at hok
  obtain ⟨b7, _, p7⟩ := getU32_inv h7
  have d7 := getU32_data s6
  generalize (getU32 s6).2 = s7 at hok p7 d7
  -- dataOffset = bytes->getPosition()
  obtain ⟨dataOffset, h8, e8⟩ := M.step hok
  rw [e8] at hok
  rw [getPosition_fst] at h8
  injection h8 with h8
  rw [getPosition_snd, M.pure_apply] at hok
  injection hok with hok
  subst hok
  have hpos : dataOffset = o + 28 := by omega
  have hlen : s6.data.length = b.data.length := by rw [d6, d5, d4, d3, d2, d1, d0]
  rw [p1, p0, d1, d0] at v2
  rw [p0, d0] at v1
  subst v1 v2
  refine ⟨by omega, ?_, by omega, hpos, ?_⟩
  · rw [not_not] at c1
    exact (cstr_idAt_SECi _ _).1 c1
  · show sub32 l (sub32 dataOffset o) = sub32 l 28
    rw [hpos, sub32_add_self]

theorem stable_image_block (d : X3fDirectory) :
    Stable (Sim2 : ByteStream × X3fDecoder → ByteStream × X3fDecoder → Prop) dat2
      (readDirectory.image d) := by
  unfold readDirectory.image
  exact stable_ite _ (stable_bind (stable_onFst (stable_X3fImage_ctor _ _)) fun _ =>
    stable_modifySnd _) (stable_pure _)

theorem stable_props_block (d : X3fDirectory) :
    Stable (Sim2 : ByteStream × X3fDecoder → ByteStream × X3fDecoder → Prop) dat2
      (readDirectory.props d) := by
  unfold readDirectory.props
  exact stable_ite _ (stable_onProps (stable_addProperties _ _)) (stable_pure _)

theorem image_block_inv (d : X3fDirectory) (s : ByteStream) (dec : X3fDecoder)
    (hok : (readDirectory.image d (s, dec)).1 = Except.ok ()) :
    (readDirectory.image d (s, dec)).2.2.mDirectory = dec.mDirectory ∧
    (readDirectory.image d (s, dec)).2.2.mProperties = dec.mProperties ∧
    ∃ imgs, (readDirectory.image d (s, dec)).2.2.mImages = dec.mImages ++ imgs ∧
      List.Forall₂ (ImageOf s.data) ([d].filter isImageEntry) imgs := by
  unfold readDirectory.image at hok ⊢
  by_cases c : IMA2 = d.id ∨ IMAG = d.id
  · have ci : isImageEntry d = true := by
      unfold isImageEntry
      rcases c with c | c
      · exact decide_eq_true (Or.inr c.symm)
      · exact decide_eq_true (Or.inl c.symm)
    rw [if_pos c] at hok ⊢
    obtain ⟨img, h1, e1⟩ := M.step hok
    rw [e1]
    refine ⟨rfl, rfl, [img], rfl, ?_⟩
    rw [List.filter_cons_of_pos ci, List.filter_nil]
    refine List.Forall₂.cons ?_ List.Forall₂.nil
    intro b0 hb0
    rw [X3fImage_ctor_indep _ _ b0 s hb0]
    exact h1
  · have ci : isImageEntry d = false := by
      unfold isImageEntry
      refine decide_eq_false ?_
      intro h
      rcases h with h | h
      · exact c (Or.inr h.symm)
      · exact c (Or.inl h.symm)
    rw [if_neg c]
    refine ⟨rfl, rfl, [], (List.append_nil _).symm, ?_⟩
    have : [d].filter isImageEntry = [] := by
      rw [List.filter_cons_of_neg (by rw [ci]; decide), List.filter_nil]
    rw [this]
    exact List.Forall₂.nil

theorem props_block_run (d : X3fDirectory) (s : ByteStream) (dec : X3fDecoder) :
    (readDirectory.props d (s, dec)).2.2.mDirectory = dec.mDirectory ∧
    (readDirectory.props d (s, dec)).2.2.mImages = dec.mImages ∧
    (readDirectory.props d (s, dec)).2.2.mProperties =
      propsAfter s.data dec.mProperties ([d].filter isPropEntry) := by
  unfold readDirectory.props
  by_cases c : PROP = d.id
  · have ci : isPropEntry d = true := by
      unfold isPropEntry
      exact decide_eq_true c.symm
    rw [if_pos c, List.filter_cons_of_pos ci, List.filter_nil]
    refine ⟨rfl, rfl, ?_⟩
    show (addProperties d.offset d.length (s, dec.mProperties)).2.2 = _
    unfold propsAfter
    rw [List.foldl_cons, List.foldl_nil]
    exact (addProperties_indep d.offset d.length s
      { data := s.data, pos := 0, log := [] } dec.mProperties rfl).2
  · have ci : isPropEntry d = false := by
      unfold isPropEntry
      exact decide_eq_false (fun h => c h.symm)
    rw [if_neg c, List.filter_cons_of_neg (by rw [ci]; decide), List.filter_nil]
    exact ⟨rfl, rfl, rfl⟩


theorem Collected.nil (data : List Nat) (dec : X3fDecoder) : Collected data [] dec dec := by
  refine ⟨(List.append_nil _).symm, ⟨[], (List.append_nil _).symm, ?_⟩, rfl⟩
  exact List.Forall₂.nil

theorem propsAfter_append (data : List Nat) (p : Props) (xs ys : List X3fDirectory) :
    propsAfter data p (xs ++ ys) = propsAfter data (propsAfter data p xs) ys := by
  unfold propsAfter
  rw [List.foldl_append]

theorem forall₂_append {α β : Type} {R : α → β → Prop} {xs : List α} {ys : List β}
    {xs1 : List α} {ys1 : List β} (h : List.Forall₂ R xs ys) (h1 : List.Forall₂ R xs1 ys1) :
    List.Forall₂ R (xs ++ xs1) (ys ++ ys1) := by
  induction h with
  | nil => exact h1
  | cons hab _ ih => exact List.Forall₂.cons hab ih

theorem Collected.trans {data : List Nat} {ds1 ds2 : List X3fDirectory}
    {dec0 dec1 dec2 : X3fDecoder} (h1 : Collected data ds1 dec0 dec1)
    (h2 : Collected data ds2 dec1 dec2) : Collected data (ds1 ++ ds2) dec0 dec2 := by
  obtain ⟨a1, ⟨i1, b1, f1⟩, c1⟩ := h1
  obtain ⟨a2, ⟨i2, b2, f2⟩, c2⟩ := h2
  refine ⟨?_, ⟨i1 ++ i2, ?_, ?_⟩, ?_⟩
  · rw [a2, a1, List.append_assoc]
  · rw [b2, b1, List.append_assoc]
  · rw [List.filter_append]
    exact forall₂_append f1 f2
  · rw [c2, c1, List.filter_append, propsAfter_append]

theorem modifySnd_bind {σ τ β : Type} (f : τ → τ) (g : Unit → M (σ × τ) β) (s : σ) (t : τ) :
    (modifySnd f >>= g) (s, t) = g () (s, f t) := rfl

theorem getPosition_bind {τ β : Type} (g : Nat → M (ByteStream × τ) β) (s : ByteStream)
    (t : τ) : (onFst getPosition >>= g) (s, t) = g s.pos (s, t) := rfl

theorem readDirectory_entry_inv (b : ByteStream) (dec : X3fDecoder)
    (hok : (readDirectory.entry (b, dec)).1 = Except.ok ()) :
    b.pos + 12 ≤ b.data.length ∧
    (dirEntryAt b.data b.pos).offset + 4 ≤ b.data.length ∧
    (readDirectory.entry (b, dec)).2.1.data = b.data ∧
    (readDirectory.entry (b, dec)).2.1.pos = b.pos + 12 ∧
    Collected b.data [dirEntryAt b.data b.pos] dec (readDirectory.entry (b, dec)).2.2 := by
  unfold readDirectory.entry at hok ⊢
  -- X3fDirectory dir(&bytes)
  obtain ⟨dir, h1, e1⟩ := M.step hok
  rw [e1] at hok ⊢
  obtain ⟨b1, v1, o1, p1⟩ := X3fDirectory_ctor_inv h1
  have d1 := stable_X3fDirectory_ctor.data b
  rw [onFst_snd] at hok ⊢
  simp only [] at hok p1 d1 ⊢
  generalize (X3fDirectory.ctor b).2 = s1 at hok p1 d1 ⊢
  -- decoder->mDirectory.push_back(dir); old_pos = bytes.getPosition()
  rw [modifySnd_bind, getPosition_bind] at hok ⊢
  -- the image block
  obtain ⟨_, h4, e4⟩ := M.step hok
  rw [e4] at hok ⊢
  obtain ⟨m4, q4, i4, j4, f4⟩ := image_block_inv dir s1 _ h4
  have d4 := (stable_image_block dir).data (s1, { dec with mDirectory := dec.mDirectory ++ [dir] })
  generalize (readDirectory.image dir
    (s1, { dec with mDirectory := dec.mDirectory ++ [dir] })).2 = st4 at hok m4 q4 j4 d4 ⊢
  -- the property block
  obtain ⟨_, h5, e5⟩ := M.step hok
  rw [e5] at hok ⊢
  obtain ⟨m5, i5, q5⟩ := props_block_run dir st4.1 st4.2
  have d5 := (stable_props_block dir).data st4
  generalize (readDirectory.props dir st4).2 = st5 at hok m5 i5 q5 d5 ⊢
  -- bytes.setPosition(old_pos)
  rw [onFst_snd]
  simp only [dat2] at d4 d5
  refine ⟨b1, ?_, ?_, ?_, ?_, ⟨i4, ?_, ?_⟩, ?_⟩
  · rw [← v1]; exact o1
  · show (setPosition s1.pos st5.1).2.data = b.data
    rw [setPosition_data, d5, d4, d1]
  · show (setPosition s1.pos st5.1).2.pos = b.pos + 12
    rw [setPosition_pos, p1]
  · show st5.2.mDirectory = dec.mDirectory ++ [dirEntryAt b.data b.pos]
    rw [m5, m4, v1]
  · show st5.2.mImages = dec.mImages ++ i4
    rw [i5, j4]
  · rw [← v1, ← d1]; exact f4
  · show st5.2.mProperties = _
    rw [q5, q4, d4, d1, v1]


theorem readDirectory_loop_inv (n : Nat) : ∀ (b : ByteStream) (dec : X3fDecoder),
    (readDirectory.loop n (b, dec)).1 = Except.ok () →
    (∀ d ∈ dirEntries b.data b.pos n, d.offset + 4 ≤ b.data.length) ∧
    Collected b.data (dirEntries b.data b.pos n) dec (readDirectory.loop n (b, dec)).2.2 := by
  induction n with
  | zero =>
    intro b dec _
    refine ⟨?_, Collected.nil _ _⟩
    intro d hd
    cases hd
  | succ n ih =>
    intro b dec hok
    unfold readDirectory.loop at hok ⊢
    obtain ⟨_, h1, e1⟩ := M.step hok
    rw [e1] at hok ⊢
    obtain ⟨b1, o1, d1, p1, c1⟩ := readDirectory_entry_inv b dec h1
    generalize (readDirectory.entry (b, dec)).2 = st at hok d1 p1 c1 ⊢
    obtain ⟨o2, c2⟩ := ih st.1 st.2 hok
    rw [d1, p1] at o2 c2
    refine ⟨?_, ?_⟩
    · intro d hd
      unfold dirEntries at hd
      rcases List.mem_cons.1 hd with hd | hd
      · rw [hd]; exact o1
      · exact o2 d hd
    · unfold dirEntries
      exact Collected.trans c1 c2

theorem readDirectory_inv (bytes : ByteStream) (dec : X3fDecoder)
    (h4 : 4 ≤ bytes.data.length)
    (hok : (readDirectory bytes.data.length (bytes, dec)).1 = Except.ok ()) :
    (∀ d ∈ directoryOf bytes.data, d.offset + 4 ≤ bytes.data.length) ∧
    Collected bytes.data (directoryOf bytes.data) dec
      (readDirectory bytes.data.length (bytes, dec)).2.2 := by
  obtain ⟨_, _, _, b1, d1, p1, e1⟩ := readDirectory_header bytes dec h4 hok
  rw [e1] at hok ⊢
  obtain ⟨o2, c2⟩ := readDirectory_loop_inv _ b1 dec hok
  rw [d1, p1] at o2 c2
  exact ⟨o2, c2⟩

/-! ## What the directory loop collects -/

theorem forall₂_exists {α β : Type} {R : α → β → Prop} {xs : List α} {ys : List β}
    (h : List.Forall₂ R xs ys) : ∀ x ∈ xs, ∃ y, R x y := by
  induction h with
  | nil => intro x hx; cases hx
  | cons hab _ ih =>
    intro x hx
    rcases List.mem_cons.1 hx with hx | hx
    · rw [hx]; exact ⟨_, hab⟩
    · exact ih x hx

/-- C4: after a successful `readDirectory` the decoder holds the entries of the
directory in file order, one image for each entry tagged "IMAG" or "IMA2", in
the same order and built by `X3fImage` from that entry's offset and length,
and the properties obtained by running `addProperties` on exactly the entries
tagged "PROP"; entries with another tag add nothing to either. -/
theorem readDirectory_collects (bytes : ByteStream) (h4 : 4 ≤ bytes.data.length)
    (hok : (readDirectory bytes.data.length (bytes, X3fDecoder.new)).1 = Except.ok ()) :
    (readDirectory bytes.data.length (bytes, X3fDecoder.new)).2.2.mDirectory =
      directoryOf bytes.data ∧
    List.Forall₂ (ImageOf bytes.data) ((directoryOf bytes.data).filter isImageEntry)
      (readDirectory bytes.data.length (bytes, X3fDecoder.new)).2.2.mImages ∧
    (readDirectory bytes.data.length (bytes, X3fDecoder.new)).2.2.mProperties =
      propsAfter bytes.data [] ((directoryOf bytes.data).filter isPropEntry) := by
  obtain ⟨_, hd, ⟨imgs, hi, hf⟩, hp⟩ := readDirectory_inv bytes X3fDecoder.new h4 hok
  refine ⟨?_, ?_, hp⟩
  · rw [hd]; rfl
  · rw [hi]; exact hf

theorem readDirectory_collects_witness :
    (readDirectory (ByteStream.ofBuffer sampleDirectory 0 244).data.length
      (ByteStream.ofBuffer sampleDirectory 0 244, X3fDecoder.new)).2.2.mDirectory =
      directoryOf (ByteStream.ofBuffer sampleDirectory 0 244).data ∧
    List.Forall₂ (ImageOf (ByteStream.ofBuffer sampleDirectory 0 244).data)
      ((directoryOf (ByteStream.ofBuffer sampleDirectory 0 244).data).filter isImageEntry)
      (readDirectory (ByteStream.ofBuffer sampleDirectory 0 244).data.length
        (ByteStream.ofBuffer sampleDirectory 0 244, X3fDecoder.new)).2.2.mImages ∧
    (readDirectory (ByteStream.ofBuffer sampleDirectory 0 244).data.length
      (ByteStream.ofBuffer sampleDirectory 0 244, X3fDecoder.new)).2.2.mProperties =
      propsAfter (ByteStream.ofBuffer sampleDirectory 0 244).data []
        ((directoryOf (ByteStream.ofBuffer sampleDirectory 0 244).data).filter isPropEntry) :=
  readDirectory_collects (ByteStream.ofBuffer sampleDirectory 0 244) (by decide) (by decide!)

/-- C5 as stated fails: `readDirectory` succeeds on `sampleDirectory` and keeps
an entry with offset 112 and length `0xFFFFFFFF` in a 244-byte buffer, and the
image it keeps was built from an entry of length 0, its `dataSize` being
`0 - 28` in `uint32`. -/
theorem readDirectory_keeps_unchecked_length :
    (readDirectory 244 (ByteStream.ofBuffer sampleDirectory 0 244, X3fDecoder.new)).1 =
      Except.ok () ∧
    (readDirectory 244 (ByteStream.ofBuffer sampleDirectory 0 244,
      X3fDecoder.new)).2.2.mDirectory =
      [{ offset := 40, length := 0, id := IMAG, sectionID := SECi },
       { offset := 72, length := 40, id := PROP, sectionID := SECp },
       { offset := 112, length := 4294967295, id := [88, 88, 88, 88],
         sectionID := [88, 88, 88, 88] }] ∧
    (readDirectory 244 (ByteStream.ofBuffer sampleDirectory 0 244,
      X3fDecoder.new)).2.2.mImages =
      [{ type := 2, format := 3, width := 1, height := 1, pitchB := 4, dataOffset := 68,
         dataSize := 4294967268 }] ∧
    ¬ (112 + 4294967295 ≤ sampleDirectory.length) := by
  decide!

/-- C5, amended: every entry that a successful `readDirectory` keeps has the
four bytes of its section identifier inside the buffer, `offset + 4 <= size`
computed without wrap-around, and every entry it turns into an image has the
28-byte image header inside the buffer; an entry that violates this makes the
parse fail.  The length field is not compared with the buffer. -/
theorem readDirectory_entries_in_bounds (bytes : ByteStream) (h4 : 4 ≤ bytes.data.length)
    (hok : (readDirectory bytes.data.length (bytes, X3fDecoder.new)).1 = Except.ok ()) :
    ∀ d ∈ (readDirectory bytes.data.length (bytes, X3fDecoder.new)).2.2.mDirectory,
      d.offset + 4 ≤ bytes.data.length ∧
        (isImageEntry d = true → d.offset + 28 ≤ bytes.data.length) := by
  obtain ⟨ho, hd, ⟨imgs, _, hf⟩, _⟩ := readDirectory_inv bytes X3fDecoder.new h4 hok
  intro d hmem
  rw [hd] at hmem
  have hmem1 : d ∈ directoryOf bytes.data := by simpa [X3fDecoder.new] using hmem
  refine ⟨ho d hmem1, ?_⟩
  intro himg
  obtain ⟨img, hImg⟩ := forall₂_exists hf d (List.mem_filter.2 ⟨hmem1, himg⟩)
  exact (X3fImage_ctor_inv (hImg bytes rfl)).1

theorem readDirectory_entries_in_bounds_witness :
    (40 + 4 ≤ (ByteStream.ofBuffer sampleDirectory 0 244).data.length ∧
      40 + 28 ≤ (ByteStream.ofBuffer sampleDirectory 0 244).data.length) ∧
    112 + 4 ≤ (ByteStream.ofBuffer sampleDirectory 0 244).data.length :=
  ⟨⟨(readDirectory_entries_in_bounds (ByteStream.ofBuffer sampleDirectory 0 244)
      (by decide) (by decide!)
      { offset := 40, length := 0, id := IMAG, sectionID := SECi } (by decide!)).1,
    (readDirectory_entries_in_bounds (ByteStream.ofBuffer sampleDirectory 0 244)
      (by decide) (by decide!)
      { offset := 40, length := 0, id := IMAG, sectionID := SECi } (by decide!)).2
        (by decide)⟩,
   (readDirectory_entries_in_bounds (ByteStream.ofBuffer sampleDirectory 0 244)
      (by decide) (by decide!)
      { offset := 112, length := 4294967295, id := [88, 88, 88, 88],
        sectionID := [88, 88, 88, 88] } (by decide!)).1⟩

/-! ## The UTF-16 to UTF-8 conversion -/

theorem trail_byte (ch : Nat) : ((ch ||| 0x80) &&& 0xBF) % 256 = 0x80 + ch % 64 := by
  have e1 : (0x80 : Nat) = 2 ^ 7 := by norm_num
  have e2 : (0xBF : Nat) = (2 ^ 6 - 1) ||| 2 ^ 7 := by decide
  have e3 : (256 : Nat) = 2 ^ 8 := by norm_num
  have e4 : (64 : Nat) = 2 ^ 6 := by norm_num
  have hlt : ch % 2 ^ 6 < 2 ^ 7 := by
    have : ch % 2 ^ 6 < 2 ^ 6 := Nat.mod_lt _ (by norm_num)
    omega
  have e5 : 2 ^ 7 + ch % 2 ^ 6 = 2 ^ 7 * 1 ||| ch % 2 ^ 6 := by
    rw [← Nat.mul_add_lt_is_or hlt, Nat.mul_one]
  rw [e2, e1, e3, e4, e5]
  apply Nat.eq_of_testBit_eq
  intro i
  simp only [Nat.testBit_mod_two_pow, Nat.testBit_and, Nat.testBit_or, Nat.testBit_two_pow,
    Nat.testBit_two_pow_sub_one, Nat.mul_one]
  by_cases h6 : i < 6 <;> by_cases h7 : 7 = i <;> by_cases h8 : i < 8 <;>
    simp [h6, h7, h8] <;> omega

theorem lead_byte2 (c : Nat) (h : c < 32) : (c ||| 0xC0) % 256 = 0xC0 + c := by
  interval_cases c <;> rfl

theorem lead_byte3 (c : Nat) (h : c < 16) : (c ||| 0xE0) % 256 = 0xE0 + c := by
  interval_cases c <;> rfl

theorem lead_byte4 (c : Nat) (h : c < 8) : (c ||| 0xF0) % 256 = 0xF0 + c := by
  interval_cases c <;> rfl

theorem putChar_eq_utf8Encode (cp : Nat) (hcp : cp < 0x110000) :
    putChar (bytesToWrite cp).1 (bytesToWrite cp).2 = utf8Encode cp := by
  unfold bytesToWrite utf8Encode
  by_cases h1 : cp < 0x80
  · rw [if_pos h1, if_pos h1]
    simp only [putChar, trailBytes, firstByteMark, List.getD_cons_succ, List.getD_cons_zero,
      Nat.or_zero]
    rw [Nat.mod_eq_of_lt (by omega)]
  · rw [if_neg h1, if_neg h1]
    by_cases h2 : cp < 0x800
    · rw [if_pos h2, if_pos h2]
      simp only [putChar, trailBytes, firstByteMark, List.getD_cons_succ, List.getD_cons_zero,
        Nat.shiftRight_eq_div_pow, trail_byte]
      rw [lead_byte2 _ (by omega)]
    · rw [if_neg h2, if_neg h2]
      by_cases h3 : cp < 0x10000
      · rw [if_pos h3, if_pos h3]
        simp only [putChar, trailBytes, firstByteMark, List.getD_cons_succ, List.getD_cons_zero,
          Nat.shiftRight_eq_div_pow, trail_byte]
        rw [lead_byte3 _ (by omega)]
        norm_num
        omega
      · rw [if_neg h3, if_neg h3, if_pos hcp]
        simp only [putChar, trailBytes, firstByteMark, List.getD_cons_succ, List.getD_cons_zero,
          Nat.shiftRight_eq_div_pow, trail_byte]
        rw [lead_byte4 _ (by omega)]
        norm_num
        omega


theorem bytesToWrite_le (cp : Nat) : (bytesToWrite cp).1 ≤ 4 := by
  unfold bytesToWrite
  split_ifs <;> simp

theorem bytesToWrite_bmp (cp : Nat) (h : cp < 0x10000) : (bytesToWrite cp).1 ≤ 3 := by
  unfold bytesToWrite
  split_ifs <;> simp

theorem emit_some (room : Nat) (out : List Nat) (ch : Nat)
    (h : out.length + (bytesToWrite ch).1 ≤ room) :
    emit room out ch = some (out ++ putChar (bytesToWrite ch).1 (bytesToWrite ch).2) := by
  unfold emit
  rw [if_neg (by omega)]

theorem putChar_length (n ch : Nat) (hn : 1 ≤ n) : (putChar n ch).length = n := by
  have key : ∀ k c acc, (trailBytes k c acc).2.length = k + acc.length := by
    intro k
    induction k with
    | zero => intro c acc; simp [trailBytes]
    | succ k ih => intro c acc; simp only [trailBytes]; rw [ih]; simp; omega
  unfold putChar
  rw [List.length_cons, key]
  simp
  omega

theorem bytesToWrite_pos (cp : Nat) : 1 ≤ (bytesToWrite cp).1 := by
  unfold bytesToWrite
  split_ifs <;> simp

theorem pair_eq (u v : Nat) (hu : 0xD800 ≤ u) (hv : 0xDC00 ≤ v) :
    0x0010000 + ((sub32 u 0xD800 <<< 10) + sub32 v 0xDC00) =
      0x10000 + ((u - 0xD800) <<< 10) + (v - 0xDC00) := by
  rw [sub32_of_le _ _ hu, sub32_of_le _ _ hv, Nat.add_assoc]

theorem pair_lt (u v : Nat) (hu : u ≤ 0xDBFF) (hv : v ≤ 0xDFFF) :
    0x10000 + ((u - 0xD800) <<< 10) + (v - 0xDC00) < 0x110000 := by
  rw [Nat.shiftLeft_eq]
  omega

/-- The conversion loop on a well-formed sequence, from any point of the
target with enough room left. -/
theorem convert_loop_wellformed (room : Nat) : ∀ (src out cps : List Nat),
    (∀ u ∈ src, u < 0x10000) → utf16CodePoints src = some cps →
    out.length + 3 * src.length ≤ room →
    ConvertUTF16toUTF8.loop room src out = (true, out ++ cps.flatMap utf8Encode)
  | [], out, cps, _, hw, _ => by
    simp only [utf16CodePoints, Option.some.injEq] at hw
    subst hw
    simp [ConvertUTF16toUTF8.loop]
  | [ch], out, cps, hu, hw, hroom => by
    have hch : ch < 0x10000 := hu ch (List.mem_singleton.2 rfl)
    unfold utf16CodePoints at hw
    by_cases hs : 0xD800 ≤ ch ∧ ch ≤ 0xDFFF
    · rw [if_pos hs] at hw; cases hw
    · rw [if_neg hs] at hw
      injection hw with hw
      subst hw
      unfold ConvertUTF16toUTF8.loop
      rw [if_neg (by omega)]
      have hb := bytesToWrite_bmp ch hch
      rw [emit_some room out ch (by simp at hroom; omega),
        putChar_eq_utf8Encode ch (by omega)]
      simp
  | ch :: ch2 :: rest, out, cps, hu, hw, hroom => by
    have hch : ch < 0x10000 := hu ch (List.mem_cons_self _ _)
    have hch2 : ch2 < 0x10000 := hu ch2 (List.mem_cons_of_mem _ (List.mem_cons_self _ _))
    have hu2 : ∀ u ∈ ch2 :: rest, u < 0x10000 := fun u h => hu u (List.mem_cons_of_mem _ h)
    have hu3 : ∀ u ∈ rest, u < 0x10000 := fun u h => hu2 u (List.mem_cons_of_mem _ h)
    simp only [List.length_cons] at hroom
    unfold utf16CodePoints at hw
    unfold ConvertUTF16toUTF8.loop
    by_cases hh : 0xD800 ≤ ch ∧ ch ≤ 0xDBFF
    · rw [if_pos hh] at hw ⊢
      by_cases hl : 0xDC00 ≤ ch2 ∧ ch2 ≤ 0xDFFF
      · rw [if_pos hl] at hw ⊢
        cases hr : utf16CodePoints rest with
        | none => rw [hr] at hw; cases hw
        | some cps1 =>
          rw [hr] at hw
          simp only [Option.map_some', Option.some.injEq] at hw
          subst hw
          have hp := pair_lt ch ch2 hh.2 hl.2
          rw [pair_eq ch ch2 hh.1 hl.1]
          have hb := bytesToWrite_le (0x10000 + ((ch - 0xD800) <<< 10) + (ch2 - 0xDC00))
          rw [emit_some room out _ (by omega)]
          simp only []
          rw [convert_loop_wellformed room rest _ cps1 hu3 hr (by
            rw [List.length_append, putChar_length _ _ (bytesToWrite_pos _)]
            omega)]
          rw [putChar_eq_utf8Encode _ hp]
          simp
      · rw [if_neg hl] at hw; cases hw
    · rw [if_neg hh] at hw ⊢
      by_cases hl : 0xDC00 ≤ ch ∧ ch ≤ 0xDFFF
      · rw [if_pos hl] at hw; cases hw
      · rw [if_neg hl] at hw
        cases hr : utf16CodePoints (ch2 :: rest) with
        | none => rw [hr] at hw; cases hw
        | some cps1 =>
          rw [hr] at hw
          simp only [Option.map_some', Option.some.injEq] at hw
          subst hw
          have hb := bytesToWrite_bmp ch hch
          rw [emit_some room out ch (by omega)]
          simp only []
          rw [convert_loop_wellformed room (ch2 :: rest) _ cps1 hu2 hr (by
            rw [List.length_append, putChar_length _ _ (bytesToWrite_pos _)]
            simp only [List.length_cons]
            omega)]
          rw [putChar_eq_utf8Encode ch (by omega)]
          simp

/-- C9: on a UTF-16 sequence without unpaired surrogates, with room for three
bytes per code unit, `ConvertUTF16toUTF8` reports success and stores the
standard UTF-8 encoding of the code points, four bytes for each surrogate
pair. -/
theorem ConvertUTF16toUTF8_wellformed (source cps : List Nat) (room : Nat)
    (hu : ∀ u ∈ source, u < 0x10000) (hw : utf16CodePoints source = some cps)
    (hroom : 3 * source.length ≤ room) :
    ConvertUTF16toUTF8 source room = (true, cps.flatMap utf8Encode) := by
  unfold ConvertUTF16toUTF8
  rw [convert_loop_wellformed room source [] cps hu hw (by simpa using hroom)]
  simp

theorem ConvertUTF16toUTF8_wellformed_witness :
    ConvertUTF16toUTF8 [0x41, 0xE9, 0x20AC, 0xD83D, 0xDE00] 15 =
      (true, [0x41, 0xE9, 0x20AC, 0x1F600].flatMap utf8Encode) :=
  ConvertUTF16toUTF8_wellformed [0x41, 0xE9, 0x20AC, 0xD83D, 0xDE00]
    [0x41, 0xE9, 0x20AC, 0x1F600] 15 (by decide) (by decide) (by decide)

theorem endsWithHigh_cons_cons (a b : Nat) (rest : List Nat) :
    endsWithHighSurrogate (a :: b :: rest) ↔ endsWithHighSurrogate (b :: rest) := by
  unfold endsWithHighSurrogate
  rw [List.getLast?_cons_cons]

theorem endsWithHigh_pair (a b : Nat) (rest : List Nat) (hb : ¬ (0xD800 ≤ b ∧ b ≤ 0xDBFF)) :
    endsWithHighSurrogate (a :: b :: rest) ↔ endsWithHighSurrogate rest := by
  rw [endsWithHigh_cons_cons]
  unfold endsWithHighSurrogate
  cases rest with
  | nil =>
    simp only [List.getLast?_singleton, List.getLast?_nil, Option.some.injEq]
    constructor
    · rintro ⟨u, rfl, h⟩; exact absurd h hb
    · rintro ⟨u, h, _⟩; cases h
  | cons c rest => rw [List.getLast?_cons_cons]

/-- The conversion loop with enough room succeeds exactly when the source does
not end in a high surrogate. -/
theorem convert_loop_success_iff (room : Nat) : ∀ (src out : List Nat),
    (∀ u ∈ src, u < 0x10000) → out.length + 3 * src.length ≤ room →
    ((ConvertUTF16toUTF8.loop room src out).1 = true ↔ ¬ endsWithHighSurrogate src)
  | [], out, _, _ => by
    unfold ConvertUTF16toUTF8.loop endsWithHighSurrogate
    simp
  | [ch], out, hu, hroom => by
    have hch : ch < 0x10000 := hu ch (List.mem_singleton.2 rfl)
    unfold ConvertUTF16toUTF8.loop endsWithHighSurrogate
    simp only [List.getLast?_singleton, Option.some.injEq]
    by_cases hh : 0xD800 ≤ ch ∧ ch ≤ 0xDBFF
    · rw [if_pos hh]
      simp only [Bool.false_eq_true, false_iff, not_not]
      exact ⟨ch, rfl, hh⟩
    · rw [if_neg hh]
      have hb := bytesToWrite_bmp ch hch
      rw [emit_some room out ch (by simp at hroom; omega)]
      simp only [true_iff]
      rintro ⟨u, rfl, h⟩
      exact hh h
  | ch :: ch2 :: rest, out, hu, hroom => by
    have hch : ch < 0x10000 := hu ch (List.mem_cons_self _ _)
    have hu2 : ∀ u ∈ ch2 :: rest, u < 0x10000 := fun u h => hu u (List.mem_cons_of_mem _ h)
    have hu3 : ∀ u ∈ rest, u < 0x10000 := fun u h => hu2 u (List.mem_cons_of_mem _ h)
    simp only [List.length_cons] at hroom
    have hb := bytesToWrite_bmp ch hch
    unfold ConvertUTF16toUTF8.loop
    by_cases hh : 0xD800 ≤ ch ∧ ch ≤ 0xDBFF
    · rw [if_pos hh]
      by_cases hl : 0xDC00 ≤ ch2 ∧ ch2 ≤ 0xDFFF
      · rw [if_pos hl]
        have hb4 := bytesToWrite_le (0x0010000 + ((sub32 ch 0xD800 <<< 10) + sub32 ch2 0xDC00))
        rw [emit_some room out _ (by omega)]
        simp only []
        rw [endsWithHigh_pair ch ch2 rest (by omega)]
        exact convert_loop_success_iff room rest _ hu3 (by
          rw [List.length_append, putChar_length _ _ (bytesToWrite_pos _)]
          omega)
      · rw [if_neg hl, emit_some room out ch (by omega)]
        simp only []
        rw [endsWithHigh_cons_cons]
        exact convert_loop_success_iff room (ch2 :: rest) _ hu2 (by
          rw [List.length_append, putChar_length _ _ (bytesToWrite_pos _)]
          simp only [List.length_cons]
          omega)
    · rw [if_neg hh, emit_some room out ch (by omega)]
      simp only []
      rw [endsWithHigh_cons_cons]
      exact convert_loop_success_iff room (ch2 :: rest) _ hu2 (by
        rw [List.length_append, putChar_length _ _ (bytesToWrite_pos _)]
        simp only [List.length_cons]
        omega)

/-- C10 as stated fails: a sequence that ends in a high surrogate makes
`ConvertUTF16toUTF8` report failure whatever the room, and an unpaired low
surrogate is stored in its own three-byte form `ED B0 80`, not as the
placeholder U+FFFD (`EF BF BD`). -/
theorem ConvertUTF16toUTF8_truncated_pair_fails :
    ConvertUTF16toUTF8 [0x41, 0xD800] 100 = (false, [0x41]) ∧
      ConvertUTF16toUTF8 [0xDC00, 0x41] 100 = (true, [0xED, 0xB0, 0x80, 0x41]) := by
  decide

/-- C10, amended: with room for three bytes per code unit,
`ConvertUTF16toUTF8` reports success exactly when the sequence does not end
in a high surrogate; unpaired surrogates anywhere else do not make it
fail. -/
theorem ConvertUTF16toUTF8_success_iff (source : List Nat) (room : Nat)
    (hu : ∀ u ∈ source, u < 0x10000) (hroom : 3 * source.length ≤ room) :
    (ConvertUTF16toUTF8 source room).1 = true ↔ ¬ endsWithHighSurrogate source := by
  unfold ConvertUTF16toUTF8
  exact convert_loop_success_iff room source [] hu (by simpa using hroom)

theorem ConvertUTF16toUTF8_success_iff_witness :
    (ConvertUTF16toUTF8 [0xDC00, 0xD800, 0x41] 9).1 = true ↔
      ¬ endsWithHighSurrogate [0xDC00, 0xD800, 0x41] :=
  ConvertUTF16toUTF8_success_iff [0xDC00, 0xD800, 0x41] 9 (by decide) (by decide)

/-! ## `X3fPropertyCollection::getString` -/


theorem byteAt_lt (d : List Nat) (i : Nat) : byteAt d i < 256 := by
  unfold byteAt
  exact Nat.mod_lt _ (by norm_num)

theorem u16At_lt (d : List Nat) (s k : Nat) : u16At d s k < 0x10000 := by
  unfold u16At
  have h1 := byteAt_lt d (s + 2 * k)
  have h2 := byteAt_lt d (s + 2 * k + 1)
  omega

/-- The scan of `getString` stops one past the first zero unit of index 1 or
more. -/
theorem getString_scan_found (unit : Nat → Nat) (max_len k : Nat) (hk : 1 ≤ k)
    (hlt : k < max_len) (hz : unit k = 0) (hnz : ∀ j, 1 ≤ j → j < k → unit j ≠ 0) :
    ∀ (fuel i : Nat), i ≤ k → k + 1 ≤ i + fuel →
      getString.scan unit max_len fuel i 0 = (k + 1, k)
  | 0, i, hi, hf => by omega
  | fuel + 1, i, hi, hf => by
    unfold getString.scan
    rw [if_pos ⟨by omega, rfl⟩]
    by_cases hik : i = k
    · subst hik
      rw [if_pos hz]
      cases fuel with
      | zero => rfl
      | succ f =>
        unfold getString.scan
        rw [if_neg (by omega)]
    · have hnext : (if unit i = 0 then i else 0) = 0 := by
        by_cases h0 : i = 0
        · subst h0; simp
        · rw [if_neg (hnz i (by omega) (by omega))]
      rw [hnext]
      exact getString_scan_found unit max_len k hk hlt hz hnz fuel (i + 1) (by omega) (by omega)

/-- The scan of `getString` never sets `src_end` when no unit of index 1 or
more is zero. -/
theorem getString_scan_none (unit : Nat → Nat) (max_len : Nat)
    (hnz : ∀ j, 1 ≤ j → j < max_len → unit j ≠ 0) :
    ∀ (fuel i : Nat), (getString.scan unit max_len fuel i 0).2 = 0
  | 0, i => rfl
  | fuel + 1, i => by
    unfold getString.scan
    by_cases hc : i < max_len ∧ (0 : Nat) = 0
    · rw [if_pos hc]
      have hnext : (if unit i = 0 then i else 0) = 0 := by
        by_cases h0 : i = 0
        · subst h0; simp
        · rw [if_neg (hnz i (by omega) hc.1)]
      rw [hnext]
      exact getString_scan_none unit max_len hnz fuel (i + 1)
    · rw [if_neg hc]

/-- What `getString` computes, in terms of the scan. -/
theorem getString_apply (s : ByteStream) (hpos : s.pos ≤ s.data.length) :
    (getString s).1 =
      (if (getString.scan (u16At s.data s.pos) ((s.data.length - s.pos) / 2)
            ((s.data.length - s.pos) / 2) 0 0).2 ≠ 0 then
        if (ConvertUTF16toUTF8
            ((List.range (getString.scan (u16At s.data s.pos) ((s.data.length - s.pos) / 2)
              ((s.data.length - s.pos) / 2) 0 0).2).map (u16At s.data s.pos))
            (sub32 (mul32 (getString.scan (u16At s.data s.pos) ((s.data.length - s.pos) / 2)
              ((s.data.length - s.pos) / 2) 0 0).1 4) 1)).1
        then Except.ok (cstr (ConvertUTF16toUTF8
            ((List.range (getString.scan (u16At s.data s.pos) ((s.data.length - s.pos) / 2)
              ((s.data.length - s.pos) / 2) 0 0).2).map (u16At s.data s.pos))
            (sub32 (mul32 (getString.scan (u16At s.data s.pos) ((s.data.length - s.pos) / 2)
              ((s.data.length - s.pos) / 2) 0 0).1 4) 1)).2)
        else Except.ok []
      else Except.ok []) := by
  unfold getString
  simp only [M.bind_apply, getRemainSize, getData]
  rw [if_neg (by omega)]
  simp only []
  split_ifs <;> rfl



theorem emit_inv (room : Nat) (out out1 : List Nat) (ch : Nat)
    (h : emit room out ch = some out1) :
    out1 = out ++ putChar (bytesToWrite ch).1 (bytesToWrite ch).2 ∧
      out1.length = out.length + (bytesToWrite ch).1 ∧ out1.length ≤ room := by
  unfold emit at h
  by_cases hc : out.length + (bytesToWrite ch).1 > room
  · rw [if_pos hc] at h; cases h
  · rw [if_neg hc] at h
    injection h with h
    subst h
    rw [List.length_append, putChar_length _ _ (bytesToWrite_pos _)]
    exact ⟨rfl, rfl, by omega⟩

theorem bytesToWrite_pair (c : Nat) : 3 ≤ (bytesToWrite (0x0010000 + c)).1 := by
  unfold bytesToWrite
  rw [if_neg (by omega), if_neg (by omega), if_neg (by omega)]
  split_ifs <;> simp

/-- A successful conversion has stored at least one byte per source unit
within the room. -/
theorem convert_loop_true_length (room : Nat) : ∀ (src out : List Nat),
    out.length ≤ room → (ConvertUTF16toUTF8.loop room src out).1 = true →
    out.length + src.length ≤ room
  | [], out, ho, _ => by simpa using ho
  | [ch], out, ho, h => by
    unfold ConvertUTF16toUTF8.loop at h
    by_cases hh : 0xD800 ≤ ch ∧ ch ≤ 0xDBFF
    · rw [if_pos hh] at h; cases h
    · rw [if_neg hh] at h
      cases he : emit room out ch with
      | none => rw [he] at h; cases h
      | some out1 =>
        have hi := emit_inv room out out1 ch he
        have hp := bytesToWrite_pos ch
        simp only [List.length_singleton]
        omega
  | ch :: ch2 :: rest, out, ho, h => by
    unfold ConvertUTF16toUTF8.loop at h
    simp only [List.length_cons]
    by_cases hh : 0xD800 ≤ ch ∧ ch ≤ 0xDBFF
    · rw [if_pos hh] at h
      by_cases hl : 0xDC00 ≤ ch2 ∧ ch2 ≤ 0xDFFF
      · rw [if_pos hl] at h
        cases he : emit room out (0x0010000 + ((sub32 ch 0xD800 <<< 10) + sub32 ch2 0xDC00)) with
        | none => rw [he] at h; cases h
        | some out1 =>
          rw [he] at h
          have hi := emit_inv room out out1 _ he
          have hp := bytesToWrite_pair ((sub32 ch 0xD800 <<< 10) + sub32 ch2 0xDC00)
          have hr := convert_loop_true_length room rest out1 hi.2.2 h
          omega
      · rw [if_neg hl] at h
        cases he : emit room out ch with
        | none => rw [he] at h; cases h
        | some out1 =>
          rw [he] at h
          have hi := emit_inv room out out1 _ he
          have hp := bytesToWrite_pos ch
          have hr := convert_loop_true_length room (ch2 :: rest) out1 hi.2.2 h
          simp only [List.length_cons] at hr
          omega
    · rw [if_neg hh] at h
      cases he : emit room out ch with
      | none => rw [he] at h; cases h
      | some out1 =>
        rw [he] at h
        have hi := emit_inv room out out1 _ he
        have hp := bytesToWrite_pos ch
        have hr := convert_loop_true_length room (ch2 :: rest) out1 hi.2.2 h
        simp only [List.length_cons] at hr
        omega

/-- The bytes stored so far stay at the front of what the conversion
returns. -/
theorem convert_loop_prefix (room : Nat) : ∀ (src out : List Nat),
    ∃ tail, (ConvertUTF16toUTF8.loop room src out).2 = out ++ tail
  | [], out => ⟨[], by simp [ConvertUTF16toUTF8.loop]⟩
  | [ch], out => by
    unfold ConvertUTF16toUTF8.loop
    by_cases hh : 0xD800 ≤ ch ∧ ch ≤ 0xDBFF
    · rw [if_pos hh]; exact ⟨[], by simp⟩
    · rw [if_neg hh]
      cases he : emit room out ch with
      | none => exact ⟨[], by simp⟩
      | some out1 => exact ⟨_, (emit_inv room out out1 ch he).1⟩
  | ch :: ch2 :: rest, out => by
    unfold ConvertUTF16toUTF8.loop
    by_cases hh : 0xD800 ≤ ch ∧ ch ≤ 0xDBFF
    · rw [if_pos hh]
      by_cases hl : 0xDC00 ≤ ch2 ∧ ch2 ≤ 0xDFFF
      · rw [if_pos hl]
        cases he : emit room out (0x0010000 + ((sub32 ch 0xD800 <<< 10) + sub32 ch2 0xDC00)) with
        | none => exact ⟨[], by simp⟩
        | some out1 =>
          obtain ⟨t, ht⟩ := convert_loop_prefix room rest out1
          have hi := (emit_inv room out out1 _ he).1
          simp only []
          rw [ht, hi, List.append_assoc]
          exact ⟨_, rfl⟩
      · rw [if_neg hl]
        cases he : emit room out ch with
        | none => exact ⟨[], by simp⟩
        | some out1 =>
          obtain ⟨t, ht⟩ := convert_loop_prefix room (ch2 :: rest) out1
          have hi := (emit_inv room out out1 _ he).1
          simp only []
          rw [ht, hi, List.append_assoc]
          exact ⟨_, rfl⟩
    · rw [if_neg hh]
      cases he : emit room out ch with
      | none => exact ⟨[], by simp⟩
      | some out1 =>
        obtain ⟨t, ht⟩ := convert_loop_prefix room (ch2 :: rest) out1
        have hi := (emit_inv room out out1 _ he).1
        simp only []
        rw [ht, hi, List.append_assoc]
        exact ⟨_, rfl⟩



theorem cstr_of_nonzero (l : List Nat) (h : ∀ b ∈ l, b ≠ 0) : cstr l = l := by
  unfold cstr
  rw [List.takeWhile_eq_self_iff]
  intro b hb
  simpa using h b hb

theorem utf8Encode_nonzero (cp : Nat) (h : 0 < cp) : ∀ b ∈ utf8Encode cp, b ≠ 0 := by
  unfold utf8Encode
  intro b hb
  split_ifs at hb <;> simp at hb <;> omega

theorem utf16CodePoints_pos : ∀ (src cps : List Nat), (∀ u ∈ src, u ≠ 0) →
    utf16CodePoints src = some cps → ∀ c ∈ cps, 0 < c
  | [], cps, _, hw => by
    simp only [utf16CodePoints, Option.some.injEq] at hw
    subst hw
    simp
  | [u], cps, hu, hw => by
    unfold utf16CodePoints at hw
    split_ifs at hw
    injection hw with hw
    subst hw
    intro c hc
    rw [List.mem_singleton] at hc
    subst hc
    exact Nat.pos_of_ne_zero (hu c (List.mem_singleton.2 rfl))
  | u :: v :: rest, cps, hu, hw => by
    have hu2 : ∀ x ∈ v :: rest, x ≠ 0 := fun x h => hu x (List.mem_cons_of_mem _ h)
    have hu3 : ∀ x ∈ rest, x ≠ 0 := fun x h => hu2 x (List.mem_cons_of_mem _ h)
    unfold utf16CodePoints at hw
    by_cases hh : 0xD800 ≤ u ∧ u ≤ 0xDBFF
    · rw [if_pos hh] at hw
      by_cases hl : 0xDC00 ≤ v ∧ v ≤ 0xDFFF
      · rw [if_pos hl] at hw
        cases hr : utf16CodePoints rest with
        | none => rw [hr] at hw; cases hw
        | some cps1 =>
          rw [hr] at hw
          simp only [Option.map_some', Option.some.injEq] at hw
          subst hw
          intro c hc
          rw [List.mem_cons] at hc
          rcases hc with hc | hc
          · omega
          · exact utf16CodePoints_pos rest cps1 hu3 hr c hc
      · rw [if_neg hl] at hw; cases hw
    · rw [if_neg hh] at hw
      by_cases hl : 0xDC00 ≤ u ∧ u ≤ 0xDFFF
      · rw [if_pos hl] at hw; cases hw
      · rw [if_neg hl] at hw
        cases hr : utf16CodePoints (v :: rest) with
        | none => rw [hr] at hw; cases hw
        | some cps1 =>
          rw [hr] at hw
          simp only [Option.map_some', Option.some.injEq] at hw
          subst hw
          intro c hc
          rw [List.mem_cons] at hc
          rcases hc with hc | hc
          · subst hc
            exact Nat.pos_of_ne_zero (hu c (List.mem_cons_self _ _))
          · exact utf16CodePoints_pos (v :: rest) cps1 hu2 hr c hc

/-- A source that starts with a zero unit converts to bytes that read as the
empty C string. -/
theorem convert_zero_head (rest : List Nat) (room : Nat) :
    cstr (ConvertUTF16toUTF8 (0 :: rest) room).2 = [] := by
  unfold ConvertUTF16toUTF8
  have hput : putChar (bytesToWrite 0).1 (bytesToWrite 0).2 = [0] := by decide
  cases rest with
  | nil =>
    unfold ConvertUTF16toUTF8.loop
    rw [if_neg (by omega)]
    cases he : emit room [] 0 with
    | none => rfl
    | some out1 =>
      have hi := (emit_inv room [] out1 0 he).1
      rw [hput] at hi
      subst hi
      rfl
  | cons ch2 rest =>
    unfold ConvertUTF16toUTF8.loop
    rw [if_neg (by omega)]
    cases he : emit room [] 0 with
    | none => rfl
    | some out1 =>
      have hi := (emit_inv room [] out1 0 he).1
      rw [hput] at hi
      subst hi
      obtain ⟨t, ht⟩ := convert_loop_prefix room (ch2 :: rest) ([] ++ [0])
      simp only []
      rw [ht]
      rfl



theorem range_map_head (unit : Nat → Nat) (e : Nat) (he : e ≠ 0) :
    ∃ rest, (List.range e).map unit = unit 0 :: rest := by
  cases e with
  | zero => exact absurd rfl he
  | succ n =>
    rw [List.range_succ_eq_map]
    exact ⟨_, rfl⟩

/-- When the unit under the cursor is zero, `getString` returns the empty
string. -/
theorem getString_first_zero (s : ByteStream) (hpos : s.pos ≤ s.data.length)
    (hz : u16At s.data s.pos 0 = 0) : (getString s).1 = Except.ok [] := by
  rw [getString_apply s hpos]
  split_ifs with h1 h2
  · obtain ⟨rest, hr⟩ := range_map_head (u16At s.data s.pos) _ h1
    rw [hr, hz, convert_zero_head]
  · rfl
  · rfl

/-- With a first zero unit at index `k` of 1 or more, fewer than `2 ^ 30 - 1`
units before it, `getString` converts the units before it with room for
`4 * k + 3` bytes. -/
theorem getString_found (s : ByteStream) (k : Nat) (hk1 : 1 ≤ k)
    (hk : k < (s.data.length - s.pos) / 2)
    (hz : u16At s.data s.pos k = 0) (hnz : ∀ j, j < k → u16At s.data s.pos j ≠ 0) :
    (getString s).1 =
      if (ConvertUTF16toUTF8 ((List.range k).map (u16At s.data s.pos))
          (sub32 (mul32 (k + 1) 4) 1)).1
      then Except.ok (cstr (ConvertUTF16toUTF8 ((List.range k).map (u16At s.data s.pos))
          (sub32 (mul32 (k + 1) 4) 1)).2)
      else Except.ok [] := by
  rw [getString_apply s (by omega)]
  rw [getString_scan_found (u16At s.data s.pos) _ k hk1 hk hz (fun j _ h => hnz j h) _ 0
    (by omega) (by omega)]
  rw [if_pos (by simp only []; omega)]

/-- With fewer than `2 ^ 30 - 1` units before the first zero unit, all of them
well-formed UTF-16, `getString` returns their UTF-8 encoding. -/
theorem getString_wellformed (s : ByteStream) (k : Nat) (cps : List Nat)
    (hk : k < (s.data.length - s.pos) / 2) (hsmall : k + 1 < 2 ^ 30)
    (hz : u16At s.data s.pos k = 0) (hnz : ∀ j, j < k → u16At s.data s.pos j ≠ 0)
    (hw : utf16CodePoints ((List.range k).map (u16At s.data s.pos)) = some cps) :
    (getString s).1 = Except.ok (cps.flatMap utf8Encode) := by
  by_cases hk0 : k = 0
  · subst hk0
    simp only [List.range_zero, List.map_nil, utf16CodePoints, Option.some.injEq] at hw
    subst hw
    exact getString_first_zero s (by omega) hz
  · rw [getString_found s k (by omega) hk hz hnz]
    have hroom : sub32 (mul32 (k + 1) 4) 1 = 4 * k + 3 := by
      unfold mul32
      rw [Nat.mod_eq_of_lt (by omega), sub32_of_le _ _ (by omega)]
      omega
    have hu : ∀ u ∈ (List.range k).map (u16At s.data s.pos), u < 0x10000 := by
      intro u hu
      rw [List.mem_map] at hu
      obtain ⟨j, _, rfl⟩ := hu
      exact u16At_lt _ _ _
    have hne : ∀ u ∈ (List.range k).map (u16At s.data s.pos), u ≠ 0 := by
      intro u hu
      rw [List.mem_map] at hu
      obtain ⟨j, hj, rfl⟩ := hu
      exact hnz j (List.mem_range.1 hj)
    unfold ConvertUTF16toUTF8
    rw [hroom, convert_loop_wellformed _ _ [] cps hu hw (by simp; omega)]
    rw [if_pos rfl, List.nil_append, cstr_of_nonzero]
    intro b hb
    rw [List.mem_flatMap] at hb
    obtain ⟨c, hc, hb⟩ := hb
    exact utf8Encode_nonzero c (utf16CodePoints_pos _ cps hne hw c hc) b hb

/-- With a first zero unit at index `k`, `2 ^ 30 ≤ k` and `3 * k + 4 ≤ 2 ^ 32`,
the room `i * 4 - 1` computed in 32 bits is less than `k` and `getString`
returns the empty string. -/
theorem getString_wrapped (s : ByteStream) (k : Nat)
    (hk : k < (s.data.length - s.pos) / 2) (hbig : 2 ^ 30 ≤ k) (hle : 3 * k + 4 ≤ 2 ^ 32)
    (hz : u16At s.data s.pos k = 0) (hnz : ∀ j, j < k → u16At s.data s.pos j ≠ 0) :
    (getString s).1 = Except.ok [] := by
  rw [getString_found s k (by omega) hk hz hnz]
  have hroom : sub32 (mul32 (k + 1) 4) 1 < k := by
    unfold mul32
    have h1 : (k + 1) * 4 % 2 ^ 32 + 2 ^ 32 = (k + 1) * 4 := by omega
    rw [sub32_of_le _ _ (by omega)]
    omega
  by_cases hc : (ConvertUTF16toUTF8 ((List.range k).map (u16At s.data s.pos))
      (sub32 (mul32 (k + 1) 4) 1)).1 = true
  · have hl := convert_loop_true_length _ _ [] (Nat.zero_le _) hc
    simp only [List.length_nil, List.length_map, List.length_range] at hl
    omega
  · rw [if_neg hc]



theorem sampleLongString_length (n : Nat) : (sampleLongString n).data.length = 2 * n + 2 := by
  unfold sampleLongString
  rw [List.length_append, List.length_replicate]
  rfl

theorem sampleLongString_byte (n i : Nat) (h : i < 2 * n) :
    byteAt (sampleLongString n).data i = 0x41 := by
  unfold sampleLongString byteAt
  rw [List.getD_eq_getElem?_getD, List.getElem?_append_left (by rw [List.length_replicate]; exact h),
    List.getElem?_replicate, if_pos h]
  rfl

theorem sampleLongString_last (n i : Nat) (h : 2 * n ≤ i) :
    byteAt (sampleLongString n).data i = 0 := by
  unfold sampleLongString byteAt
  rw [List.getD_eq_getElem?_getD,
    List.getElem?_append_right (by rw [List.length_replicate]; exact h)]
  rw [List.length_replicate]
  rcases Nat.lt_or_ge (i - 2 * n) 2 with h2 | h2
  · interval_cases hi : (i - 2 * n) <;> rfl
  · rw [List.getElem?_eq_none (by simpa using h2)]
    rfl

theorem sampleLongString_unit (n j : Nat) (h : j < n) :
    u16At (sampleLongString n).data (sampleLongString n).pos j = 0x4141 := by
  unfold u16At
  rw [sampleLongString_byte n _ (by simp only [sampleLongString]; omega),
    sampleLongString_byte n _ (by simp only [sampleLongString]; omega)]

theorem sampleLongString_zero (n : Nat) :
    u16At (sampleLongString n).data (sampleLongString n).pos n = 0 := by
  unfold u16At
  rw [sampleLongString_last n _ (by simp only [sampleLongString]; omega),
    sampleLongString_last n _ (by simp only [sampleLongString]; omega)]

theorem utf16CodePoints_replicate (u : Nat) (hu : ¬ (0xD800 ≤ u ∧ u ≤ 0xDFFF)) :
    ∀ n, utf16CodePoints (List.replicate n u) = some (List.replicate n u)
  | 0 => rfl
  | 1 => by
    simp only [List.replicate, utf16CodePoints]
    rw [if_neg hu]
  | n + 2 => by
    have ih := utf16CodePoints_replicate u hu (n + 1)
    simp only [List.replicate] at ih ⊢
    unfold utf16CodePoints
    rw [if_neg (by omega), if_neg (by omega), ih]
    rfl

theorem sampleLongString_units (n : Nat) :
    (List.range n).map (u16At (sampleLongString n).data (sampleLongString n).pos) =
      List.replicate n 0x4141 := by
  apply List.ext_getElem
  · simp
  · intro i h1 h2
    simp only [List.length_map, List.length_range] at h1
    rw [List.getElem_map, List.getElem_range, List.getElem_replicate]
    exact sampleLongString_unit n i h1

theorem getString_long_sample (n : Nat) (hbig : 2 ^ 30 ≤ n) (hle : 3 * n + 4 ≤ 2 ^ 32) :
    (sampleLongString n).data.length < 2 ^ 32 ∧
      u16At (sampleLongString n).data (sampleLongString n).pos n = 0 ∧
      (∀ j, j < n → u16At (sampleLongString n).data (sampleLongString n).pos j ≠ 0) ∧
      utf16CodePoints
          ((List.range n).map (u16At (sampleLongString n).data (sampleLongString n).pos)) =
        some (List.replicate n 0x4141) ∧
      (List.replicate n 0x4141).flatMap utf8Encode ≠ [] ∧
      (getString (sampleLongString n)).1 = Except.ok [] := by
  have hnz : ∀ j, j < n → u16At (sampleLongString n).data (sampleLongString n).pos j ≠ 0 := by
    intro j hj
    rw [sampleLongString_unit n j hj]
    omega
  refine ⟨by rw [sampleLongString_length]; omega, sampleLongString_zero n, hnz, ?_, ?_, ?_⟩
  · rw [sampleLongString_units]
    exact utf16CodePoints_replicate _ (by omega) n
  · obtain ⟨m, rfl⟩ : ∃ m, n = m + 1 := ⟨n - 1, by omega⟩
    simp [List.replicate, utf8Encode]
  · exact getString_wrapped _ n (by rw [sampleLongString_length]; simp only [sampleLongString]; omega)
      hbig hle (sampleLongString_zero n) hnz

/-- C11 fails on a long string: on `2 ^ 30` units `0x4141` followed by a zero
unit, in a buffer of `2 ^ 31 + 2` bytes, the units before the first zero are
well-formed UTF-16 with a non-empty encoding, yet `getString` returns the
empty string: `i * 4 - 1` is computed in 32 bits and leaves room for 3
bytes. -/
theorem getString_room_wraps :
    (sampleLongString (2 ^ 30)).data.length < 2 ^ 32 ∧
      u16At (sampleLongString (2 ^ 30)).data (sampleLongString (2 ^ 30)).pos (2 ^ 30) = 0 ∧
      (∀ j, j < 2 ^ 30 →
        u16At (sampleLongString (2 ^ 30)).data (sampleLongString (2 ^ 30)).pos j ≠ 0) ∧
      utf16CodePoints ((List.range (2 ^ 30)).map
          (u16At (sampleLongString (2 ^ 30)).data (sampleLongString (2 ^ 30)).pos)) =
        some (List.replicate (2 ^ 30) 0x4141) ∧
      (List.replicate (2 ^ 30) 0x4141).flatMap utf8Encode ≠ [] ∧
      (getString (sampleLongString (2 ^ 30))).1 = Except.ok [] :=
  getString_long_sample (2 ^ 30) (Nat.le_refl _) (by norm_num)

/-! ## The Panasonic bit reader -/

theorem PanaBitpump.ext_fields (p q : PanaBitpump) (h1 : p.input = q.input)
    (h2 : ∀ j, p.buf j = q.buf j) (h3 : p.vbits = q.vbits) (h4 : p.load_flags = q.load_flags) :
    p = q := by
  cases p; cases q
  simp only at h1 h2 h3 h4
  subst h1 h3 h4
  congr 1
  exact funext h2

/-- A refill with the cursor inside the data. -/
theorem refill_run (p : PanaBitpump) (hpos : p.input.pos ≤ p.input.data.length) :
    PanaBitpump.refill p = (Except.ok (), PanaBitpump.refilled p) := by
  unfold PanaBitpump.refill
  simp only [M.bind_apply, getState, PanaBitpump.onInput, getRemainSize, getData,
    PanaBitpump.memcpy]
  rw [if_neg (by omega)]
  simp only [M.ite_apply, M.bind_apply, PanaBitpump.onInput, getData, PanaBitpump.memcpy,
    M.pure_apply]
  by_cases h2 : min (p.input.data.length - (p.input.pos +
      min (p.input.data.length - p.input.pos) (sub32 BufSize p.load_flags))) p.load_flags ≠ 0
  · rw [if_pos h2, if_neg (by omega)]
    simp only []
    congr 1
    apply PanaBitpump.ext_fields
    · simp only [PanaBitpump.refilled, PanaBitpump.refillSize]
      congr 1
      omega
    · intro j
      simp only [PanaBitpump.refilled]
      have e : p.input.data.length - p.input.pos -
          min (p.input.data.length - p.input.pos) (sub32 BufSize p.load_flags) =
          p.input.data.length - (p.input.pos +
            min (p.input.data.length - p.input.pos) (sub32 BufSize p.load_flags)) := by omega
      rw [e]
      by_cases hj : j < min (p.input.data.length - (p.input.pos +
          min (p.input.data.length - p.input.pos) (sub32 BufSize p.load_flags))) p.load_flags
      · rw [if_pos hj, if_pos (by omega)]
        simp
      · rw [if_neg hj, if_neg (by omega)]
    · rfl
    · rfl
  · rw [if_neg h2]
    congr 1
    apply PanaBitpump.ext_fields
    · simp only [PanaBitpump.refilled, PanaBitpump.refillSize]
      congr 1
      omega
    · intro j
      simp only [PanaBitpump.refilled]
      have e : min (p.input.data.length - p.input.pos -
          min (p.input.data.length - p.input.pos) (sub32 BufSize p.load_flags)) p.load_flags = 0 := by
        omega
      rw [e, if_neg (Nat.not_lt_zero _)]
    · rfl
    · rfl

theorem getBits_run_ne (nbits : Nat) (p : PanaBitpump) (h : p.vbits ≠ 0) :
    PanaBitpump.getBits nbits p =
      (Except.ok (PanaBitpump.field p.buf (sub17 p.vbits nbits) nbits),
        { p with vbits := sub17 p.vbits nbits }) := by
  unfold PanaBitpump.getBits
  simp only [M.bind_apply, getState, M.ite_apply]
  rw [if_neg h]

theorem getBits_run_zero (nbits : Nat) (p : PanaBitpump) (h : p.vbits = 0)
    (hpos : p.input.pos ≤ p.input.data.length) :
    PanaBitpump.getBits nbits p =
      (Except.ok (PanaBitpump.field (PanaBitpump.refilled p).buf (sub17 0 nbits) nbits),
        { PanaBitpump.refilled p with vbits := sub17 0 nbits }) := by
  unfold PanaBitpump.getBits
  simp only [M.bind_apply, getState, M.ite_apply]
  rw [if_pos h, refill_run p hpos]
  simp only []
  have : (PanaBitpump.refilled p).vbits = 0 := h
  rw [this]

theorem field_zero (buf : Nat → Nat) (vbits : Nat) : PanaBitpump.field buf vbits 0 = 0 := by
  unfold PanaBitpump.field
  simp

theorem sub17_zero (a : Nat) (h : a < 0x20000) : sub17 a 0 = a := by
  unfold sub17
  rw [if_pos (Nat.zero_le _), Nat.sub_zero, Nat.mod_eq_of_lt h]

theorem refillSize_eq (p : PanaBitpump) (hlf : p.load_flags ≤ BufSize) :
    PanaBitpump.refillSize p = min (p.input.data.length - p.input.pos) BufSize := by
  unfold PanaBitpump.refillSize
  rw [sub32_of_le _ _ hlf]
  omega




theorem sub17_eight (m : Nat) (h1 : 1 ≤ m) (h2 : m ≤ 0x4000) :
    sub17 (8 * m) 8 = 8 * (m - 1) := by
  unfold sub17
  rw [if_pos (by omega), Nat.mod_eq_of_lt (by omega)]
  omega

theorem sub17_zero_eight : sub17 0 8 = 8 * 0x3fff := by decide

theorem forRange_zero {σ : Type} (body : Nat → M σ Unit) (lo : Nat) (s : σ) :
    forRange body lo 0 s = (Except.ok (), s) := rfl

theorem forRange_succ {σ : Type} (body : Nat → M σ Unit) (lo n : Nat) :
    forRange body lo (n + 1) = (body lo >>= fun _ => forRange body (lo + 1) n) := rfl

/-- The loop of `skipBytes` from a state in which `8 * m` bits are left in the
cache: `n ≤ m` calls of `getBits(8)` use up `n` bytes of the cache and touch
nothing else. -/
theorem getBits8_loop : ∀ (n m lo : Nat) (p : PanaBitpump), p.vbits = 8 * m → n ≤ m →
    m ≤ 0x4000 →
    forRange (fun _ => do let _ ← PanaBitpump.getBits 8; pure ()) lo n p =
      (Except.ok (), { p with vbits := 8 * (m - n) })
  | 0, m, lo, p, hv, _, _ => by
    rw [forRange_zero, Nat.sub_zero, ← hv]
  | n + 1, m, lo, p, hv, hn, hm => by
    rw [forRange_succ, M.bind_apply, M.bind_apply, getBits_run_ne 8 p (by omega)]
    simp only [M.pure_apply]
    rw [getBits8_loop n (m - 1) (lo + 1) _ (by simp only []; rw [hv, sub17_eight m (by omega) hm])
      (by omega) (by omega)]
    simp only []
    congr 3
    omega



/-- The number of whole cache loads in `bytes`, as `skipBytes` computes
it. -/
theorem skip_blocks (bytes : Nat) (hb : bytes < 2 ^ 32) :
    mul32 (bytes / BufSize) BufSize = bytes / BufSize * BufSize ∧
      bytes - bytes / BufSize * BufSize = bytes % BufSize := by
  unfold mul32 BufSize
  have h := Nat.div_add_mod bytes 0x4000
  constructor
  · rw [Nat.mod_eq_of_lt (by omega)]
  · omega

/-- The function `skipBytes` on a fresh reader fails when the whole cache
loads to skip are not all in the input. -/
theorem skipBytes_fresh_err (input : ByteStream) (lf bytes : Nat) (hb : bytes < 2 ^ 32)
    (hin : input.data.length < input.pos + bytes / BufSize * BufSize) :
    PanaBitpump.skipBytes bytes (PanaBitpump.new input lf) =
      (Except.error Err.IOE, PanaBitpump.new input lf) := by
  unfold PanaBitpump.skipBytes
  simp only [M.bind_apply, PanaBitpump.onInput, (skip_blocks bytes hb).1]
  rw [skipBytes_err _ _ (by simp only [PanaBitpump.new]; omega)]

/-- The function `skipBytes` on a fresh reader, the whole cache loads to skip
being in the input: the cursor moves over them, and when bytes are left to
skip the cache is filled once and the bit position is that many bytes into
it. -/
theorem skipBytes_fresh (input : ByteStream) (lf bytes : Nat) (hb : bytes < 2 ^ 32)
    (hin : input.pos + bytes / BufSize * BufSize ≤ input.data.length) :
    PanaBitpump.skipBytes bytes (PanaBitpump.new input lf) =
      (Except.ok (),
        if bytes % BufSize = 0 then
          PanaBitpump.new { input with pos := input.pos + bytes / BufSize * BufSize } lf
        else
          { PanaBitpump.refilled
              (PanaBitpump.new { input with pos := input.pos + bytes / BufSize * BufSize } lf) with
            vbits := 8 * (0x4000 - bytes % BufSize) }) := by
  unfold PanaBitpump.skipBytes
  simp only [M.bind_apply, PanaBitpump.onInput, (skip_blocks bytes hb).1, (skip_blocks bytes hb).2]
  rw [skipBytes_ok _ _ (by simp only [PanaBitpump.new]; omega)]
  simp only []
  have hlt : bytes % BufSize < 0x4000 := Nat.mod_lt _ (by decide)
  cases hm : bytes % BufSize with
  | zero =>
    rw [forRange_zero, if_pos rfl]
    rfl
  | succ n =>
    rw [hm] at hlt
    rw [if_neg (by omega), forRange_succ, M.bind_apply, M.bind_apply,
      getBits_run_zero 8 _ rfl (by simp only [PanaBitpump.new]; omega)]
    simp only [M.pure_apply]
    rw [getBits8_loop n 0x3fff _ _ (by simp only []; exact sub17_zero_eight) (by omega)
      (by omega)]
    simp only []
    congr 3
    omega

/-- C12 as stated fails: on a fresh reader over three bytes `getBits(0)`
returns 0 and keeps `vbits`, but it refills the cache first and leaves the
cursor of the input at 3. -/
theorem getBits_zero_moves_cursor :
    (PanaBitpump.new (ByteStream.ofBuffer [1, 2, 3] 0 3) 0).input.pos = 0 ∧
      (PanaBitpump.getBits 0 (PanaBitpump.new (ByteStream.ofBuffer [1, 2, 3] 0 3) 0)).1 =
        Except.ok 0 ∧
      (PanaBitpump.getBits 0 (PanaBitpump.new (ByteStream.ofBuffer [1, 2, 3] 0 3) 0)).2.vbits =
        0 ∧
      (PanaBitpump.getBits 0
        (PanaBitpump.new (ByteStream.ofBuffer [1, 2, 3] 0 3) 0)).2.input.pos = 3 := by
  decide

/-- C12, amended: in a state with `vbits` in `0 .. 0x1ffff`, the cursor inside
the data and `load_flags ≤ BufSize`, `getBits(0)` returns 0 and keeps `vbits`;
when `vbits` is not 0 the whole state is kept, and when `vbits` is 0 the
cache is refilled and the cursor advances by the smaller of `BufSize` and the
number of bytes that remain. -/
theorem getBits_zero (p : PanaBitpump) (hv : p.vbits < 0x20000)
    (hpos : p.input.pos ≤ p.input.data.length) (hlf : p.load_flags ≤ BufSize) :
    (PanaBitpump.getBits 0 p).1 = Except.ok 0 ∧
      (PanaBitpump.getBits 0 p).2.vbits = p.vbits ∧
      (p.vbits ≠ 0 → (PanaBitpump.getBits 0 p).2 = p) ∧
      (p.vbits = 0 → (PanaBitpump.getBits 0 p).2.input.pos =
        p.input.pos + min (p.input.data.length - p.input.pos) BufSize) := by
  by_cases h : p.vbits = 0
  · rw [getBits_run_zero 0 p h hpos, field_zero]
    refine ⟨rfl, ?_, fun h1 => absurd h h1, fun _ => ?_⟩
    · rw [h]; rfl
    · show p.input.pos + PanaBitpump.refillSize p = _
      rw [refillSize_eq p hlf]
  · rw [getBits_run_ne 0 p h, field_zero, sub17_zero _ hv]
    exact ⟨rfl, rfl, fun _ => rfl, fun h1 => absurd h1 h⟩

theorem getBits_zero_witness :
    (PanaBitpump.getBits 0 sampleFresh).1 = Except.ok 0 ∧
      (PanaBitpump.getBits 0 sampleFresh).2.vbits = sampleFresh.vbits ∧
      (sampleFresh.vbits ≠ 0 → (PanaBitpump.getBits 0 sampleFresh).2 = sampleFresh) ∧
      (sampleFresh.vbits = 0 → (PanaBitpump.getBits 0 sampleFresh).2.input.pos =
        sampleFresh.input.pos +
          min (sampleFresh.input.data.length - sampleFresh.input.pos) BufSize) :=
  getBits_zero sampleFresh (by decide) (by decide) (by decide)

theorem sampleDrained_eq :
    sampleDrained =
      { PanaBitpump.refilled
          (PanaBitpump.new (ByteStream.ofBuffer (List.replicate 16 0xFF) 0 16) 0) with
        vbits := 0 } := by
  unfold sampleDrained
  rw [M.bind_apply, skipBytes_fresh _ _ _ (by norm_num) (by decide)]
  simp only []
  rw [if_neg (by decide)]
  rw [getBits_run_ne 8 _ (by decide)]
  simp only []
  congr 1

/-- C13 as stated fails for a later refill: a reader over sixteen bytes `0xFF`
that has used up its first cache load has `vbits = 0` and nothing left in the
input; the refill of the next `getBits(8)` copies nothing and zeroes nothing,
and the call returns the stale byte `0xFF`. -/
theorem refill_keeps_stale_bytes :
    sampleDrained.vbits = 0 ∧ sampleDrained.input.data.length - sampleDrained.input.pos = 0 ∧
      (PanaBitpump.refill sampleDrained).2.buf 15 = 0xFF ∧
      (PanaBitpump.getBits 8 sampleDrained).1 = Except.ok 0xFF := by
  rw [sampleDrained_eq]
  decide

/-- C13, amended: a refill with the cursor inside the data, `load_flags ≤
BufSize` and fewer than `BufSize` bytes remaining succeeds, takes exactly the
bytes that remain, stores the `k`-th of them at `load_flags + k`, or at
`k - (BufSize - load_flags)` from `k = BufSize - load_flags` on, and leaves
every other cache byte as it was before the refill: zero in a fresh reader,
the byte of an earlier refill otherwise. -/
theorem refill_partial (p : PanaBitpump) (hpos : p.input.pos ≤ p.input.data.length)
    (hlf : p.load_flags ≤ BufSize) (hrem : p.input.data.length - p.input.pos < BufSize) :
    (PanaBitpump.refill p).1 = Except.ok () ∧
      (PanaBitpump.refill p).2.input.pos = p.input.data.length ∧
      (∀ k, k < p.input.data.length - p.input.pos →
        (PanaBitpump.refill p).2.buf (refillIndex p.load_flags k) =
          byteAt p.input.data (p.input.pos + k)) ∧
      (∀ j, (∀ k, k < p.input.data.length - p.input.pos → j ≠ refillIndex p.load_flags k) →
        (PanaBitpump.refill p).2.buf j = p.buf j) ∧
      ((∀ j, p.buf j = 0) →
        ∀ j, (∀ k, k < p.input.data.length - p.input.pos → j ≠ refillIndex p.load_flags k) →
          (PanaBitpump.refill p).2.buf j = 0) := by
  rw [refill_run p hpos]
  have hs : sub32 BufSize p.load_flags = BufSize - p.load_flags := sub32_of_le _ _ hlf
  have key : ∀ j, (∀ k, k < p.input.data.length - p.input.pos → j ≠ refillIndex p.load_flags k) →
      (PanaBitpump.refilled p).buf j = p.buf j := by
    intro j hj
    simp only [PanaBitpump.refilled, hs]
    by_cases h1 : j < min (p.input.data.length - p.input.pos -
        min (p.input.data.length - p.input.pos) (BufSize - p.load_flags)) p.load_flags
    · exfalso
      refine hj (j + (BufSize - p.load_flags)) (by omega) ?_
      unfold refillIndex
      rw [if_neg (by omega)]
      omega
    · rw [if_neg h1]
      by_cases h2 : p.load_flags ≤ j ∧ j < p.load_flags +
          min (p.input.data.length - p.input.pos) (BufSize - p.load_flags)
      · exfalso
        refine hj (j - p.load_flags) (by omega) ?_
        unfold refillIndex
        rw [if_pos (by omega)]
        omega
      · rw [if_neg h2]
  refine ⟨rfl, ?_, ?_, key, fun hz j hj => by rw [key j hj, hz]⟩
  · show p.input.pos + PanaBitpump.refillSize p = _
    rw [refillSize_eq p hlf]
    omega
  · intro k hk
    simp only [PanaBitpump.refilled, hs]
    unfold refillIndex
    by_cases h1 : k < BufSize - p.load_flags
    · rw [if_pos h1, if_neg (by omega), if_pos (by omega)]
      congr 2
      omega
    · rw [if_neg h1, if_pos (by omega)]
      congr 1
      omega

theorem refill_partial_witness :
    (PanaBitpump.refill sampleFresh).1 = Except.ok () ∧
      (PanaBitpump.refill sampleFresh).2.input.pos = sampleFresh.input.data.length ∧
      (∀ k, k < sampleFresh.input.data.length - sampleFresh.input.pos →
        (PanaBitpump.refill sampleFresh).2.buf (refillIndex sampleFresh.load_flags k) =
          byteAt sampleFresh.input.data (sampleFresh.input.pos + k)) ∧
      (∀ j, (∀ k, k < sampleFresh.input.data.length - sampleFresh.input.pos →
          j ≠ refillIndex sampleFresh.load_flags k) →
        (PanaBitpump.refill sampleFresh).2.buf j = sampleFresh.buf j) ∧
      ((∀ j, sampleFresh.buf j = 0) →
        ∀ j, (∀ k, k < sampleFresh.input.data.length - sampleFresh.input.pos →
            j ≠ refillIndex sampleFresh.load_flags k) →
          (PanaBitpump.refill sampleFresh).2.buf j = 0) :=
  refill_partial sampleFresh (by decide) (by decide) (by decide)

/-! ## `Rw2Decoder::decodeThreaded` -/

theorem field_lt (buf : Nat → Nat) (vbits nbits : Nat) :
    PanaBitpump.field buf vbits nbits < 2 ^ nbits := by
  unfold PanaBitpump.field
  apply Nat.and_lt_two_pow
  rw [Nat.shiftLeft_eq, Nat.one_mul]
  have := Nat.two_pow_pos nbits
  omega

theorem refilled_ok (p : PanaBitpump) (h : p.Ok) (hv : Nat) :
    PanaBitpump.Ok { PanaBitpump.refilled p with vbits := hv } := by
  unfold PanaBitpump.Ok at h ⊢
  simp only [PanaBitpump.refilled, PanaBitpump.refillSize]
  omega

/-- From a state with the cursor inside the data, `getBits` returns a value
below `2 ^ nbits` and keeps the cursor inside the data. -/
theorem getBits_total (nbits : Nat) (p : PanaBitpump) (h : p.Ok) :
    ∃ v p1, PanaBitpump.getBits nbits p = (Except.ok v, p1) ∧ p1.Ok ∧ v < 2 ^ nbits := by
  by_cases hv : p.vbits = 0
  · exact ⟨_, _, getBits_run_zero nbits p hv h, refilled_ok p h _, field_lt _ _ _⟩
  · exact ⟨_, _, getBits_run_ne nbits p hv, h, field_lt _ _ _⟩

theorem shift_total (st : Rw2State) (hok : st.bits.Ok) (hsh : ShInv st) :
    ∃ st1, decodeThreaded.shift st = (Except.ok (), st1) ∧ st1.bits.Ok ∧ ShInv st1 ∧
      SameImage st st1 ∧ st1.pred = st.pred ∧ st1.nonz = st.nonz := by
  unfold decodeThreaded.shift
  simp only [M.bind_apply, getState, M.ite_apply]
  by_cases hu : st.u = 2
  · rw [if_pos hu]
    obtain ⟨g, p1, hg, hp1, hlt⟩ := getBits_total 2 st.bits hok
    simp only [M.bind_apply, onBits, hg, modifyState]
    refine ⟨_, rfl, hp1, ?_, ⟨rfl, rfl, rfl, rfl, rfl⟩, rfl, rfl⟩
    unfold ShInv
    simp only []
    have hg4 : g < 4 := by simpa using hlt
    interval_cases g <;> simp
  · rw [if_neg hu]
    exact ⟨st, rfl, hok, hsh, ⟨rfl, rfl, rfl, rfl, rfl⟩, rfl, rfl⟩

theorem predUpdate_bound (p : Int) (sh j : Nat) (P : Int) (hP : p ≤ P)
    (hsh : sh = 0 ∨ sh = 1 ∨ sh = 2 ∨ sh = 4) (hj : j < 256) :
    0 ≤ predUpdate p sh j ∧ (predUpdate p sh j ≤ P + 508 ∨ predUpdate p sh j ≤ 4095) := by
  unfold predUpdate
  rcases hsh with h | h | h | h <;> subst h <;>
    simp only [Nat.shiftLeft_eq] <;> norm_num <;> omega

theorem laneInv_congr (st st1 : Rw2State) (c : Nat) (m : Int) (hp : st1.pred c = st.pred c)
    (hn : st1.nonz c = st.nonz c) (h : LaneInv st c m) : LaneInv st1 c m := by
  unfold LaneInv at h ⊢
  rw [hp, hn]
  exact h

theorem laneInv_bound (st : Rw2State) (c : Nat) (m : Int) (hm : 0 ≤ m)
    (h : LaneInv st c (m + 1)) : 0 ≤ st.pred c ∧ st.pred c ≤ 4095 + 508 * m := by
  unfold LaneInv at h
  rcases h with ⟨_, h⟩ | ⟨_, h1, h2⟩
  · rw [h]; omega
  · omega

theorem or_shift_lt (nz g : Nat) (hnz : nz < 2 ^ 8) (hg : g < 2 ^ 4) :
    nz <<< 4 ||| g < 4096 := by
  have h1 : nz <<< 4 < 2 ^ 12 := by rw [Nat.shiftLeft_eq]; omega
  have h2 : g < 2 ^ 12 := by omega
  exact Nat.or_lt_two_pow h1 h2

theorem lane_total (i c : Nat) (m : Int) (st : Rw2State) (hok : st.bits.Ok) (hsh : ShInv st)
    (hm : 0 ≤ m) (hl : LaneInv st c m) :
    ∃ st1, decodeThreaded.lane i c st = (Except.ok (), st1) ∧ st1.bits.Ok ∧ st1.sh = st.sh ∧
      st1.u = st.u ∧ SameImage st st1 ∧ LaneInv st1 c (m + 1) ∧
      ∀ c1, c1 ≠ c → st1.pred c1 = st.pred c1 ∧ st1.nonz c1 = st.nonz c1 := by
  unfold decodeThreaded.lane
  simp only [M.bind_apply, getState, M.ite_apply]
  by_cases hnz : st.nonz c ≠ 0
  · rw [if_pos hnz]
    obtain ⟨j, p1, hg, hp1, hlt⟩ := getBits_total 8 st.bits hok
    simp only [M.bind_apply, onBits, hg, M.ite_apply]
    have hpre : 1 ≤ m ∧ 0 ≤ st.pred c ∧ st.pred c ≤ 4095 + 508 * (m - 1) := by
      rcases hl with ⟨h, _⟩ | h
      · exact absurd h hnz
      · exact h
    by_cases hj : j ≠ 0
    · rw [if_pos hj]
      refine ⟨_, rfl, hp1, rfl, rfl, ⟨rfl, rfl, rfl, rfl, rfl⟩, ?_, ?_⟩
      · right
        have hb := predUpdate_bound (st.pred c) st.sh j _ hpre.2.2 hsh (by simpa using hlt)
        simp only [modifyState, Function.update_same]
        omega
      · intro c1 hc1
        exact ⟨by simp only [modifyState, Function.update_noteq hc1], rfl⟩
    · rw [if_neg hj]
      refine ⟨_, rfl, hp1, rfl, rfl, ⟨rfl, rfl, rfl, rfl, rfl⟩, ?_, fun c1 _ => ⟨rfl, rfl⟩⟩
      right
      simp only []
      omega
  · rw [if_neg hnz]
    obtain ⟨nz, p1, hg, hp1, hlt⟩ := getBits_total 8 st.bits hok
    simp only [M.bind_apply, onBits, hg, M.ite_apply, modifyState]
    by_cases hc : nz ≠ 0 ∨ i > 11
    · rw [if_pos hc]
      obtain ⟨g, p2, hg2, hp2, hlt2⟩ := getBits_total 4 p1 hp1
      simp only [M.bind_apply, hg2]
      refine ⟨_, rfl, hp2, rfl, rfl, ⟨rfl, rfl, rfl, rfl, rfl⟩, ?_, ?_⟩
      · have hb := or_shift_lt nz g hlt hlt2
        right
        simp only [Function.update_same]
        omega
      · intro c1 hc1
        exact ⟨by simp only [Function.update_noteq hc1], by simp only [Function.update_noteq hc1]⟩
    · rw [if_neg hc]
      refine ⟨_, rfl, hp1, rfl, rfl, ⟨rfl, rfl, rfl, rfl, rfl⟩, ?_, ?_⟩
      · have hn0 : nz = 0 := by
          by_contra h
          exact hc (Or.inl h)
        rcases hl with ⟨_, h⟩ | ⟨h1, h2, h3⟩
        · left
          exact ⟨by simp only [Function.update_same]; exact hn0, h⟩
        · right
          simp only []
          omega
      · intro c1 hc1
        exact ⟨rfl, by simp only [Function.update_noteq hc1]⟩

theorem sample_zero_iff (p : Int) (h0 : 0 ≤ p) (h1 : p ≤ 7143) :
    (p % 65536).toNat = 0 ↔ p = 0 := by
  omega

theorem sample_le (p : Int) (h0 : 0 ≤ p) (h1 : p ≤ 7143) : (p % 65536).toNat ≤ 7143 := by
  omega

theorem pixel_total (zb : Bool) (y x i c : Nat) (m : Int) (st : Rw2State) (hok : st.bits.Ok)
    (hsh : ShInv st) (hm : 0 ≤ m) (hm6 : m ≤ 6) (hl : LaneInv st c m)
    (hd : st.dest = x * 14 + i) :
    ∃ st1, decodeThreaded.pixel zb y x i c st = (Except.ok (), st1) ∧ st1.bits.Ok ∧
      ShInv st1 ∧ st1.dest = st.dest + 1 ∧ Wrote zb 7143 st st1 [(y, st.dest)] ∧
      LaneInv st1 c (m + 1) ∧
      ∀ c1, c1 ≠ c → st1.pred c1 = st.pred c1 ∧ st1.nonz c1 = st.nonz c1 := by
  obtain ⟨s1, e1, hok1, hsh1, ⟨hpl1, hw1, hz1, hd1, hb1⟩, hp1, hn1⟩ := shift_total st hok hsh
  have hl1 : LaneInv s1 c m := laneInv_congr st s1 c m (by rw [hp1]) (by rw [hn1]) hl
  obtain ⟨s2, e2, hok2, hsh2, _, ⟨hpl2, hw2, hz2, hd2, hb2⟩, hl2, hoth⟩ :=
    lane_total i c m s1 hok1 hsh1 hm hl1
  have hbnd := laneInv_bound s2 c m hm hl2
  unfold decodeThreaded.pixel
  rw [M.bind_apply, e1]
  simp only []
  rw [M.bind_apply, e2]
  simp only [decodeThreaded.store, modifyState]
  refine ⟨_, rfl, hok2, ?_, ?_, ?_, ?_, ?_⟩
  · unfold ShInv at hsh1 ⊢
    simp only []
    rw [hsh2]
    exact hsh1
  · simp only []
    rw [hd2, hd1]
  · unfold Wrote
    simp only []
    refine ⟨by rw [hw2, hw1, hd2, hd1], ?_, ?_, ?_, by rw [hb2, hb1]⟩
    · intro y1 x1 hne
      rw [hpl2, hpl1, hd2, hd1]
      simp only [List.mem_singleton, Prod.mk.injEq, not_and] at hne
      by_cases hy : y1 = y
      · subst hy
        rw [Function.update_same, Function.update_noteq (hne rfl)]
      · rw [Function.update_noteq hy]
    · rw [hz2, hz1, hd2, hd1]
      have hs : Function.update s2.plane y (Function.update (s2.plane y) st.dest
          (s2.pred c % 65536).toNat) y st.dest = (s2.pred c % 65536).toNat := by
        rw [Function.update_same, Function.update_same]
      cases zb with
      | false => simp
      | true =>
        simp only [true_and, if_true, List.filter_cons, List.filter_nil, hs]
        by_cases hp0 : s2.pred c = 0
        · rw [if_pos hp0, if_pos (by rw [hp0]; rfl)]
          simp only [List.map_cons, List.map_nil, zeroCode, hd]
        · rw [if_neg hp0, if_neg (by
            simp only [decide_eq_true_eq]
            rw [sample_zero_iff _ hbnd.1 (by omega)]
            exact hp0)]
          simp
    · intro cell hcell
      rw [List.mem_singleton] at hcell
      subst hcell
      simp only []
      rw [hd2, hd1, Function.update_same, Function.update_same]
      exact sample_le _ hbnd.1 (by omega)
  · exact laneInv_congr s2 _ c (m + 1) rfl rfl hl2
  · intro c1 hc1
    have h := hoth c1 hc1
    simp only []
    rw [h.1, h.2, hp1, hn1]
    exact ⟨rfl, rfl⟩

theorem mem_rowCells (y lo n : Nat) (c : Nat × Nat) :
    c ∈ rowCells y lo n ↔ c.1 = y ∧ lo ≤ c.2 ∧ c.2 < lo + n := by
  unfold rowCells
  rw [List.mem_map]
  constructor
  · rintro ⟨k, hk, rfl⟩
    rw [List.mem_range'_1] at hk
    exact ⟨rfl, hk.1, hk.2⟩
  · rintro ⟨h1, h2, h3⟩
    refine ⟨c.2, List.mem_range'_1.2 ⟨h2, h3⟩, ?_⟩
    rw [← h1]

theorem rowCells_append (y lo a b : Nat) :
    rowCells y lo (a + b) = rowCells y lo a ++ rowCells y (lo + a) b := by
  unfold rowCells
  rw [← List.map_append, List.range'_append_1, Nat.add_comm b a]

theorem rowCells_one (y lo : Nat) : rowCells y lo 1 = [(y, lo)] := rfl

theorem mem_rectCells (cols : Nat) : ∀ (n start_y : Nat) (c : Nat × Nat),
    c ∈ rectCells cols start_y n ↔ start_y ≤ c.1 ∧ c.1 < start_y + n ∧ c.2 < cols
  | 0, start_y, c => by
    simp only [rectCells, List.not_mem_nil, false_iff]
    omega
  | n + 1, start_y, c => by
    simp only [rectCells, List.mem_append, mem_rowCells, mem_rectCells cols n (start_y + 1) c]
    omega

theorem wrote_refl (zb : Bool) (b : Nat) (st : Rw2State) : Wrote zb b st st [] := by
  unfold Wrote
  refine ⟨by simp, fun _ _ _ => rfl, by simp, by simp, rfl⟩

theorem wrote_trans (zb : Bool) (b : Nat) (st s1 s2 : Rw2State) (cs1 cs2 : List (Nat × Nat))
    (h1 : Wrote zb b st s1 cs1) (h2 : Wrote zb b s1 s2 cs2) (hd : ∀ c ∈ cs1, c ∉ cs2) :
    Wrote zb b st s2 (cs1 ++ cs2) := by
  obtain ⟨hw1, hf1, hz1, hb1, hm1⟩ := h1
  obtain ⟨hw2, hf2, hz2, hb2, hm2⟩ := h2
  have hkeep : ∀ c ∈ cs1, s2.plane c.1 c.2 = s1.plane c.1 c.2 := fun c hc =>
    hf2 c.1 c.2 (hd c hc)
  refine ⟨by rw [hw2, hw1, List.append_assoc], ?_, ?_, ?_, by rw [hm2, hm1]⟩
  · intro y x hne
    rw [List.mem_append, not_or] at hne
    rw [hf2 y x hne.2, hf1 y x hne.1]
  · rw [hz2, hz1, List.append_assoc]
    congr 1
    cases zb with
    | false => simp
    | true =>
      simp only [if_true, List.filter_append, List.map_append]
      congr 2
      apply List.filter_congr
      intro c hc
      rw [hkeep c hc]
  · intro c hc
    rw [List.mem_append] at hc
    rcases hc with hc | hc
    · rw [hkeep c hc]
      exact hb1 c hc
    · exact hb2 c hc

theorem group_total (zb : Bool) (y x : Nat) : ∀ (n m : Nat) (st : Rw2State), st.bits.Ok →
    ShInv st → m + n ≤ 7 → LaneInv st 0 m → LaneInv st 1 m → st.dest = x * 14 + 2 * m →
    ∃ st1, decodeThreaded.group zb y x n (2 * m) st = (Except.ok (), st1) ∧ st1.bits.Ok ∧
      ShInv st1 ∧ st1.dest = st.dest + 2 * n ∧ Wrote zb 7143 st st1 (rowCells y st.dest (2 * n))
  | 0, m, st, hok, hsh, _, _, _, _ =>
    ⟨st, rfl, hok, hsh, rfl, wrote_refl zb _ st⟩
  | n + 1, m, st, hok, hsh, hmn, hl0, hl1, hd => by
    obtain ⟨s1, e1, hok1, hsh1, hd1, hw1, hl0a, hoth1⟩ :=
      pixel_total zb y x (2 * m) 0 m st hok hsh (by omega) (by omega) hl0 hd
    have hl1a : LaneInv s1 1 m :=
      laneInv_congr st s1 1 m (hoth1 1 (by decide)).1 (hoth1 1 (by decide)).2 hl1
    obtain ⟨s2, e2, hok2, hsh2, hd2, hw2, hl1b, hoth2⟩ :=
      pixel_total zb y x (2 * m + 1) 1 m s1 hok1 hsh1 (by omega) (by omega) hl1a
        (by rw [hd1, hd]; omega)
    have hl0b : LaneInv s2 0 (m + 1) :=
      laneInv_congr s1 s2 0 (m + 1) (hoth2 0 (by decide)).1 (hoth2 0 (by decide)).2 hl0a
    obtain ⟨s3, e3, hok3, hsh3, hd3, hw3⟩ :=
      group_total zb y x n (m + 1) s2 hok2 hsh2 (by omega) (by exact_mod_cast hl0b)
        (by exact_mod_cast hl1b) (by rw [hd2, hd1, hd]; omega)
    unfold decodeThreaded.group
    rw [M.bind_apply, e1]
    simp only []
    rw [M.bind_apply, e2]
    simp only []
    rw [show 2 * m + 2 = 2 * (m + 1) by omega, e3]
    refine ⟨s3, rfl, hok3, hsh3, by rw [hd3, hd2, hd1]; omega, ?_⟩
    rw [show 2 * (n + 1) = 1 + (1 + 2 * n) by omega, rowCells_append, rowCells_append,
      rowCells_one, rowCells_one]
    apply wrote_trans zb _ st s1 s3 _ _ hw1
    · apply wrote_trans zb _ s1 s2 s3 _ _ (by rw [← hd1]; exact hw2)
      · rw [show st.dest + 1 + 1 = s2.dest by rw [hd2, hd1]]
        exact hw3
      · intro c hc
        rw [List.mem_singleton] at hc
        subst hc
        rw [mem_rowCells]
        simp only []
        omega
    · intro c hc
      rw [List.mem_singleton] at hc
      subst hc
      rw [List.mem_append, mem_rowCells, List.mem_singleton]
      simp only [Prod.mk.injEq]
      omega

theorem block_total (zb : Bool) (y x : Nat) (st : Rw2State) (hok : st.bits.Ok)
    (hsh : ShInv st) (hd : st.dest = x * 14) :
    ∃ st1, decodeThreaded.block zb y x st = (Except.ok (), st1) ∧ st1.bits.Ok ∧
      ShInv st1 ∧ st1.dest = (x + 1) * 14 ∧ Wrote zb 7143 st st1 (rowCells y (x * 14) 14) := by
  obtain ⟨s1, e1, hok1, hsh1, hd1, hw1⟩ :=
    group_total zb y x 7 0 { st with pred := fun _ => 0, nonz := fun _ => 0, u := 0 } hok hsh
      (by omega) (Or.inl ⟨rfl, rfl⟩) (Or.inl ⟨rfl, rfl⟩) (by simp only []; rw [hd]; rfl)
  unfold decodeThreaded.block
  rw [M.bind_apply]
  simp only [modifyState]
  rw [show (0 : Nat) = 2 * 0 from rfl, e1]
  refine ⟨s1, rfl, hok1, hsh1, by rw [hd1]; simp only []; omega, ?_⟩
  rw [← hd]
  exact hw1

theorem blocks_total (zb : Bool) (y : Nat) : ∀ (n lo : Nat) (st : Rw2State), st.bits.Ok →
    ShInv st → st.dest = lo * 14 →
    ∃ st1, forRange (decodeThreaded.block zb y) lo n st = (Except.ok (), st1) ∧ st1.bits.Ok ∧
      ShInv st1 ∧ Wrote zb 7143 st st1 (rowCells y (lo * 14) (n * 14))
  | 0, lo, st, hok, hsh, _ => by
    rw [Nat.zero_mul]
    exact ⟨st, rfl, hok, hsh, wrote_refl zb _ st⟩
  | n + 1, lo, st, hok, hsh, hd => by
    obtain ⟨s1, e1, hok1, hsh1, hd1, hw1⟩ := block_total zb y lo st hok hsh hd
    obtain ⟨s2, e2, hok2, hsh2, hw2⟩ := blocks_total zb y n (lo + 1) s1 hok1 hsh1 hd1
    rw [forRange_succ, M.bind_apply, e1]
    simp only []
    rw [e2]
    refine ⟨s2, rfl, hok2, hsh2, ?_⟩
    rw [show (n + 1) * 14 = 14 + n * 14 by omega, rowCells_append,
      show lo * 14 + 14 = (lo + 1) * 14 by omega]
    apply wrote_trans zb _ st s1 s2 _ _ hw1 hw2
    intro c hc
    rw [mem_rowCells] at hc ⊢
    omega

theorem row_total (zb : Bool) (w y : Nat) (st : Rw2State) (hok : st.bits.Ok) (hsh : ShInv st) :
    ∃ st1, decodeThreaded.row zb w y st = (Except.ok (), st1) ∧ st1.bits.Ok ∧ ShInv st1 ∧
      Wrote zb 7143 st st1 (rowCells y 0 (w * 14)) := by
  obtain ⟨s1, e1, hok1, hsh1, hw1⟩ :=
    blocks_total zb y w 0 { st with dest := 0 } hok hsh (by simp)
  unfold decodeThreaded.row
  rw [M.bind_apply]
  simp only [modifyState]
  rw [e1]
  refine ⟨s1, rfl, hok1, hsh1, ?_⟩
  rw [Nat.zero_mul] at hw1
  exact hw1

theorem rows_total (zb : Bool) (w : Nat) : ∀ (n start_y : Nat) (st : Rw2State), st.bits.Ok →
    ShInv st →
    ∃ st1, forRange (decodeThreaded.row zb w) start_y n st = (Except.ok (), st1) ∧
      st1.bits.Ok ∧ ShInv st1 ∧ Wrote zb 7143 st st1 (rectCells (w * 14) start_y n)
  | 0, start_y, st, hok, hsh => ⟨st, rfl, hok, hsh, wrote_refl zb _ st⟩
  | n + 1, start_y, st, hok, hsh => by
    obtain ⟨s1, e1, hok1, hsh1, hw1⟩ := row_total zb w start_y st hok hsh
    obtain ⟨s2, e2, hok2, hsh2, hw2⟩ := rows_total zb w n (start_y + 1) s1 hok1 hsh1
    rw [forRange_succ, M.bind_apply, e1]
    simp only []
    rw [e2]
    refine ⟨s2, rfl, hok2, hsh2, ?_⟩
    unfold rectCells
    apply wrote_trans zb _ st s1 s2 _ _ hw1 hw2
    intro c hc
    rw [mem_rowCells] at hc
    rw [mem_rectCells]
    omega

theorem skip_lt (w start_y : Nat) : decodeThreaded.skip w start_y < 2 ^ 32 := by
  unfold decodeThreaded.skip
  simp only []
  split_ifs with h
  · omega
  · exact Nat.mod_lt _ (by norm_num)

/-- A run of `decodeThreaded`: when the whole cache loads to skip are in the input it completes, having
stored to each coordinate of its rows in order; otherwise `skipBytes` throws
before anything is stored. -/
theorem decodeThreaded_run (input : ByteStream) (lf dim_x : Nat) (zb : Bool)
    (start_y end_y : Nat) (plane : Nat → Nat → Nat) (bad : List Nat) :
    (input.pos + decodeThreaded.skip (dim_x / 14) start_y / BufSize * BufSize ≤
        input.data.length ∧
      ∃ st, decodeThreaded input lf dim_x zb start_y end_y plane bad = (Except.ok (), st) ∧
        st.writes = rectCells (dim_x / 14 * 14) start_y (end_y - start_y) ∧
        (∀ y x, (y, x) ∉ rectCells (dim_x / 14 * 14) start_y (end_y - start_y) →
          st.plane y x = plane y x) ∧
        st.mBadPixelPositions = bad ++
          (if zb = true then
            ((rectCells (dim_x / 14 * 14) start_y (end_y - start_y)).filter
              (fun c => decide (st.plane c.1 c.2 = 0))).map zeroCode else []) ∧
        ∀ c ∈ rectCells (dim_x / 14 * 14) start_y (end_y - start_y),
          st.plane c.1 c.2 ≤ 7143) ∨
    (input.data.length <
        input.pos + decodeThreaded.skip (dim_x / 14) start_y / BufSize * BufSize ∧
      decodeThreaded input lf dim_x zb start_y end_y plane bad =
        (Except.error Err.IOE, decodeThreaded.init input lf plane bad)) := by
  have hb := skip_lt (dim_x / 14) start_y
  unfold decodeThreaded
  rw [M.bind_apply]
  simp only [onBits, decodeThreaded.init]
  rcases Nat.lt_or_ge input.data.length
      (input.pos + decodeThreaded.skip (dim_x / 14) start_y / BufSize * BufSize) with h | h
  · right
    refine ⟨h, ?_⟩
    rw [skipBytes_fresh_err input lf _ hb h]
  · left
    refine ⟨h, ?_⟩
    obtain ⟨p1, hp1, hok⟩ : ∃ p1, PanaBitpump.skipBytes (decodeThreaded.skip (dim_x / 14) start_y)
        (PanaBitpump.new input lf) = (Except.ok (), p1) ∧ p1.Ok := by
      refine ⟨_, skipBytes_fresh input lf _ hb h, ?_⟩
      split_ifs
      · exact h
      · apply refilled_ok
        exact h
    rw [hp1]
    simp only []
    obtain ⟨s1, e1, hok1, hsh1, hw, hf, hz, hbd, hm⟩ :=
      rows_total zb (dim_x / 14) (end_y - start_y) start_y
        { bits := p1, sh := 0, pred := fun _ => 0, nonz := fun _ => 0, u := 0, dest := 0,
          zero_pos := [], plane := plane, writes := [], mBadPixelPositions := bad }
        hok (Or.inl rfl)
    rw [M.bind_apply, e1]
    simp only [modifyState]
    simp only [List.nil_append] at hw hz hf hm
    by_cases hc : zb = true ∧ s1.zero_pos ≠ []
    · rw [if_pos hc]
      refine ⟨_, rfl, hw, hf, ?_, hbd⟩
      simp only []
      rw [hm, hz]
    · rw [if_neg hc]
      refine ⟨_, rfl, hw, hf, ?_, hbd⟩
      rw [hm, ← hz]
      cases zb with
      | false =>
        rw [hz]
        simp
      | true =>
        have : s1.zero_pos = [] := by
          by_contra h0
          exact hc ⟨rfl, h0⟩
        rw [this, List.append_nil]

theorem skip_eq (w start_y : Nat) (h : 128 * w * start_y < 2 ^ 31) :
    decodeThreaded.skip w start_y = 16 * w * start_y := by
  unfold decodeThreaded.skip add32 mul32
  have e1 : w * 14 * start_y = 14 * (w * start_y) := by ring
  have e2 : w * 2 * start_y = 2 * (w * start_y) := by ring
  have e3 : 128 * w * start_y = 128 * (w * start_y) := by ring
  have e4 : 16 * w * start_y = 16 * (w * start_y) := by ring
  rw [e1, e2, e4]
  rw [e3] at h
  generalize w * start_y = t at h ⊢
  simp only []
  rw [Nat.mod_eq_of_lt (show 14 * t < 2 ^ 32 by omega),
    Nat.mod_eq_of_lt (show 14 * t * 9 < 2 ^ 32 by omega),
    Nat.mod_eq_of_lt (show 2 * t < 2 ^ 32 by omega),
    Nat.mod_eq_of_lt (show 14 * t * 9 + 2 * t < 2 ^ 32 by omega)]
  rw [if_pos (by omega)]
  omega

theorem rowCells_nodup (y lo n : Nat) : (rowCells y lo n).Nodup := by
  unfold rowCells
  apply List.Nodup.map
  · intro a b h
    exact (Prod.mk.injEq _ _ _ _ ▸ h).2
  · exact List.nodup_range' lo n

theorem rectCells_nodup (cols : Nat) : ∀ (n start_y : Nat), (rectCells cols start_y n).Nodup
  | 0, _ => List.nodup_nil
  | n + 1, start_y => by
    unfold rectCells
    rw [List.nodup_append]
    refine ⟨rowCells_nodup _ _ _, rectCells_nodup cols n (start_y + 1), ?_⟩
    intro c h1 h2
    rw [mem_rowCells] at h1
    rw [mem_rectCells] at h2
    omega

/-- C14 as stated fails: with an empty payload, a 14 pixel wide image and the
range `[1024, 1025)`, `skipBytes` asks the input to skip `0x4000` bytes and
`decodeThreaded` ends in an `IOException` with nothing stored. -/
theorem decodeThreaded_short_payload_throws :
    decodeThreaded.skip (14 / 14) 1024 = 0x4000 ∧
      (decodeThreaded (ByteStream.ofBuffer [] 0 0) 0 14 true 1024 1025 samplePlane []).1 =
        Except.error Err.IOE ∧
      (decodeThreaded (ByteStream.ofBuffer [] 0 0) 0 14 true 1024 1025 samplePlane []).2.writes =
        [] := by
  decide

/-- C14, amended: from a stream with the cursor inside the data,
`decodeThreaded` completes without error exactly when the whole cache loads
of `BufSize` bytes that `skipBytes` steps over are in the input, where `skip`
is `16 * (dim_x / 14) * start_y` when `128 * (dim_x / 14) * start_y < 2 ^ 31`;
this holds for every payload, also the empty one, when `start_y = 0`.  A run
that completes has stored to every coordinate of its rows; any other run ends
in an `IOException` with nothing stored. -/
theorem decodeThreaded_completes_iff (input : ByteStream) (lf dim_x : Nat) (zb : Bool)
    (start_y end_y : Nat) (plane : Nat → Nat → Nat) (bad : List Nat)
    (hpos : input.pos ≤ input.data.length) :
    ((decodeThreaded input lf dim_x zb start_y end_y plane bad).1 = Except.ok () ↔
        input.pos + decodeThreaded.skip (dim_x / 14) start_y / BufSize * BufSize ≤
          input.data.length) ∧
      ((decodeThreaded input lf dim_x zb start_y end_y plane bad).1 = Except.ok () →
        (decodeThreaded input lf dim_x zb start_y end_y plane bad).2.writes =
          rectCells (dim_x / 14 * 14) start_y (end_y - start_y)) ∧
      ((decodeThreaded input lf dim_x zb start_y end_y plane bad).1 ≠ Except.ok () →
        (decodeThreaded input lf dim_x zb start_y end_y plane bad).1 = Except.error Err.IOE ∧
          (decodeThreaded input lf dim_x zb start_y end_y plane bad).2.writes = []) ∧
      (128 * (dim_x / 14) * start_y < 2 ^ 31 →
        decodeThreaded.skip (dim_x / 14) start_y = 16 * (dim_x / 14) * start_y) ∧
      (start_y = 0 →
        (decodeThreaded input lf dim_x zb start_y end_y plane bad).1 = Except.ok ()) := by
  have hskip := skip_eq (dim_x / 14) start_y
  rcases decodeThreaded_run input lf dim_x zb start_y end_y plane bad with
    ⟨h, st, e, hw, _⟩ | ⟨h, e⟩
  · rw [e]
    exact ⟨⟨fun _ => h, fun _ => rfl⟩, fun _ => hw, fun hne => absurd rfl hne, hskip,
      fun _ => rfl⟩
  · rw [e]
    refine ⟨⟨fun h1 => ?_, fun h1 => ?_⟩, fun h1 => ?_, fun _ => ⟨rfl, rfl⟩, hskip, fun h0 => ?_⟩
    · cases h1
    · omega
    · cases h1
    · exfalso
      subst h0
      rw [hskip (by omega)] at h
      simp only [Nat.mul_zero, Nat.zero_div, Nat.zero_mul, Nat.add_zero] at h
      omega

theorem decodeThreaded_completes_iff_witness :
    ((decodeThreaded samplePayload 0 14 true 1 2 samplePlane []).1 = Except.ok () ↔
        samplePayload.pos + decodeThreaded.skip (14 / 14) 1 / BufSize * BufSize ≤
          samplePayload.data.length) ∧
      ((decodeThreaded samplePayload 0 14 true 1 2 samplePlane []).1 = Except.ok () →
        (decodeThreaded samplePayload 0 14 true 1 2 samplePlane []).2.writes =
          rectCells (14 / 14 * 14) 1 (2 - 1)) ∧
      ((decodeThreaded samplePayload 0 14 true 1 2 samplePlane []).1 ≠ Except.ok () →
        (decodeThreaded samplePayload 0 14 true 1 2 samplePlane []).1 = Except.error Err.IOE ∧
          (decodeThreaded samplePayload 0 14 true 1 2 samplePlane []).2.writes = []) ∧
      (128 * (14 / 14) * 1 < 2 ^ 31 →
        decodeThreaded.skip (14 / 14) 1 = 16 * (14 / 14) * 1) ∧
      (1 = 0 → (decodeThreaded samplePayload 0 14 true 1 2 samplePlane []).1 = Except.ok ()) :=
  decodeThreaded_completes_iff samplePayload 0 14 true 1 2 samplePlane [] (by decide)

/-- C17 as stated fails: over a payload of one byte, for a 14 pixel wide image
and the range `[1024, 1025)`, the coordinate `(1024, 3)` is in the rows and
columns of the range, but `decodeThreaded` ends in the `IOException` of
`skipBytes`, stores to no coordinate at all and leaves the sample at
`(1024, 3)` as it was. -/
theorem decodeThreaded_range_not_written :
    (1024, 3) ∈ rectCells (14 / 14 * 14) 1024 (1025 - 1024) ∧
      (decodeThreaded (ByteStream.ofBuffer [0x5A] 0 1) 0 14 false 1024 1025 sampleWhite
        [9]).1 = Except.error Err.IOE ∧
      (decodeThreaded (ByteStream.ofBuffer [0x5A] 0 1) 0 14 false 1024 1025 sampleWhite
        [9]).2.writes = [] ∧
      (decodeThreaded (ByteStream.ofBuffer [0x5A] 0 1) 0 14 false 1024 1025 sampleWhite
        [9]).2.plane 1024 3 = 65535 := by
  decide

/-- C17, amended: `decodeThreaded` on the range `[start_y, end_y)` completes
exactly when the whole cache loads of `BufSize` bytes that `skipBytes` steps
over are in the input.  A run that completes stores to every coordinate of the
rows `start_y ≤ y < end_y` and columns `x < 14 * (dim_x / 14)`, row by row and
each coordinate exactly once, and to no other; a run that does not complete
ends in an `IOException`, stores to no coordinate and leaves the whole image
as it was.  In both cases every sample outside these rows and columns is as
before. -/
theorem decodeThreaded_frame (input : ByteStream) (lf dim_x : Nat) (zb : Bool)
    (start_y end_y : Nat) (plane : Nat → Nat → Nat) (bad : List Nat) :
    ((decodeThreaded input lf dim_x zb start_y end_y plane bad).1 = Except.ok () ↔
        input.pos + decodeThreaded.skip (dim_x / 14) start_y / BufSize * BufSize ≤
          input.data.length) ∧
      ((decodeThreaded input lf dim_x zb start_y end_y plane bad).1 = Except.ok () →
        (decodeThreaded input lf dim_x zb start_y end_y plane bad).2.writes =
            rectCells (dim_x / 14 * 14) start_y (end_y - start_y) ∧
          (decodeThreaded input lf dim_x zb start_y end_y plane bad).2.writes.Nodup ∧
          ∀ y x, start_y ≤ y → y < end_y → x < 14 * (dim_x / 14) →
            (y, x) ∈ (decodeThreaded input lf dim_x zb start_y end_y plane bad).2.writes) ∧
      ((decodeThreaded input lf dim_x zb start_y end_y plane bad).1 ≠ Except.ok () →
        (decodeThreaded input lf dim_x zb start_y end_y plane bad).1 = Except.error Err.IOE ∧
          (decodeThreaded input lf dim_x zb start_y end_y plane bad).2.writes = [] ∧
          (decodeThreaded input lf dim_x zb start_y end_y plane bad).2.plane = plane) ∧
      (rectCells (dim_x / 14 * 14) start_y (end_y - start_y)).Nodup ∧
      (∀ c, c ∈ rectCells (dim_x / 14 * 14) start_y (end_y - start_y) ↔
        start_y ≤ c.1 ∧ c.1 < end_y ∧ c.2 < 14 * (dim_x / 14)) ∧
      (∀ c, c ∈ (decodeThreaded input lf dim_x zb start_y end_y plane bad).2.writes →
        start_y ≤ c.1 ∧ c.1 < end_y ∧ c.2 < 14 * (dim_x / 14)) ∧
      (∀ y x, ¬ (start_y ≤ y ∧ y < end_y ∧ x < 14 * (dim_x / 14)) →
        (decodeThreaded input lf dim_x zb start_y end_y plane bad).2.plane y x = plane y x) := by
  have hmem : ∀ c, c ∈ rectCells (dim_x / 14 * 14) start_y (end_y - start_y) ↔
      start_y ≤ c.1 ∧ c.1 < end_y ∧ c.2 < 14 * (dim_x / 14) := by
    intro c
    rw [mem_rectCells]
    omega
  have hnd := rectCells_nodup (dim_x / 14 * 14) (end_y - start_y) start_y
  rcases decodeThreaded_run input lf dim_x zb start_y end_y plane bad with
    ⟨h, st, e, hw, hf, _⟩ | ⟨h, e⟩
  · rw [e]
    refine ⟨⟨fun _ => h, fun _ => rfl⟩, fun _ => ⟨hw, ?_, ?_⟩, fun hne => absurd rfl hne, hnd,
      hmem, ?_, ?_⟩
    · show st.writes.Nodup
      rw [hw]
      exact hnd
    · intro y x h1 h2 h3
      show (y, x) ∈ st.writes
      rw [hw]
      exact (hmem (y, x)).2 ⟨h1, h2, h3⟩
    · intro c hc
      have hc1 : c ∈ st.writes := hc
      rw [hw] at hc1
      exact (hmem c).1 hc1
    · intro y x hne
      exact hf y x (fun hin => hne ((hmem (y, x)).1 hin))
  · rw [e]
    refine ⟨⟨fun h1 => ?_, fun h1 => ?_⟩, fun h1 => ?_, fun _ => ⟨rfl, rfl, rfl⟩, hnd, hmem,
      ?_, fun _ _ _ => rfl⟩
    · cases h1
    · omega
    · cases h1
    · intro c hc
      exact absurd hc (List.not_mem_nil c)

/-- C18 as stated fails for either sign extension.  With the two's-complement
helper of the spec the all-ones 16-bit field gives -1, and -32768 comes from
the field `0x8000`; with the sign extension of JPEG the all-ones field gives
-32768, and so does the field `0x7FFF`. -/
theorem getBits_sentinel_not_exact :
    (HasselbladDecompressor.getBits signExtendedSpec 16
        (streamOf (List.replicate 16 true))).1 = Except.ok (-1) ∧
      (HasselbladDecompressor.getBits signExtendedSpec 16
        (streamOf (true :: List.replicate 15 false))).1 = Except.ok (-32768) ∧
      (HasselbladDecompressor.getBits signExtendedJpeg 16
        (streamOf (List.replicate 16 true))).1 = Except.ok (-32768) ∧
      (HasselbladDecompressor.getBits signExtendedJpeg 16
        (streamOf (false :: List.replicate 15 true))).1 = Except.ok (-32768) := by
  decide

theorem msb32_getBits_zero (bs : BitPumpMSB32) :
    (BitPumpMSB32.getBits 0 bs).1 = Except.ok 0 := by
  unfold BitPumpMSB32.getBits
  simp [bitsValue]

/-- C18, amended: whatever `HuffmanTable::signExtended` is and whatever `len`
is, `HasselbladDecompressor::getBits` leaves the reader as one call of
`getBits(len)` does, `len` bits further; for `len = 0` it returns 0, and for
`len > 0` it returns -32768 when `signExtended` gives 65535 for the field read
and what `signExtended` gives otherwise.  So -32768 is returned exactly when
`len > 0` and `signExtended` gives 65535 or -32768. -/
theorem getBits_signExtended (signExtended : Nat → Nat → Int) (len : Nat)
    (bs : BitPumpMSB32) :
    (HasselbladDecompressor.getBits signExtended len bs).2 =
        (BitPumpMSB32.getBits len bs).2 ∧
      (HasselbladDecompressor.getBits signExtended len bs).2.used = bs.used + len ∧
      (len = 0 → (HasselbladDecompressor.getBits signExtended len bs).1 = Except.ok 0) ∧
      (∃ diff, (BitPumpMSB32.getBits len bs).1 = Except.ok diff ∧
        (0 < len → (HasselbladDecompressor.getBits signExtended len bs).1 =
          Except.ok (if signExtended diff len = 65535 then -32768 else signExtended diff len)) ∧
        ((HasselbladDecompressor.getBits signExtended len bs).1 = Except.ok (-32768) ↔
          0 < len ∧ (signExtended diff len = 65535 ∨ signExtended diff len = -32768))) := by
  have hrun : HasselbladDecompressor.getBits signExtended len bs =
      (Except.ok (if (if len > 0 then signExtended
          (bitsValue (bs.bits.take len ++ List.replicate (len - bs.bits.length) false)) len
          else ((bitsValue (bs.bits.take len ++
            List.replicate (len - bs.bits.length) false) : Nat) : Int)) = 65535 then -32768
        else (if len > 0 then signExtended
          (bitsValue (bs.bits.take len ++ List.replicate (len - bs.bits.length) false)) len
          else ((bitsValue (bs.bits.take len ++
            List.replicate (len - bs.bits.length) false) : Nat) : Int))),
        { bits := bs.bits.drop len, used := bs.used + len }) := by
    unfold HasselbladDecompressor.getBits
    simp only [M.bind_apply, BitPumpMSB32.getBits, M.ite_apply, M.pure_apply]
    split_ifs <;> rfl
  have hz := msb32_getBits_zero bs
  rw [hrun]
  refine ⟨rfl, rfl, ?_, _, rfl, ?_, ?_⟩
  · intro h0
    subst h0
    simp only [BitPumpMSB32.getBits] at hz
    injection hz with hz
    simp only [gt_iff_lt, Nat.lt_irrefl, if_false, hz]
    rfl
  · intro hpos
    simp only [gt_iff_lt, hpos, if_true]
  · by_cases hpos : 0 < len
    · simp only [gt_iff_lt, hpos, if_true, true_and]
      constructor
      · intro h
        injection h with h
        split_ifs at h with h1
        · exact Or.inl h1
        · exact Or.inr h
      · rintro (h | h)
        · rw [if_pos h]
        · rw [h]
          rfl
    · have h0 : len = 0 := by omega
      subst h0
      simp only [BitPumpMSB32.getBits] at hz
      injection hz with hz
      simp only [gt_iff_lt, Nat.lt_irrefl, if_false, hz, false_and, iff_false]
      intro h
      injection h with h
      simp at h

theorem hasselblad_getBits_run (signExtended : Nat → Nat → Int) (len : Nat)
    (bs : BitPumpMSB32) :
    ∃ v, HasselbladDecompressor.getBits signExtended len bs =
      (Except.ok v, (BitPumpMSB32.getBits len bs).2) := by
  unfold HasselbladDecompressor.getBits
  simp only [M.bind_apply, BitPumpMSB32.getBits, M.ite_apply, M.pure_apply]
  split_ifs <;> exact ⟨_, rfl⟩

/-- One round of the loop over `x` reads what `pairDiffs` reads, in the same
order, and stores the two samples. -/
theorem pair_run (signExtended : Nat → Nat → Int) (decodeLength : M BitPumpMSB32 Nat)
    (y x : Nat) (st : HasselbladState) :
    decodeScan.pair signExtended decodeLength y x st =
      match pairDiffs signExtended decodeLength st.bitStream with
      | (Except.ok d, b1) => (Except.ok (), pairStored st b1 d y x)
      | (Except.error e, b1) => (Except.error e, { st with bitStream := b1 }) := by
  unfold decodeScan.pair pairDiffs
  simp only [M.bind_apply, onStream, modifyState, M.pure_apply]
  rcases h1 : decodeLength st.bitStream with ⟨r1, b1⟩
  cases r1 with
  | error e => rfl
  | ok len1 =>
    simp only []
    rcases h2 : decodeLength b1 with ⟨r2, b2⟩
    cases r2 with
    | error e => rfl
    | ok len2 =>
      simp only []
      obtain ⟨v1, e1⟩ := hasselblad_getBits_run signExtended len1 b2
      rw [e1]
      simp only []
      obtain ⟨v2, e2⟩ := hasselblad_getBits_run signExtended len2 (BitPumpMSB32.getBits len1 b2).2
      rw [e2]
      rfl

theorem pairStored_plane (st : HasselbladState) (b1 : BitPumpMSB32) (d : Int × Int)
    (y x : Nat) :
    (pairStored st b1 d y x).plane y x = ((st.p1 + d.1) % 65536).toNat ∧
      (pairStored st b1 d y x).plane y (x + 1) = ((st.p2 + d.2) % 65536).toNat ∧
      ∀ y1 x1, (y1 ≠ y ∨ (x1 ≠ x ∧ x1 ≠ x + 1)) →
        (pairStored st b1 d y x).plane y1 x1 = st.plane y1 x1 := by
  refine ⟨?_, ?_, ?_⟩
  · simp only [pairStored, Function.update_same]
    rw [Function.update_noteq (by omega), Function.update_same]
  · simp only [pairStored, Function.update_same]
  · intro y1 x1 h
    simp only [pairStored]
    by_cases hy : y1 = y
    · subst hy
      rcases h with h | ⟨h1, h2⟩
      · exact absurd rfl h
      · rw [Function.update_same, Function.update_noteq h2, Function.update_same,
          Function.update_noteq h1]
    · rw [Function.update_noteq hy, Function.update_noteq hy]

/-- The loop over `x` from round `k0`, `n` rounds: it reads what `rowDiffs`
reads, and the samples of round `k0 + j` are the predictors plus the
differences of the rounds up to it. -/
theorem pairs_run (signExtended : Nat → Nat → Int) (decodeLength : M BitPumpMSB32 Nat)
    (y : Nat) : ∀ (n k0 : Nat) (st : HasselbladState) (ds : List (Int × Int))
    (b1 : BitPumpMSB32),
    rowDiffs signExtended decodeLength n st.bitStream = (Except.ok ds, b1) →
    ∃ st1, forRange (fun k => decodeScan.pair signExtended decodeLength y (2 * k)) k0 n st =
        (Except.ok (), st1) ∧ st1.bitStream = b1 ∧ st1.input = st.input ∧
      (∀ j, j < n →
        st1.plane y (2 * (k0 + j)) =
            ((st.p1 + ((ds.map Prod.fst).take (j + 1)).sum) % 65536).toNat ∧
          st1.plane y (2 * (k0 + j) + 1) =
            ((st.p2 + ((ds.map Prod.snd).take (j + 1)).sum) % 65536).toNat) ∧
      (∀ y1 x1, (y1 ≠ y ∨ x1 < 2 * k0 ∨ 2 * (k0 + n) ≤ x1) → st1.plane y1 x1 = st.plane y1 x1)
  | 0, k0, st, ds, b1, h => by
    simp only [rowDiffs, M.pure_apply, Prod.mk.injEq, Except.ok.injEq] at h
    refine ⟨st, rfl, h.2, rfl, fun j hj => absurd hj (Nat.not_lt_zero j), fun _ _ _ => rfl⟩
  | n + 1, k0, st, ds, b1, h => by
    simp only [rowDiffs, M.bind_apply, M.pure_apply] at h
    rcases hp : pairDiffs signExtended decodeLength st.bitStream with ⟨r, b2⟩
    rw [hp] at h
    cases r with
    | error e => cases h
    | ok d =>
      simp only [] at h
      rcases hr : rowDiffs signExtended decodeLength n b2 with ⟨r2, b3⟩
      rw [hr] at h
      cases r2 with
      | error e => cases h
      | ok ds1 =>
        simp only [Prod.mk.injEq, Except.ok.injEq] at h
        obtain ⟨hds, hb⟩ := h
        subst hds hb
        obtain ⟨st1, e1, hb1, hi1, hs1, hf1⟩ :=
          pairs_run signExtended decodeLength y n (k0 + 1) (pairStored st b2 d y (2 * k0)) ds1 b3
            hr
        obtain ⟨hp1, hp2, hp3⟩ := pairStored_plane st b2 d y (2 * k0)
        rw [forRange_succ, M.bind_apply, pair_run, hp]
        simp only []
        rw [e1]
        refine ⟨st1, rfl, hb1, hi1, ?_, ?_⟩
        · intro j hj
          cases j with
          | zero =>
            rw [hf1 y (2 * (k0 + 0)) (Or.inr (Or.inl (by omega))),
              hf1 y (2 * (k0 + 0) + 1) (Or.inr (Or.inl (by omega)))]
            simp only [Nat.add_zero, List.map_cons, List.take_succ_cons, List.take_zero,
              List.sum_cons, List.sum_nil, Int.add_zero]
            exact ⟨hp1, hp2⟩
          | succ j =>
            have h := hs1 j (by omega)
            rw [show 2 * (k0 + (j + 1)) = 2 * (k0 + 1 + j) by omega]
            rw [h.1, h.2]
            simp only [pairStored, List.map_cons, List.take_succ_cons, List.sum_cons,
              Int.add_assoc, and_self]
        · intro y1 x1 hc
          rw [hf1 y1 x1 (by omega)]
          exact hp3 y1 x1 (by omega)

theorem row_run (signExtended : Nat → Nat → Int) (decodeLength : M BitPumpMSB32 Nat)
    (pixelBaseOffset : Int) (w y : Nat) (st : HasselbladState) (ds : List (Int × Int))
    (b1 : BitPumpMSB32)
    (h : rowDiffs signExtended decodeLength ((w + 1) / 2) st.bitStream = (Except.ok ds, b1)) :
    ∃ st1, decodeScan.row signExtended decodeLength pixelBaseOffset w y st =
        (Except.ok (), st1) ∧ st1.bitStream = b1 ∧ st1.input = st.input ∧
      (∀ k, k < (w + 1) / 2 →
        st1.plane y (2 * k) = sampleOf pixelBaseOffset (ds.map Prod.fst) k ∧
          st1.plane y (2 * k + 1) = sampleOf pixelBaseOffset (ds.map Prod.snd) k) ∧
      (∀ y1 x1, y1 ≠ y → st1.plane y1 x1 = st.plane y1 x1) := by
  obtain ⟨st1, e1, hb1, hi1, hs1, hf1⟩ :=
    pairs_run signExtended decodeLength y ((w + 1) / 2) 0
      { st with p1 := 0x8000 + pixelBaseOffset, p2 := 0x8000 + pixelBaseOffset } ds b1 h
  unfold decodeScan.row
  rw [M.bind_apply]
  simp only [modifyState]
  rw [e1]
  refine ⟨st1, rfl, hb1, hi1, ?_, fun y1 x1 hy => hf1 y1 x1 (Or.inl hy)⟩
  intro k hk
  have h := hs1 k hk
  rw [Nat.zero_add] at h
  exact h

theorem rows_run (signExtended : Nat → Nat → Int) (decodeLength : M BitPumpMSB32 Nat)
    (pixelBaseOffset : Int) (w : Nat) : ∀ (h y0 : Nat) (st : HasselbladState)
    (rows : List (List (Int × Int))) (b1 : BitPumpMSB32),
    scanDiffs signExtended decodeLength ((w + 1) / 2) h st.bitStream = (Except.ok rows, b1) →
    ∃ st1, forRange (decodeScan.row signExtended decodeLength pixelBaseOffset w) y0 h st =
        (Except.ok (), st1) ∧ st1.bitStream = b1 ∧ st1.input = st.input ∧
      (∀ i k, i < h → k < (w + 1) / 2 →
        st1.plane (y0 + i) (2 * k) =
            sampleOf pixelBaseOffset ((rows.getD i []).map Prod.fst) k ∧
          st1.plane (y0 + i) (2 * k + 1) =
            sampleOf pixelBaseOffset ((rows.getD i []).map Prod.snd) k) ∧
      (∀ y1 x1, (y1 < y0 ∨ y0 + h ≤ y1) → st1.plane y1 x1 = st.plane y1 x1)
  | 0, y0, st, rows, b1, hs => by
    simp only [scanDiffs, M.pure_apply, Prod.mk.injEq, Except.ok.injEq] at hs
    exact ⟨st, rfl, hs.2, rfl, fun i k hi => absurd hi (Nat.not_lt_zero i), fun _ _ _ => rfl⟩
  | h + 1, y0, st, rows, b1, hs => by
    simp only [scanDiffs, M.bind_apply, M.pure_apply] at hs
    rcases hr : rowDiffs signExtended decodeLength ((w + 1) / 2) st.bitStream with ⟨r, b2⟩
    rw [hr] at hs
    cases r with
    | error e => cases hs
    | ok ds =>
      simp only [] at hs
      obtain ⟨s1, e1, hb1, hi1, hs1, hf1⟩ :=
        row_run signExtended decodeLength pixelBaseOffset w y0 st ds b2 hr
      rcases hr2 : scanDiffs signExtended decodeLength ((w + 1) / 2) h b2 with ⟨r2, b3⟩
      rw [hr2] at hs
      cases r2 with
      | error e => cases hs
      | ok rs =>
        simp only [Prod.mk.injEq, Except.ok.injEq] at hs
        obtain ⟨hrows, hb⟩ := hs
        subst hrows hb
        obtain ⟨s2, e2, hb2, hi2, hs2, hf2⟩ :=
          rows_run signExtended decodeLength pixelBaseOffset w h (y0 + 1) s1 rs b3
            (by rw [hb1]; exact hr2)
        rw [forRange_succ, M.bind_apply, e1]
        simp only []
        rw [e2]
        refine ⟨s2, rfl, hb2, by rw [hi2, hi1], ?_, ?_⟩
        · intro i k hi hk
          cases i with
          | zero =>
            rw [hf2 (y0 + 0) _ (Or.inl (by omega)), hf2 (y0 + 0) _ (Or.inl (by omega))]
            exact hs1 k hk
          | succ i =>
            have h := hs2 i k (by omega) hk
            rw [show y0 + (i + 1) = y0 + 1 + i by omega]
            exact h
        · intro y1 x1 hc
          rw [hf2 y1 x1 (by omega), hf1 y1 x1 (by omega)]

theorem pairDiffs_zero (signExtended : Nat → Nat → Int) (decodeLength : M BitPumpMSB32 Nat)
    (hz : ∀ s, ∃ s1, decodeLength s = (Except.ok 0, s1)) (bs : BitPumpMSB32) :
    ∃ b1, pairDiffs signExtended decodeLength bs = (Except.ok (0, 0), b1) := by
  obtain ⟨s1, h1⟩ := hz bs
  obtain ⟨s2, h2⟩ := hz s1
  unfold pairDiffs
  simp only [M.bind_apply, h1, h2, M.pure_apply]
  have hg : ∀ b, HasselbladDecompressor.getBits signExtended 0 b =
      (Except.ok 0, (BitPumpMSB32.getBits 0 b).2) := by
    intro b
    unfold HasselbladDecompressor.getBits
    simp only [M.bind_apply, BitPumpMSB32.getBits, M.ite_apply, M.pure_apply]
    simp [bitsValue]
  simp only [hg]
  exact ⟨_, rfl⟩

theorem rowDiffs_zero (signExtended : Nat → Nat → Int) (decodeLength : M BitPumpMSB32 Nat)
    (hz : ∀ s, ∃ s1, decodeLength s = (Except.ok 0, s1)) :
    ∀ (n : Nat) (bs : BitPumpMSB32), ∃ b1,
      rowDiffs signExtended decodeLength n bs = (Except.ok (List.replicate n (0, 0)), b1)
  | 0, bs => ⟨bs, rfl⟩
  | n + 1, bs => by
    obtain ⟨b1, h1⟩ := pairDiffs_zero signExtended decodeLength hz bs
    obtain ⟨b2, h2⟩ := rowDiffs_zero signExtended decodeLength hz n b1
    simp only [rowDiffs, M.bind_apply, h1, h2, M.pure_apply]
    exact ⟨b2, rfl⟩

theorem scanDiffs_zero (signExtended : Nat → Nat → Int) (decodeLength : M BitPumpMSB32 Nat)
    (hz : ∀ s, ∃ s1, decodeLength s = (Except.ok 0, s1)) (n : Nat) :
    ∀ (h : Nat) (bs : BitPumpMSB32), ∃ b1,
      scanDiffs signExtended decodeLength n h bs =
        (Except.ok (List.replicate h (List.replicate n (0, 0))), b1)
  | 0, bs => ⟨bs, rfl⟩
  | h + 1, bs => by
    obtain ⟨b1, h1⟩ := rowDiffs_zero signExtended decodeLength hz n bs
    obtain ⟨b2, h2⟩ := scanDiffs_zero signExtended decodeLength hz n h b1
    simp only [scanDiffs, M.bind_apply, h1, h2, M.pure_apply]
    exact ⟨b2, rfl⟩

theorem sampleOf_zero (pixelBaseOffset : Int) (n k : Nat) :
    sampleOf pixelBaseOffset ((List.replicate n ((0 : Int), (0 : Int))).map Prod.fst) k =
        ((0x8000 + pixelBaseOffset) % 65536).toNat ∧
      sampleOf pixelBaseOffset ((List.replicate n ((0 : Int), (0 : Int))).map Prod.snd) k =
        ((0x8000 + pixelBaseOffset) % 65536).toNat := by
  have hsum : ∀ (l : List Int), (∀ x ∈ l, x = 0) → l.sum = 0 := by
    intro l hl
    induction l with
    | nil => rfl
    | cons a t ih =>
      rw [List.sum_cons, hl a (List.mem_cons_self _ _),
        ih (fun x hx => hl x (List.mem_cons_of_mem _ hx))]
      rfl
  unfold sampleOf
  constructor
  · rw [hsum _ (fun x hx => by
      have := List.mem_of_mem_take hx
      simp only [List.map_replicate, List.mem_replicate] at this
      exact this.2), Int.add_zero]
  · rw [hsum _ (fun x hx => by
      have := List.mem_of_mem_take hx
      simp only [List.map_replicate, List.mem_replicate] at this
      exact this.2), Int.add_zero]

/-- C19: when the differences of all pixel pairs can be read from the stream,
row after row and pair after pair in the order length1, length2, diff1, diff2,
`decodeScan` reads exactly these, leaves the reader where these reads leave
it, and in every row `y` stores at column `2 * k` the value `(0x8000 +
pixelBaseOffset + sum of diff1 over the pairs 0..k of the row) mod 2^16` and
at column `2 * k + 1` the same with diff2, both sums starting afresh in each
row; it ends as the final `input.skipBytes` ends.  When every decoded length
is 0 every sample stored is `(0x8000 + pixelBaseOffset) mod 2^16`. -/
theorem decodeScan_samples (signExtended : Nat → Nat → Int)
    (decodeLength : M BitPumpMSB32 Nat) (getBufferPosition : BitPumpMSB32 → Nat)
    (pixelBaseOffset : Int) (w h : Nat) (st : HasselbladState)
    (rows : List (List (Int × Int))) (b1 : BitPumpMSB32)
    (hs : scanDiffs signExtended decodeLength ((w + 1) / 2) h st.bitStream =
      (Except.ok rows, b1)) :
    (decodeScan signExtended decodeLength getBufferPosition pixelBaseOffset w h st).2.bitStream =
        b1 ∧
      (decodeScan signExtended decodeLength getBufferPosition pixelBaseOffset w h st).1 =
        (ByteStream.skipBytes (getBufferPosition b1) st.input).1 ∧
      (∀ y k, y < h → k < (w + 1) / 2 →
        (decodeScan signExtended decodeLength getBufferPosition pixelBaseOffset w h
            st).2.plane y (2 * k) =
          sampleOf pixelBaseOffset ((rows.getD y []).map Prod.fst) k ∧
        (decodeScan signExtended decodeLength getBufferPosition pixelBaseOffset w h
            st).2.plane y (2 * k + 1) =
          sampleOf pixelBaseOffset ((rows.getD y []).map Prod.snd) k) ∧
      ((∀ s, ∃ s1, decodeLength s = (Except.ok 0, s1)) →
        ∀ y x, y < h → x < 2 * ((w + 1) / 2) →
          (decodeScan signExtended decodeLength getBufferPosition pixelBaseOffset w h
              st).2.plane y x = ((0x8000 + pixelBaseOffset) % 65536).toNat) := by
  obtain ⟨st1, e1, hb1, hi1, hs1, _⟩ :=
    rows_run signExtended decodeLength pixelBaseOffset w h 0 st rows b1 hs
  have hrun : decodeScan signExtended decodeLength getBufferPosition pixelBaseOffset w h st =
      ((ByteStream.skipBytes (getBufferPosition b1) st.input).1,
        { st1 with input := (ByteStream.skipBytes (getBufferPosition b1) st.input).2 }) := by
    unfold decodeScan
    rw [M.bind_apply, e1]
    simp only []
    rw [hb1, hi1]
  rw [hrun]
  have hpl : ∀ y k, y < h → k < (w + 1) / 2 →
      st1.plane y (2 * k) = sampleOf pixelBaseOffset ((rows.getD y []).map Prod.fst) k ∧
        st1.plane y (2 * k + 1) = sampleOf pixelBaseOffset ((rows.getD y []).map Prod.snd) k := by
    intro y k hy hk
    have h := hs1 y k hy hk
    rw [Nat.zero_add] at h
    exact h
  refine ⟨hb1, rfl, hpl, ?_⟩
  intro hz y x hy hx
  obtain ⟨b2, h2⟩ := scanDiffs_zero signExtended decodeLength hz ((w + 1) / 2) h st.bitStream
  rw [hs] at h2
  simp only [Prod.mk.injEq, Except.ok.injEq] at h2
  have hrow : rows.getD y [] = List.replicate ((w + 1) / 2) (0, 0) := by
    rw [h2.1, List.getD_eq_getElem?_getD, List.getElem?_replicate, if_pos hy]
    rfl
  have hk := hpl y (x / 2) hy (by omega)
  rw [hrow, (sampleOf_zero pixelBaseOffset _ _).1, (sampleOf_zero pixelBaseOffset _ _).2] at hk
  rcases Nat.mod_two_eq_zero_or_one x with hm | hm
  · rw [show x = 2 * (x / 2) by omega]
    exact hk.1
  · rw [show x = 2 * (x / 2) + 1 by omega]
    exact hk.2

theorem decodeScan_samples_witness :
    (decodeScan signExtendedJpeg sampleDecodeLength sampleBufferPosition 0 3 2
        sampleScanState).2.bitStream =
        (scanDiffs signExtendedJpeg sampleDecodeLength ((3 + 1) / 2) 2
          sampleScanState.bitStream).2 ∧
      (decodeScan signExtendedJpeg sampleDecodeLength sampleBufferPosition 0 3 2
        sampleScanState).1 =
        (ByteStream.skipBytes (sampleBufferPosition
          (scanDiffs signExtendedJpeg sampleDecodeLength ((3 + 1) / 2) 2
            sampleScanState.bitStream).2) sampleScanState.input).1 ∧
      (∀ y k, y < 2 → k < (3 + 1) / 2 →
        (decodeScan signExtendedJpeg sampleDecodeLength sampleBufferPosition 0 3 2
            sampleScanState).2.plane y (2 * k) =
          sampleOf 0 ((([[(3, -5), (-1023, -3)], [(0, 0), (0, 0)]] :
            List (List (Int × Int))).getD y []).map Prod.fst) k ∧
        (decodeScan signExtendedJpeg sampleDecodeLength sampleBufferPosition 0 3 2
            sampleScanState).2.plane y (2 * k + 1) =
          sampleOf 0 ((([[(3, -5), (-1023, -3)], [(0, 0), (0, 0)]] :
            List (List (Int × Int))).getD y []).map Prod.snd) k) ∧
      ((∀ s, ∃ s1, sampleDecodeLength s = (Except.ok 0, s1)) →
        ∀ y x, y < 2 → x < 2 * ((3 + 1) / 2) →
          (decodeScan signExtendedJpeg sampleDecodeLength sampleBufferPosition 0 3 2
              sampleScanState).2.plane y x = ((0x8000 + (0 : Int)) % 65536).toNat) :=
  decodeScan_samples signExtendedJpeg sampleDecodeLength sampleBufferPosition 0 3 2
    sampleScanState [[(3, -5), (-1023, -3)], [(0, 0), (0, 0)]]
    (scanDiffs signExtendedJpeg sampleDecodeLength ((3 + 1) / 2) 2 sampleScanState.bitStream).2
    (by decide)

/-! ## Runs of `decodeThreaded` over parts of the rows -/

theorem segBuf_high (input : ByteStream) (lf q j : Nat) (hlf : lf ≤ BufSize)
    (hj : BufSize ≤ j) : segBuf input lf q j = 0 := by
  unfold segBuf
  simp only [PanaBitpump.refilled, PanaBitpump.new]
  rw [sub32_of_le _ _ hlf]
  rw [if_neg (by omega), if_neg (by omega)]

theorem sub17_eq (v n : Nat) (hv : v < 0x20000) (hn : n ≤ v) : sub17 v n = v - n := by
  unfold sub17
  rw [if_pos hn, Nat.mod_eq_of_lt (by omega)]

theorem sub17_zero_left (n : Nat) (h1 : 1 ≤ n) (h2 : n ≤ 0x20000) :
    sub17 0 n = (0x20000 - n) % 0x20000 := by
  unfold sub17
  rw [if_neg (by omega), Nat.sub_zero]
  rcases Nat.lt_or_ge n 0x20000 with h | h
  · rw [Nat.mod_eq_of_lt h]
  · have : n = 0x20000 := by omega
    subst this
    rfl

/-- One call of `getBits` from a tracked state, the `n` bits lying in one
cache load that is whole in the input. -/
theorem getBits_track (input : ByteStream) (lf T n : Nat) (p : PanaBitpump)
    (ht : Track input lf T p) (hlf : lf ≤ BufSize) (hn : 1 ≤ n)
    (hseg : T % 0x20000 + n ≤ 0x20000)
    (hav : input.pos + BufSize * (T / 0x20000 + 1) ≤ input.data.length) :
    ∃ p1, PanaBitpump.getBits n p = (Except.ok (trackedBits input lf T n), p1) ∧
      Track input lf (T + n) p1 := by
  obtain ⟨hin, hv, hl, hb, hz⟩ := ht
  have hB : BufSize = 0x4000 := rfl
  rw [hB] at hin hav hlf hz
  by_cases h0 : T % 0x20000 = 0
  · have hv0 : p.vbits = 0 := by rw [hv, h0]
    have hpos : p.input.pos ≤ p.input.data.length := by
      rw [hin]
      simp only []
      omega
    rw [getBits_run_zero n p hv0 hpos]
    have hq : (T + 0x1ffff) / 0x20000 = T / 0x20000 := by omega
    have hbuf : ∀ j, (PanaBitpump.refilled p).buf j = segBuf input lf (T / 0x20000) j := by
      intro j
      unfold segBuf
      simp only [PanaBitpump.refilled, PanaBitpump.new, hin, hl, hq, hB]
      rw [sub32_of_le _ _ hlf]
      split_ifs with h1 h2
      · rfl
      · rfl
      · exact hz j (by omega)
    have hval : PanaBitpump.field (PanaBitpump.refilled p).buf (sub17 0 n) n =
        trackedBits input lf T n := by
      unfold trackedBits PanaBitpump.field
      rw [sub17_zero_left n hn (by omega)]
      have e : (T + n) % 0x20000 = n % 0x20000 := by omega
      rw [e]
      have e2 : (0x20000 - n % 0x20000) % 0x20000 = (0x20000 - n) % 0x20000 := by omega
      rw [e2, hbuf, hbuf]
    rw [hval]
    refine ⟨_, rfl, ?_, ?_, hl, ?_, ?_⟩
    · show { p.input with pos := p.input.pos + PanaBitpump.refillSize p } = _
      rw [refillSize_eq p (by rw [hl, hB]; exact hlf), hin, hB]
      simp only []
      congr 1
      omega
    · show sub17 0 n = _
      rw [sub17_zero_left n hn (by omega)]
      omega
    · intro _ j
      show (PanaBitpump.refilled p).buf j = _
      rw [hbuf]
      congr 1
      omega
    · intro j hj
      show (PanaBitpump.refilled p).buf j = _
      rw [hbuf, segBuf_high input lf _ j (by rw [hB]; exact hlf) hj]
  · have hvn : p.vbits ≠ 0 := by rw [hv]; omega
    rw [getBits_run_ne n p hvn]
    have hvv : p.vbits = 0x20000 - T % 0x20000 := by rw [hv]; omega
    have hs : sub17 p.vbits n = p.vbits - n := sub17_eq _ _ (by omega) (by omega)
    have hval : PanaBitpump.field p.buf (sub17 p.vbits n) n = trackedBits input lf T n := by
      unfold trackedBits PanaBitpump.field
      rw [hs]
      have e : (0x20000 - (T + n) % 0x20000) % 0x20000 = p.vbits - n := by omega
      rw [e, hb h0, hb h0]
    rw [hval]
    refine ⟨_, rfl, ?_, ?_, hl, ?_, ?_⟩
    · show p.input = _
      rw [hin, hB]
      congr 2
      omega
    · show sub17 p.vbits n = _
      rw [hs]
      omega
    · intro h1 j
      show p.buf j = _
      rw [hb h0]
      congr 1
      omega
    · intro j hj
      exact hz j (by rw [hB] at hj; exact hj)

/-- The shift stage of two runs in step. -/
theorem shift_sim (input : ByteStream) (lf T t : Nat) (st st1 : Rw2State)
    (h : Lockstep input lf T t st st1) (hlf : lf ≤ BufSize)
    (hseg : T % 0x20000 + 2 ≤ 0x20000)
    (hav : input.pos + BufSize * (T / 0x20000 + 1) ≤ input.data.length) :
    ∃ s s1, decodeThreaded.shift st = (Except.ok (), s) ∧
      decodeThreaded.shift st1 = (Except.ok (), s1) ∧
      Track input lf (T + if t % 3 = 2 then 2 else 0) s.bits ∧
      Track input lf (T + if t % 3 = 2 then 2 else 0) s1.bits ∧
      SameImage st s ∧ SameImage st1 s1 ∧ s.pred = st.pred ∧ s1.pred = st.pred ∧
      s.nonz = st.nonz ∧ s1.nonz = st.nonz ∧ s.u = s1.u ∧
      s.u + 1 = (((t + 1) % 3 : Nat) : Int) ∧
      (s.sh = s1.sh ∨ (t = 0 ∧ st.nonz 0 = 0 ∧ st.nonz 1 = 0) ∨ (t = 1 ∧ st.nonz 1 = 0)) := by
  obtain ⟨ht, ht1, hp, hn, hu, hu1, hd, hsh⟩ := h
  unfold decodeThreaded.shift
  simp only [M.bind_apply, getState, M.ite_apply]
  by_cases h2 : t % 3 = 2
  · have e : st.u = 2 := by rw [hu, h2]; rfl
    have e1 : st1.u = 2 := by rw [hu1, h2]; rfl
    obtain ⟨p, hg, htp⟩ := getBits_track input lf T 2 st.bits ht hlf (by omega) hseg hav
    obtain ⟨p1, hg1, htp1⟩ := getBits_track input lf T 2 st1.bits ht1 hlf (by omega) hseg hav
    rw [if_pos e, if_pos e1, if_pos h2]
    simp only [M.bind_apply, onBits, hg, hg1, modifyState]
    refine ⟨_, _, rfl, rfl, htp, htp1, ⟨rfl, rfl, rfl, rfl, rfl⟩, ⟨rfl, rfl, rfl, rfl, rfl⟩, rfl,
      hp.symm, rfl, hn.symm, rfl, ?_, Or.inl rfl⟩
    simp only []
    omega
  · have e : st.u ≠ 2 := by rw [hu]; omega
    have e1 : st1.u ≠ 2 := by rw [hu1]; omega
    rw [if_neg e, if_neg e1, if_neg h2]
    refine ⟨st, st1, rfl, rfl, ht, ht1, ⟨rfl, rfl, rfl, rfl, rfl⟩, ⟨rfl, rfl, rfl, rfl, rfl⟩, rfl,
      hp.symm, rfl, hn.symm, by rw [hu, hu1], ?_, ?_⟩
    · rw [hu]
      omega
    · rcases hsh with h | h | h | h
      · exact Or.inl h
      · exact Or.inr (Or.inl h)
      · exact Or.inr (Or.inr h)
      · subst h
        exact absurd rfl h2

/-- The lane stage of two runs in step: both read the same bits, 8 of them and
4 more at the one 4-bit read of the lane. -/
theorem lane_sim (input : ByteStream) (lf T i c m : Nat) (st st1 : Rw2State)
    (ht : Track input lf T st.bits) (ht1 : Track input lf T st1.bits)
    (hp : st.pred = st1.pred) (hn : st.nonz = st1.nonz)
    (hsh : st.nonz c ≠ 0 → st.sh = st1.sh) (hm : m ≤ 6) (hi : i = 2 * m + c) (hc : c ≤ 1)
    (hlf : lf ≤ BufSize)
    (hseg : T % 0x20000 + 8 + 4 * (1 - laneRead st c m) ≤ 0x20000)
    (hav : input.pos + BufSize * (T / 0x20000 + 1) ≤ input.data.length) :
    ∃ s s1 T2, decodeThreaded.lane i c st = (Except.ok (), s) ∧
      decodeThreaded.lane i c st1 = (Except.ok (), s1) ∧
      Track input lf T2 s.bits ∧ Track input lf T2 s1.bits ∧
      T2 + 4 * laneRead st c m = T + 8 + 4 * laneRead s c (m + 1) ∧
      s.pred = s1.pred ∧ s.nonz = s1.nonz ∧ (∀ c1, c1 ≠ c → s.nonz c1 = st.nonz c1) ∧
      SameImage st s ∧ SameImage st1 s1 ∧ s.sh = st.sh ∧ s1.sh = st1.sh ∧ s.u = st.u ∧
      s1.u = st1.u := by
  have hnc : st1.nonz c = st.nonz c := by rw [hn]
  have hpc : st1.pred c = st.pred c := by rw [hp]
  unfold decodeThreaded.lane
  simp only [M.bind_apply, getState, M.ite_apply]
  by_cases hnz : st.nonz c ≠ 0
  · have hnz1 : st1.nonz c ≠ 0 := by rw [hnc]; exact hnz
    have hr : laneRead st c m = 1 := by unfold laneRead; rw [if_pos (Or.inl hnz)]
    obtain ⟨p, hg, htp⟩ := getBits_track input lf T 8 st.bits ht hlf (by omega) (by omega) hav
    obtain ⟨p1, hg1, htp1⟩ :=
      getBits_track input lf T 8 st1.bits ht1 hlf (by omega) (by omega) hav
    rw [if_pos hnz, if_pos hnz1]
    simp only [M.bind_apply, onBits, hg, hg1, M.ite_apply]
    by_cases hj : trackedBits input lf T 8 ≠ 0
    · rw [if_pos hj, if_pos hj]
      refine ⟨_, _, T + 8, rfl, rfl, htp, htp1, ?_, ?_, hn, ?_,
        ⟨rfl, rfl, rfl, rfl, rfl⟩, ⟨rfl, rfl, rfl, rfl, rfl⟩, rfl, rfl, rfl, rfl⟩
      · unfold laneRead
        simp only [modifyState]
        rw [if_pos (Or.inl hnz), if_pos (Or.inl hnz)]
      · simp only [modifyState]
        rw [hp, hsh hnz]
      · intro c1 _
        rfl
    · rw [if_neg hj, if_neg hj]
      refine ⟨_, _, T + 8, rfl, rfl, htp, htp1, ?_, hp, hn, fun _ _ => rfl,
        ⟨rfl, rfl, rfl, rfl, rfl⟩, ⟨rfl, rfl, rfl, rfl, rfl⟩, rfl, rfl, rfl, rfl⟩
      unfold laneRead
      simp only [M.pure_apply]
      rw [if_pos (Or.inl hnz), if_pos (Or.inl hnz)]
  · have hnz1 : ¬ st1.nonz c ≠ 0 := by rw [hnc]; exact hnz
    have hr : laneRead st c m = 0 := by
      unfold laneRead
      rw [if_neg (by
        rintro (h | h)
        · exact hnz h
        · omega)]
    rw [hr] at hseg
    obtain ⟨p, hg, htp⟩ := getBits_track input lf T 8 st.bits ht hlf (by omega) (by omega) hav
    obtain ⟨p1, hg1, htp1⟩ :=
      getBits_track input lf T 8 st1.bits ht1 hlf (by omega) (by omega) hav
    rw [if_neg hnz, if_neg hnz1]
    simp only [M.bind_apply, onBits, hg, hg1, M.ite_apply, modifyState]
    by_cases hcond : trackedBits input lf T 8 ≠ 0 ∨ i > 11
    · rw [if_pos hcond, if_pos hcond]
      obtain ⟨q, hq, htq⟩ := getBits_track input lf (T + 8) 4 p htp hlf (by omega) (by omega)
        (by
          have : (T + 8) / 0x20000 = T / 0x20000 := by omega
          rw [this]
          exact hav)
      obtain ⟨q1, hq1, htq1⟩ := getBits_track input lf (T + 8) 4 p1 htp1 hlf (by omega)
        (by omega) (by
          have : (T + 8) / 0x20000 = T / 0x20000 := by omega
          rw [this]
          exact hav)
      simp only [M.bind_apply, hq, hq1]
      refine ⟨_, _, T + 8 + 4, rfl, rfl, htq, htq1, ?_, ?_, ?_, ?_,
        ⟨rfl, rfl, rfl, rfl, rfl⟩, ⟨rfl, rfl, rfl, rfl, rfl⟩, rfl, rfl, rfl, rfl⟩
      · rw [hr]
        unfold laneRead
        simp only [Function.update_same]
        rw [if_pos (by
          rcases hcond with h | h
          · exact Or.inl h
          · right; omega)]
      · simp only []
        rw [hp]
      · simp only []
        rw [hn]
      · intro c1 hc1
        simp only [Function.update_noteq hc1]
    · rw [if_neg hcond, if_neg hcond]
      refine ⟨_, _, T + 8, rfl, rfl, htp, htp1, ?_, hp, ?_, ?_,
        ⟨rfl, rfl, rfl, rfl, rfl⟩, ⟨rfl, rfl, rfl, rfl, rfl⟩, rfl, rfl, rfl, rfl⟩
      · rw [hr]
        unfold laneRead
        simp only [M.pure_apply, Function.update_same]
        rw [if_neg (by
          rintro (h | h)
          · exact hcond (Or.inl h)
          · exact hcond (Or.inr (by omega)))]
      · simp only [M.pure_apply]
        rw [hn]
      · intro c1 hc1
        simp only [M.pure_apply, Function.update_noteq hc1]

theorem laneRead_congr (st s : Rw2State) (c m : Nat) (h : s.nonz = st.nonz) :
    laneRead s c m = laneRead st c m := by
  unfold laneRead
  rw [h]

/-- One pixel of two runs in step: both store the same sample at the same
place and stay in step. -/
theorem pixel_sim (input : ByteStream) (lf T : Nat) (zb zb1 : Bool) (y x i c m t : Nat)
    (st st1 : Rw2State) (h : Lockstep input lf T t st st1) (ht : t = 2 * m + c) (hi : i = t)
    (hm : m ≤ 6) (hc : c ≤ 1) (hlf : lf ≤ BufSize)
    (hseg : T % 0x20000 + (if t % 3 = 2 then 2 else 0) + 8 + 4 * (1 - laneRead st c m) ≤
      0x20000)
    (hav : input.pos + BufSize * (T / 0x20000 + 1) ≤ input.data.length) :
    ∃ s s1 T2 v, decodeThreaded.pixel zb y x i c st = (Except.ok (), s) ∧
      decodeThreaded.pixel zb1 y x i c st1 = (Except.ok (), s1) ∧
      Lockstep input lf T2 (t + 1) s s1 ∧
      T2 + 4 * laneRead st c m =
        T + (if t % 3 = 2 then 2 else 0) + 8 + 4 * laneRead s c (m + 1) ∧
      (∀ c1, c1 ≠ c → s.nonz c1 = st.nonz c1) ∧ s.dest = st.dest + 1 ∧
      s.plane = Function.update st.plane y (Function.update (st.plane y) st.dest v) ∧
      s1.plane = Function.update st1.plane y (Function.update (st1.plane y) st.dest v) := by
  have hh := h
  obtain ⟨_, _, hp0, hn0, hu0, hu10, hd0, hsh0⟩ := hh
  obtain ⟨a, a1, ea, ea1, hta, hta1, ⟨hpl, hw, hz, hd, hb⟩, ⟨hpl1, hw1, hz1, hd1, hb1⟩, hpa, hpa1,
    hna, hna1, hua, hua1, hsha⟩ := shift_sim input lf T t st st1 h hlf (by omega) hav
  have hlr : laneRead a c m = laneRead st c m := laneRead_congr st a c m hna
  obtain ⟨s, s1, T2, es, es1, hts, hts1, hT2, hps, hns, hoth, ⟨hpl2, hw2, hz2, hd2, hb2⟩,
    ⟨hpl3, hw3, hz3, hd3, hb3⟩, hshs, hshs1, hus, hus1⟩ :=
    lane_sim input lf (T + if t % 3 = 2 then 2 else 0) i c m a a1 hta hta1
      (by rw [hpa, hpa1]) (by rw [hna, hna1])
      (by
        intro hnz
        rw [hna] at hnz
        rcases hsha with h | ⟨h0, h1, _⟩ | ⟨h0, h1⟩
        · exact h
        · have : c = 0 := by omega
          subst this
          exact absurd h1 hnz
        · have : c = 1 := by omega
          subst this
          exact absurd h1 hnz)
      hm (by omega) hc hlf
      (by rw [hlr]; split_ifs at hseg ⊢ <;> omega)
      (by
        have : (T + if t % 3 = 2 then 2 else 0) / 0x20000 = T / 0x20000 := by
          split_ifs at hseg ⊢ <;> omega
        rw [this]
        exact hav)
  rw [hlr] at hT2
  unfold decodeThreaded.pixel
  rw [M.bind_apply, M.bind_apply, ea, ea1]
  simp only []
  rw [M.bind_apply, M.bind_apply, es, es1]
  simp only [decodeThreaded.store, modifyState]
  refine ⟨_, _, T2, (s.pred c % 65536).toNat, rfl, rfl, ?_, hT2, ?_, ?_, ?_, ?_⟩
  · refine ⟨hts, hts1, hps, hns, ?_, ?_, ?_, ?_⟩
    · simp only []
      rw [hus, hua1]
    · simp only []
      rw [hus1, ← hua, hua1]
    · simp only []
      rw [hd2, hd, hd3, hd1, hd0]
    · simp only []
      rw [hshs, hshs1]
      rcases hsha with h | ⟨h0, _, h1⟩ | ⟨h0, _⟩
      · exact Or.inl h
      · right; right; left
        refine ⟨by omega, ?_⟩
        have : c = 0 := by omega
        subst this
        rw [hoth 1 (by decide), hna]
        exact h1
      · right; right; right
        omega
  · intro c1 hc1
    simp only []
    rw [hoth c1 hc1, hna]
  · simp only []
    rw [hd2, hd]
  · simp only []
    rw [hpl2, hpl, hd2, hd]
  · simp only []
    rw [hpl3, hpl1, hd3, hd1, ← hd0, hps]

theorem agree_refl (st st1 : Rw2State) : AgreeOn [] st st st1 st1 :=
  ⟨fun _ h => absurd h (List.not_mem_nil _), fun _ _ _ => ⟨rfl, rfl⟩⟩

theorem agree_trans (cs1 cs2 : List (Nat × Nat)) (st a s st1 a1 s1 : Rw2State)
    (h1 : AgreeOn cs1 st a st1 a1) (h2 : AgreeOn cs2 a s a1 s1) (hd : ∀ c ∈ cs1, c ∉ cs2) :
    AgreeOn (cs1 ++ cs2) st s st1 s1 := by
  refine ⟨?_, ?_⟩
  · intro c hc
    rw [List.mem_append] at hc
    rcases hc with hc | hc
    · rw [(h2.2 c.1 c.2 (hd c hc)).1, (h2.2 c.1 c.2 (hd c hc)).2]
      exact h1.1 c hc
    · exact h2.1 c hc
  · intro y x hne
    rw [List.mem_append, not_or] at hne
    rw [(h2.2 y x hne.2).1, (h2.2 y x hne.2).2]
    exact h1.2 y x hne.1

theorem agree_single (y d v : Nat) (st s st1 s1 : Rw2State)
    (h : s.plane = Function.update st.plane y (Function.update (st.plane y) d v))
    (h1 : s1.plane = Function.update st1.plane y (Function.update (st1.plane y) d v)) :
    AgreeOn [(y, d)] st s st1 s1 := by
  refine ⟨?_, ?_⟩
  · intro c hc
    rw [List.mem_singleton] at hc
    subst hc
    rw [h, h1]
    simp only [Function.update_same]
  · intro y1 x1 hne
    rw [h, h1]
    simp only [List.mem_singleton, Prod.mk.injEq, not_and] at hne
    by_cases hy : y1 = y
    · subst hy
      simp only [Function.update_same, Function.update_noteq (hne rfl), and_self]
    · simp only [Function.update_noteq hy, and_self]

theorem laneRead_le (st : Rw2State) (c m : Nat) : laneRead st c m ≤ 1 := by
  unfold laneRead
  split_ifs <;> omega

theorem laneRead_other (st s : Rw2State) (c m : Nat) (h : s.nonz c = st.nonz c) :
    laneRead s c m = laneRead st c m := by
  unfold laneRead
  rw [h]

theorem laneRead_seven (st : Rw2State) (c : Nat) : laneRead st c 7 = 1 := by
  unfold laneRead
  rw [if_pos (Or.inr rfl)]

/-- The rounds `m, ..., m + n - 1` of the loop over `i` of two runs in step,
the group lying in one cache load: when the rounds end, `16 * (m + n)` bits
and the shift and lane reads made so far have been used of the group. -/
theorem group_sim (input : ByteStream) (lf T0 : Nat) (zb zb1 : Bool) (y x : Nat)
    (hlf : lf ≤ BufSize) (hseg : T0 % 0x20000 + 128 ≤ 0x20000)
    (hav : input.pos + BufSize * (T0 / 0x20000 + 1) ≤ input.data.length) :
    ∀ (n m T : Nat) (st st1 : Rw2State), m + n ≤ 7 → Lockstep input lf T (2 * m) st st1 →
    T = T0 + 16 * m + 2 * (2 * m / 3) + 4 * laneRead st 0 m + 4 * laneRead st 1 m →
    ∃ s s1, decodeThreaded.group zb y x n (2 * m) st = (Except.ok (), s) ∧
      decodeThreaded.group zb1 y x n (2 * m) st1 = (Except.ok (), s1) ∧
      Lockstep input lf (T0 + 16 * (m + n) + 2 * (2 * (m + n) / 3) +
        4 * laneRead s 0 (m + n) + 4 * laneRead s 1 (m + n)) (2 * (m + n)) s s1 ∧
      s.dest = st.dest + 2 * n ∧ AgreeOn (rowCells y st.dest (2 * n)) st s st1 s1
  | 0, m, T, st, st1, _, h, hT => by
    subst hT
    exact ⟨st, st1, rfl, rfl, h, rfl, agree_refl st st1⟩
  | n + 1, m, T, st, st1, hmn, h, hT => by
    have hB : BufSize = 0x4000 := rfl
    have l0 := laneRead_le st 0 m
    have l1 := laneRead_le st 1 m
    have e0 : (if 2 * m % 3 = 2 then 2 else 0) + 2 * (2 * m / 3) = 2 * ((2 * m + 1) / 3) := by
      split_ifs <;> omega
    have e1 : (if (2 * m + 1) % 3 = 2 then 2 else 0) + 2 * ((2 * m + 1) / 3) =
        2 * (2 * (m + 1) / 3) := by
      split_ifs <;> omega
    have hTq : T / 0x20000 = T0 / 0x20000 := by omega
    obtain ⟨a, a1, T2, v, ea, ea1, hla, hT2, hotha, hda, hpa, hpa1⟩ :=
      pixel_sim input lf T zb zb1 y x (2 * m) 0 m (2 * m) st st1 h (by omega) rfl (by omega)
        (by omega) hlf (by omega) (by rw [hTq]; exact hav)
    have la0 := laneRead_le a 0 (m + 1)
    have hla1 : laneRead a 1 m = laneRead st 1 m := laneRead_other st a 1 m (hotha 1 (by decide))
    have hT2q : T2 / 0x20000 = T0 / 0x20000 := by omega
    obtain ⟨b, b1, T3, v1, eb, eb1, hlb, hT3, hothb, hdb, hpb, hpb1⟩ :=
      pixel_sim input lf T2 zb zb1 y x (2 * m + 1) 1 m (2 * m + 1) a a1 hla (by omega) rfl
        (by omega) (by omega) hlf (by rw [hla1]; omega)
        (by rw [hT2q]; exact hav)
    have lb1 := laneRead_le b 1 (m + 1)
    have hlb0 : laneRead b 0 (m + 1) = laneRead a 0 (m + 1) :=
      laneRead_other a b 0 (m + 1) (hothb 0 (by decide))
    have hT3' : T3 = T0 + 16 * (m + 1) + 2 * (2 * (m + 1) / 3) + 4 * laneRead b 0 (m + 1) +
        4 * laneRead b 1 (m + 1) := by
      rw [hlb0]
      rw [hla1] at hT3
      omega
    obtain ⟨s, s1, es, es1, hls, hds, hags⟩ :=
      group_sim input lf T0 zb zb1 y x hlf hseg hav n (m + 1) T3 b b1 (by omega)
        (by rw [show 2 * (m + 1) = 2 * m + 1 + 1 by omega]; exact hlb) hT3'
    unfold decodeThreaded.group
    rw [M.bind_apply, M.bind_apply, ea, ea1]
    simp only []
    rw [M.bind_apply, M.bind_apply, eb, eb1]
    simp only []
    rw [show 2 * m + 2 = 2 * (m + 1) by omega, es, es1]
    refine ⟨s, s1, rfl, rfl, ?_, by rw [hds, hdb, hda]; omega, ?_⟩
    · rw [show m + (n + 1) = m + 1 + n by omega]
      exact hls
    · rw [show 2 * (n + 1) = 1 + (1 + 2 * n) by omega, rowCells_append, rowCells_append,
        rowCells_one, rowCells_one]
      apply agree_trans _ _ st a s st1 a1 s1 (agree_single y st.dest v st a st1 a1 hpa hpa1)
      · apply agree_trans _ _ a b s a1 b1 s1
        · have := agree_single y a.dest v1 a b a1 b1 hpb hpb1
          rw [hda] at this
          exact this
        · rw [show st.dest + 1 + 1 = b.dest by rw [hdb, hda]]
          exact hags
        · intro c hc
          rw [List.mem_singleton] at hc
          subst hc
          rw [mem_rowCells]
          simp only []
          omega
      · intro c hc
        rw [List.mem_singleton] at hc
        subst hc
        rw [List.mem_append, mem_rowCells, List.mem_singleton]
        simp only [Prod.mk.injEq]
        omega

theorem laneRead_start (st : Rw2State) (c : Nat) (h : st.nonz c = 0) : laneRead st c 0 = 0 := by
  unfold laneRead
  rw [if_neg (by
    rintro (h1 | h1)
    · exact h1 h
    · omega)]

/-- One group of 14 pixels of two runs whose readers have both delivered the
first `b` groups: both use exactly the next 128 bits and store the same 14
samples. -/
theorem block_sim (input : ByteStream) (lf b B : Nat) (zb zb1 : Bool) (y x : Nat)
    (st st1 : Rw2State) (hlf : lf ≤ BufSize) (hb : b < B)
    (hav : input.pos + BufSize * ((B + 1023) / 1024) ≤ input.data.length)
    (ht : Track input lf (128 * b) st.bits) (ht1 : Track input lf (128 * b) st1.bits)
    (hd : st.dest = x * 14) (hd1 : st1.dest = x * 14) :
    ∃ s s1, decodeThreaded.block zb y x st = (Except.ok (), s) ∧
      decodeThreaded.block zb1 y x st1 = (Except.ok (), s1) ∧
      Track input lf (128 * (b + 1)) s.bits ∧ Track input lf (128 * (b + 1)) s1.bits ∧
      s.dest = (x + 1) * 14 ∧ s1.dest = (x + 1) * 14 ∧
      AgreeOn (rowCells y (x * 14) 14) st s st1 s1 := by
  have hB : BufSize = 0x4000 := rfl
  rw [hB] at hav
  obtain ⟨s, s1, es, es1, hl, hds, hag⟩ :=
    group_sim input lf (128 * b) zb zb1 y x hlf (by omega) (by rw [hB]; omega) 7 0 (128 * b)
      { st with pred := fun _ => 0, nonz := fun _ => 0, u := 0 }
      { st1 with pred := fun _ => 0, nonz := fun _ => 0, u := 0 } (by omega)
      ⟨ht, ht1, rfl, rfl, rfl, rfl, by simp only []; rw [hd, hd1], Or.inr (Or.inl ⟨rfl, rfl, rfl⟩)⟩
      (by rw [laneRead_start _ 0 rfl, laneRead_start _ 1 rfl]; omega)
  obtain ⟨hts, hts1, _, _, _, _, hdd, _⟩ := hl
  rw [laneRead_seven, laneRead_seven] at hts hts1
  have e : 128 * b + 16 * (0 + 7) + 2 * (2 * (0 + 7) / 3) + 4 * 1 + 4 * 1 = 128 * (b + 1) := by
    omega
  rw [e] at hts hts1
  unfold decodeThreaded.block
  rw [M.bind_apply, M.bind_apply]
  simp only [modifyState]
  rw [show (0 : Nat) = 2 * 0 from rfl, es, es1]
  simp only [] at hds
  refine ⟨s, s1, rfl, rfl, hts, hts1, by rw [hds, hd]; omega, by rw [← hdd, hds, hd]; omega, ?_⟩
  rw [← hd]
  exact hag

/-- The groups `lo, ..., lo + n - 1` of a row of two runs in step. -/
theorem blocks_sim (input : ByteStream) (lf B : Nat) (zb zb1 : Bool) (y : Nat)
    (hlf : lf ≤ BufSize)
    (hav : input.pos + BufSize * ((B + 1023) / 1024) ≤ input.data.length) :
    ∀ (n lo b : Nat) (st st1 : Rw2State), b + n ≤ B → Track input lf (128 * b) st.bits →
    Track input lf (128 * b) st1.bits → st.dest = lo * 14 → st1.dest = lo * 14 →
    ∃ s s1, forRange (decodeThreaded.block zb y) lo n st = (Except.ok (), s) ∧
      forRange (decodeThreaded.block zb1 y) lo n st1 = (Except.ok (), s1) ∧
      Track input lf (128 * (b + n)) s.bits ∧ Track input lf (128 * (b + n)) s1.bits ∧
      AgreeOn (rowCells y (lo * 14) (n * 14)) st s st1 s1
  | 0, lo, b, st, st1, _, ht, ht1, _, _ => by
    rw [Nat.zero_mul]
    exact ⟨st, st1, rfl, rfl, ht, ht1, agree_refl st st1⟩
  | n + 1, lo, b, st, st1, hbn, ht, ht1, hd, hd1 => by
    obtain ⟨a, a1, ea, ea1, hta, hta1, hda, hda1, haga⟩ :=
      block_sim input lf b B zb zb1 y lo st st1 hlf (by omega) hav ht ht1 hd hd1
    obtain ⟨s, s1, es, es1, hts, hts1, hags⟩ :=
      blocks_sim input lf B zb zb1 y hlf hav n (lo + 1) (b + 1) a a1 (by omega) hta hta1 hda hda1
    rw [forRange_succ, forRange_succ, M.bind_apply, M.bind_apply, ea, ea1]
    simp only []
    rw [es, es1]
    refine ⟨s, s1, rfl, rfl, ?_, ?_, ?_⟩
    · rw [show b + (n + 1) = b + 1 + n by omega]; exact hts
    · rw [show b + (n + 1) = b + 1 + n by omega]; exact hts1
    · rw [show (n + 1) * 14 = 14 + n * 14 by omega, rowCells_append,
        show lo * 14 + 14 = (lo + 1) * 14 by omega]
      apply agree_trans _ _ st a s st1 a1 s1 haga hags
      intro c hc
      rw [mem_rowCells] at hc ⊢
      omega

/-- One row of two runs in step. -/
theorem row_sim (input : ByteStream) (lf B : Nat) (zb zb1 : Bool) (w y b : Nat)
    (st st1 : Rw2State) (hlf : lf ≤ BufSize)
    (hav : input.pos + BufSize * ((B + 1023) / 1024) ≤ input.data.length) (hb : b + w ≤ B)
    (ht : Track input lf (128 * b) st.bits) (ht1 : Track input lf (128 * b) st1.bits) :
    ∃ s s1, decodeThreaded.row zb w y st = (Except.ok (), s) ∧
      decodeThreaded.row zb1 w y st1 = (Except.ok (), s1) ∧
      Track input lf (128 * (b + w)) s.bits ∧ Track input lf (128 * (b + w)) s1.bits ∧
      AgreeOn (rowCells y 0 (w * 14)) st s st1 s1 := by
  obtain ⟨s, s1, es, es1, hts, hts1, hag⟩ :=
    blocks_sim input lf B zb zb1 y hlf hav w 0 b { st with dest := 0 } { st1 with dest := 0 } hb
      ht ht1 (by simp) (by simp)
  unfold decodeThreaded.row
  rw [M.bind_apply, M.bind_apply]
  simp only [modifyState]
  rw [es, es1]
  refine ⟨s, s1, rfl, rfl, hts, hts1, ?_⟩
  rw [Nat.zero_mul] at hag
  exact hag

/-- The rows `start_y, ..., start_y + n - 1` of two runs in step. -/
theorem rows_sim (input : ByteStream) (lf B : Nat) (zb zb1 : Bool) (w : Nat)
    (hlf : lf ≤ BufSize)
    (hav : input.pos + BufSize * ((B + 1023) / 1024) ≤ input.data.length) :
    ∀ (n start_y b : Nat) (st st1 : Rw2State), b + w * n ≤ B →
    Track input lf (128 * b) st.bits → Track input lf (128 * b) st1.bits →
    ∃ s s1, forRange (decodeThreaded.row zb w) start_y n st = (Except.ok (), s) ∧
      forRange (decodeThreaded.row zb1 w) start_y n st1 = (Except.ok (), s1) ∧
      Track input lf (128 * (b + w * n)) s.bits ∧ Track input lf (128 * (b + w * n)) s1.bits ∧
      AgreeOn (rectCells (w * 14) start_y n) st s st1 s1
  | 0, start_y, b, st, st1, _, ht, ht1 => by
    rw [Nat.mul_zero, Nat.add_zero]
    exact ⟨st, st1, rfl, rfl, ht, ht1, agree_refl st st1⟩
  | n + 1, start_y, b, st, st1, hbn, ht, ht1 => by
    have hw : w * (n + 1) = w + w * n := by ring
    rw [hw] at hbn
    obtain ⟨a, a1, ea, ea1, hta, hta1, haga⟩ :=
      row_sim input lf B zb zb1 w start_y b st st1 hlf hav (by omega) ht ht1
    obtain ⟨s, s1, es, es1, hts, hts1, hags⟩ :=
      rows_sim input lf B zb zb1 w hlf hav n (start_y + 1) (b + w) a a1 (by omega) hta hta1
    rw [forRange_succ, forRange_succ, M.bind_apply, M.bind_apply, ea, ea1]
    simp only []
    rw [es, es1]
    refine ⟨s, s1, rfl, rfl, ?_, ?_, ?_⟩
    · rw [hw, ← Nat.add_assoc]; exact hts
    · rw [hw, ← Nat.add_assoc]; exact hts1
    · unfold rectCells
      apply agree_trans _ _ st a s st1 a1 s1 haga hags
      intro c hc
      rw [mem_rowCells] at hc
      rw [mem_rectCells]
      omega

theorem forRange_append {σ : Type} (body : Nat → M σ Unit) : ∀ (a lo b : Nat) (s : σ),
    forRange body lo (a + b) s =
      match forRange body lo a s with
      | (Except.ok _, s1) => forRange body (lo + a) b s1
      | (Except.error e, s1) => (Except.error e, s1)
  | 0, lo, b, s => by
    rw [Nat.zero_add]
    rfl
  | a + 1, lo, b, s => by
    rw [show a + 1 + b = (a + b) + 1 by omega, forRange_succ, forRange_succ, M.bind_apply,
      M.bind_apply]
    rcases body lo s with ⟨r, s1⟩
    cases r with
    | error e => rfl
    | ok u =>
      simp only []
      rw [forRange_append body a (lo + 1) b s1, show lo + 1 + a = lo + (a + 1) by omega]

theorem track_new (input : ByteStream) (lf : Nat) : Track input lf 0 (PanaBitpump.new input lf) := by
  refine ⟨?_, rfl, rfl, fun h => absurd rfl h, fun _ _ => rfl⟩
  cases input
  rfl

/-- The reader that `skipBytes` leaves is the reader after that many bytes. -/
theorem track_skipBytes (input : ByteStream) (lf bytes : Nat) (hlf : lf ≤ BufSize)
    (hb : bytes < 2 ^ 32)
    (hav : input.pos + BufSize * (bytes / BufSize + 1) ≤ input.data.length) :
    ∃ p, PanaBitpump.skipBytes bytes (PanaBitpump.new input lf) = (Except.ok (), p) ∧
      Track input lf (8 * bytes) p := by
  have hB : BufSize = 0x4000 := rfl
  rw [hB] at hav hlf
  rw [skipBytes_fresh input lf bytes hb (by rw [hB]; omega)]
  have hdm := Nat.div_add_mod bytes 0x4000
  by_cases h0 : bytes % BufSize = 0
  · rw [if_pos h0]
    rw [hB] at h0
    refine ⟨_, rfl, ?_, ?_, rfl, fun h => absurd (by omega) h, fun _ _ => rfl⟩
    · show ({ input with pos := input.pos + bytes / BufSize * BufSize } : ByteStream) = _
      rw [hB]
      congr 1
      omega
    · show (0 : Nat) = _
      omega
  · rw [if_neg h0]
    rw [hB] at h0
    have hrs : PanaBitpump.refillSize
        (PanaBitpump.new { input with pos := input.pos + bytes / BufSize * BufSize } lf) =
        0x4000 := by
      rw [refillSize_eq _ (by simp only [PanaBitpump.new]; rw [hB]; exact hlf)]
      simp only [PanaBitpump.new, hB]
      omega
    refine ⟨_, rfl, ?_, ?_, rfl, ?_, ?_⟩
    · simp only [PanaBitpump.refilled]
      rw [hrs]
      simp only [PanaBitpump.new, hB]
      congr 1
      omega
    · simp only [hB]
      omega
    · intro _ j
      simp only []
      unfold segBuf
      have e : bytes / BufSize * BufSize = BufSize * (8 * bytes / 0x20000) := by
        rw [hB]
        omega
      rw [e]
    · intro j hj
      simp only []
      have e : bytes / BufSize * BufSize = BufSize * (bytes / BufSize) := Nat.mul_comm _ _
      rw [e]
      exact segBuf_high input lf _ j (by rw [hB]; exact hlf) hj

/-- What `decodeThreaded` does after `skipBytes` has left the reader `p`. -/
theorem decodeThreaded_after_skip (input : ByteStream) (lf dim_x : Nat) (zb : Bool)
    (start_y end_y : Nat) (plane : Nat → Nat → Nat) (bad : List Nat) (p : PanaBitpump)
    (s : Rw2State)
    (hp : PanaBitpump.skipBytes (decodeThreaded.skip (dim_x / 14) start_y)
      (PanaBitpump.new input lf) = (Except.ok (), p))
    (hs : forRange (decodeThreaded.row zb (dim_x / 14)) start_y (end_y - start_y)
      { decodeThreaded.init input lf plane bad with bits := p } = (Except.ok (), s)) :
    (decodeThreaded input lf dim_x zb start_y end_y plane bad).1 = Except.ok () ∧
      (decodeThreaded input lf dim_x zb start_y end_y plane bad).2.plane = s.plane := by
  unfold decodeThreaded
  rw [M.bind_apply]
  simp only [onBits]
  have e : (decodeThreaded.init input lf plane bad).bits = PanaBitpump.new input lf := rfl
  rw [e, hp]
  simp only []
  rw [M.bind_apply, hs]
  simp only [modifyState]
  split_ifs <;> exact ⟨trivial, rfl⟩

/-- The rows that a run over `[start_y, end_y)` stores are the rows that a run
over `[0, height)` stores there, when the input holds every cache load that
the image needs. -/
theorem rows_agree (input : ByteStream) (lf dim_x : Nat) (zb zb1 : Bool)
    (start_y end_y height : Nat) (plane plane1 : Nat → Nat → Nat) (bad bad1 : List Nat)
    (hlf : lf ≤ BufSize) (hw : 14 ≤ dim_x) (hse : start_y < end_y) (hey : end_y ≤ height)
    (hav : input.pos + BufSize * ((dim_x / 14 * height + 1023) / 1024) ≤ input.data.length)
    (hskip : 128 * (dim_x / 14) * start_y < 2 ^ 31) :
    (decodeThreaded input lf dim_x zb start_y end_y plane bad).1 = Except.ok () ∧
      (decodeThreaded input lf dim_x zb1 0 height plane1 bad1).1 = Except.ok () ∧
      ∀ y x, start_y ≤ y → y < end_y → x < 14 * (dim_x / 14) →
        (decodeThreaded input lf dim_x zb start_y end_y plane bad).2.plane y x =
          (decodeThreaded input lf dim_x zb1 0 height plane1 bad1).2.plane y x := by
  have hB : BufSize = 0x4000 := rfl
  have hw1 : 1 ≤ dim_x / 14 := by omega
  generalize hwd : dim_x / 14 = w at *
  have hmono : w * start_y + w * (end_y - start_y) = w * end_y := by
    rw [← Nat.mul_add]
    congr 1
    omega
  have hmono2 : w * end_y + w * (height - end_y) = w * height := by
    rw [← Nat.mul_add]
    congr 1
    omega
  have hlt : w * start_y < w * end_y := Nat.mul_lt_mul_of_pos_left hse (by omega)
  have hsk : decodeThreaded.skip w start_y = 16 * (w * start_y) := by
    rw [skip_eq w start_y hskip, Nat.mul_assoc]
  have hsk0 : decodeThreaded.skip w 0 = 0 := by
    rw [skip_eq w 0 (by norm_num), Nat.mul_zero]
  rw [hB] at hav
  -- the run over the range
  obtain ⟨p, hp, htp⟩ := track_skipBytes input lf (16 * (w * start_y)) hlf
    (by rw [Nat.mul_assoc] at hskip; omega) (by rw [hB]; omega)
  rw [show 8 * (16 * (w * start_y)) = 128 * (w * start_y) by omega] at htp
  -- the run over the image
  obtain ⟨p0, hp0, htp0⟩ := track_skipBytes input lf 0 hlf (by norm_num) (by rw [hB]; omega)
  rw [show 8 * 0 = 128 * 0 from rfl] at htp0
  obtain ⟨a, _, ea, _, hta, _, haga⟩ :=
    rows_sim input lf (w * height) zb1 zb1 w hlf (by rw [hB]; exact hav) start_y 0 0
      { decodeThreaded.init input lf plane1 bad1 with bits := p0 }
      { decodeThreaded.init input lf plane1 bad1 with bits := p0 } (by omega) htp0 htp0
  rw [Nat.zero_add] at hta
  obtain ⟨b, b1, eb, eb1, htb, _, hagb⟩ :=
    rows_sim input lf (w * height) zb1 zb w hlf (by rw [hB]; exact hav) (end_y - start_y)
      start_y (w * start_y) a { decodeThreaded.init input lf plane bad with bits := p }
      (by omega) hta htp
  rw [hmono] at htb
  obtain ⟨c, _, ec, _, _, _, hagc⟩ :=
    rows_sim input lf (w * height) zb1 zb1 w hlf (by rw [hB]; exact hav) (height - end_y)
      end_y (w * end_y) b b (by omega) htb htb
  have hfull : forRange (decodeThreaded.row zb1 w) 0 (height - 0)
      { decodeThreaded.init input lf plane1 bad1 with bits := p0 } = (Except.ok (), c) := by
    rw [show height - 0 = start_y + ((end_y - start_y) + (height - end_y)) by omega,
      forRange_append, ea]
    simp only []
    rw [forRange_append, Nat.zero_add, eb]
    simp only []
    rw [show start_y + (end_y - start_y) = end_y by omega, ec]
  have hr := decodeThreaded_after_skip input lf dim_x zb start_y end_y plane bad p b1
    (by rw [hwd, hsk]; exact hp) (by rw [hwd]; exact eb1)
  have hf := decodeThreaded_after_skip input lf dim_x zb1 0 height plane1 bad1 p0 c
    (by rw [hwd, hsk0]; exact hp0) (by rw [hwd]; exact hfull)
  refine ⟨hr.1, hf.1, ?_⟩
  intro y x hy1 hy2 hx
  rw [hr.2, hf.2]
  have hin : (y, x) ∈ rectCells (w * 14) start_y (end_y - start_y) := by
    rw [mem_rectCells]
    simp only []
    omega
  have hout : (y, x) ∉ rectCells (w * 14) end_y (height - end_y) := by
    rw [mem_rectCells]
    simp only []
    omega
  rw [(hagc.2 y x hout).1]
  exact (hagb.1 (y, x) hin).symm

/-- C15 as stated fails: with an empty payload and a 14 pixel wide image, one
run over the rows `[0, 1025)` completes and stores a sample of at most 7143
at row 1024, column 0; of the two runs over `[0, 1024)` and `[1024, 1025)`
the second ends in the `IOException` of `skipBytes`, and the sample at row
1024, column 0 is still the 65535 that the image held before. -/
theorem decodeThreaded_partition_differs :
    (decodeThreaded (ByteStream.ofBuffer [] 0 0) 0 14 true 0 1025 sampleWhite []).1 =
        Except.ok () ∧
      (decodeThreaded (ByteStream.ofBuffer [] 0 0) 0 14 true 0 1025 sampleWhite []).2.plane
        1024 0 ≤ 7143 ∧
      (decodeThreaded (ByteStream.ofBuffer [] 0 0) 0 14 true 0 1024 sampleWhite []).1 =
        Except.ok () ∧
      (decodeThreaded (ByteStream.ofBuffer [] 0 0) 0 14 true 1024 1025
        (decodeThreaded (ByteStream.ofBuffer [] 0 0) 0 14 true 0 1024 sampleWhite []).2.plane
        []).1 = Except.error Err.IOE ∧
      (decodeThreaded (ByteStream.ofBuffer [] 0 0) 0 14 true 1024 1025
        (decodeThreaded (ByteStream.ofBuffer [] 0 0) 0 14 true 0 1024 sampleWhite []).2.plane
        []).2.plane 1024 0 = 65535 := by
  have h0 : decodeThreaded.skip (14 / 14) 0 = 0 := by decide
  have h1 : decodeThreaded.skip (14 / 14) 1024 = 0x4000 := by decide
  have hlen : (ByteStream.ofBuffer [] 0 0).data.length = 0 := rfl
  have hpos : (ByteStream.ofBuffer [] 0 0).pos = 0 := rfl
  have hfull := decodeThreaded_run (ByteStream.ofBuffer [] 0 0) 0 14 true 0 1025 sampleWhite []
  have hfirst := decodeThreaded_run (ByteStream.ofBuffer [] 0 0) 0 14 true 0 1024 sampleWhite []
  generalize decodeThreaded (ByteStream.ofBuffer [] 0 0) 0 14 true 0 1025 sampleWhite [] = r
    at hfull ⊢
  generalize decodeThreaded (ByteStream.ofBuffer [] 0 0) 0 14 true 0 1024 sampleWhite [] = r1
    at hfirst ⊢
  have hsecond := decodeThreaded_run (ByteStream.ofBuffer [] 0 0) 0 14 true 1024 1025 r1.2.plane
    []
  generalize decodeThreaded (ByteStream.ofBuffer [] 0 0) 0 14 true 1024 1025 r1.2.plane [] = r2
    at hsecond ⊢
  rw [h0, hlen, hpos] at hfull hfirst
  rw [h1, hlen, hpos] at hsecond
  have hB : 0x4000 / BufSize * BufSize = 0x4000 := by decide
  rw [hB] at hsecond
  rcases hfull with ⟨_, st, e, _, _, _, hb⟩ | ⟨h, _⟩
  · rcases hfirst with ⟨_, st1, e1, _, hf1, _, _⟩ | ⟨h, _⟩
    · rcases hsecond with ⟨h, _⟩ | ⟨_, e2⟩
      · omega
      · subst e e1 e2
        refine ⟨rfl, ?_, rfl, rfl, ?_⟩
        · exact hb (1024, 0) (by rw [mem_rectCells]; simp only []; omega)
        · show st1.plane 1024 0 = 65535
          rw [hf1 1024 0 (by rw [mem_rectCells]; simp only []; omega)]
          rfl
    · simp at h
  · simp at h

theorem sampleFullPayload_length : sampleFullPayload.data.length = 0x4000 :=
  List.length_replicate _ _

/-- C15, amended: when `load_flags ≤ BufSize`, the image is at least 14 pixels
wide, the input holds, from the cursor on, every cache load of `BufSize` bytes
that the `(dim_x / 14) * height` groups of the image begin, and
`128 * (dim_x / 14) * start_y < 2 ^ 31`, then a run of `decodeThreaded` over a
non-empty range `[start_y, end_y)` of the rows `[0, height)` and a run over
`[0, height)` both complete, and the first stores in its rows, sample for
sample, what the second stores there; so the runs over the ranges of any
partition of the rows together give the plane of the one run. -/
theorem decodeThreaded_ranges_agree (input : ByteStream) (lf dim_x : Nat) (zb zb1 : Bool)
    (start_y end_y height : Nat) (plane plane1 : Nat → Nat → Nat) (bad bad1 : List Nat)
    (hlf : lf ≤ BufSize) (hw : 14 ≤ dim_x) (hse : start_y < end_y) (hey : end_y ≤ height)
    (hav : input.pos + BufSize * ((dim_x / 14 * height + 1023) / 1024) ≤ input.data.length)
    (hskip : 128 * (dim_x / 14) * start_y < 2 ^ 31) :
    (decodeThreaded input lf dim_x zb start_y end_y plane bad).1 = Except.ok () ∧
      (decodeThreaded input lf dim_x zb1 0 height plane1 bad1).1 = Except.ok () ∧
      ∀ y x, start_y ≤ y → y < end_y → x < 14 * (dim_x / 14) →
        (decodeThreaded input lf dim_x zb start_y end_y plane bad).2.plane y x =
          (decodeThreaded input lf dim_x zb1 0 height plane1 bad1).2.plane y x :=
  rows_agree input lf dim_x zb zb1 start_y end_y height plane plane1 bad bad1 hlf hw hse hey hav
    hskip

theorem decodeThreaded_ranges_agree_witness :
    (decodeThreaded sampleFullPayload 0x2008 14 true 1 2 sampleWhite []).1 = Except.ok () ∧
      (decodeThreaded sampleFullPayload 0x2008 14 true 0 2 samplePlane []).1 = Except.ok () ∧
      ∀ y x, 1 ≤ y → y < 2 → x < 14 * (14 / 14) →
        (decodeThreaded sampleFullPayload 0x2008 14 true 1 2 sampleWhite []).2.plane y x =
          (decodeThreaded sampleFullPayload 0x2008 14 true 0 2 samplePlane []).2.plane y x :=
  decodeThreaded_ranges_agree sampleFullPayload 0x2008 14 true true 1 2 2 sampleWhite samplePlane
    [] [] (by decide) (by decide) (by decide) (by decide)
    (by rw [sampleFullPayload_length]; decide) (by decide)

/-! ## The pixel map -/

theorem index_lt (w h q y : Nat) (hq : q < w) (hy : y < h) : y * w + q < h * w := by
  have : (y + 1) * w ≤ h * w := Nat.mul_le_mul_right w hy
  rw [Nat.add_mul, Nat.one_mul] at this
  omega

theorem index_inj (w q y q1 y1 : Nat) (hq : q < w) (hq1 : q1 < w)
    (h : y * w + q = y1 * w + q1) : y = y1 ∧ q = q1 := by
  have hw : 0 < w := by omega
  have e1 : (q + w * y) / w = y := by
    rw [Nat.add_mul_div_left _ _ hw, Nat.div_eq_of_lt hq, Nat.zero_add]
  have e2 : (q1 + w * y1) / w = y1 := by
    rw [Nat.add_mul_div_left _ _ hw, Nat.div_eq_of_lt hq1, Nat.zero_add]
  have e3 : q + w * y = q1 + w * y1 := by
    rw [Nat.mul_comm w y, Nat.mul_comm w y1]
    omega
  rw [e3, e2] at e1
  subst e1
  exact ⟨rfl, by omega⟩

theorem getD_replicate_zero (n i : Nat) : (List.replicate n 0).getD i 0 = 0 := by
  rw [List.getD_eq_getElem?_getD, List.getElem?_replicate]
  split_ifs <;> rfl

theorem rep_new (bs width height : Nat) (m : PixelsMap)
    (h : PixelsMap.new bs width height = some m) : PixelsMap.Rep bs width height m [] := by
  unfold PixelsMap.new at h
  split_ifs at h with hlt
  simp only [Option.some.injEq] at h
  subst h
  refine ⟨rfl, rfl, by simp only [List.length_replicate], ?_, ?_⟩
  · intro i
    rw [getD_replicate_zero]
    exact Nat.pos_pow_of_pos _ (by norm_num)
  · intro x y _ _
    rw [getD_replicate_zero, Nat.zero_testBit]
    simp only [List.not_mem_nil, decide_False]

theorem rep_clear (bs width height : Nat) (m : PixelsMap) (S : List (Nat × Nat))
    (h : PixelsMap.Rep bs width height m S) : PixelsMap.Rep bs width height m.clear [] := by
  obtain ⟨h1, h2, h3, _, _⟩ := h
  unfold PixelsMap.clear
  refine ⟨h1, h2, by simp only [List.length_replicate, h2], ?_, ?_⟩
  · intro i
    simp only []
    rw [getD_replicate_zero]
    exact Nat.pos_pow_of_pos _ (by norm_num)
  · intro x y _ _
    simp only []
    rw [getD_replicate_zero, Nat.zero_testBit]
    simp only [List.not_mem_nil, decide_False]

theorem word_some (bs width height : Nat) (m : PixelsMap) (S : List (Nat × Nat))
    (h : PixelsMap.Rep bs width height m S) (x y : Nat) (hx : x / (bs * 8) < m.w)
    (hy : y < height) :
    m.pm[y * m.w + x / (bs * 8)]? = some (m.pm.getD (y * m.w + x / (bs * 8)) 0) := by
  have hlt : y * m.w + x / (bs * 8) < m.pm.length := by
    rw [h.2.2.1]
    exact index_lt _ _ _ _ hx hy
  rw [List.getD_eq_getElem?_getD, List.getElem?_eq_getElem hlt]
  rfl

theorem mod_eq_of_div_eq (B x a : Nat) (hd : x / B = a / B) (hm : x % B = a % B) : x = a := by
  rw [← Nat.div_add_mod x B, ← Nat.div_add_mod a B, hd, hm]

theorem rep_set (bs width height : Nat) (m : PixelsMap) (S : List (Nat × Nat))
    (h : PixelsMap.Rep bs width height m S) (hB : 0 < bs) (a b : Nat) (ha : a ≤ width)
    (hb : b < height) :
    ∃ m1, m.set bs a b = some m1 ∧ PixelsMap.Rep bs width height m1 (S ++ [(a, b)]) := by
  have hB8 : 0 < bs * 8 := by omega
  have haw : a / (bs * 8) < m.w := by
    rw [h.1]
    exact Nat.lt_succ_of_le (Nat.div_le_div_right ha)
  have hlt : b * m.w + a / (bs * 8) < m.pm.length := by
    rw [h.2.2.1]
    exact index_lt _ _ _ _ haw hb
  unfold PixelsMap.set
  rw [word_some bs width height m S h a b haw hb]
  simp only [Option.map_some']
  refine ⟨_, rfl, h.1, h.2.1, ?_, ?_, ?_⟩
  · simp only [List.length_set]
    exact h.2.2.1
  · intro i
    simp only []
    rw [List.getD_eq_getElem?_getD, List.getElem?_set]
    split_ifs with e1
    · simp only [Option.getD_some]
      rw [Nat.one_shiftLeft]
      exact Nat.or_lt_two_pow (h.2.2.2.1 _) (Nat.pow_lt_pow_right (by norm_num)
        (Nat.mod_lt _ hB8))
    · rw [← List.getD_eq_getElem?_getD]
      exact h.2.2.2.1 _
  · intro x y hx hy
    simp only [] at hx ⊢
    rw [List.getD_eq_getElem?_getD, List.getElem?_set]
    by_cases e : b * m.w + a / (bs * 8) = y * m.w + x / (bs * 8)
    · obtain ⟨e1, e2⟩ := index_inj _ _ _ _ _ haw hx e
      rw [if_pos e, if_pos hlt]
      simp only [Option.getD_some]
      rw [Nat.testBit_or, Nat.one_shiftLeft, Nat.testBit_two_pow]
      have h5 := h.2.2.2.2 x y hx hy
      rw [← e] at h5
      rw [h5]
      simp only [List.mem_append, List.mem_singleton, Prod.mk.injEq, Bool.decide_or,
        Bool.decide_and]
      congr 1
      subst e1
      simp only [decide_True, Bool.and_true]
      by_cases e3 : a % (bs * 8) = x % (bs * 8)
      · have := mod_eq_of_div_eq _ _ _ e2 e3
        subst this
        simp only [decide_True]
      · have : ¬ x = a := fun hxa => e3 (by rw [hxa])
        simp only [e3, this, decide_False]
    · rw [if_neg e, ← List.getD_eq_getElem?_getD, h.2.2.2.2 x y hx hy]
      have : ¬ (x = a ∧ y = b) := by
        rintro ⟨rfl, rfl⟩
        exact e rfl
      simp only [List.mem_append, List.mem_singleton, Prod.mk.injEq, this, or_false]

theorem rep_run (bs width height : Nat) (hB : 0 < bs) : ∀ (ops : List PixelsMap.Op)
    (m : PixelsMap) (S : List (Nat × Nat)), PixelsMap.Rep bs width height m S →
    ops.all (PixelsMap.Op.valid width height) = true →
    ∃ m1, PixelsMap.run bs ops m = some m1 ∧
      PixelsMap.Rep bs width height m1 (ops.foldl PixelsMap.record S)
  | [], m, S, h, _ => ⟨m, rfl, h⟩
  | PixelsMap.Op.set a b :: ops, m, S, h, hv => by
    simp only [List.all_cons, Bool.and_eq_true, PixelsMap.Op.valid, decide_eq_true_eq] at hv
    obtain ⟨m1, e1, h1⟩ := rep_set bs width height m S h hB a b hv.1.1 hv.1.2
    obtain ⟨m2, e2, h2⟩ := rep_run bs width height hB ops m1 _ h1 hv.2
    refine ⟨m2, ?_, h2⟩
    simp only [PixelsMap.run, PixelsMap.step, e1, Option.some_bind, e2]
  | PixelsMap.Op.clear :: ops, m, S, h, hv => by
    simp only [List.all_cons, Bool.and_eq_true] at hv
    obtain ⟨m2, e2, h2⟩ :=
      rep_run bs width height hB ops m.clear _ (rep_clear bs width height m S h) hv.2
    refine ⟨m2, ?_, h2⟩
    simp only [PixelsMap.run, PixelsMap.step, Option.some_bind, e2]

theorem and_bit_ne_zero (word k : Nat) : decide (word &&& 1 <<< k ≠ 0) = word.testBit k := by
  rw [Nat.one_shiftLeft, Nat.and_two_pow]
  cases word.testBit k
  · simp only [Bool.toNat_false, Nat.zero_mul, ne_eq, not_true_eq_false, decide_False]
  · have : 2 ^ k ≠ 0 := Nat.pos_iff_ne_zero.mp (Nat.pos_pow_of_pos _ (by norm_num))
    simp only [Bool.toNat_true, Nat.one_mul, ne_eq, this, not_false_eq_true, decide_True]

theorem get_of_rep (bs width height : Nat) (m : PixelsMap) (S : List (Nat × Nat))
    (h : PixelsMap.Rep bs width height m S) (x y : Nat) (hx : x / (bs * 8) < m.w)
    (hy : y < height) : m.get bs x y = some (decide ((x, y) ∈ S)) := by
  unfold PixelsMap.get
  rw [word_some bs width height m S h x y hx hy]
  simp only [Option.map_some']
  rw [and_bit_ne_zero, h.2.2.2.2 x y hx hy]

theorem word_zero_iff (bs width height : Nat) (m : PixelsMap) (S : List (Nat × Nat))
    (h : PixelsMap.Rep bs width height m S) (hB : 0 < bs) (x y : Nat)
    (hx : x / (bs * 8) < m.w) (hy : y < height) :
    m.pm.getD (y * m.w + x / (bs * 8)) 0 ≠ 0 ↔
      ∃ x1, x1 / (bs * 8) = x / (bs * 8) ∧ (x1, y) ∈ S := by
  have hB8 : 0 < bs * 8 := by omega
  constructor
  · intro hne
    obtain ⟨k, hk⟩ := Nat.ne_zero_implies_bit_true hne
    have hkB : k < bs * 8 := by
      by_contra hge
      have h1 := h.2.2.2.1 (y * m.w + x / (bs * 8))
      have h2 : m.pm.getD (y * m.w + x / (bs * 8)) 0 < 2 ^ k :=
        Nat.lt_of_lt_of_le h1 (Nat.pow_le_pow_right (by norm_num) (by omega))
      rw [Nat.testBit_lt_two_pow h2] at hk
      cases hk
    have hd : (k + bs * 8 * (x / (bs * 8))) / (bs * 8) = x / (bs * 8) := by
      rw [Nat.add_mul_div_left _ _ hB8, Nat.div_eq_of_lt hkB, Nat.zero_add]
    have hm : (k + bs * 8 * (x / (bs * 8))) % (bs * 8) = k := by
      rw [Nat.add_mul_mod_self_left, Nat.mod_eq_of_lt hkB]
    refine ⟨k + bs * 8 * (x / (bs * 8)), hd, ?_⟩
    have h5 := h.2.2.2.2 (k + bs * 8 * (x / (bs * 8))) y (by rw [hd]; exact hx) hy
    rw [hd, hm, hk] at h5
    exact of_decide_eq_true h5.symm
  · rintro ⟨x1, hd, hmem⟩ hz
    have h5 := h.2.2.2.2 x1 y (by rw [hd]; exact hx) hy
    rw [hd, hz, Nat.zero_testBit] at h5
    exact absurd hmem (of_decide_eq_false h5.symm)

theorem skipIfZero_of_rep (bs width height : Nat) (m : PixelsMap) (S : List (Nat × Nat))
    (h : PixelsMap.Rep bs width height m S) (x y : Nat) (hx : x / (bs * 8) < m.w)
    (hy : y < height) :
    m.skipIfZero bs x y =
      some (if m.pm.getD (y * m.w + x / (bs * 8)) 0 = 0 then bs * 8 - x % (bs * 8) else 0) := by
  unfold PixelsMap.skipIfZero
  rw [word_some bs width height m S h x y hx hy]
  rfl

theorem pending_snoc (ops : List PixelsMap.Op) (op : PixelsMap.Op) :
    PixelsMap.pending (ops ++ [op]) = PixelsMap.record (PixelsMap.pending ops) op := by
  unfold PixelsMap.pending
  rw [List.foldl_append]
  rfl

theorem run_snoc (bs : Nat) : ∀ (ops : List PixelsMap.Op) (op : PixelsMap.Op) (m : PixelsMap),
    PixelsMap.run bs (ops ++ [op]) m =
      (PixelsMap.run bs ops m).bind (fun m1 => PixelsMap.step bs m1 op)
  | [], op, m => by
    simp only [List.nil_append, PixelsMap.run, Option.some_bind]
    cases PixelsMap.step bs m op <;> rfl
  | o :: ops, op, m => by
    simp only [List.cons_append, PixelsMap.run]
    cases PixelsMap.step bs m o with
    | none => rfl
    | some m1 =>
      simp only [Option.some_bind]
      exact run_snoc bs ops op m1

theorem div_le_width (bs width x : Nat) (m : PixelsMap) (hw : m.w = width / (bs * 8) + 1)
    (hx : x ≤ width) : x / (bs * 8) < m.w := by
  rw [hw]
  exact Nat.lt_succ_of_le (Nat.div_le_div_right hx)

/-- C21: a `PixelsMap` built for `width` and `height` accepts every sequence
of calls `set(x, y)` with `0 ≤ x ≤ width`, `0 ≤ y < height` and `clear()`, and
afterwards `get(x, y)` is true exactly for the coordinates set since the last
`clear()` (since the construction if there was none); a fresh map and a cleared
map answer false everywhere, and one more `set(a, b)` makes `get(a, b)` true
and changes the answer at no other coordinate. -/
theorem pixelsMap_get_set (bs width height : Nat) (m0 : PixelsMap)
    (ops : List PixelsMap.Op) (hB : 0 < bs)
    (hnew : PixelsMap.new bs width height = some m0)
    (hv : ops.all (PixelsMap.Op.valid width height) = true) :
    ∃ m, PixelsMap.run bs ops m0 = some m ∧
      (∀ x y, x ≤ width → y < height →
        m.get bs x y = some (decide ((x, y) ∈ PixelsMap.pending ops))) ∧
      (∀ x y, x ≤ width → y < height →
        m0.get bs x y = some false ∧ m.clear.get bs x y = some false) ∧
      ∀ a b, a ≤ width → b < height →
        ∃ m1, m.set bs a b = some m1 ∧ m1.get bs a b = some true ∧
          ∀ x y, x ≤ width → y < height → (x, y) ≠ (a, b) → m1.get bs x y = m.get bs x y := by
  have h0 := rep_new bs width height m0 hnew
  obtain ⟨m, e, h⟩ := rep_run bs width height hB ops m0 [] h0 hv
  refine ⟨m, e, ?_, ?_, ?_⟩
  · intro x y hx hy
    exact get_of_rep bs width height m _ h x y (div_le_width bs width x m h.1 hx) hy
  · intro x y hx hy
    have hc := rep_clear bs width height m _ h
    rw [get_of_rep bs width height m0 _ h0 x y (div_le_width bs width x m0 h0.1 hx) hy,
      get_of_rep bs width height m.clear _ hc x y (div_le_width bs width x _ hc.1 hx) hy]
    simp only [List.not_mem_nil, decide_False, and_self]
  · intro a b ha hb
    obtain ⟨m1, e1, h1⟩ := rep_set bs width height m _ h hB a b ha hb
    refine ⟨m1, e1, ?_, ?_⟩
    · rw [get_of_rep bs width height m1 _ h1 a b (div_le_width bs width a m1 h1.1 ha) hb]
      simp only [List.mem_append, List.mem_singleton, or_true, decide_True]
    · intro x y hx hy hne
      rw [get_of_rep bs width height m1 _ h1 x y (div_le_width bs width x m1 h1.1 hx) hy,
        get_of_rep bs width height m _ h x y (div_le_width bs width x m h.1 hx) hy]
      simp only [List.mem_append, List.mem_singleton, hne, or_false]

/-- C21 on a 100 by 3 map with 64-bit words after the calls `sampleOps`. -/
theorem pixelsMap_get_set_witness :
    ∃ m, PixelsMap.run 8 sampleOps sampleMap = some m ∧
      (∀ x y, x ≤ 100 → y < 3 →
        m.get 8 x y = some (decide ((x, y) ∈ PixelsMap.pending sampleOps))) ∧
      (∀ x y, x ≤ 100 → y < 3 →
        sampleMap.get 8 x y = some false ∧ m.clear.get 8 x y = some false) ∧
      ∀ a b, a ≤ 100 → b < 3 →
        ∃ m1, m.set 8 a b = some m1 ∧ m1.get 8 a b = some true ∧
          ∀ x y, x ≤ 100 → y < 3 → (x, y) ≠ (a, b) → m1.get 8 x y = m.get 8 x y :=
  pixelsMap_get_set 8 100 3 sampleMap sampleOps (by decide) (by decide) (by decide)

/-- C27: on a map reached by calls `set(x, y)` with `0 ≤ x ≤ width`,
`0 ≤ y < height` and `clear()`, `skipIfZero(x, y)` with `0 ≤ x ≤ width`,
`0 ≤ y < height` returns 0 exactly when some pixel of row `y` in the word of
`x` is set; otherwise it returns `B - x % B` for the `B = base_t_size * 8` bits
of a word, and `get(x + k, y)` is false for every `k < B - x % B`. -/
theorem pixelsMap_skipIfZero (bs width height : Nat) (m0 : PixelsMap)
    (ops : List PixelsMap.Op) (x y : Nat) (hB : 0 < bs)
    (hnew : PixelsMap.new bs width height = some m0)
    (hv : ops.all (PixelsMap.Op.valid width height) = true) (hx : x ≤ width)
    (hy : y < height) :
    ∃ m r, PixelsMap.run bs ops m0 = some m ∧ m.skipIfZero bs x y = some r ∧
      (r = 0 ↔ ∃ x1, x1 / (bs * 8) = x / (bs * 8) ∧ m.get bs x1 y = some true) ∧
      (r = 0 ↔ ∃ x1, x1 / (bs * 8) = x / (bs * 8) ∧ (x1, y) ∈ PixelsMap.pending ops) ∧
      (r ≠ 0 → r = bs * 8 - x % (bs * 8) ∧
        ∀ k, k < bs * 8 - x % (bs * 8) → m.get bs (x + k) y = some false) := by
  have hB8 : 0 < bs * 8 := by omega
  have h0 := rep_new bs width height m0 hnew
  obtain ⟨m, e, h⟩ := rep_run bs width height hB ops m0 [] h0 hv
  have hxw := div_le_width bs width x m h.1 hx
  have hz := word_zero_iff bs width height m _ h hB x y hxw hy
  have hmod : x % (bs * 8) < bs * 8 := Nat.mod_lt _ hB8
  have hr : (if m.pm.getD (y * m.w + x / (bs * 8)) 0 = 0 then bs * 8 - x % (bs * 8) else 0) = 0 ↔
      m.pm.getD (y * m.w + x / (bs * 8)) 0 ≠ 0 := by
    split_ifs with hw
    · simp only [ne_eq, hw, not_true_eq_false, iff_false]
      omega
    · simp only [ne_eq, hw, not_false_eq_true]
  refine ⟨m, _, e, skipIfZero_of_rep bs width height m _ h x y hxw hy, ?_, ?_, ?_⟩
  · rw [hr, hz]
    constructor
    · rintro ⟨x1, hd, hmem⟩
      refine ⟨x1, hd, ?_⟩
      rw [get_of_rep bs width height m _ h x1 y (by rw [hd]; exact hxw) hy]
      simp only [hmem, decide_True]
    · rintro ⟨x1, hd, hg⟩
      refine ⟨x1, hd, ?_⟩
      rw [get_of_rep bs width height m _ h x1 y (by rw [hd]; exact hxw) hy] at hg
      simp only [Option.some.injEq, decide_eq_true_eq] at hg
      exact hg
  · rw [hr, hz]
    rfl
  · intro hne
    have hw : m.pm.getD (y * m.w + x / (bs * 8)) 0 = 0 := by
      by_contra hw
      exact hne (hr.mpr hw)
    refine ⟨by rw [if_pos hw], ?_⟩
    intro k hk
    have hd : (x + k) / (bs * 8) = x / (bs * 8) := by
      have e1 : x + k = x % (bs * 8) + k + bs * 8 * (x / (bs * 8)) := by
        have := Nat.div_add_mod x (bs * 8)
        omega
      rw [e1, Nat.add_mul_div_left _ _ hB8, Nat.div_eq_of_lt (by omega), Nat.zero_add]
    rw [get_of_rep bs width height m _ h (x + k) y (by rw [hd]; exact hxw) hy]
    have hno : ¬ ∃ x1, x1 / (bs * 8) = x / (bs * 8) ∧ (x1, y) ∈ List.foldl PixelsMap.record [] ops :=
      fun hex => (hz.mpr hex) hw
    have : (x + k, y) ∉ List.foldl PixelsMap.record [] ops := fun hmem => hno ⟨x + k, hd, hmem⟩
    simp only [this, decide_False]

/-- C27 on a 100 by 3 map with 64-bit words after the calls `sampleOps`, at
`x = 70`, `y = 0`. -/
theorem pixelsMap_skipIfZero_witness :
    ∃ m r, PixelsMap.run 8 sampleOps sampleMap = some m ∧ m.skipIfZero 8 70 0 = some r ∧
      (r = 0 ↔ ∃ x1, x1 / (8 * 8) = 70 / (8 * 8) ∧ m.get 8 x1 0 = some true) ∧
      (r = 0 ↔ ∃ x1, x1 / (8 * 8) = 70 / (8 * 8) ∧ (x1, 0) ∈ PixelsMap.pending sampleOps) ∧
      (r ≠ 0 → r = 8 * 8 - 70 % (8 * 8) ∧
        ∀ k, k < 8 * 8 - 70 % (8 * 8) → m.get 8 (70 + k) 0 = some false) :=
  pixelsMap_skipIfZero 8 100 3 sampleMap sampleOps 70 0 (by decide) (by decide) (by decide)
    (by decide) (by decide)

/-! ## `RawImage`: the colour pattern -/

theorem and_small (a b n : Nat) (hb : b < 2 ^ n) : a &&& b = a % 2 ^ n &&& b := by
  apply Nat.eq_of_testBit_eq
  intro i
  rw [Nat.testBit_and, Nat.testBit_and, Nat.testBit_mod_two_pow]
  by_cases hi : i < n
  · simp only [hi, decide_True, Bool.true_and]
  · have : b.testBit i = false :=
      Nat.testBit_lt_two_pow (Nat.lt_of_lt_of_le hb (Nat.pow_le_pow_right (by norm_num) (by omega)))
    rw [this, Bool.and_false, Bool.and_false]

theorem and_fourteen (a : Nat) : a &&& 14 = a % 16 - a % 2 := by
  rw [and_small a 14 4 (by norm_num)]
  have h : a % 2 ^ 4 < 16 := Nat.mod_lt _ (by norm_num)
  have h2 : a % 2 = a % 2 ^ 4 % 2 := by
    norm_num
  rw [show a % 16 = a % 2 ^ 4 by norm_num, h2]
  generalize a % 2 ^ 4 = r at h ⊢
  interval_cases r <;> rfl

theorem FC_eq (f row col : Nat) :
    RawImage.FC f row col = colorCode f (2 * (row % 8) + col % 2) := by
  unfold RawImage.FC colorCode
  have e1 : (row <<< 1) % 2 ^ 32 &&& 14 = 2 * (row % 8) := by
    rw [and_fourteen, Nat.shiftLeft_eq]
    omega
  rw [e1, Nat.and_one_is_mod, Nat.shiftLeft_eq, Nat.shiftRight_eq_div_pow,
    Nat.and_pow_two_sub_one_eq_mod _ 2, Nat.pow_mul']

theorem colorCode_bits (f k : Nat) :
    colorCode f k = (f.testBit (2 * k)).toNat + 2 * (f.testBit (2 * k + 1)).toNat := by
  unfold colorCode
  have e0 : f.testBit (2 * k) = decide (f / 4 ^ k % 2 = 1) := by
    rw [Nat.testBit_to_div_mod, Nat.pow_mul]
  have e1 : f.testBit (2 * k + 1) = decide (f / 4 ^ k / 2 % 2 = 1) := by
    rw [Nat.testBit_to_div_mod, Nat.pow_succ, Nat.pow_mul, Nat.div_div_eq_div_mul]
  rw [e0, e1]
  generalize f / 4 ^ k = m
  by_cases h0 : m % 2 = 1 <;> by_cases h1 : m / 2 % 2 = 1 <;>
    simp only [h0, h1, decide_True, decide_False, Bool.toNat_true, Bool.toNat_false] <;> omega

theorem testBit_fives (j : Nat) :
    (0x55555555 : Nat).testBit j = decide (j < 32 ∧ j % 2 = 0) := by
  by_cases hj : j < 32
  · have h : ∀ j, j < 32 → (0x55555555 : Nat).testBit j = decide (j % 2 = 0) := by decide
    rw [h j hj]
    simp only [hj, true_and]
  · have : (0x55555555 : Nat).testBit j = false :=
      Nat.testBit_lt_two_pow (Nat.lt_of_lt_of_le (by norm_num : 0x55555555 < 2 ^ 32)
        (Nat.pow_le_pow_right (by norm_num) (by omega)))
    rw [this]
    simp only [hj, false_and, decide_False]

theorem testBit_threeColors (f i : Nat) (hf : f < 2 ^ 32) :
    (RawImage.threeColors f).testBit i =
      (f.testBit i && !(decide (i % 2 = 1) && f.testBit (i - 1))) := by
  unfold RawImage.threeColors
  rw [Nat.testBit_and, Nat.testBit_xor, show (0xFFFFFFFF : Nat) = 2 ^ 32 - 1 by norm_num,
    Nat.testBit_two_pow_sub_one, Nat.testBit_mod_two_pow, Nat.testBit_shiftLeft, Nat.testBit_and,
    testBit_fives]
  by_cases hi : i < 32
  · by_cases ho : i % 2 = 1
    · have h1 : i ≥ 1 := by omega
      have h2 : i - 1 < 32 ∧ (i - 1) % 2 = 0 := by omega
      simp only [hi, ho, h1, h2, decide_True, Bool.true_and, and_self, Bool.and_true,
        Bool.true_xor]
    · have h2 : ¬ (i - 1 < 32 ∧ (i - 1) % 2 = 0) ∨ ¬ i ≥ 1 := by omega
      rcases h2 with h2 | h2 <;>
        simp only [hi, ho, h2, decide_True, decide_False, Bool.true_and, Bool.false_and,
          Bool.and_false, Bool.xor_false, Bool.not_false, Bool.and_true]
  · have : f.testBit i = false :=
      Nat.testBit_lt_two_pow (Nat.lt_of_lt_of_le hf (Nat.pow_le_pow_right (by norm_num) (by omega)))
    rw [this, Bool.false_and, Bool.false_and]

theorem threeColors_lt (f : Nat) (hf : f < 2 ^ 32) : RawImage.threeColors f < 2 ^ 32 :=
  Nat.lt_of_le_of_lt Nat.and_le_left hf

theorem colorCode_threeColors (f k : Nat) (hf : f < 2 ^ 32) :
    colorCode (RawImage.threeColors f) k = if colorCode f k = 3 then 1 else colorCode f k := by
  rw [colorCode_bits, colorCode_bits, testBit_threeColors f _ hf, testBit_threeColors f _ hf]
  have h0 : ¬ (2 * k % 2 = 1) := by omega
  have h1 : (2 * k + 1) % 2 = 1 := by omega
  simp only [h0, h1, decide_True, decide_False, Bool.false_and, Bool.true_and, Bool.not_false,
    Bool.and_true, Nat.add_sub_cancel]
  cases f.testBit (2 * k) <;> cases f.testBit (2 * k + 1) <;> decide

theorem threeColors_idem (f : Nat) (hf : f < 2 ^ 32) :
    RawImage.threeColors (RawImage.threeColors f) = RawImage.threeColors f := by
  apply Nat.eq_of_testBit_eq
  intro i
  rw [testBit_threeColors _ i (threeColors_lt f hf), testBit_threeColors f i hf,
    testBit_threeColors f (i - 1) hf]
  by_cases ho : i % 2 = 1
  · have h2 : ¬ ((i - 1) % 2 = 1) := by omega
    simp only [ho, h2, decide_True, decide_False, Bool.true_and, Bool.false_and, Bool.not_false,
      Bool.and_true]
    cases f.testBit i <;> cases f.testBit (i - 1) <;> rfl
  · simp only [ho, decide_False, Bool.false_and, Bool.not_false, Bool.and_true]

theorem testBit_rotateFilters (f i : Nat) (hf : f < 2 ^ 32) (hi : i < 32) :
    (RawImage.rotateFilters f).testBit i = f.testBit ((i + 28) % 32) := by
  unfold RawImage.rotateFilters
  rw [Nat.testBit_or, Nat.testBit_mod_two_pow, Nat.testBit_shiftLeft, Nat.testBit_shiftRight]
  by_cases h4 : i ≥ 4
  · have : f.testBit (28 + i) = false :=
      Nat.testBit_lt_two_pow (Nat.lt_of_lt_of_le hf (Nat.pow_le_pow_right (by norm_num) (by omega)))
    rw [this, Bool.or_false, show (i + 28) % 32 = i - 4 by omega]
    simp only [hi, h4, decide_True, Bool.true_and]
  · rw [show (i + 28) % 32 = 28 + i by omega]
    simp only [h4, decide_False, Bool.false_and, Bool.and_false, Bool.false_or]

theorem colorCode_rotate (f k : Nat) (hf : f < 2 ^ 32) (hk : k < 16) :
    colorCode (RawImage.rotateFilters f) k = colorCode f ((k + 14) % 16) := by
  rw [colorCode_bits, colorCode_bits, testBit_rotateFilters f _ hf (by omega),
    testBit_rotateFilters f _ hf (by omega),
    show (2 * k + 28) % 32 = 2 * ((k + 14) % 16) by omega,
    show (2 * k + 1 + 28) % 32 = 2 * ((k + 14) % 16) + 1 by omega]

theorem colorCode_lt (f k : Nat) : colorCode f k < 4 := Nat.mod_lt _ (by norm_num)

/-- C30: for a 32-bit `filters` value `f`, `FC` with the value rotated left by
4 bits at `(row, col)` is `FC` with `f` at `(row + 7, col)`, the sum taken in
`unsigned`; this is `FC` with `f` at `(row + 1, col)` when the pattern of `f`
repeats every 2 rows.  `FC` depends only on `row % 8` and `col % 2` and is
at most 3, and `loadRaw` rotates exactly when the difference of the top
margins is odd. -/
theorem FC_rotateFilters (f row col row1 col1 top_margin : Nat) (tm : Int) (hf : f < 2 ^ 32) :
    RawImage.FC (RawImage.rotateFilters f) row col =
        RawImage.FC f ((row + 7) % 2 ^ 32) col ∧
      RawImage.FC (RawImage.rotateFilters f) row col = RawImage.FC f (row + 7) col ∧
      ((∀ r c, RawImage.FC f (r + 2) c = RawImage.FC f r c) →
        RawImage.FC (RawImage.rotateFilters f) row col = RawImage.FC f (row + 1) col) ∧
      (row % 8 = row1 % 8 → col % 2 = col1 % 2 → RawImage.FC f row col = RawImage.FC f row1 col1) ∧
      RawImage.FC f row col ≤ 3 ∧
      (((top_margin : Int) - tm) % 2 = 1 →
        RawImage.loadRaw.cropFilters f top_margin tm = RawImage.rotateFilters f) ∧
      (((top_margin : Int) - tm) % 2 = 0 → RawImage.loadRaw.cropFilters f top_margin tm = f) := by
  have hrot : RawImage.FC (RawImage.rotateFilters f) row col = RawImage.FC f (row + 7) col := by
    rw [FC_eq, FC_eq, colorCode_rotate f _ hf (by omega)]
    congr 1
    omega
  refine ⟨?_, hrot, ?_, ?_, ?_, ?_, ?_⟩
  · rw [hrot, FC_eq, FC_eq]
    congr 2
    omega
  · intro hper
    rw [hrot, show row + 7 = row + 1 + 2 + 2 + 2 by omega, hper, hper, hper]
  · intro h1 h2
    rw [FC_eq, FC_eq, h1, h2]
  · rw [FC_eq]
    exact Nat.le_of_lt_succ (colorCode_lt _ _)
  · intro h
    unfold RawImage.loadRaw.cropFilters
    rw [if_pos (by omega)]
  · intro h
    unfold RawImage.loadRaw.cropFilters
    rw [if_neg (by omega)]

/-- C30 on the pattern `0x94949494`, which repeats every 2 rows, at row 3 and
column 1. -/
theorem FC_rotateFilters_witness :
    RawImage.FC (RawImage.rotateFilters 0x94949494) 3 1 =
        RawImage.FC 0x94949494 ((3 + 7) % 2 ^ 32) 1 ∧
      RawImage.FC (RawImage.rotateFilters 0x94949494) 3 1 = RawImage.FC 0x94949494 (3 + 7) 1 ∧
      ((∀ r c, RawImage.FC 0x94949494 (r + 2) c = RawImage.FC 0x94949494 r c) →
        RawImage.FC (RawImage.rotateFilters 0x94949494) 3 1 =
          RawImage.FC 0x94949494 (3 + 1) 1) ∧
      (3 % 8 = 11 % 8 → 1 % 2 = 5 % 2 →
        RawImage.FC 0x94949494 3 1 = RawImage.FC 0x94949494 11 5) ∧
      RawImage.FC 0x94949494 3 1 ≤ 3 ∧
      ((((8 : Nat) : Int) - 5) % 2 = 1 →
        RawImage.loadRaw.cropFilters 0x94949494 8 5 = RawImage.rotateFilters 0x94949494) ∧
      ((((8 : Nat) : Int) - 5) % 2 = 0 → RawImage.loadRaw.cropFilters 0x94949494 8 5 = 0x94949494) :=
  FC_rotateFilters 0x94949494 3 1 11 5 8 5 (by norm_num)

/-- C28: for a Bayer image with 3 colours `set_prefilters` stores the old
`filters` in `prefilters`, and in the new `filters` every 2-bit colour code 3
has become 1 while the other codes are as before, so that the new `FC` is 1
where the old one was 3 and the old one elsewhere; for any other image nothing
changes; a second call leaves `filters` as the first call left it. -/
theorem set_prefilters_codes (r : RawImage) (hf : r.filters < 2 ^ 32) :
    (r.isBayer = true ∧ r.colors = 3 →
      r.set_prefilters.prefilters = r.filters ∧
        (∀ k, colorCode r.set_prefilters.filters k =
          if colorCode r.filters k = 3 then 1 else colorCode r.filters k) ∧
        ∀ row col, RawImage.FC r.set_prefilters.filters row col =
          if RawImage.FC r.filters row col = 3 then 1 else RawImage.FC r.filters row col) ∧
      (¬ (r.isBayer = true ∧ r.colors = 3) → r.set_prefilters = r) ∧
      r.set_prefilters.set_prefilters.filters = r.set_prefilters.filters ∧
      RawImage.threeColors (RawImage.threeColors r.filters) = RawImage.threeColors r.filters := by
  refine ⟨?_, ?_, ?_, threeColors_idem _ hf⟩
  · intro h
    unfold RawImage.set_prefilters
    rw [if_pos h]
    refine ⟨rfl, fun k => colorCode_threeColors _ k hf, ?_⟩
    intro row col
    simp only []
    rw [FC_eq, FC_eq, colorCode_threeColors _ _ hf]
  · intro h
    unfold RawImage.set_prefilters
    rw [if_neg h]
  · by_cases h : r.isBayer = true ∧ r.colors = 3
    · have e : r.set_prefilters =
          { r with prefilters := r.filters, filters := RawImage.threeColors r.filters } := by
        unfold RawImage.set_prefilters
        rw [if_pos h]
      rw [e]
      unfold RawImage.set_prefilters
      split_ifs
      · exact threeColors_idem _ hf
      · rfl
    · have e : r.set_prefilters = r := by
        unfold RawImage.set_prefilters
        rw [if_neg h]
      rw [e, e]

/-- C28 on the pattern `0x94949494` with three colours. -/
theorem set_prefilters_codes_witness :
    (sampleRaw.isBayer = true ∧ sampleRaw.colors = 3 →
      sampleRaw.set_prefilters.prefilters = sampleRaw.filters ∧
        (∀ k, colorCode sampleRaw.set_prefilters.filters k =
          if colorCode sampleRaw.filters k = 3 then 1 else colorCode sampleRaw.filters k) ∧
        ∀ row col, RawImage.FC sampleRaw.set_prefilters.filters row col =
          if RawImage.FC sampleRaw.filters row col = 3 then 1
          else RawImage.FC sampleRaw.filters row col) ∧
      (¬ (sampleRaw.isBayer = true ∧ sampleRaw.colors = 3) → sampleRaw.set_prefilters = sampleRaw) ∧
      sampleRaw.set_prefilters.set_prefilters.filters = sampleRaw.set_prefilters.filters ∧
      RawImage.threeColors (RawImage.threeColors sampleRaw.filters) =
        RawImage.threeColors sampleRaw.filters :=
  set_prefilters_codes sampleRaw (by decide)

/-- C29 fails for a pattern that does not repeat every 2 rows: for the Bayer
pattern `0xe1e4e1e4` and an image 3 wide and 4 high, `get_colorsCoeff` puts 4
into `dsum[0 + 4]` and 2 into `dsum[1 + 4]`, while 3 pixels have colour 0 and 3
pixels have colour 1; the four entries still add up to `3 * 4`. -/
theorem get_colorsCoeff_counts_differ :
    RawImage.isBayer { filters := sampleFilters, prefilters := 0, colors := 4 } = true ∧
      get_colorsCoeff.counts sampleFilters 3 4 (0 + 4) = 4 ∧
      colorPixels sampleFilters 3 4 0 = 3 ∧
      get_colorsCoeff.counts sampleFilters 3 4 (1 + 4) = 2 ∧
      colorPixels sampleFilters 3 4 1 = 3 ∧
      get_colorsCoeff.counts sampleFilters 3 4 4 + get_colorsCoeff.counts sampleFilters 3 4 5 +
        get_colorsCoeff.counts sampleFilters 3 4 6 + get_colorsCoeff.counts sampleFilters 3 4 7 =
        3 * 4 := by
  decide

theorem update_slot (d : Nat → Int) (k c : Nat) (v : Int) :
    Function.update d (k + 4) (d (k + 4) + v) (c + 4) = d (c + 4) + if k = c then v else 0 := by
  by_cases h : k = c
  · subst h
    rw [Function.update_same, if_pos rfl]
  · rw [Function.update_noteq (by omega), if_neg h, Int.add_zero]

theorem toInt32_mul (a b : Nat) (ha : a ≤ 32768) (hb : b ≤ 32768) :
    toInt32 (mul32 a b) = (a : Int) * (b : Int) := by
  have h : a * b ≤ 32768 * 32768 := Nat.mul_le_mul ha hb
  unfold toInt32 mul32
  rw [Nat.mod_eq_of_lt (by omega), if_pos (by omega)]
  exact Int.ofNat_mul a b

theorem counts_eq (f W H c : Nat) (hW : W < 65536) (hH : H < 65536) :
    get_colorsCoeff.counts f W H (c + 4) =
      (if RawImage.FC f 0 0 = c then (((W + 1) / 2 : Nat) : Int) * (((H + 1) / 2 : Nat) : Int)
        else 0) +
      (if RawImage.FC f 0 1 = c then ((W / 2 : Nat) : Int) * (((H + 1) / 2 : Nat) : Int) else 0) +
      (if RawImage.FC f 1 0 = c then (((W + 1) / 2 : Nat) : Int) * ((H / 2 : Nat) : Int) else 0) +
      (if RawImage.FC f 1 1 = c then ((W / 2 : Nat) : Int) * ((H / 2 : Nat) : Int) else 0) := by
  have eW : add32 W 1 = W + 1 := Nat.mod_eq_of_lt (by omega)
  have eH : add32 H 1 = H + 1 := Nat.mod_eq_of_lt (by omega)
  unfold get_colorsCoeff.counts
  simp only []
  rw [update_slot, update_slot, update_slot, update_slot, eW, eH,
    toInt32_mul _ _ (by omega) (by omega), toInt32_mul _ _ (by omega) (by omega),
    toInt32_mul _ _ (by omega) (by omega), toInt32_mul _ _ (by omega) (by omega), Int.zero_add]

theorem count_parity (p : Nat → Bool) (hp : ∀ n, p n = p (n % 2)) : ∀ W : Nat,
    ((List.range W).filter p).length =
      (if p 0 = true then (W + 1) / 2 else 0) + (if p 1 = true then W / 2 else 0)
  | 0 => by
    simp only [List.range_zero, List.filter_nil, List.length_nil]
    split_ifs <;> rfl
  | W + 1 => by
    rw [List.range_succ, List.filter_append, List.length_append, count_parity p hp W]
    have hW := hp W
    simp only [List.filter_cons, List.filter_nil]
    rcases Nat.mod_two_eq_zero_or_one W with h | h <;> rw [h] at hW <;> rw [hW] <;>
      cases h0 : p 0 <;> cases h1 : p 1 <;>
      simp only [if_true, if_false, List.length_nil, List.length_cons,
        Bool.false_eq_true] <;> omega

theorem sum_parity (g : Nat → Nat) (hg : ∀ n, g n = g (n % 2)) : ∀ H : Nat,
    ((List.range H).map g).sum = g 0 * ((H + 1) / 2) + g 1 * (H / 2)
  | 0 => by
    simp only [List.range_zero, List.map_nil, List.sum_nil]
    omega
  | H + 1 => by
    rw [List.range_succ, List.map_append, List.sum_append, sum_parity g hg H]
    have hH := hg H
    simp only [List.map_cons, List.map_nil, List.sum_cons, List.sum_nil, Nat.add_zero]
    rcases Nat.mod_two_eq_zero_or_one H with h | h <;> rw [h] at hH <;> rw [hH]
    · rw [show (H + 1 + 1) / 2 = H / 2 + 1 by omega, show (H + 1) / 2 = H / 2 by omega]
      simp only [Nat.mul_add, Nat.mul_one]
      omega
    · rw [show (H + 1 + 1) / 2 = H / 2 + 1 by omega, show (H + 1) / 2 = H / 2 + 1 by omega]
      simp only [Nat.mul_add, Nat.mul_one]
      omega

theorem FC_periodic (f : Nat) (hper : ∀ r c, RawImage.FC f (r + 2) c = RawImage.FC f r c) :
    ∀ (n r c : Nat), r < 2 * n → RawImage.FC f r c = RawImage.FC f (r % 2) c
  | 0, r, c, h => absurd h (by omega)
  | n + 1, r, c, h => by
    by_cases h2 : r < 2
    · rw [Nat.mod_eq_of_lt h2]
    · rw [show r = (r - 2) + 2 by omega, hper, FC_periodic f hper n (r - 2) c (by omega)]
      congr 1
      omega

/-- For a pattern that repeats every 2 rows the entries that `get_colorsCoeff`
puts into `dsum[c + 4]` are the numbers of pixels of each colour, and the four
entries always add up to `W * H`. -/
theorem counts_periodic (f W H c : Nat) (hW : W < 65536) (hH : H < 65536)
    (hper : ∀ r c, RawImage.FC f (r + 2) c = RawImage.FC f r c) :
    get_colorsCoeff.counts f W H (c + 4) = (colorPixels f W H c : Int) := by
  have hrow : ∀ row, ((List.range W).filter
      (fun col => decide (RawImage.FC f row col = c))).length =
      (if RawImage.FC f row 0 = c then (W + 1) / 2 else 0) +
        (if RawImage.FC f row 1 = c then W / 2 else 0) := by
    intro row
    have := count_parity (fun col => decide (RawImage.FC f row col = c))
      (fun n => by
        show decide (RawImage.FC f row n = c) = decide (RawImage.FC f row (n % 2) = c)
        rw [FC_eq, FC_eq f row (n % 2), Nat.mod_mod]) W
    simpa only [decide_eq_true_eq] using this
  unfold colorPixels
  simp only [hrow]
  have hsum := sum_parity (fun row => (if RawImage.FC f row 0 = c then (W + 1) / 2 else 0) +
    (if RawImage.FC f row 1 = c then W / 2 else 0)) (fun n => by
    dsimp only
    rw [FC_periodic f hper (n + 1) n 0 (by omega), FC_periodic f hper (n + 1) n 1 (by omega)]) H
  rw [hsum, counts_eq f W H c hW hH]
  by_cases h00 : RawImage.FC f 0 0 = c <;> by_cases h01 : RawImage.FC f 0 1 = c <;>
    by_cases h10 : RawImage.FC f 1 0 = c <;> by_cases h11 : RawImage.FC f 1 1 = c <;>
    simp only [h00, h01, h10, h11, if_true, if_false] <;> push_cast <;> ring

theorem counts_sum (f W H : Nat) (hW : W < 65536) (hH : H < 65536) :
    get_colorsCoeff.counts f W H 4 + get_colorsCoeff.counts f W H 5 +
      get_colorsCoeff.counts f W H 6 + get_colorsCoeff.counts f W H 7 = (W : Int) * (H : Int) := by
  have h0 := counts_eq f W H 0 hW hH
  have h1 := counts_eq f W H 1 hW hH
  have h2 := counts_eq f W H 2 hW hH
  have h3 := counts_eq f W H 3 hW hH
  simp only [Nat.zero_add, Nat.reduceAdd] at h0 h1 h2 h3
  rw [h0, h1, h2, h3]
  have eW : (W : Int) = (((W + 1) / 2 : Nat) : Int) + ((W / 2 : Nat) : Int) := by omega
  have eH : (H : Int) = (((H + 1) / 2 : Nat) : Int) + ((H / 2 : Nat) : Int) := by omega
  have b00 : RawImage.FC f 0 0 < 4 := by rw [FC_eq]; exact colorCode_lt _ _
  have b01 : RawImage.FC f 0 1 < 4 := by rw [FC_eq]; exact colorCode_lt _ _
  have b10 : RawImage.FC f 1 0 < 4 := by rw [FC_eq]; exact colorCode_lt _ _
  have b11 : RawImage.FC f 1 1 < 4 := by rw [FC_eq]; exact colorCode_lt _ _
  rw [eW, eH]
  generalize (((W + 1) / 2 : Nat) : Int) = a
  generalize ((W / 2 : Nat) : Int) = b
  generalize (((H + 1) / 2 : Nat) : Int) = p
  generalize ((H / 2 : Nat) : Int) = q
  generalize RawImage.FC f 0 0 = x00 at b00 ⊢
  generalize RawImage.FC f 0 1 = x01 at b01 ⊢
  generalize RawImage.FC f 1 0 = x10 at b10 ⊢
  generalize RawImage.FC f 1 1 = x11 at b11 ⊢
  interval_cases x00 <;> interval_cases x01 <;> interval_cases x10 <;> interval_cases x11 <;>
    simp only [if_true, if_false, OfNat.ofNat_ne_zero, OfNat.zero_ne_ofNat, OfNat.ofNat_ne_one,
      OfNat.one_ne_ofNat, Nat.reduceEqDiff, zero_ne_one, one_ne_zero] <;> ring

/-! ## Stores of `decodeScan` -/

theorem pairs_writes (signExtended : Nat → Nat → Int) (decodeLength : M BitPumpMSB32 Nat)
    (y : Nat) : ∀ (n k0 : Nat) (st st1 : HasselbladState),
    forRange (fun k => decodeScan.pair signExtended decodeLength y (2 * k)) k0 n st =
      (Except.ok (), st1) →
    st1.writes = st.writes ++ rowCells y (2 * k0) (2 * n)
  | 0, k0, st, st1, h => by
    rw [forRange_zero] at h
    simp only [Prod.mk.injEq, true_and] at h
    subst h
    simp only [rowCells, Nat.mul_zero, List.range'_zero, List.map_nil, List.append_nil]
  | n + 1, k0, st, st1, h => by
    rw [forRange_succ, M.bind_apply, pair_run] at h
    rcases hp : pairDiffs signExtended decodeLength st.bitStream with ⟨r, b2⟩
    rw [hp] at h
    cases r with
    | error e => cases h
    | ok d =>
      simp only [] at h
      rw [pairs_writes signExtended decodeLength y n (k0 + 1) _ st1 h]
      simp only [pairStored, List.append_assoc]
      rw [show 2 * (n + 1) = 1 + (1 + 2 * n) by omega, rowCells_append, rowCells_append,
        rowCells_one, rowCells_one, show 2 * k0 + 1 + 1 = 2 * (k0 + 1) by omega]

theorem row_writes (signExtended : Nat → Nat → Int) (decodeLength : M BitPumpMSB32 Nat)
    (pixelBaseOffset : Int) (w y : Nat) (st st1 : HasselbladState)
    (h : decodeScan.row signExtended decodeLength pixelBaseOffset w y st = (Except.ok (), st1)) :
    st1.writes = st.writes ++ rowCells y 0 (2 * ((w + 1) / 2)) := by
  unfold decodeScan.row at h
  rw [M.bind_apply] at h
  simp only [modifyState] at h
  rw [pairs_writes signExtended decodeLength y _ 0 _ st1 h]

theorem rows_writes (signExtended : Nat → Nat → Int) (decodeLength : M BitPumpMSB32 Nat)
    (pixelBaseOffset : Int) (w : Nat) : ∀ (h y0 : Nat) (st st1 : HasselbladState),
    forRange (decodeScan.row signExtended decodeLength pixelBaseOffset w) y0 h st =
      (Except.ok (), st1) →
    st1.writes = st.writes ++ rectCells (2 * ((w + 1) / 2)) y0 h
  | 0, y0, st, st1, h => by
    rw [forRange_zero] at h
    simp only [Prod.mk.injEq, true_and] at h
    subst h
    simp only [rectCells, List.append_nil]
  | h + 1, y0, st, st1, hr => by
    rw [forRange_succ, M.bind_apply] at hr
    rcases hp : decodeScan.row signExtended decodeLength pixelBaseOffset w y0 st with ⟨r, s1⟩
    rw [hp] at hr
    cases r with
    | error e => cases hr
    | ok u =>
      simp only [] at hr
      rw [rows_writes signExtended decodeLength pixelBaseOffset w h (y0 + 1) s1 st1 hr,
        row_writes signExtended decodeLength pixelBaseOffset w y0 st s1 hp, rectCells,
        List.append_assoc]

/-- C26: when the differences of all pixel pairs can be read from the stream,
`decodeScan` stores, row after row for the rows `0 .. h - 1`, to exactly the
columns `0 .. 2 * ceil(w / 2) - 1`, each once and in order.  In every row all
stores are to columns below the frame width `w` exactly when `w` is even; for
an odd `w` column `w` is stored to in every row. -/
theorem decodeScan_writes (signExtended : Nat → Nat → Int)
    (decodeLength : M BitPumpMSB32 Nat) (getBufferPosition : BitPumpMSB32 → Nat)
    (pixelBaseOffset : Int) (w h : Nat) (st : HasselbladState)
    (rows : List (List (Int × Int))) (b1 : BitPumpMSB32)
    (hs : scanDiffs signExtended decodeLength ((w + 1) / 2) h st.bitStream =
      (Except.ok rows, b1)) :
    (decodeScan signExtended decodeLength getBufferPosition pixelBaseOffset w h st).2.writes =
        st.writes ++ rectCells (2 * ((w + 1) / 2)) 0 h ∧
      (rectCells (2 * ((w + 1) / 2)) 0 h).Nodup ∧
      (∀ y x, (y, x) ∈ rectCells (2 * ((w + 1) / 2)) 0 h ↔ y < h ∧ x < 2 * ((w + 1) / 2)) ∧
      (∀ y, y < h →
        ((∀ x, (y, x) ∈ rectCells (2 * ((w + 1) / 2)) 0 h → x < w) ↔ w % 2 = 0)) ∧
      (w % 2 = 1 → ∀ y, y < h → (y, w) ∈ rectCells (2 * ((w + 1) / 2)) 0 h) := by
  obtain ⟨st1, e1, hb1, hi1, _, _⟩ :=
    rows_run signExtended decodeLength pixelBaseOffset w h 0 st rows b1 hs
  have hw := rows_writes signExtended decodeLength pixelBaseOffset w h 0 st st1 e1
  have hmem : ∀ y x, (y, x) ∈ rectCells (2 * ((w + 1) / 2)) 0 h ↔
      y < h ∧ x < 2 * ((w + 1) / 2) := by
    intro y x
    rw [mem_rectCells]
    simp only [Nat.zero_le, Nat.zero_add, true_and]
  refine ⟨?_, rectCells_nodup _ _ _, hmem, ?_, ?_⟩
  · unfold decodeScan
    rw [M.bind_apply, e1]
    exact hw
  · intro y hy
    constructor
    · intro hall
      by_contra hodd
      have := hall w ((hmem y w).mpr ⟨hy, by omega⟩)
      omega
    · intro hev x hx
      have := ((hmem y x).mp hx).2
      omega
  · intro hodd y hy
    exact (hmem y w).mpr ⟨hy, by omega⟩

/-- C26 on a frame 3 wide and 2 high: the columns 0 to 3 of both rows are
stored to. -/
theorem decodeScan_writes_witness :
    (decodeScan signExtendedJpeg sampleDecodeLength sampleBufferPosition 0 3 2
        sampleScanState).2.writes =
        sampleScanState.writes ++ rectCells (2 * ((3 + 1) / 2)) 0 2 ∧
      (rectCells (2 * ((3 + 1) / 2)) 0 2).Nodup ∧
      (∀ y x, (y, x) ∈ rectCells (2 * ((3 + 1) / 2)) 0 2 ↔ y < 2 ∧ x < 2 * ((3 + 1) / 2)) ∧
      (∀ y, y < 2 →
        ((∀ x, (y, x) ∈ rectCells (2 * ((3 + 1) / 2)) 0 2 → x < 3) ↔ 3 % 2 = 0)) ∧
      (3 % 2 = 1 → ∀ y, y < 2 → (y, 3) ∈ rectCells (2 * ((3 + 1) / 2)) 0 2) :=
  decodeScan_writes signExtendedJpeg sampleDecodeLength sampleBufferPosition 0 3 2
    sampleScanState [[(3, -5), (-1023, -3)], [(0, 0), (0, 0)]]
    (scanDiffs signExtendedJpeg sampleDecodeLength ((3 + 1) / 2) 2 sampleScanState.bitStream).2
    (by decide)

/-! ## Reachable states of the Panasonic bit reader -/

theorem sub17_lt (a b : Nat) : sub17 a b < 0x20000 := by
  unfold sub17
  split_ifs <;> exact Nat.mod_lt _ (by norm_num)

theorem index_lt_bufSize (v : Nat) (hv : v < 0x20000) : (v >>> 3) ^^^ 0x3ff0 < BufSize := by
  have h1 : v >>> 3 < 2 ^ 14 := by
    rw [Nat.shiftRight_eq_div_pow]
    norm_num
    omega
  exact Nat.xor_lt_two_pow h1 (by norm_num)

theorem getBits_inv (lf nbits : Nat) (p : PanaBitpump) (h : PanaBitpump.Inv lf p) :
    ∃ v p1, PanaBitpump.getBits nbits p = (Except.ok v, p1) ∧ PanaBitpump.Inv lf p1 ∧
      p1.vbits = sub17 p.vbits nbits ∧ v = PanaBitpump.field p1.buf p1.vbits nbits := by
  by_cases hv : p.vbits = 0
  · refine ⟨_, _, getBits_run_zero nbits p hv h.2.1, ⟨sub17_lt _ _, refilled_ok p h.2.1 _, h.2.2⟩,
      ?_, rfl⟩
    rw [hv]
  · exact ⟨_, _, getBits_run_ne nbits p hv, ⟨sub17_lt _ _, h.2.1, h.2.2⟩, rfl, rfl⟩

theorem loop8_inv (lf : Nat) : ∀ (n lo : Nat) (p : PanaBitpump), PanaBitpump.Inv lf p →
    ∃ p1, forRange (fun _ => do let _ ← PanaBitpump.getBits 8; pure ()) lo n p =
      (Except.ok (), p1) ∧ PanaBitpump.Inv lf p1
  | 0, lo, p, h => ⟨p, rfl, h⟩
  | n + 1, lo, p, h => by
    obtain ⟨v, p1, e1, h1, _, _⟩ := getBits_inv lf 8 p h
    obtain ⟨p2, e2, h2⟩ := loop8_inv lf n (lo + 1) p1 h1
    refine ⟨p2, ?_, h2⟩
    rw [forRange_succ, M.bind_apply, M.bind_apply, e1]
    simp only [M.pure_apply]
    exact e2

theorem skipBytes_inv (lf bytes : Nat) (p : PanaBitpump) (h : PanaBitpump.Inv lf p) :
    PanaBitpump.Inv lf (PanaBitpump.skipBytes bytes p).2 := by
  unfold PanaBitpump.skipBytes
  simp only [M.bind_apply, PanaBitpump.onInput, ByteStream.skipBytes]
  split_ifs with hgt
  · exact h
  · simp only []
    obtain ⟨p2, e2, h2⟩ := loop8_inv lf (bytes - mul32 (bytes / BufSize) BufSize)
      (mul32 (bytes / BufSize) BufSize)
      { p with input := { p.input with pos := p.input.pos + mul32 (bytes / BufSize) BufSize } }
      ⟨h.1, by
        unfold PanaBitpump.Ok
        simp only []
        omega, h.2.2⟩
    rw [e2]
    exact h2

theorem after_inv (lf : Nat) : ∀ (ops : List PanaBitpump.Op) (p : PanaBitpump),
    PanaBitpump.Inv lf p → PanaBitpump.Inv lf (PanaBitpump.after ops p)
  | [], p, h => h
  | PanaBitpump.Op.getBits n :: ops, p, h => by
    obtain ⟨v, p1, e1, h1, _, _⟩ := getBits_inv lf n p h
    have : (PanaBitpump.step (PanaBitpump.Op.getBits n) p).2 = p1 := by
      simp only [PanaBitpump.step, M.bind_apply, e1, M.pure_apply]
    unfold PanaBitpump.after
    rw [this]
    exact after_inv lf ops p1 h1
  | PanaBitpump.Op.skipBytes b :: ops, p, h => by
    unfold PanaBitpump.after
    exact after_inv lf ops _ (skipBytes_inv lf b p h)

theorem new_inv (input : ByteStream) (lf : Nat) (hpos : input.pos ≤ input.data.length) :
    PanaBitpump.Inv lf (PanaBitpump.new input lf) :=
  ⟨by simp only [PanaBitpump.new]; norm_num, hpos, rfl⟩

theorem refilled_high (p : PanaBitpump) (hlf : p.load_flags ≤ BufSize) (j : Nat)
    (hj : BufSize ≤ j) : (PanaBitpump.refilled p).buf j = p.buf j := by
  have hB : BufSize = 0x4000 := rfl
  rw [hB] at hlf hj
  have hs : sub32 BufSize p.load_flags = 0x4000 - p.load_flags := by
    unfold sub32
    rw [hB, if_pos hlf]
  simp only [PanaBitpump.refilled]
  rw [hs, if_neg (by omega), if_neg (by omega)]

/-- C23: a reader built over a stream whose cursor is inside its data, with
`load_flags ≤ 0x4000`, is after any sequence of `getBits` and `skipBytes`
calls in a state in which every `getBits(nbits)` returns, leaves a bit
position `vbits` below `0x20000` and reads the cache at
`(vbits >> 3) ^ 0x3ff0 ≤ 0x3fff` and at the index after it, both inside the
`0x4001` bytes; a refill does not throw, changes no cache byte from `0x4000`
on, copies to `[load_flags, 0x4000)` and `[0, load_flags)` only, and takes
`min(remaining, 0x4000)` bytes from the input. -/
theorem panaBitpump_in_bounds (input : ByteStream) (lf nbits : Nat)
    (ops : List PanaBitpump.Op) (hpos : input.pos ≤ input.data.length) (hlf : lf ≤ BufSize) :
    (∃ v, (PanaBitpump.getBits nbits (PanaBitpump.after ops (PanaBitpump.new input lf))).1 =
        Except.ok v) ∧
      (PanaBitpump.getBits nbits (PanaBitpump.after ops (PanaBitpump.new input lf))).2.vbits =
        sub17 (PanaBitpump.after ops (PanaBitpump.new input lf)).vbits nbits ∧
      (PanaBitpump.getBits nbits (PanaBitpump.after ops (PanaBitpump.new input lf))).2.vbits <
        0x20000 ∧
      ((PanaBitpump.getBits nbits
          (PanaBitpump.after ops (PanaBitpump.new input lf))).2.vbits >>> 3) ^^^ 0x3ff0 ≤
        0x3fff ∧
      (((PanaBitpump.getBits nbits
          (PanaBitpump.after ops (PanaBitpump.new input lf))).2.vbits >>> 3) ^^^ 0x3ff0) + 1 <
        BufSize + 1 ∧
      (PanaBitpump.refill (PanaBitpump.after ops (PanaBitpump.new input lf))).1 =
        Except.ok () ∧
      (∀ j, BufSize ≤ j →
        (PanaBitpump.refill (PanaBitpump.after ops (PanaBitpump.new input lf))).2.buf j =
          (PanaBitpump.after ops (PanaBitpump.new input lf)).buf j) ∧
      (PanaBitpump.after ops (PanaBitpump.new input lf)).load_flags +
          min ((PanaBitpump.after ops (PanaBitpump.new input lf)).input.data.length -
              (PanaBitpump.after ops (PanaBitpump.new input lf)).input.pos)
            (sub32 BufSize (PanaBitpump.after ops (PanaBitpump.new input lf)).load_flags) ≤
        BufSize ∧
      (PanaBitpump.refill (PanaBitpump.after ops (PanaBitpump.new input lf))).2.input.pos =
        (PanaBitpump.after ops (PanaBitpump.new input lf)).input.pos +
          min ((PanaBitpump.after ops (PanaBitpump.new input lf)).input.data.length -
            (PanaBitpump.after ops (PanaBitpump.new input lf)).input.pos) BufSize ∧
      (PanaBitpump.refill (PanaBitpump.after ops (PanaBitpump.new input lf))).2.input.pos ≤
        (PanaBitpump.after ops (PanaBitpump.new input lf)).input.data.length := by
  have hinv := after_inv lf ops _ (new_inv input lf hpos)
  generalize PanaBitpump.after ops (PanaBitpump.new input lf) = p at hinv ⊢
  obtain ⟨v, p1, e1, h1, hv1, _⟩ := getBits_inv lf nbits p hinv
  have hidx := index_lt_bufSize p1.vbits h1.1
  have hB : BufSize = 0x4000 := rfl
  have hlf1 : p.load_flags ≤ BufSize := by rw [hinv.2.2]; exact hlf
  have hs : sub32 BufSize p.load_flags = 0x4000 - p.load_flags := by
    unfold sub32
    rw [hB] at hlf1 ⊢
    rw [if_pos hlf1]
  have hok := hinv.2.1
  unfold PanaBitpump.Ok at hok
  rw [e1, refill_run p hinv.2.1]
  refine ⟨⟨v, rfl⟩, hv1, h1.1, ?_, ?_, rfl, fun j hj => refilled_high p hlf1 j hj, ?_, ?_, ?_⟩
  · show (p1.vbits >>> 3) ^^^ 0x3ff0 ≤ 0x3fff
    rw [hB] at hidx
    omega
  · show ((p1.vbits >>> 3) ^^^ 0x3ff0) + 1 < BufSize + 1
    omega
  · rw [hs]
    rw [hB] at hlf1 ⊢
    omega
  · simp only [PanaBitpump.refilled]
    rw [refillSize_eq p hlf1]
  · simp only [PanaBitpump.refilled]
    rw [refillSize_eq p hlf1]
    omega

/-- C23 on a reader over forty bytes with `load_flags = 0x2008`, after the
calls `sampleCalls`, for `getBits(13)`. -/
theorem panaBitpump_in_bounds_witness :
    (∃ v, (PanaBitpump.getBits 13
        (PanaBitpump.after sampleCalls (PanaBitpump.new samplePayload 0x2008))).1 =
        Except.ok v) ∧
      (PanaBitpump.getBits 13
          (PanaBitpump.after sampleCalls (PanaBitpump.new samplePayload 0x2008))).2.vbits =
        sub17 (PanaBitpump.after sampleCalls (PanaBitpump.new samplePayload 0x2008)).vbits 13 ∧
      (PanaBitpump.getBits 13
          (PanaBitpump.after sampleCalls (PanaBitpump.new samplePayload 0x2008))).2.vbits <
        0x20000 ∧
      ((PanaBitpump.getBits 13
          (PanaBitpump.after sampleCalls
            (PanaBitpump.new samplePayload 0x2008))).2.vbits >>> 3) ^^^ 0x3ff0 ≤
        0x3fff ∧
      (((PanaBitpump.getBits 13
          (PanaBitpump.after sampleCalls
            (PanaBitpump.new samplePayload 0x2008))).2.vbits >>> 3) ^^^ 0x3ff0) + 1 <
        BufSize + 1 ∧
      (PanaBitpump.refill
          (PanaBitpump.after sampleCalls (PanaBitpump.new samplePayload 0x2008))).1 =
        Except.ok () ∧
      (∀ j, BufSize ≤ j →
        (PanaBitpump.refill
            (PanaBitpump.after sampleCalls (PanaBitpump.new samplePayload 0x2008))).2.buf j =
          (PanaBitpump.after sampleCalls (PanaBitpump.new samplePayload 0x2008)).buf j) ∧
      (PanaBitpump.after sampleCalls (PanaBitpump.new samplePayload 0x2008)).load_flags +
          min ((PanaBitpump.after sampleCalls
                (PanaBitpump.new samplePayload 0x2008)).input.data.length -
              (PanaBitpump.after sampleCalls (PanaBitpump.new samplePayload 0x2008)).input.pos)
            (sub32 BufSize
              (PanaBitpump.after sampleCalls (PanaBitpump.new samplePayload 0x2008)).load_flags) ≤
        BufSize ∧
      (PanaBitpump.refill
          (PanaBitpump.after sampleCalls (PanaBitpump.new samplePayload 0x2008))).2.input.pos =
        (PanaBitpump.after sampleCalls (PanaBitpump.new samplePayload 0x2008)).input.pos +
          min ((PanaBitpump.after sampleCalls
              (PanaBitpump.new samplePayload 0x2008)).input.data.length -
            (PanaBitpump.after sampleCalls (PanaBitpump.new samplePayload 0x2008)).input.pos)
            BufSize ∧
      (PanaBitpump.refill
          (PanaBitpump.after sampleCalls (PanaBitpump.new samplePayload 0x2008))).2.input.pos ≤
        (PanaBitpump.after sampleCalls (PanaBitpump.new samplePayload 0x2008)).input.data.length :=
  panaBitpump_in_bounds samplePayload 0x2008 13 sampleCalls (by decide) (by decide)

/-! ## Ranges of rows and the range of the predictors -/

theorem run_in_bounds (input : ByteStream) (w start_y height : Nat) (hsy : start_y ≤ height)
    (hav : input.pos + BufSize * ((w * height + 1023) / 1024) ≤ input.data.length)
    (hskip : 128 * w * start_y < 2 ^ 31) :
    input.pos + decodeThreaded.skip w start_y / BufSize * BufSize ≤ input.data.length := by
  rw [skip_eq w start_y hskip]
  have hB : BufSize = 0x4000 := rfl
  rw [hB] at hav ⊢
  have h1 : w * start_y ≤ w * height := Nat.mul_le_mul_left w hsy
  rw [Nat.mul_assoc]
  generalize w * start_y = a at h1 ⊢
  generalize w * height = b at h1 hav
  omega

theorem run_writes (input : ByteStream) (lf dim_x : Nat) (zb : Bool)
    (start_y end_y : Nat) (plane : Nat → Nat → Nat) (bad : List Nat) (y x : Nat)
    (h : (y, x) ∈ (decodeThreaded input lf dim_x zb start_y end_y plane bad).2.writes) :
    start_y ≤ y ∧ y < end_y ∧ x < 14 * (dim_x / 14) := by
  rcases decodeThreaded_run input lf dim_x zb start_y end_y plane bad with
    ⟨_, st, e, hw, _⟩ | ⟨_, e⟩
  · rw [e] at h
    simp only [] at h
    rw [hw, mem_rectCells] at h
    simp only [] at h
    omega
  · rw [e] at h
    simp only [decodeThreaded.init, List.not_mem_nil] at h

/-- C24: when `load_flags ≤ 0x4000`, the input holds from the payload offset
on `ceil(16 * w * height / 0x4000)` whole cache loads of `0x4000` bytes for
`w = dim_x / 14`, and `128 * w * start_y < 2 ^ 31`, then the run of
`decodeThreaded` over `[0, height)` completes, the run over a range
`[start_y, end_y)` with `start_y ≤ end_y ≤ height` completes with the skip
`16 * w * start_y` and stores to the rows `start_y .. end_y - 1`, and every
sample that a run over a range ending at or before `height` stores is the
sample that the run over `[0, height)` stores there. -/
theorem decodeThreaded_range_rows (input : ByteStream) (lf dim_x : Nat) (zb zb1 : Bool)
    (start_y end_y height : Nat) (plane plane1 : Nat → Nat → Nat) (bad bad1 : List Nat)
    (hlf : lf ≤ BufSize) (hey : end_y ≤ height)
    (hav : input.pos + BufSize * ((dim_x / 14 * height + 1023) / 1024) ≤ input.data.length)
    (hskip : 128 * (dim_x / 14) * start_y < 2 ^ 31) :
    (decodeThreaded input lf dim_x zb1 0 height plane1 bad1).1 = Except.ok () ∧
      decodeThreaded.skip (dim_x / 14) start_y = 16 * (dim_x / 14) * start_y ∧
      (start_y ≤ end_y →
        (decodeThreaded input lf dim_x zb start_y end_y plane bad).1 = Except.ok () ∧
          ∀ y x, (y, x) ∈ (decodeThreaded input lf dim_x zb start_y end_y plane bad).2.writes ↔
            start_y ≤ y ∧ y < end_y ∧ x < 14 * (dim_x / 14)) ∧
      ∀ y x, (y, x) ∈ (decodeThreaded input lf dim_x zb start_y end_y plane bad).2.writes →
        (decodeThreaded input lf dim_x zb start_y end_y plane bad).2.plane y x =
          (decodeThreaded input lf dim_x zb1 0 height plane1 bad1).2.plane y x := by
  have hfull : (decodeThreaded input lf dim_x zb1 0 height plane1 bad1).1 = Except.ok () := by
    rcases decodeThreaded_run input lf dim_x zb1 0 height plane1 bad1 with
      ⟨_, st, e, _⟩ | ⟨hlt, _⟩
    · rw [e]
    · have := run_in_bounds input (dim_x / 14) 0 height (Nat.zero_le _) hav (by norm_num)
      omega
  refine ⟨hfull, skip_eq _ _ hskip, ?_, ?_⟩
  · intro hse
    rcases decodeThreaded_run input lf dim_x zb start_y end_y plane bad with
      ⟨_, st, e, hw, _⟩ | ⟨hlt, _⟩
    · rw [e]
      refine ⟨rfl, ?_⟩
      intro y x
      simp only []
      rw [hw, mem_rectCells]
      simp only []
      omega
    · have := run_in_bounds input (dim_x / 14) start_y height (by omega) hav hskip
      omega
  · intro y x hmem
    have hr := run_writes input lf dim_x zb start_y end_y plane bad y x hmem
    exact (rows_agree input lf dim_x zb zb1 start_y end_y height plane plane1 bad bad1 hlf
      (by omega) (by omega) hey hav hskip).2.2 y x hr.1 hr.2.1 hr.2.2

/-- C24 on one whole cache load of payload, a 14 pixel wide image of 2 rows
and the range `[1, 2)`. -/
theorem decodeThreaded_range_rows_witness :
    (decodeThreaded sampleFullPayload 0x2008 14 true 0 2 samplePlane []).1 = Except.ok () ∧
      decodeThreaded.skip (14 / 14) 1 = 16 * (14 / 14) * 1 ∧
      (1 ≤ 2 →
        (decodeThreaded sampleFullPayload 0x2008 14 true 1 2 sampleWhite []).1 = Except.ok () ∧
          ∀ y x, (y, x) ∈ (decodeThreaded sampleFullPayload 0x2008 14 true 1 2 sampleWhite
              []).2.writes ↔
            1 ≤ y ∧ y < 2 ∧ x < 14 * (14 / 14)) ∧
      ∀ y x, (y, x) ∈ (decodeThreaded sampleFullPayload 0x2008 14 true 1 2 sampleWhite
          []).2.writes →
        (decodeThreaded sampleFullPayload 0x2008 14 true 1 2 sampleWhite []).2.plane y x =
          (decodeThreaded sampleFullPayload 0x2008 14 true 0 2 samplePlane []).2.plane y x :=
  decodeThreaded_range_rows sampleFullPayload 0x2008 14 true true 1 2 2 sampleWhite samplePlane
    [] [] (by decide) (by decide)
    (by rw [sampleFullPayload_length]; decide) (by decide)

theorem sample_exact (p : Int) (h0 : 0 ≤ p) (h1 : p ≤ 7143) :
    (((p % 65536).toNat : Nat) : Int) = p := by
  omega

theorem pixel_stored (zb : Bool) (y x i c : Nat) (m : Int) (st : Rw2State) (hok : st.bits.Ok)
    (hsh : ShInv st) (hm : 0 ≤ m) (hm6 : m ≤ 6) (hl : LaneInv st c m) :
    ∃ st1, decodeThreaded.pixel zb y x i c st = (Except.ok (), st1) ∧ st1.bits.Ok ∧
      ShInv st1 ∧ LaneInv st1 c (m + 1) ∧ 0 ≤ st1.pred c ∧ st1.pred c ≤ 7143 ∧
      ((st1.plane y st.dest : Nat) : Int) = st1.pred c ∧
      (st1.plane y st.dest = 0 ↔ st1.pred c = 0) ∧
      st1.zero_pos = st.zero_pos ++
        (if zb = true ∧ st1.pred c = 0 then [(y <<< 16) % 2 ^ 32 ||| (x * 14 + i)] else []) := by
  obtain ⟨s1, e1, hok1, hsh1, ⟨hpl1, hw1, hz1, hd1, hb1⟩, hp1, hn1⟩ := shift_total st hok hsh
  have hl1 : LaneInv s1 c m := laneInv_congr st s1 c m (by rw [hp1]) (by rw [hn1]) hl
  obtain ⟨s2, e2, hok2, hsh2, _, ⟨hpl2, hw2, hz2, hd2, hb2⟩, hl2, hoth⟩ :=
    lane_total i c m s1 hok1 hsh1 hm hl1
  have hbnd := laneInv_bound s2 c m hm hl2
  have h7 : s2.pred c ≤ 7143 := by omega
  unfold decodeThreaded.pixel
  rw [M.bind_apply, e1]
  simp only []
  rw [M.bind_apply, e2]
  simp only [decodeThreaded.store, modifyState]
  refine ⟨_, rfl, hok2, ?_, laneInv_congr s2 _ c (m + 1) rfl rfl hl2, hbnd.1, h7, ?_, ?_, ?_⟩
  · unfold ShInv at hsh1 ⊢
    simp only []
    rw [hsh2]
    exact hsh1
  · simp only []
    rw [hd2, hd1, Function.update_same, Function.update_same]
    exact sample_exact _ hbnd.1 h7
  · simp only []
    rw [hd2, hd1, Function.update_same, Function.update_same]
    exact sample_zero_iff _ hbnd.1 h7
  · simp only []
    rw [hz2, hz1]
    split_ifs
    · rfl
    · rw [List.append_nil]

/-- C25: from a state of a group in which the shift is 0, 1, 2 or 4 and lane
`c` has read nothing non-zero yet or holds a predictor in
`0 .. 4095 + 508 * (m - 1)` after `m ≤ 6` of its pixels, the next pixel of the
lane completes and keeps these facts for `m + 1`; the predictor it stores is in
`0 .. 7143`, the 16-bit sample stored is the predictor itself, and the sample
is 0 exactly when the test `0 == pred[c]` records the position.  A group starts
in such a state, and for every input every sample that a run of
`decodeThreaded` stores is at most 7143, the zero samples being exactly the
recorded positions. -/
theorem decodeThreaded_pred_range (zb : Bool) (y x i c : Nat) (m : Int) (st : Rw2State)
    (input : ByteStream) (lf dim_x start_y end_y : Nat) (plane : Nat → Nat → Nat)
    (bad : List Nat) (hok : st.bits.Ok) (hsh : ShInv st) (hm : 0 ≤ m) (hm6 : m ≤ 6)
    (hl : LaneInv st c m) :
    (∃ st1, decodeThreaded.pixel zb y x i c st = (Except.ok (), st1) ∧ st1.bits.Ok ∧
      ShInv st1 ∧ LaneInv st1 c (m + 1) ∧ 0 ≤ st1.pred c ∧ st1.pred c ≤ 7143 ∧
      ((st1.plane y st.dest : Nat) : Int) = st1.pred c ∧
      (st1.plane y st.dest = 0 ↔ st1.pred c = 0) ∧
      st1.zero_pos = st.zero_pos ++
        (if zb = true ∧ st1.pred c = 0 then [(y <<< 16) % 2 ^ 32 ||| (x * 14 + i)] else [])) ∧
      (∃ st1, decodeThreaded.block zb y x { st with dest := x * 14 } = (Except.ok (), st1) ∧
        st1.bits.Ok ∧ ShInv st1 ∧
        ∀ cell ∈ rowCells y (x * 14) 14, st1.plane cell.1 cell.2 ≤ 7143) ∧
      ShInv (decodeThreaded.init input lf plane bad) ∧
      (∀ cell ∈ (decodeThreaded input lf dim_x zb start_y end_y plane bad).2.writes,
        (decodeThreaded input lf dim_x zb start_y end_y plane bad).2.plane cell.1 cell.2 ≤
          7143) ∧
      (decodeThreaded input lf dim_x true start_y end_y plane bad).2.mBadPixelPositions =
        bad ++ (((decodeThreaded input lf dim_x true start_y end_y plane bad).2.writes.filter
          (fun cell => decide ((decodeThreaded input lf dim_x true start_y end_y plane
            bad).2.plane cell.1 cell.2 = 0))).map zeroCode) := by
  refine ⟨pixel_stored zb y x i c m st hok hsh hm hm6 hl, ?_, Or.inl rfl, ?_, ?_⟩
  · obtain ⟨st1, e1, hok1, hsh1, _, hw⟩ :=
      block_total zb y x { st with dest := x * 14 } hok hsh rfl
    exact ⟨st1, e1, hok1, hsh1, hw.2.2.2.1⟩
  · rcases decodeThreaded_run input lf dim_x zb start_y end_y plane bad with
      ⟨_, s, e, hw, _, _, hb⟩ | ⟨_, e⟩
    · rw [e]
      simp only []
      rw [hw]
      exact hb
    · rw [e]
      simp only [decodeThreaded.init, List.not_mem_nil, false_implies, implies_true]
  · rcases decodeThreaded_run input lf dim_x true start_y end_y plane bad with
      ⟨_, s, e, hw, _, hz, _⟩ | ⟨_, e⟩
    · rw [e]
      simp only []
      rw [hw, hz, if_pos rfl]
    · rw [e]
      simp only [decodeThreaded.init, List.filter_nil, List.map_nil, List.append_nil]

/-- C25 at the first pixel of a group over forty bytes of payload. -/
theorem decodeThreaded_pred_range_witness :
    (∃ st1, decodeThreaded.pixel true 0 0 0 0 sampleGroupStart = (Except.ok (), st1) ∧
      st1.bits.Ok ∧ ShInv st1 ∧ LaneInv st1 0 (0 + 1) ∧ 0 ≤ st1.pred 0 ∧ st1.pred 0 ≤ 7143 ∧
      ((st1.plane 0 sampleGroupStart.dest : Nat) : Int) = st1.pred 0 ∧
      (st1.plane 0 sampleGroupStart.dest = 0 ↔ st1.pred 0 = 0) ∧
      st1.zero_pos = sampleGroupStart.zero_pos ++
        (if true = true ∧ st1.pred 0 = 0 then [(0 <<< 16) % 2 ^ 32 ||| (0 * 14 + 0)] else [])) ∧
      (∃ st1, decodeThreaded.block true 0 0 { sampleGroupStart with dest := 0 * 14 } =
          (Except.ok (), st1) ∧
        st1.bits.Ok ∧ ShInv st1 ∧
        ∀ cell ∈ rowCells 0 (0 * 14) 14, st1.plane cell.1 cell.2 ≤ 7143) ∧
      ShInv (decodeThreaded.init samplePayload 0 samplePlane []) ∧
      (∀ cell ∈ (decodeThreaded samplePayload 0 14 true 0 1 samplePlane []).2.writes,
        (decodeThreaded samplePayload 0 14 true 0 1 samplePlane []).2.plane cell.1 cell.2 ≤
          7143) ∧
      (decodeThreaded samplePayload 0 14 true 0 1 samplePlane []).2.mBadPixelPositions =
        [] ++ (((decodeThreaded samplePayload 0 14 true 0 1 samplePlane []).2.writes.filter
          (fun cell => decide ((decodeThreaded samplePayload 0 14 true 0 1 samplePlane
            []).2.plane cell.1 cell.2 = 0))).map zeroCode) :=
  decodeThreaded_pred_range true 0 0 0 0 0 sampleGroupStart samplePayload 0 14 0 1 samplePlane []
    (Nat.zero_le _) (Or.inl rfl) (by decide) (by decide) (Or.inl ⟨rfl, rfl⟩)

/-! ## The bits of one group of 14 pixels -/

theorem xor_1023 : ∀ q, q < 1024 → q ^^^ 1023 = 1023 - q := by decide

theorem xor_3ff0 (q r : Nat) (hq : q < 1024) (hr : r < 16) :
    (16 * q + r) ^^^ 0x3ff0 = 16 * (1023 - q) + r := by
  rw [← xor_1023 q hq, show (16 : Nat) = 2 ^ 4 by norm_num, Nat.mul_add_lt_is_or hr,
    Nat.mul_add_lt_is_or hr]
  apply Nat.eq_of_testBit_eq
  intro i
  rw [Nat.testBit_xor, Nat.testBit_or, Nat.testBit_or,
    show (0x3ff0 : Nat) = 2 ^ 4 * 1023 by norm_num,
    Nat.testBit_mul_pow_two, Nat.testBit_mul_pow_two, Nat.testBit_mul_pow_two, Nat.testBit_xor]
  by_cases h4 : i ≥ 4
  · have h16 : (2 : Nat) ^ 4 ≤ 2 ^ i := Nat.pow_le_pow_right (by norm_num) h4
    have : r.testBit i = false := Nat.testBit_lt_two_pow (Nat.lt_of_lt_of_le hr h16)
    simp only [h4, decide_True, Bool.true_and, this, Bool.or_false]
  · simp only [h4, decide_False, Bool.false_and, Bool.false_or, Bool.xor_false]

theorem low_bits (a h s n : Nat) (hs : s + n ≤ 8) :
    ((a ||| h <<< 8) >>> s) &&& ((1 <<< n) - 1) = (a >>> s) &&& ((1 <<< n) - 1) := by
  apply Nat.eq_of_testBit_eq
  intro i
  rw [Nat.testBit_and, Nat.testBit_and, Nat.one_shiftLeft, Nat.testBit_two_pow_sub_one,
    Nat.testBit_shiftRight, Nat.testBit_shiftRight, Nat.testBit_or, Nat.testBit_shiftLeft]
  by_cases hi : i < n
  · have : ¬ s + i ≥ 8 := by omega
    simp only [this, decide_False, Bool.false_and, Bool.or_false]
  · simp only [hi, decide_False, Bool.and_false]

theorem index_in_group (V v : Nat) (h1 : 128 ≤ V) (h2 : V ≤ 0x20000) (h3 : V % 128 = 0)
    (hv : V - 128 ≤ v) (hvV : v < V) :
    (v >>> 3) ^^^ 0x3ff0 = groupBase V + (v - (V - 128)) / 8 := by
  unfold groupBase
  rw [Nat.shiftRight_eq_div_pow, Nat.shiftRight_eq_div_pow]
  have e1 : v / 2 ^ 3 = 16 * ((V - 128) / 128) + (v - (V - 128)) / 8 := by
    norm_num
    omega
  have e2 : (V - 128) / 2 ^ 3 = 16 * ((V - 128) / 128) + 0 := by
    norm_num
    omega
  rw [e1, e2, xor_3ff0 _ _ (by omega) (by omega), xor_3ff0 _ _ (by omega) (by omega)]
  omega

theorem field_window (c c1 : Nat → Nat) (V v n : Nat) (h1 : 128 ≤ V) (h2 : V ≤ 0x20000)
    (h3 : V % 128 = 0) (hv : V - 128 ≤ v) (hvn : v + n ≤ V) (hn : 1 ≤ n)
    (hag : ∀ r, r < 16 → c (groupBase V + r) = c1 (groupBase V + r)) :
    PanaBitpump.field c v n = PanaBitpump.field c1 v n := by
  unfold PanaBitpump.field
  rw [index_in_group V v h1 h2 h3 hv (by omega)]
  by_cases hr : (v - (V - 128)) / 8 < 15
  · rw [Nat.add_assoc, hag _ (by omega), hag _ (by omega)]
  · have hs : v &&& 7 = v % 8 := Nat.and_pow_two_sub_one_eq_mod v 3
    rw [hs, low_bits _ _ _ _ (by omega), low_bits _ _ _ _ (by omega), hag _ (by omega)]

theorem getBits_cache (V k n : Nat) (p : PanaBitpump) (hok : p.Ok)
    (hv : p.vbits = (V - k) % 0x20000) (h1 : 128 ≤ V) (h2 : V ≤ 0x20000) (hn : 1 ≤ n)
    (hkn : k + n ≤ 128) :
    ∃ q, PanaBitpump.getBits n p =
        (Except.ok (PanaBitpump.field p.cache (V - k - n) n), q) ∧ q.Ok ∧
      q.vbits = (V - (k + n)) % 0x20000 ∧ (k + n < 128 → q.cache = p.cache) := by
  by_cases h0 : p.vbits = 0
  · have hVk : V - k = 0x20000 := by omega
    rw [getBits_run_zero n p h0 hok, sub17_zero_left n hn (by omega)]
    have hc : p.cache = (PanaBitpump.refilled p).buf := by
      unfold PanaBitpump.cache
      rw [if_pos h0]
    have e : (0x20000 - n) % 0x20000 = V - k - n := by omega
    rw [hc, e]
    refine ⟨_, rfl, refilled_ok p hok _, ?_, ?_⟩
    · show V - k - n = _
      omega
    · intro _
      unfold PanaBitpump.cache
      rw [if_neg (by show V - k - n ≠ 0; omega)]
  · have hVk : p.vbits = V - k := by omega
    rw [getBits_run_ne n p h0, sub17_eq _ _ (by omega) (by omega)]
    have hc : p.cache = p.buf := by
      unfold PanaBitpump.cache
      rw [if_neg h0]
    rw [hc, hVk]
    refine ⟨_, rfl, hok, ?_, ?_⟩
    · show V - k - n = _
      omega
    · intro hlt
      unfold PanaBitpump.cache
      rw [if_neg (by show V - k - n ≠ 0; omega)]

theorem getBits_win (V k n : Nat) (p p1 : PanaBitpump) (hw : Window V k p p1)
    (h1 : 128 ≤ V) (h2 : V ≤ 0x20000) (h3 : V % 128 = 0) (hn : 1 ≤ n) (hkn : k + n ≤ 128) :
    ∃ q q1, PanaBitpump.getBits n p =
        (Except.ok (PanaBitpump.field p.cache (V - k - n) n), q) ∧
      PanaBitpump.getBits n p1 = (Except.ok (PanaBitpump.field p.cache (V - k - n) n), q1) ∧
      Window V (k + n) q q1 := by
  obtain ⟨hok, hok1, hv, hv1, hag⟩ := hw
  obtain ⟨q, e, hq, hqv, hqc⟩ := getBits_cache V k n p hok hv h1 h2 hn hkn
  obtain ⟨q1, e1, hq1, hqv1, hqc1⟩ := getBits_cache V k n p1 hok1 hv1 h1 h2 hn hkn
  have hf := field_window p.cache p1.cache V (V - k - n) n h1 h2 h3 (by omega) (by omega) hn
    (hag (by omega))
  rw [← hf] at e1
  refine ⟨q, q1, e, e1, hq, hq1, hqv, hqv1, ?_⟩
  intro hlt r hr
  rw [hqc hlt, hqc1 hlt]
  exact hag (by omega) r hr

/-- The shift stage of two runs over the same 128 bits. -/
theorem shift_win (V k t : Nat) (st st1 : Rw2State) (h : Lockwin V k t st st1)
    (h1 : 128 ≤ V) (h2 : V ≤ 0x20000) (h3 : V % 128 = 0) (hk : k + 2 ≤ 128) :
    ∃ s s1, decodeThreaded.shift st = (Except.ok (), s) ∧
      decodeThreaded.shift st1 = (Except.ok (), s1) ∧
      Window V (k + if t % 3 = 2 then 2 else 0) s.bits s1.bits ∧
      SameImage st s ∧ SameImage st1 s1 ∧ s.pred = st.pred ∧ s1.pred = st.pred ∧
      s.nonz = st.nonz ∧ s1.nonz = st.nonz ∧ s.u = s1.u ∧
      s.u + 1 = (((t + 1) % 3 : Nat) : Int) ∧
      (s.sh = s1.sh ∨ (t = 0 ∧ st.nonz 0 = 0 ∧ st.nonz 1 = 0) ∨ (t = 1 ∧ st.nonz 1 = 0)) ∧
      (s.sh = 0 ∨ s.sh = 1 ∨ s.sh = 2 ∨ s.sh = 4 ∨ s.sh = st.sh) := by
  obtain ⟨hw, hp, hn, hu, hu1, hd, hsh⟩ := h
  unfold decodeThreaded.shift
  simp only [M.bind_apply, getState, M.ite_apply]
  by_cases ht2 : t % 3 = 2
  · have e : st.u = 2 := by rw [hu, ht2]; rfl
    have e1 : st1.u = 2 := by rw [hu1, ht2]; rfl
    obtain ⟨p, p1, hg, hg1, hwp⟩ := getBits_win V k 2 st.bits st1.bits hw h1 h2 h3 (by omega) hk
    rw [if_pos e, if_pos e1, if_pos ht2]
    simp only [M.bind_apply, onBits, hg, hg1, modifyState]
    refine ⟨_, _, rfl, rfl, hwp, ⟨rfl, rfl, rfl, rfl, rfl⟩, ⟨rfl, rfl, rfl, rfl, rfl⟩, rfl,
      hp.symm, rfl, hn.symm, rfl, ?_, Or.inl rfl, ?_⟩
    · simp only []
      omega
    · simp only []
      have hlt := field_lt st.bits.cache (V - k - 2) 2
      generalize PanaBitpump.field st.bits.cache (V - k - 2) 2 = g at hlt
      have : g < 4 := hlt
      interval_cases g <;> simp
  · have e : st.u ≠ 2 := by rw [hu]; omega
    have e1 : st1.u ≠ 2 := by rw [hu1]; omega
    rw [if_neg e, if_neg e1, if_neg ht2]
    refine ⟨st, st1, rfl, rfl, hw, ⟨rfl, rfl, rfl, rfl, rfl⟩, ⟨rfl, rfl, rfl, rfl, rfl⟩, rfl,
      hp.symm, rfl, hn.symm, by rw [hu, hu1], ?_, ?_, Or.inr (Or.inr (Or.inr (Or.inr rfl)))⟩
    · rw [hu]
      omega
    · rcases hsh with h | h | h | h
      · exact Or.inl h
      · exact Or.inr (Or.inl h)
      · exact Or.inr (Or.inr h)
      · subst h
        exact absurd rfl ht2

/-- The lane stage of two runs over the same 128 bits: both read the same
bits, 8 of them and 4 more at the one 4-bit read of the lane. -/
theorem lane_win (V k i c m : Nat) (st st1 : Rw2State) (hw : Window V k st.bits st1.bits)
    (hp : st.pred = st1.pred) (hn : st.nonz = st1.nonz)
    (hsh : st.nonz c ≠ 0 → st.sh = st1.sh) (hm : m ≤ 6) (hi : i = 2 * m + c) (hc : c ≤ 1)
    (h1 : 128 ≤ V) (h2 : V ≤ 0x20000) (h3 : V % 128 = 0)
    (hk : k + 8 + 4 * (1 - laneRead st c m) ≤ 128) :
    ∃ s s1 k2, decodeThreaded.lane i c st = (Except.ok (), s) ∧
      decodeThreaded.lane i c st1 = (Except.ok (), s1) ∧
      Window V k2 s.bits s1.bits ∧
      k2 + 4 * laneRead st c m = k + 8 + 4 * laneRead s c (m + 1) ∧
      s.pred = s1.pred ∧ s.nonz = s1.nonz ∧ (∀ c1, c1 ≠ c → s.nonz c1 = st.nonz c1) ∧
      SameImage st s ∧ SameImage st1 s1 ∧ s.sh = st.sh ∧ s1.sh = st1.sh ∧ s.u = st.u ∧
      s1.u = st1.u := by
  have hnc : st1.nonz c = st.nonz c := by rw [hn]
  unfold decodeThreaded.lane
  simp only [M.bind_apply, getState, M.ite_apply]
  by_cases hnz : st.nonz c ≠ 0
  · have hnz1 : st1.nonz c ≠ 0 := by rw [hnc]; exact hnz
    have hr : laneRead st c m = 1 := by unfold laneRead; rw [if_pos (Or.inl hnz)]
    obtain ⟨p, p1, hg, hg1, hwp⟩ :=
      getBits_win V k 8 st.bits st1.bits hw h1 h2 h3 (by omega) (by omega)
    rw [if_pos hnz, if_pos hnz1]
    simp only [M.bind_apply, onBits, hg, hg1, M.ite_apply]
    by_cases hj : PanaBitpump.field st.bits.cache (V - k - 8) 8 ≠ 0
    · rw [if_pos hj, if_pos hj]
      refine ⟨_, _, k + 8, rfl, rfl, hwp, ?_, ?_, hn, ?_,
        ⟨rfl, rfl, rfl, rfl, rfl⟩, ⟨rfl, rfl, rfl, rfl, rfl⟩, rfl, rfl, rfl, rfl⟩
      · unfold laneRead
        simp only [modifyState]
        rw [if_pos (Or.inl hnz), if_pos (Or.inl hnz)]
      · simp only [modifyState]
        rw [hp, hsh hnz]
      · intro c1 _
        rfl
    · rw [if_neg hj, if_neg hj]
      refine ⟨_, _, k + 8, rfl, rfl, hwp, ?_, hp, hn, fun _ _ => rfl,
        ⟨rfl, rfl, rfl, rfl, rfl⟩, ⟨rfl, rfl, rfl, rfl, rfl⟩, rfl, rfl, rfl, rfl⟩
      unfold laneRead
      simp only [M.pure_apply]
      rw [if_pos (Or.inl hnz), if_pos (Or.inl hnz)]
  · have hnz1 : ¬ st1.nonz c ≠ 0 := by rw [hnc]; exact hnz
    have hr : laneRead st c m = 0 := by
      unfold laneRead
      rw [if_neg (by
        rintro (h | h)
        · exact hnz h
        · omega)]
    rw [hr] at hk
    obtain ⟨p, p1, hg, hg1, hwp⟩ :=
      getBits_win V k 8 st.bits st1.bits hw h1 h2 h3 (by omega) (by omega)
    rw [if_neg hnz, if_neg hnz1]
    simp only [M.bind_apply, onBits, hg, hg1, M.ite_apply, modifyState]
    by_cases hcond : PanaBitpump.field st.bits.cache (V - k - 8) 8 ≠ 0 ∨ i > 11
    · rw [if_pos hcond, if_pos hcond]
      obtain ⟨q, q1, hq, hq1, hwq⟩ := getBits_win V (k + 8) 4 p p1 hwp h1 h2 h3 (by omega)
        (by omega)
      simp only [M.bind_apply, hq, hq1]
      refine ⟨_, _, k + 8 + 4, rfl, rfl, hwq, ?_, ?_, ?_, ?_,
        ⟨rfl, rfl, rfl, rfl, rfl⟩, ⟨rfl, rfl, rfl, rfl, rfl⟩, rfl, rfl, rfl, rfl⟩
      · rw [hr]
        unfold laneRead
        simp only [Function.update_same]
        rw [if_pos (by
          rcases hcond with h | h
          · exact Or.inl h
          · right; omega)]
      · simp only []
        rw [hp]
      · simp only []
        rw [hn]
      · intro c1 hc1
        simp only [Function.update_noteq hc1]
    · rw [if_neg hcond, if_neg hcond]
      refine ⟨_, _, k + 8, rfl, rfl, hwp, ?_, hp, ?_, ?_,
        ⟨rfl, rfl, rfl, rfl, rfl⟩, ⟨rfl, rfl, rfl, rfl, rfl⟩, rfl, rfl, rfl, rfl⟩
      · rw [hr]
        unfold laneRead
        simp only [M.pure_apply, Function.update_same]
        rw [if_neg (by
          rintro (h | h)
          · exact hcond (Or.inl h)
          · exact hcond (Or.inr (by omega)))]
      · simp only [M.pure_apply]
        rw [hn]
      · intro c1 hc1
        simp only [M.pure_apply, Function.update_noteq hc1]

/-- One pixel of two runs over the same 128 bits: both store the same sample
at the same place and use the same number of bits. -/
theorem pixel_win (V k : Nat) (zb zb1 : Bool) (y x i c m t : Nat)
    (st st1 : Rw2State) (h : Lockwin V k t st st1) (ht : t = 2 * m + c) (hi : i = t)
    (hm : m ≤ 6) (hc : c ≤ 1) (h1 : 128 ≤ V) (h2 : V ≤ 0x20000) (h3 : V % 128 = 0)
    (hk : k + (if t % 3 = 2 then 2 else 0) + 8 + 4 * (1 - laneRead st c m) ≤ 128) :
    ∃ s s1 k2 v, decodeThreaded.pixel zb y x i c st = (Except.ok (), s) ∧
      decodeThreaded.pixel zb1 y x i c st1 = (Except.ok (), s1) ∧
      Lockwin V k2 (t + 1) s s1 ∧
      k2 + 4 * laneRead st c m =
        k + (if t % 3 = 2 then 2 else 0) + 8 + 4 * laneRead s c (m + 1) ∧
      (∀ c1, c1 ≠ c → s.nonz c1 = st.nonz c1) ∧ s.dest = st.dest + 1 ∧
      s.plane = Function.update st.plane y (Function.update (st.plane y) st.dest v) ∧
      s1.plane = Function.update st1.plane y (Function.update (st1.plane y) st.dest v) := by
  have hh := h
  obtain ⟨_, hp0, hn0, hu0, hu10, hd0, hsh0⟩ := hh
  obtain ⟨a, a1, ea, ea1, hwa, ⟨hpl, hw, hz, hd, hb⟩, ⟨hpl1, hw1, hz1, hd1, hb1⟩, hpa, hpa1,
    hna, hna1, hua, hua1, hsha, _⟩ := shift_win V k t st st1 h h1 h2 h3 (by omega)
  have hlr : laneRead a c m = laneRead st c m := laneRead_congr st a c m hna
  obtain ⟨s, s1, k2, es, es1, hws, hk2, hps, hns, hoth, ⟨hpl2, hw2, hz2, hd2, hb2⟩,
    ⟨hpl3, hw3, hz3, hd3, hb3⟩, hshs, hshs1, hus, hus1⟩ :=
    lane_win V (k + if t % 3 = 2 then 2 else 0) i c m a a1 hwa
      (by rw [hpa, hpa1]) (by rw [hna, hna1])
      (by
        intro hnz
        rw [hna] at hnz
        rcases hsha with h | ⟨h0, h1, _⟩ | ⟨h0, h1⟩
        · exact h
        · have : c = 0 := by omega
          subst this
          exact absurd h1 hnz
        · have : c = 1 := by omega
          subst this
          exact absurd h1 hnz)
      hm (by omega) hc h1 h2 h3
      (by rw [hlr]; split_ifs at hk ⊢ <;> omega)
  rw [hlr] at hk2
  unfold decodeThreaded.pixel
  rw [M.bind_apply, M.bind_apply, ea, ea1]
  simp only []
  rw [M.bind_apply, M.bind_apply, es, es1]
  simp only [decodeThreaded.store, modifyState]
  refine ⟨_, _, k2, (s.pred c % 65536).toNat, rfl, rfl, ?_, hk2, ?_, ?_, ?_, ?_⟩
  · refine ⟨hws, hps, hns, ?_, ?_, ?_, ?_⟩
    · simp only []
      rw [hus, hua1]
    · simp only []
      rw [hus1, ← hua, hua1]
    · simp only []
      rw [hd2, hd, hd3, hd1, hd0]
    · simp only []
      rw [hshs, hshs1]
      rcases hsha with h | ⟨h0, _, h1⟩ | ⟨h0, _⟩
      · exact Or.inl h
      · right; right; left
        refine ⟨by omega, ?_⟩
        have : c = 0 := by omega
        subst this
        rw [hoth 1 (by decide), hna]
        exact h1
      · right; right; right
        omega
  · intro c1 hc1
    simp only []
    rw [hoth c1 hc1, hna]
  · simp only []
    rw [hd2, hd]
  · simp only []
    rw [hpl2, hpl, hd2, hd]
  · simp only []
    rw [hpl3, hpl1, hd3, hd1, ← hd0, hps]

/-- The rounds `m, ..., m + n - 1` of the loop over `i` of two runs over the
same 128 bits: when the rounds end, `16 * (m + n)` bits and the shift and lane
reads made so far have been used. -/
theorem group_win (V : Nat) (zb zb1 : Bool) (y x : Nat) (h1 : 128 ≤ V) (h2 : V ≤ 0x20000)
    (h3 : V % 128 = 0) :
    ∀ (n m k : Nat) (st st1 : Rw2State), m + n ≤ 7 → Lockwin V k (2 * m) st st1 →
    k = 16 * m + 2 * (2 * m / 3) + 4 * laneRead st 0 m + 4 * laneRead st 1 m →
    ∃ s s1, decodeThreaded.group zb y x n (2 * m) st = (Except.ok (), s) ∧
      decodeThreaded.group zb1 y x n (2 * m) st1 = (Except.ok (), s1) ∧
      Lockwin V (16 * (m + n) + 2 * (2 * (m + n) / 3) +
        4 * laneRead s 0 (m + n) + 4 * laneRead s 1 (m + n)) (2 * (m + n)) s s1 ∧
      s.dest = st.dest + 2 * n ∧ AgreeOn (rowCells y st.dest (2 * n)) st s st1 s1
  | 0, m, k, st, st1, _, h, hk => by
    subst hk
    exact ⟨st, st1, rfl, rfl, h, rfl, agree_refl st st1⟩
  | n + 1, m, k, st, st1, hmn, h, hk => by
    have l0 := laneRead_le st 0 m
    have l1 := laneRead_le st 1 m
    have e0 : (if 2 * m % 3 = 2 then 2 else 0) + 2 * (2 * m / 3) = 2 * ((2 * m + 1) / 3) := by
      split_ifs <;> omega
    have e1 : (if (2 * m + 1) % 3 = 2 then 2 else 0) + 2 * ((2 * m + 1) / 3) =
        2 * (2 * (m + 1) / 3) := by
      split_ifs <;> omega
    obtain ⟨a, a1, k2, v, ea, ea1, hla, hk2, hotha, hda, hpa, hpa1⟩ :=
      pixel_win V k zb zb1 y x (2 * m) 0 m (2 * m) st st1 h (by omega) rfl (by omega)
        (by omega) h1 h2 h3 (by omega)
    have la0 := laneRead_le a 0 (m + 1)
    have hla1 : laneRead a 1 m = laneRead st 1 m := laneRead_other st a 1 m (hotha 1 (by decide))
    obtain ⟨b, b1, k3, v1, eb, eb1, hlb, hk3, hothb, hdb, hpb, hpb1⟩ :=
      pixel_win V k2 zb zb1 y x (2 * m + 1) 1 m (2 * m + 1) a a1 hla (by omega) rfl
        (by omega) (by omega) h1 h2 h3 (by rw [hla1]; omega)
    have lb1 := laneRead_le b 1 (m + 1)
    have hlb0 : laneRead b 0 (m + 1) = laneRead a 0 (m + 1) :=
      laneRead_other a b 0 (m + 1) (hothb 0 (by decide))
    have hk3' : k3 = 16 * (m + 1) + 2 * (2 * (m + 1) / 3) + 4 * laneRead b 0 (m + 1) +
        4 * laneRead b 1 (m + 1) := by
      rw [hlb0]
      rw [hla1] at hk3
      omega
    obtain ⟨s, s1, es, es1, hls, hds, hags⟩ :=
      group_win V zb zb1 y x h1 h2 h3 n (m + 1) k3 b b1 (by omega)
        (by rw [show 2 * (m + 1) = 2 * m + 1 + 1 by omega]; exact hlb) hk3'
    unfold decodeThreaded.group
    rw [M.bind_apply, M.bind_apply, ea, ea1]
    simp only []
    rw [M.bind_apply, M.bind_apply, eb, eb1]
    simp only []
    rw [show 2 * m + 2 = 2 * (m + 1) by omega, es, es1]
    refine ⟨s, s1, rfl, rfl, ?_, by rw [hds, hdb, hda]; omega, ?_⟩
    · rw [show m + (n + 1) = m + 1 + n by omega]
      exact hls
    · rw [show 2 * (n + 1) = 1 + (1 + 2 * n) by omega, rowCells_append, rowCells_append,
        rowCells_one, rowCells_one]
      apply agree_trans _ _ st a s st1 a1 s1 (agree_single y st.dest v st a st1 a1 hpa hpa1)
      · apply agree_trans _ _ a b s a1 b1 s1
        · have := agree_single y a.dest v1 a b a1 b1 hpb hpb1
          rw [hda] at this
          exact this
        · rw [show st.dest + 1 + 1 = b.dest by rw [hdb, hda]]
          exact hags
        · intro c hc
          rw [List.mem_singleton] at hc
          subst hc
          rw [mem_rowCells]
          simp only []
          omega
      · intro c hc
        rw [List.mem_singleton] at hc
        subst hc
        rw [List.mem_append, mem_rowCells, List.mem_singleton]
        simp only [Prod.mk.injEq]
        omega

theorem top_bounds (p : PanaBitpump) (hv : p.vbits < 0x20000) (ha : p.vbits % 128 = 0) :
    128 ≤ p.top ∧ p.top ≤ 0x20000 ∧ p.top % 128 = 0 ∧ p.vbits = (p.top - 0) % 0x20000 ∧
      (p.top - 128) % 0x20000 = sub17 p.vbits 128 := by
  unfold PanaBitpump.top sub17
  split_ifs with h0 h128 h128
  · omega
  · omega
  · omega
  · omega

/-- One group of 14 pixels of two runs whose readers are at the same bit
position, a multiple of 128, with the same 16 cache bytes below it: both use
exactly the 128 bits and store the same 14 samples. -/
theorem block_win (zb zb1 : Bool) (y x : Nat) (st st1 : Rw2State) (hok : st.bits.Ok)
    (hok1 : st1.bits.Ok) (hv : st.bits.vbits < 0x20000) (ha : st.bits.vbits % 128 = 0)
    (hv1 : st1.bits.vbits = st.bits.vbits) (hd : st1.dest = st.dest)
    (hag : ∀ r, r < 16 → st.bits.cache (groupBase st.bits.top + r) =
      st1.bits.cache (groupBase st.bits.top + r)) :
    ∃ s s1, decodeThreaded.block zb y x st = (Except.ok (), s) ∧
      decodeThreaded.block zb1 y x st1 = (Except.ok (), s1) ∧
      s.bits.Ok ∧ s1.bits.Ok ∧
      s.bits.vbits = sub17 st.bits.vbits 128 ∧ s1.bits.vbits = sub17 st.bits.vbits 128 ∧
      s.dest = st.dest + 14 ∧ s1.dest = st.dest + 14 ∧
      AgreeOn (rowCells y st.dest 14) st s st1 s1 := by
  obtain ⟨t1, t2, t3, t4, t5⟩ := top_bounds st.bits hv ha
  have hstart : Lockwin st.bits.top 0 (2 * 0)
      { st with pred := fun _ => 0, nonz := fun _ => 0, u := 0 }
      { st1 with pred := fun _ => 0, nonz := fun _ => 0, u := 0 } :=
    ⟨⟨hok, hok1, t4, by rw [hv1]; exact t4, fun _ => hag⟩, rfl, rfl, rfl, rfl,
      by simp only []; rw [hd], Or.inr (Or.inl ⟨rfl, rfl, rfl⟩)⟩
  have hk0 : 0 = 16 * 0 + 2 * (2 * 0 / 3) +
      4 * laneRead { st with pred := fun _ => 0, nonz := fun _ => 0, u := 0 } 0 0 +
      4 * laneRead { st with pred := fun _ => 0, nonz := fun _ => 0, u := 0 } 1 0 := by
    rw [laneRead_start _ 0 rfl, laneRead_start _ 1 rfl]
  obtain ⟨s, s1, es, es1, hl, hds, hagr⟩ :=
    group_win st.bits.top zb zb1 y x t1 t2 t3 7 0 0 _ _ (by omega) hstart hk0
  obtain ⟨⟨hsok, hsok1, hsv, hsv1, _⟩, _, _, _, _, hdd, _⟩ := hl
  rw [laneRead_seven, laneRead_seven] at hsv hsv1
  have e : 16 * (0 + 7) + 2 * (2 * (0 + 7) / 3) + 4 * 1 + 4 * 1 = 128 := by omega
  rw [e, t5] at hsv hsv1
  unfold decodeThreaded.block
  rw [M.bind_apply, M.bind_apply]
  simp only [modifyState]
  rw [show (0 : Nat) = 2 * 0 from rfl, es, es1]
  simp only [] at hds
  exact ⟨s, s1, rfl, rfl, hsok, hsok1, hsv, hsv1, by rw [hds], by rw [← hdd, hds], hagr⟩

theorem sub17_sub17 (a b c : Nat) (ha : a < 0x20000) :
    sub17 (sub17 a b) c = sub17 a (b + c) := by
  unfold sub17
  split_ifs <;> omega

theorem sub17_zero_right (a : Nat) (ha : a < 0x20000) : sub17 a 0 = a := by
  unfold sub17
  rw [if_pos (Nat.zero_le _)]
  omega

theorem getBits_count (v0 k n : Nat) (p : PanaBitpump) (hok : p.Ok) (hv0 : v0 < 0x20000)
    (hv : p.vbits = sub17 v0 k) :
    ∃ v q, PanaBitpump.getBits n p = (Except.ok v, q) ∧ q.Ok ∧ q.vbits = sub17 v0 (k + n) := by
  by_cases h0 : p.vbits = 0
  · refine ⟨_, _, getBits_run_zero n p h0 hok, refilled_ok p hok _, ?_⟩
    show sub17 0 n = _
    rw [← h0, hv, sub17_sub17 _ _ _ hv0]
  · refine ⟨_, _, getBits_run_ne n p h0, hok, ?_⟩
    show sub17 p.vbits n = _
    rw [hv, sub17_sub17 _ _ _ hv0]

theorem shift_count (v0 k t : Nat) (st : Rw2State) (hok : st.bits.Ok) (hv0 : v0 < 0x20000)
    (hv : st.bits.vbits = sub17 v0 k) (hu : st.u = ((t % 3 : Nat) : Int)) :
    ∃ s, decodeThreaded.shift st = (Except.ok (), s) ∧ s.bits.Ok ∧
      s.bits.vbits = sub17 v0 (k + if t % 3 = 2 then 2 else 0) ∧ s.nonz = st.nonz ∧
      s.u + 1 = (((t + 1) % 3 : Nat) : Int) := by
  unfold decodeThreaded.shift
  simp only [M.bind_apply, getState, M.ite_apply]
  by_cases ht2 : t % 3 = 2
  · have e : st.u = 2 := by rw [hu, ht2]; rfl
    obtain ⟨g, q, hg, hq, hqv⟩ := getBits_count v0 k 2 st.bits hok hv0 hv
    rw [if_pos e, if_pos ht2]
    simp only [M.bind_apply, onBits, hg, modifyState]
    refine ⟨_, rfl, hq, hqv, rfl, ?_⟩
    simp only []
    omega
  · have e : st.u ≠ 2 := by rw [hu]; omega
    rw [if_neg e, if_neg ht2]
    refine ⟨st, rfl, hok, by rw [Nat.add_zero]; exact hv, rfl, ?_⟩
    rw [hu]
    omega

theorem lane_count (v0 k i c m : Nat) (st : Rw2State) (hok : st.bits.Ok) (hv0 : v0 < 0x20000)
    (hv : st.bits.vbits = sub17 v0 k) (hm : m ≤ 6) (hi : i = 2 * m + c) (hc : c ≤ 1) :
    ∃ s k2, decodeThreaded.lane i c st = (Except.ok (), s) ∧ s.bits.Ok ∧
      s.bits.vbits = sub17 v0 k2 ∧
      k2 + 4 * laneRead st c m = k + 8 + 4 * laneRead s c (m + 1) ∧
      (∀ c1, c1 ≠ c → s.nonz c1 = st.nonz c1) ∧ s.u = st.u := by
  unfold decodeThreaded.lane
  simp only [M.bind_apply, getState, M.ite_apply]
  by_cases hnz : st.nonz c ≠ 0
  · have hr : laneRead st c m = 1 := by unfold laneRead; rw [if_pos (Or.inl hnz)]
    obtain ⟨j, p, hg, hp, hpv⟩ := getBits_count v0 k 8 st.bits hok hv0 hv
    rw [if_pos hnz]
    simp only [M.bind_apply, onBits, hg, M.ite_apply]
    by_cases hj : j ≠ 0
    · rw [if_pos hj]
      refine ⟨_, k + 8, rfl, hp, hpv, ?_, fun _ _ => rfl, rfl⟩
      unfold laneRead
      simp only [modifyState]
      rw [if_pos (Or.inl hnz), if_pos (Or.inl hnz)]
    · rw [if_neg hj]
      refine ⟨_, k + 8, rfl, hp, hpv, ?_, fun _ _ => rfl, rfl⟩
      unfold laneRead
      simp only [M.pure_apply]
      rw [if_pos (Or.inl hnz), if_pos (Or.inl hnz)]
  · have hr : laneRead st c m = 0 := by
      unfold laneRead
      rw [if_neg (by
        rintro (h | h)
        · exact hnz h
        · omega)]
    obtain ⟨nz, p, hg, hp, hpv⟩ := getBits_count v0 k 8 st.bits hok hv0 hv
    rw [if_neg hnz]
    simp only [M.bind_apply, onBits, hg, M.ite_apply, modifyState]
    by_cases hcond : nz ≠ 0 ∨ i > 11
    · rw [if_pos hcond]
      obtain ⟨g, q, hq, hqok, hqv⟩ := getBits_count v0 (k + 8) 4 p hp hv0 hpv
      simp only [M.bind_apply, hq]
      refine ⟨_, k + 8 + 4, rfl, hqok, hqv, ?_, ?_, rfl⟩
      · rw [hr]
        unfold laneRead
        simp only [Function.update_same]
        rw [if_pos (by
          rcases hcond with h | h
          · exact Or.inl h
          · right; omega)]
      · intro c1 hc1
        simp only [Function.update_noteq hc1]
    · rw [if_neg hcond]
      refine ⟨_, k + 8, rfl, hp, hpv, ?_, ?_, rfl⟩
      · rw [hr]
        unfold laneRead
        simp only [M.pure_apply, Function.update_same]
        rw [if_neg (by
          rintro (h | h)
          · exact hcond (Or.inl h)
          · exact hcond (Or.inr (by omega)))]
      · intro c1 hc1
        simp only [M.pure_apply, Function.update_noteq hc1]

theorem pixel_count (v0 k : Nat) (zb : Bool) (y x i c m t : Nat) (st : Rw2State)
    (hok : st.bits.Ok) (hv0 : v0 < 0x20000) (hv : st.bits.vbits = sub17 v0 k)
    (hu : st.u = ((t % 3 : Nat) : Int)) (ht : t = 2 * m + c) (hi : i = t) (hm : m ≤ 6)
    (hc : c ≤ 1) :
    ∃ s k2, decodeThreaded.pixel zb y x i c st = (Except.ok (), s) ∧ s.bits.Ok ∧
      s.bits.vbits = sub17 v0 k2 ∧
      k2 + 4 * laneRead st c m =
        k + (if t % 3 = 2 then 2 else 0) + 8 + 4 * laneRead s c (m + 1) ∧
      (∀ c1, c1 ≠ c → s.nonz c1 = st.nonz c1) ∧ s.u = (((t + 1) % 3 : Nat) : Int) := by
  obtain ⟨a, ea, hoka, hva, hna, hua⟩ := shift_count v0 k t st hok hv0 hv hu
  have hlr : laneRead a c m = laneRead st c m := laneRead_congr st a c m hna
  obtain ⟨s, k2, es, hoks, hvs, hk2, hoth, hus⟩ :=
    lane_count v0 (k + if t % 3 = 2 then 2 else 0) i c m a hoka hv0 hva hm (by omega) hc
  rw [hlr] at hk2
  unfold decodeThreaded.pixel
  rw [M.bind_apply, ea]
  simp only []
  rw [M.bind_apply, es]
  simp only [decodeThreaded.store, modifyState]
  refine ⟨_, k2, rfl, hoks, hvs, hk2, ?_, ?_⟩
  · intro c1 hc1
    simp only []
    rw [hoth c1 hc1, hna]
  · simp only []
    rw [hus]
    exact hua

theorem group_count (v0 : Nat) (zb : Bool) (y x : Nat) (hv0 : v0 < 0x20000) :
    ∀ (n m k : Nat) (st : Rw2State), m + n ≤ 7 → st.bits.Ok → st.bits.vbits = sub17 v0 k →
    st.u = (((2 * m) % 3 : Nat) : Int) →
    k = 16 * m + 2 * (2 * m / 3) + 4 * laneRead st 0 m + 4 * laneRead st 1 m →
    ∃ s, decodeThreaded.group zb y x n (2 * m) st = (Except.ok (), s) ∧ s.bits.Ok ∧
      s.bits.vbits = sub17 v0 (16 * (m + n) + 2 * (2 * (m + n) / 3) +
        4 * laneRead s 0 (m + n) + 4 * laneRead s 1 (m + n))
  | 0, m, k, st, _, hok, hv, _, hk => by
    subst hk
    exact ⟨st, rfl, hok, hv⟩
  | n + 1, m, k, st, hmn, hok, hv, hu, hk => by
    have l0 := laneRead_le st 0 m
    have l1 := laneRead_le st 1 m
    have e0 : (if 2 * m % 3 = 2 then 2 else 0) + 2 * (2 * m / 3) = 2 * ((2 * m + 1) / 3) := by
      split_ifs <;> omega
    have e1 : (if (2 * m + 1) % 3 = 2 then 2 else 0) + 2 * ((2 * m + 1) / 3) =
        2 * (2 * (m + 1) / 3) := by
      split_ifs <;> omega
    obtain ⟨a, k2, ea, hoka, hva, hk2, hotha, hua⟩ :=
      pixel_count v0 k zb y x (2 * m) 0 m (2 * m) st hok hv0 hv hu (by omega) rfl (by omega)
        (by omega)
    have la0 := laneRead_le a 0 (m + 1)
    have hla1 : laneRead a 1 m = laneRead st 1 m := laneRead_other st a 1 m (hotha 1 (by decide))
    obtain ⟨b, k3, eb, hokb, hvb, hk3, hothb, hub⟩ :=
      pixel_count v0 k2 zb y x (2 * m + 1) 1 m (2 * m + 1) a hoka hv0 hva hua (by omega) rfl
        (by omega) (by omega)
    have lb1 := laneRead_le b 1 (m + 1)
    have hlb0 : laneRead b 0 (m + 1) = laneRead a 0 (m + 1) :=
      laneRead_other a b 0 (m + 1) (hothb 0 (by decide))
    have hk3' : k3 = 16 * (m + 1) + 2 * (2 * (m + 1) / 3) + 4 * laneRead b 0 (m + 1) +
        4 * laneRead b 1 (m + 1) := by
      rw [hlb0]
      rw [hla1] at hk3
      omega
    obtain ⟨s, es, hoks, hvs⟩ :=
      group_count v0 zb y x hv0 n (m + 1) k3 b (by omega) hokb hvb
        (by rw [show 2 * (m + 1) = 2 * m + 1 + 1 by omega]; exact hub) hk3'
    unfold decodeThreaded.group
    rw [M.bind_apply, ea]
    simp only []
    rw [M.bind_apply, eb]
    simp only []
    rw [show 2 * m + 2 = 2 * (m + 1) by omega, es]
    refine ⟨s, rfl, hoks, ?_⟩
    rw [show m + (n + 1) = m + 1 + n by omega]
    exact hvs

/-- From any state of a run one group of 14 pixels completes and moves the bit
position down by exactly 128, modulo `0x20000`. -/
theorem block_count (zb : Bool) (y x : Nat) (st : Rw2State) (hok : st.bits.Ok)
    (hv : st.bits.vbits < 0x20000) :
    ∃ s, decodeThreaded.block zb y x st = (Except.ok (), s) ∧ s.bits.Ok ∧
      s.bits.vbits < 0x20000 ∧ s.bits.vbits = sub17 st.bits.vbits 128 := by
  obtain ⟨s, es, hoks, hvs⟩ :=
    group_count st.bits.vbits zb y x hv 7 0 0
      { st with pred := fun _ => 0, nonz := fun _ => 0, u := 0 } (by omega) hok
      (by simp only []; rw [sub17_zero_right _ hv]) rfl
      (by rw [laneRead_start _ 0 rfl, laneRead_start _ 1 rfl])
  rw [laneRead_seven, laneRead_seven] at hvs
  unfold decodeThreaded.block
  rw [M.bind_apply]
  simp only [modifyState]
  rw [show (0 : Nat) = 2 * 0 from rfl, es]
  refine ⟨s, rfl, hoks, ?_, hvs⟩
  rw [hvs]
  exact sub17_lt _ _

theorem blocks_count (zb : Bool) (y : Nat) : ∀ (n lo : Nat) (st : Rw2State), st.bits.Ok →
    st.bits.vbits < 0x20000 →
    ∃ s, forRange (decodeThreaded.block zb y) lo n st = (Except.ok (), s) ∧ s.bits.Ok ∧
      s.bits.vbits < 0x20000 ∧ s.bits.vbits = sub17 st.bits.vbits (128 * n)
  | 0, lo, st, hok, hv => ⟨st, rfl, hok, hv, by rw [Nat.mul_zero, sub17_zero_right _ hv]⟩
  | n + 1, lo, st, hok, hv => by
    obtain ⟨a, ea, hoka, hva, hea⟩ := block_count zb y lo st hok hv
    obtain ⟨s, es, hoks, hvs, hes⟩ := blocks_count zb y n (lo + 1) a hoka hva
    rw [forRange_succ, M.bind_apply, ea]
    simp only []
    rw [es]
    refine ⟨s, rfl, hoks, hvs, ?_⟩
    rw [hes, hea, sub17_sub17 _ _ _ hv]
    congr 1
    omega

theorem rows_count (zb : Bool) (w : Nat) : ∀ (n start_y : Nat) (st : Rw2State), st.bits.Ok →
    st.bits.vbits < 0x20000 →
    ∃ s, forRange (decodeThreaded.row zb w) start_y n st = (Except.ok (), s) ∧ s.bits.Ok ∧
      s.bits.vbits < 0x20000 ∧ s.bits.vbits = sub17 st.bits.vbits (128 * (w * n))
  | 0, start_y, st, hok, hv =>
    ⟨st, rfl, hok, hv, by rw [Nat.mul_zero, Nat.mul_zero, sub17_zero_right _ hv]⟩
  | n + 1, start_y, st, hok, hv => by
    obtain ⟨a, ea, hoka, hva, hea⟩ :=
      blocks_count zb start_y w 0 { st with dest := 0 } hok hv
    obtain ⟨s, es, hoks, hvs, hes⟩ := rows_count zb w n (start_y + 1) a hoka hva
    rw [forRange_succ, M.bind_apply]
    unfold decodeThreaded.row
    rw [M.bind_apply]
    simp only [modifyState]
    rw [ea]
    simp only []
    have es' : forRange (fun y => (modifyState (fun s => { s with dest := 0 }) >>= fun _ =>
        forRange (decodeThreaded.block zb y) 0 w)) (start_y + 1) n a = (Except.ok (), s) := es
    rw [es']
    refine ⟨s, rfl, hoks, hvs, ?_⟩
    rw [hes, hea, sub17_sub17 _ _ _ hv]
    congr 1
    rw [Nat.mul_add, Nat.mul_add, Nat.mul_one]
    omega

/-- C22: from every state of a run, one group of 14 pixels completes and moves
the bit position down by exactly 128 (modulo `0x20000`), whatever the bits
are: after `r ≤ 7` rounds the bits used are 8 for each of the `2 * r` pixels,
2 for each third pixel and 4 for each lane that has made its one 4-bit read,
which both lanes have after the seventh round.  Two runs whose readers are at
the same bit position, a multiple of 128, with the same 16 cache bytes below
it store the same 14 samples, whatever their shifts, predictors and images
were.  Hence `n` rows of `w` groups move the bit position down by
`128 * w * n`, that is `16 * w` bytes a row, and the skip that positions a
reader at row `start_y` is `16 * w * start_y` bytes. -/
theorem decodeThreaded_group_bits (zb zb1 : Bool) (y x w start_y n : Nat) (st st1 : Rw2State)
    (hok : st.bits.Ok) (hok1 : st1.bits.Ok) (hv : st.bits.vbits < 0x20000) :
    (∃ s, decodeThreaded.block zb y x st = (Except.ok (), s) ∧ s.bits.Ok ∧
      s.bits.vbits = sub17 st.bits.vbits 128) ∧
      (∀ r, r ≤ 7 → ∃ s, decodeThreaded.group zb y x r 0
          { st with pred := fun _ => 0, nonz := fun _ => 0, u := 0 } = (Except.ok (), s) ∧
        s.bits.vbits = sub17 st.bits.vbits (16 * r + 2 * (2 * r / 3) + 4 * laneRead s 0 r +
          4 * laneRead s 1 r) ∧
        laneRead s 0 r ≤ 1 ∧ laneRead s 1 r ≤ 1 ∧
        (r = 7 → laneRead s 0 r = 1 ∧ laneRead s 1 r = 1 ∧
          16 * r + 2 * (2 * r / 3) + 4 * laneRead s 0 r + 4 * laneRead s 1 r = 128)) ∧
      (st.bits.vbits % 128 = 0 → st1.bits.vbits = st.bits.vbits → st1.dest = st.dest →
        (∀ r, r < 16 → st.bits.cache (groupBase st.bits.top + r) =
          st1.bits.cache (groupBase st.bits.top + r)) →
        ∃ s s1, decodeThreaded.block zb y x st = (Except.ok (), s) ∧
          decodeThreaded.block zb1 y x st1 = (Except.ok (), s1) ∧
          s1.bits.vbits = s.bits.vbits ∧
          ∀ i, i < 14 → s.plane y (st.dest + i) = s1.plane y (st.dest + i)) ∧
      (∃ s, forRange (decodeThreaded.row zb w) start_y n st = (Except.ok (), s) ∧
        s.bits.vbits = sub17 st.bits.vbits (128 * (w * n))) ∧
      (128 * w * start_y < 2 ^ 31 →
        decodeThreaded.skip w start_y = 16 * w * start_y ∧
          8 * decodeThreaded.skip w start_y = 128 * (w * start_y)) := by
  refine ⟨?_, ?_, ?_, ?_, ?_⟩
  · obtain ⟨s, es, hoks, _, hvs⟩ := block_count zb y x st hok hv
    exact ⟨s, es, hoks, hvs⟩
  · intro r hr
    obtain ⟨s, es, _, hvs⟩ :=
      group_count st.bits.vbits zb y x hv r 0 0
        { st with pred := fun _ => 0, nonz := fun _ => 0, u := 0 } (by omega) hok
        (by simp only []; rw [sub17_zero_right _ hv]) rfl
        (by rw [laneRead_start _ 0 rfl, laneRead_start _ 1 rfl])
    rw [Nat.zero_add] at hvs
    rw [show (0 : Nat) = 2 * 0 from rfl, es]
    refine ⟨s, rfl, hvs, laneRead_le _ _ _, laneRead_le _ _ _, ?_⟩
    intro h7
    subst h7
    rw [laneRead_seven, laneRead_seven]
    exact ⟨rfl, rfl, rfl⟩
  · intro ha hv1 hd hag
    obtain ⟨s, s1, es, es1, _, _, hvs, hvs1, _, _, hagr⟩ :=
      block_win zb zb1 y x st st1 hok hok1 hv ha hv1 hd hag
    refine ⟨s, s1, es, es1, by rw [hvs, hvs1], ?_⟩
    intro i hi
    exact hagr.1 (y, st.dest + i)
      ((mem_rowCells y st.dest 14 (y, st.dest + i)).mpr
        ⟨rfl, Nat.le_add_right _ _, Nat.add_lt_add_left hi _⟩)
  · obtain ⟨s, es, _, _, hvs⟩ := rows_count zb w n start_y st hok hv
    exact ⟨s, es, hvs⟩
  · intro hskip
    rw [skip_eq w start_y hskip]
    refine ⟨rfl, ?_⟩
    rw [Nat.mul_assoc, ← Nat.mul_assoc]

/-- C22 for two fresh states over forty bytes of payload that differ in the
image. -/
theorem decodeThreaded_group_bits_witness :
    (∃ s, decodeThreaded.block true 0 0 sampleGroupStart = (Except.ok (), s) ∧ s.bits.Ok ∧
      s.bits.vbits = sub17 sampleGroupStart.bits.vbits 128) ∧
      (∀ r, r ≤ 7 → ∃ s, decodeThreaded.group true 0 0 r 0
          { sampleGroupStart with pred := fun _ => 0, nonz := fun _ => 0, u := 0 } =
          (Except.ok (), s) ∧
        s.bits.vbits = sub17 sampleGroupStart.bits.vbits (16 * r + 2 * (2 * r / 3) +
          4 * laneRead s 0 r + 4 * laneRead s 1 r) ∧
        laneRead s 0 r ≤ 1 ∧ laneRead s 1 r ≤ 1 ∧
        (r = 7 → laneRead s 0 r = 1 ∧ laneRead s 1 r = 1 ∧
          16 * r + 2 * (2 * r / 3) + 4 * laneRead s 0 r + 4 * laneRead s 1 r = 128)) ∧
      (sampleGroupStart.bits.vbits % 128 = 0 →
        (decodeThreaded.init samplePayload 0 sampleWhite []).bits.vbits =
          sampleGroupStart.bits.vbits →
        (decodeThreaded.init samplePayload 0 sampleWhite []).dest = sampleGroupStart.dest →
        (∀ r, r < 16 → sampleGroupStart.bits.cache (groupBase sampleGroupStart.bits.top + r) =
          (decodeThreaded.init samplePayload 0 sampleWhite []).bits.cache
            (groupBase sampleGroupStart.bits.top + r)) →
        ∃ s s1, decodeThreaded.block true 0 0 sampleGroupStart = (Except.ok (), s) ∧
          decodeThreaded.block false 0 0 (decodeThreaded.init samplePayload 0 sampleWhite []) =
            (Except.ok (), s1) ∧
          s1.bits.vbits = s.bits.vbits ∧
          ∀ i, i < 14 → s.plane 0 (sampleGroupStart.dest + i) =
            s1.plane 0 (sampleGroupStart.dest + i)) ∧
      (∃ s, forRange (decodeThreaded.row true 1) 0 2 sampleGroupStart = (Except.ok (), s) ∧
        s.bits.vbits = sub17 sampleGroupStart.bits.vbits (128 * (1 * 2))) ∧
      (128 * 1 * 0 < 2 ^ 31 →
        decodeThreaded.skip 1 0 = 16 * 1 * 0 ∧ 8 * decodeThreaded.skip 1 0 = 128 * (1 * 0)) :=
  decodeThreaded_group_bits true false 0 0 1 0 2 sampleGroupStart
    (decodeThreaded.init samplePayload 0 sampleWhite []) (Nat.zero_le _) (Nat.zero_le _)
    (by decide)

end rawspeed
